import Mathlib

/-!
Reactive property bindings of ks_shared (`ks/shared/KsDynamicProperty.hpp`).

A shallow embedding of `ks::DynamicPropertyBase` / `ks::DynamicProperty<T>`.

* Properties live in a heap addressed by natural numbers (the object identity that the
  C++ code handles as `DynamicPropertyBase*`).
* A binding `std::function<T()>` is a program whose only interaction with the property
  system is calling `Get()` on properties.
* Notifier calls and `evaluate()` calls are recorded in an event trace, so that
  "evaluated exactly once" and "notified exactly once" can be stated.
* The header declares, but does not define, the members of `DynamicPropertyBase`
  (`captureAsInput`, `evaluateOutputs`, `clearInputs`, `clearOutputs`, `setCurrent`,
  `registerInput`, `RemoveProperty`, `TopologicalSort`); those are modelled from the
  specification and marked as such.
-/

namespace ks

/-! ## Depth-first topological sort (three-state marking) -/

/-- Traversal state: the per-vertex marker (`0` unvisited, `1` visited, `2` finished)
and the list the finished vertices are pushed onto. -/
structure SortState where
  state : Nat → Nat
  sorted : List Nat

/-- Marker update `list_nodes[index].state = v`. -/
def setState (state : Nat → Nat) (index v : Nat) : Nat → Nat :=
  fun k => if k = index then v else state k

/-- Modelled from the spec: `DynamicPropertyBase::TopologicalSort` is declared in the header
but its body is absent; the spec describes a depth-first traversal over output edges with
three-colour marking in which a vertex met while in progress is not re-entered and vertices are
appended when they finish.  The shape follows the sibling `Graph::topologicalSort`
of `KsGraph.hpp`.  The first argument bounds the recursion depth. -/
def topologicalSort (outputs : Nat → List Nat) : Nat → Nat → SortState → SortState
  | 0, _, st => st
  | fuel + 1, index, st =>
    if st.state index ≠ 0 then st
    else
      let st1 : SortState := { st with state := setState st.state index 1 }
      let st2 := (outputs index).foldl
        (fun s output => if s.state output = 0 then topologicalSort outputs fuel output s else s)
        st1
      { state := setState st2.state index 2, sorted := st2.sorted ++ [index] }

/-- Modelled from the spec: the loop over the outputs of a vertex inside `topologicalSort`
(the same fold, named so that it can be reasoned about). -/
def visitOutputs (outputs : Nat → List Nat) (fuel : Nat) (l : List Nat) (st : SortState) :
    SortState :=
  l.foldl
    (fun s output => if s.state output = 0 then topologicalSort outputs fuel output s else s) st

/-- Edge relation of an adjacency function. -/
def Edge (outputs : Nat → List Nat) (u v : Nat) : Prop := v ∈ outputs u

/-- Reachability along output edges (zero or more steps). -/
def Reach (outputs : Nat → List Nat) : Nat → Nat → Prop := Relation.ReflTransGen (Edge outputs)

/-- The traversal invariant: the finished vertices are exactly the ones pushed. -/
def SortInv (st : SortState) : Prop :=
  ∀ v, v ∈ st.sorted ↔ (st.state v ≠ 0 ∧ st.state v ≠ 1)

/-- Number of unvisited vertices inside a finite vertex set. -/
def whiteCard (U : Finset Nat) (st : SortState) : Nat :=
  (U.filter (fun v => st.state v = 0)).card

/-- What a (partial) traversal from the sources `src` adds to a traversal state. -/
structure Extends (outputs : Nat → List Nat) (src : Nat → Prop) (st st' : SortState)
    (new : List Nat) : Prop where
  sorted_eq : st'.sorted = st.sorted ++ new
  state_eq : ∀ v, st'.state v = if v ∈ new then 2 else st.state v
  white : ∀ v ∈ new, st.state v = 0
  nodup : new.Nodup
  reach : ∀ v ∈ new, ∃ c, src c ∧ Reach outputs c v
  order : ∀ u ∈ new, ∀ v ∈ outputs u,
    List.Sublist [v, u] st'.sorted ∨ st.state v = 1 ∨ (v ∈ new ∧ Reach outputs v u)

/-! ## Data model -/

/-- A binding function `std::function<T()>`: it returns a value (`ret`), reads another
property through `Get()` and continues with the value read (`get`), or meets the condition that
sets `m_capture_failed` on the property being captured and continues (`fail`).

Modelled from the spec: the trigger of `m_capture_failed` is in the absent base
implementation; `fail` stands for it. -/
inductive BindingFn (T : Type) where
  | ret : T → BindingFn T
  | get : Nat → (T → BindingFn T) → BindingFn T
  | fail : BindingFn T → BindingFn T

/-- The members of `DynamicPropertyBase` and `DynamicProperty<T>`.  `m_notifier` records
whether a notifier is installed; its calls are recorded in the trace.  The marker `m_vx_state`
is transient and kept in `SortState` for the duration of one traversal. -/
structure DynamicProperty (T : Type) where
  m_name : String
  m_capture_failed : Bool
  m_list_inputs : List Nat
  m_list_outputs : List Nat
  m_value : T
  m_binding : Option (BindingFn T)
  m_notifier : Bool
  m_binding_init : Bool

/-- Observable events. -/
inductive Event (T : Type) where
  | evaluated : Nat → Event T
  | notified : Nat → T → Event T

/-- The property graph: the heap of properties, how many have been constructed, the
"currently evaluating" slot and the event trace. -/
structure World (T : Type) where
  props : Nat → DynamicProperty T
  count : Nat
  current : Option Nat
  trace : List (Event T)

variable {T : Type}

/-- Update of one property in the heap. -/
def World.modify (w : World T) (p : Nat) (f : DynamicProperty T → DynamicProperty T) :
    World T :=
  { w with props := fun q => if q = p then f (w.props q) else w.props q }

/-- Append an event to the trace. -/
def World.log (w : World T) (e : Event T) : World T :=
  { w with trace := w.trace ++ [e] }

/-- `GetInputs()`. -/
def World.inputs (w : World T) (p : Nat) : List Nat := (w.props p).m_list_inputs

/-- `GetOutputs()`. -/
def World.outputs (w : World T) (p : Nat) : List Nat := (w.props p).m_list_outputs

/-- Current value `m_value` of a property. -/
def World.value (w : World T) (p : Nat) : T := (w.props p).m_value

/-- `GetBindingValid()`: `bool(m_binding)`. -/
def GetBindingValid (w : World T) (p : Nat) : Bool := (w.props p).m_binding.isSome

/-! ## Operations of `DynamicPropertyBase` -/

/-- Modelled from the spec: `RemoveProperty(list, p)`, the identity-based removal helper
(body absent from the header). -/
def RemoveProperty (list_props : List Nat) (rem_prop : Nat) : List Nat :=
  list_props.filter (fun q => q ≠ rem_prop)

/-- `resetBinding()`: `m_binding = BindingFn{}; m_binding_init = false;`. -/
def resetBinding (w : World T) (this : Nat) : World T :=
  w.modify this (fun c => { c with m_binding := none, m_binding_init := false })

/-- Modelled from the spec: `registerInput(src)` "idempotently adds `src` to this node's inputs
and this node to `src`'s outputs" (body absent from the header). -/
def registerInput (w : World T) (this input_prop : Nat) : World T :=
  let w1 :=
    if input_prop ∈ w.inputs this then w
    else w.modify this (fun c => { c with m_list_inputs := c.m_list_inputs ++ [input_prop] })
  if this ∈ w1.outputs input_prop then w1
  else w1.modify input_prop (fun c => { c with m_list_outputs := c.m_list_outputs ++ [this] })

/-- Modelled from the spec: `setCurrent(prop)` stores the "currently evaluating" slot
(body absent from the header). -/
def setCurrent (w : World T) (prop : Option Nat) : World T :=
  { w with current := prop }

/-- Modelled from the spec: `captureAsInput()`: "any property's read accessor, if the slot is
non-null and distinct from itself, calls `RegisterInput` wiring accessed → current"
(body absent from the header). -/
def captureAsInput (w : World T) (this : Nat) : World T :=
  match w.current with
  | some cur => if cur ≠ this then registerInput w cur this else w
  | none => w

/-- Modelled from the spec: `clearInputs()`: "for each current input, remove self from its
outputs, then empty this node's input list"; the comments at its two call sites in the header
("Clear inputs and binding since assignment breaks bindings", "resets binding!") say that it
also resets the binding, through the private virtual `resetBinding`. -/
def clearInputs (w : World T) (this : Nat) : World T :=
  let w1 := (w.inputs this).foldl
    (fun s input =>
      s.modify input (fun c => { c with m_list_outputs := RemoveProperty c.m_list_outputs this }))
    w
  let w2 := w1.modify this (fun c => { c with m_list_inputs := [] })
  resetBinding w2 this

/-- Modelled from the spec: `clearOutputs()`: "for each current output, sever the edge and force
that output into a binding-discarded state", then the output list is emptied
(body absent from the header). -/
def clearOutputs (w : World T) (this : Nat) : World T :=
  let w1 := (w.outputs this).foldl
    (fun s output =>
      resetBinding
        (s.modify output
          (fun c => { c with m_list_inputs := RemoveProperty c.m_list_inputs this }))
        output)
    w
  w1.modify this (fun c => { c with m_list_outputs := [] })

/-- Running a binding function: each `Get()` of a property `q` is
`q.captureAsInput(); return q.m_value;`. -/
def runBinding : BindingFn T → World T → T × World T
  | .ret v, w => (v, w)
  | .get q k, w =>
    let w1 := captureAsInput w q
    runBinding (k (w1.value q)) w1
  | .fail k, w =>
    match w.current with
    | some cur => runBinding k (w.modify cur (fun c => { c with m_capture_failed := true }))
    | none => runBinding k w

/-- `Get()`: `captureAsInput(); return m_value;`. -/
def Get (w : World T) (this : Nat) : T × World T :=
  let w1 := captureAsInput w this
  (w1.value this, w1)

/-- The notifier call `if(m_notifier) { m_notifier(m_value); }`. -/
def notify (w : World T) (this : Nat) : World T :=
  if (w.props this).m_notifier then w.log (.notified this (w.value this)) else w

/-- `DynamicProperty::evaluate()`. -/
def evaluate (w0 : World T) (this : Nat) : World T :=
  let w := w0.log (.evaluated this)
  match (w.props this).m_binding with
  | none => w
  | some binding =>
    if (w.props this).m_binding_init then
      let r := runBinding binding w
      notify (r.2.modify this (fun c => { c with m_value := r.1 })) this
    else
      let w1 := w.modify this (fun c => { c with m_capture_failed := false })
      let w2 := setCurrent w1 (some this)
      let r := runBinding binding w2
      let w3 := r.2.modify this (fun c => { c with m_value := r.1 })
      let w4 := setCurrent w3 none
      if !(w4.props this).m_capture_failed then
        notify (w4.modify this (fun c => { c with m_binding_init := true })) this
      else
        resetBinding w4 this

/-- Modelled from the spec: `TopologicalSort(property, list_sorted_props)` (body absent from
the header), started with every marker unvisited since the marker is "transient, valid only
during one traversal"; the recursion bound is one more than the number of constructed
properties, which `TopologicalSort_spec` shows to be enough. -/
def TopologicalSort (w : World T) (property : Nat) : List Nat :=
  (topologicalSort w.outputs (w.count + 1) property ⟨fun _ => 0, []⟩).sorted

/-- Modelled from the spec: the order in which `evaluateOutputs` evaluates, the reversed
result of `TopologicalSort` ("caller must reverse to get true dependency-before-dependent
order") without the origin itself, whose value the caller has just stored. -/
def evaluationOrder (w : World T) (this : Nat) : List Nat :=
  (TopologicalSort w this).reverse.filter (fun p => p ≠ this)

/-- Modelled from the spec: `evaluateOutputs()` "computes the topological order of the subgraph
reachable via outputs from the origin, then invokes `Evaluate()` on each reached node exactly
once, in that order" (body absent from the header). -/
def evaluateOutputs (w : World T) (this : Nat) : World T :=
  (evaluationOrder w this).foldl evaluate w

/-! ## Operations of `DynamicProperty<T>` -/

/-- `Assign(value)`. -/
def Assign (w : World T) (this : Nat) (value : T) : World T :=
  let w1 := clearInputs w this
  let w2 := w1.modify this (fun c => { c with m_value := value })
  let w3 := notify w2 this
  evaluateOutputs w3 this

/-- The first three statements of `Bind`: `clearInputs(); m_binding = binding; evaluate();`. -/
def bindCapture (w : World T) (this : Nat) (binding : BindingFn T) : World T :=
  let w1 := clearInputs w this
  let w2 := w1.modify this (fun c => { c with m_binding := some binding })
  evaluate w2 this

/-- `Bind(binding)`. -/
def Bind (w : World T) (this : Nat) (binding : BindingFn T) : World T :=
  evaluateOutputs (bindCapture w this binding) this

/-- `SetNotifier(notifier)`. -/
def SetNotifier (w : World T) (this : Nat) (notifier : Bool) : World T :=
  w.modify this (fun c => { c with m_notifier := notifier })

/-- `SetName(name)`. -/
def SetName (w : World T) (this : Nat) (name : String) : World T :=
  w.modify this (fun c => { c with m_name := name })

/-- `~DynamicProperty()`: `clearInputs(); clearOutputs();`. -/
def destroy (w : World T) (this : Nat) : World T :=
  clearOutputs (clearInputs w this) this

/-- A property before its constructor body runs: default members, `m_binding_init{false}`. -/
def freshProperty [Inhabited T] (name : String) (value : T) : DynamicProperty T :=
  { m_name := name, m_capture_failed := false, m_list_inputs := [], m_list_outputs := [],
    m_value := value, m_binding := none, m_notifier := false, m_binding_init := false }

/-- The world with no property constructed. -/
def World.empty [Inhabited T] : World T :=
  { props := fun _ => freshProperty "" default, count := 0, current := none, trace := [] }

/-- Constructors `DynamicProperty(name, value, notifier)`: the new property gets the next
identity. -/
def construct [Inhabited T] (w : World T) (name : String) (value : T) (notifier : Bool) :
    World T :=
  let w1 : World T :=
    { w with
      props := fun q => if q = w.count then freshProperty name value else w.props q
      count := w.count + 1 }
  SetNotifier w1 w.count notifier

/-- Constructors `DynamicProperty(name, binding, notifier)`: `SetNotifier(notifier);
Bind(binding);` on a default-initialised property. -/
def constructBound [Inhabited T] (w : World T) (name : String) (binding : BindingFn T)
    (notifier : Bool) : World T :=
  Bind (construct w name default notifier) w.count binding

/-! ## Specification vocabulary -/

/-- The dependency graph has no cycle along output edges. -/
def World.Acyclic (w : World T) : Prop :=
  ∀ p, ¬ Relation.TransGen (Edge w.outputs) p p

/-- Every property listed as an output has been constructed. -/
def World.InRange (w : World T) : Prop :=
  ∀ p q, q ∈ w.outputs p → q < w.count

/-- Edge symmetry: `a` is in `b`'s input list iff `b` is in `a`'s output list. -/
def EdgeSymmetry (w : World T) : Prop :=
  ∀ a b, a ∈ w.inputs b ↔ b ∈ w.outputs a

/-- The value a binding function returns when every `Get()` of `q` yields `ρ q`. -/
def evalPure : BindingFn T → (Nat → T) → T
  | .ret v, _ => v
  | .get q k, ρ => evalPure (k (ρ q)) ρ
  | .fail k, ρ => evalPure k ρ

/-- The steps a binding function performs against the values `ρ`, in order: `some q` for a
`Get()` of `q`, `none` for the capture-failure trigger. -/
def stepsOf : BindingFn T → (Nat → T) → List (Option Nat)
  | .ret _, _ => []
  | .get q k, ρ => some q :: stepsOf (k (ρ q)) ρ
  | .fail k, ρ => none :: stepsOf k ρ

/-- The properties whose `Get()` is called during a run against the values `ρ`, in order. -/
def readsOf (f : BindingFn T) (ρ : Nat → T) : List Nat :=
  (stepsOf f ρ).filterMap id

/-- Whether the capture-failure trigger occurs during a run against the values `ρ`. -/
def runFails (f : BindingFn T) (ρ : Nat → T) : Bool :=
  (stepsOf f ρ).any (fun s => s.isNone)

/-- The effect of one step of a binding function on the world. -/
def stepWorld (w : World T) : Option Nat → World T
  | some q => captureAsInput w q
  | none =>
    match w.current with
    | some cur => w.modify cur (fun c => { c with m_capture_failed := true })
    | none => w

/-- The second world differs from the first at most in adjacency lists and
`m_capture_failed` flags. -/
structure SameCore (w w' : World T) : Prop where
  count : w'.count = w.count
  current : w'.current = w.current
  trace : w'.trace = w.trace
  value : ∀ q, (w'.props q).m_value = (w.props q).m_value
  binding : ∀ q, (w'.props q).m_binding = (w.props q).m_binding
  init : ∀ q, (w'.props q).m_binding_init = (w.props q).m_binding_init
  notifier : ∀ q, (w'.props q).m_notifier = (w.props q).m_notifier
  name : ∀ q, (w'.props q).m_name = (w.props q).m_name

/-- How one step of a binding run changes the input list of the property being captured. -/
def stepInputs (cur : Nat) (l : List Nat) : Option Nat → List Nat
  | some q => if cur ≠ q ∧ q ∉ l then l ++ [q] else l
  | none => l

/-- The input list a capturing run leaves in the property `cur`, given the list before
the run and the properties read. -/
def capturedInputs (cur : Nat) (l : List Nat) (steps : List (Option Nat)) : List Nat :=
  steps.foldl (stepInputs cur) l

/-- The edge `a → b` is wired by `evaluate()` of `d`: the binding of `d` reads `a` while `b`
is the property in the "currently evaluating" slot (which is `d` itself during a capturing
evaluation, and whatever the slot held before during a steady-state one). -/
def Wires (w : World T) (d a b : Nat) : Prop :=
  ∃ f, (w.props d).m_binding = some f ∧ some a ∈ stepsOf f w.value ∧
    (if (w.props d).m_binding_init then w.current else some d) = some b ∧ b ≠ a

/-- The properties on which `evaluate()` was called, in order. -/
def evaluations (tr : List (Event T)) : List Nat :=
  tr.filterMap (fun e => match e with
    | .evaluated p => some p
    | .notified _ _ => none)

/-- The values with which the notifier of `p` was called, in order. -/
def notificationsOf (p : Nat) (tr : List (Event T)) : List T :=
  tr.filterMap (fun e => match e with
    | .evaluated _ => none
    | .notified q v => if q = p then some v else none)

/-- The calls a client can make on the property graph. -/
inductive Op (T : Type) where
  | construct : String → T → Bool → Op T
  | constructBound : String → BindingFn T → Bool → Op T
  | get : Nat → Op T
  | assign : Nat → T → Op T
  | bind : Nat → BindingFn T → Op T
  | setNotifier : Nat → Bool → Op T
  | setName : Nat → String → Op T
  | destroy : Nat → Op T

/-- Effect of one client call. -/
def applyOp [Inhabited T] (w : World T) : Op T → World T
  | .construct name value notifier => construct w name value notifier
  | .constructBound name binding notifier => constructBound w name binding notifier
  | .get p => (Get w p).2
  | .assign p v => Assign w p v
  | .bind p f => Bind w p f
  | .setNotifier p n => SetNotifier w p n
  | .setName p n => SetName w p n
  | .destroy p => destroy w p

/-- Effect of a sequence of client calls on the empty world. -/
def runOps [Inhabited T] (ops : List (Op T)) : World T :=
  ops.foldl applyOp World.empty

/-- The evaluations `L` performed for a change to `a` form a correct propagation: every
property transitively reachable from `a` through output edges occurs exactly once, nothing
else occurs, and where a property is evaluated all of its inputs that occur in `L` have been
evaluated before. -/
def IsPropagationOrder (w : World T) (a : Nat) (L : List Nat) : Prop :=
  (∀ p, Relation.TransGen (Edge w.outputs) a p → L.count p = 1) ∧
  (∀ p, p ∈ L → Relation.TransGen (Edge w.outputs) a p) ∧
  (∀ v u l1 l2, L = l1 ++ v :: l2 → u ∈ w.inputs v → u ∈ L → u ∈ l1)

/-- Well-formed graph states: the states in which client calls are made.  Edges are symmetric,
no property is its own input, every installed binding has completed its capturing evaluation,
no evaluation is in progress, and properties that have not been constructed yet have no
edges. -/
structure WellFormed (w : World T) : Prop where
  symm : EdgeSymmetry w
  irrefl : ∀ q, q ∉ w.inputs q
  validated : ∀ q f, (w.props q).m_binding = some f → (w.props q).m_binding_init = true
  idle : w.current = none
  fresh : ∀ q, w.count ≤ q → w.inputs q = [] ∧ w.outputs q = []

/-- A client call is valid when it addresses a constructed property and the binding it
installs reads only constructed properties (or, in a constructor, the property itself). -/
def ValidOp [Inhabited T] (w : World T) : Op T → Prop
  | .construct _ _ _ => True
  | .constructBound name f notifier =>
    ∀ a ∈ readsOf f (construct w name default notifier).value, a ≤ w.count
  | .get p => p < w.count
  | .assign p _ => p < w.count
  | .bind p f => p < w.count ∧ ∀ a ∈ readsOf f w.value, a < w.count
  | .setNotifier p _ => p < w.count
  | .setName p _ => p < w.count
  | .destroy p => p < w.count

/-- Validity of a sequence of client calls started in the world `w`. -/
def ValidOps [Inhabited T] : World T → List (Op T) → Prop
  | _, [] => True
  | w, op :: ops => ValidOp w op ∧ ValidOps (applyOp w op) ops

/-! ## Example graphs (integer-valued properties) -/

/-- The diamond `A → B`, `A → C`, `B → D`, `C → D`: `A = 1`, `B = A + 1`, `C = 2 * A`,
`D = B + C`. -/
def diamondOps : List (Op Int) :=
  [ .construct "A" 1 false,
    .constructBound "B" (.get 0 fun a => .ret (a + 1)) false,
    .constructBound "C" (.get 0 fun a => .ret (2 * a)) false,
    .constructBound "D" (.get 1 fun b => .get 2 fun c => .ret (b + c)) true ]

/-- The diamond graph. -/
def diamond : World Int := runOps diamondOps

/-- Three constants `width = 5`, `height = 10`, `area = 0`. -/
def areaBase : World Int :=
  runOps [ .construct "width" 5 false, .construct "height" 10 false, .construct "area" 0 true ]

/-- The binding `width.Get() * height.Get()`. -/
def areaFn : BindingFn Int := .get 0 fun a => .get 1 fun b => .ret (a * b)

/-- The scenario `width = 5`, `height = 10`, `area = width * height` (with a notifier). -/
def areaWorld : World Int := Bind areaBase 2 areaFn

/-- A binding that reads the property it is installed on: `p.Get() + 1` bound to property 0. -/
def selfRead : BindingFn Int := .get 0 fun v => .ret (v + 1)

/-- The chain `a = 1`, `b = a + 1`, `c = b + 1`, `d = c + 1`. -/
def chainOps : List (Op Int) :=
  [ .construct "a" 1 false,
    .constructBound "b" (.get 0 fun a => .ret (a + 1)) false,
    .constructBound "c" (.get 1 fun b => .ret (b + 1)) false,
    .constructBound "d" (.get 2 fun c => .ret (c + 1)) true ]

/-- The chain graph. -/
def chain : World Int := runOps chainOps

/-- A binding with a conditionally read dependency: `a > 5 ? q.Get() : 0`
(`a` is property 0, `q` is property 1). -/
def condFn : BindingFn Int := .get 0 fun a => if a > 5 then .get 1 fun q => .ret q else .ret 0

/-- The graph `a = 1`, `q = a + 1`, `p = (a > 5 ? q : 0)`; at capture time `a ≤ 5`, so `p`
captures only `a`. -/
def condOps : List (Op Int) :=
  [ .construct "a" 1 false,
    .constructBound "q" (.get 0 fun a => .ret (a + 1)) false,
    .constructBound "p" condFn false ]

/-- The graph with the conditionally read dependency. -/
def condWorld : World Int := runOps condOps

/-- A binding that reads `width` twice, reads the property it is bound to (property 2) and
reads `height`: `width.Get() * height.Get() + area.Get() + width.Get()`. -/
def repeatedRead : BindingFn Int :=
  .get 0 fun a => .get 2 fun s => .get 0 fun b => .get 1 fun h => .ret (a * h + s + b)

/-! ## `RecycleIndexList` (`ks/shared/KsRecycleIndexList.hpp`, removal policy `Resize`) -/

/-- The members of `RecycleIndexList<T,uint,Resize>`.  `m_list_valid` holds the flags
`k_valid = 1` and `k_invalid = 0`; `m_count` is a 32-bit unsigned counter. -/
structure RecycleIndexList (α : Type) where
  m_count : Nat
  m_list : List α
  m_list_valid : List Nat
  m_list_avail : List Nat

/-- `k_valid{1}`. -/
def k_valid : Nat := 1

/-- `k_invalid{0}`. -/
def k_invalid : Nat := 0

/-- Wrap-around of the unsigned 32-bit counters. -/
def wrap32 (n : Int) : Nat := (n % 4294967296).toNat

namespace RecycleIndexList

variable {α : Type}

/-- A default-constructed list. -/
def empty : RecycleIndexList α :=
  { m_count := 0, m_list := [], m_list_valid := [], m_list_avail := [] }

/-- `Add(val)`: returns the index used and the new list. -/
def Add (l : RecycleIndexList α) (val : α) : Nat × RecycleIndexList α :=
  let m_count := wrap32 (l.m_count + 1)
  if l.m_list_avail.isEmpty then
    (l.m_list.length,
      { m_count := m_count, m_list := l.m_list ++ [val],
        m_list_valid := l.m_list_valid ++ [k_valid], m_list_avail := l.m_list_avail })
  else
    let index := l.m_list_avail.getLastD 0
    (index,
      { m_count := m_count, m_list := l.m_list.set index val,
        m_list_valid := l.m_list_valid.set index k_valid,
        m_list_avail := l.m_list_avail.dropLast })

/-- `std::upper_bound` followed by `insert` on the sorted list `m_list_avail`: the index goes
before the first entry greater than it. -/
def insertAvail : List Nat → Nat → List Nat
  | [], index => [index]
  | a :: t, index => if index < a then index :: a :: t else a :: insertAvail t index

/-- The three `pop_back` calls of one iteration of the trimming loop. -/
def popBack (l : RecycleIndexList α) : RecycleIndexList α :=
  { l with m_list := l.m_list.dropLast, m_list_valid := l.m_list_valid.dropLast,
           m_list_avail := l.m_list_avail.dropLast }

/-- The trimming loop of `RemoveHelper<T,I,Policy::Resize>::remove`:
`while(m_list_valid.back() == k_invalid) { pop_back x3; if(m_list_valid.empty()) break; }`.
The first argument bounds the number of iterations; the length of `m_list_valid` is enough. -/
def trim : Nat → RecycleIndexList α → RecycleIndexList α
  | 0, l => l
  | fuel + 1, l =>
    if l.m_list_valid.getLast? = some k_invalid then
      if l.popBack.m_list_valid.isEmpty then l.popBack else trim fuel l.popBack
    else l

/-- The statements of `Remove(index)` before the trimming loop: the counter is decremented,
the slot is overwritten with `T()` (here `dflt`), its flag is cleared and the index is
inserted into the sorted list of available indices. -/
def markRemoved (l : RecycleIndexList α) (dflt : α) (index : Nat) : RecycleIndexList α :=
  { m_count := wrap32 (l.m_count - 1), m_list := l.m_list.set index dflt,
    m_list_valid := l.m_list_valid.set index k_invalid,
    m_list_avail := insertAvail l.m_list_avail index }

/-- `Remove(index)` for the policy `Resize`; `dflt` is `T()`. -/
def Remove (l : RecycleIndexList α) (dflt : α) (index : Nat) : RecycleIndexList α :=
  trim (l.markRemoved dflt index).m_list_valid.length (l.markRemoved dflt index)

/-- `PeekNextIndex()`. -/
def PeekNextIndex (l : RecycleIndexList α) : Nat :=
  if l.m_list_avail.isEmpty then l.m_list.length else l.m_list_avail.getLastD 0

/-- `Clear()`: the three vectors are cleared, `m_count` is left as it is. -/
def Clear (l : RecycleIndexList α) : RecycleIndexList α :=
  { l with m_list := [], m_list_valid := [], m_list_avail := [] }

/-- `GetCount()`. -/
def GetCount (l : RecycleIndexList α) : Nat := l.m_count

/-- `GetValid(index)`: `m_list_valid[index]` converted to `bool`. -/
def GetValid (l : RecycleIndexList α) (index : Nat) : Bool :=
  l.m_list_valid.getD index k_invalid != 0

end RecycleIndexList

/-! ## `Graph` (`ks/shared/KsGraph.hpp`) -/

/-- `Graph::Node`. -/
structure Node (T : Type) where
  value : T
  valid : Bool
  state : Nat
  inputs : List Nat
  outputs : List Nat

/-- A value-initialised node `Node()`, which is also the content of `m_null_node`. -/
def Node.null (T : Type) [Inhabited T] : Node T :=
  { value := default, valid := false, state := 0, inputs := [], outputs := [] }

/-- The members of `Graph<T,uint>`; `m_node_count` is a 32-bit unsigned counter. -/
structure Graph (T : Type) where
  m_node_count : Nat
  m_null_node : Node T
  m_list_nodes : RecycleIndexList (Node T)

namespace Graph

variable {T : Type} [Inhabited T]

/-- A default-constructed graph. -/
def empty : Graph T :=
  { m_node_count := 0, m_null_node := Node.null T, m_list_nodes := RecycleIndexList.empty }

/-- Element access `list_nodes[index]` on the sparse node list. -/
def nodeOf (list_nodes : List (Node T)) (index : Nat) : Node T :=
  list_nodes.getD index (Node.null T)

/-- An assignment through `list_nodes[index]`. -/
def setNode (list_nodes : List (Node T)) (index : Nat) (f : Node T → Node T) : List (Node T) :=
  list_nodes.set index (f (nodeOf list_nodes index))

/-- An assignment through `m_list_nodes[index]`. -/
def modify (g : Graph T) (index : Nat) (f : Node T → Node T) : Graph T :=
  { g with m_list_nodes :=
      { g.m_list_nodes with m_list := setNode g.m_list_nodes.m_list index f } }

/-- `GetNode(index)`. -/
def GetNode (g : Graph T) (index : Nat) : Node T :=
  if g.m_list_nodes.m_list.length > index then nodeOf g.m_list_nodes.m_list index
  else g.m_null_node

/-- `GetNodeCount()`. -/
def GetNodeCount (g : Graph T) : Nat := g.m_node_count

/-- `AddNode(val)`: returns the index of the new node and the new graph. -/
def AddNode (g : Graph T) (val : T) : Nat × Graph T :=
  let r := g.m_list_nodes.Add
    { value := val, valid := true, state := 0, inputs := [], outputs := [] }
  (r.1, { g with m_node_count := wrap32 (g.m_node_count + 1), m_list_nodes := r.2 })

/-- The erase-remove idiom `v.erase(std::remove(v.begin(), v.end(), x), v.end())`. -/
def eraseAll (v : List Nat) (x : Nat) : List Nat := v.filter (fun y => y ≠ x)

/-- `RemoveNode(node, rem_orphans)`.  The recursion through orphaned outputs is bounded by the
first argument.  The loops run over the input and output lists of `node` as they are when the
loop starts; the body never changes the list it iterates over in an acyclic graph.  This is
the graph that the call leaves when every element access is inside the vectors: an access
`m_list_nodes[i]` goes through `nodeOf` and `List.set`, so that past the end of the vector it
reads a value-initialised node and writes nothing, where the source has undefined behaviour.
`removeNodeChecked` is the same function with every access checked. -/
def removeNode : Nat → Graph T → Nat → Bool → Graph T
  | 0, g, _, _ => g
  | fuel + 1, g, node, rem_orphans =>
    let g1 := (nodeOf g.m_list_nodes.m_list node).inputs.foldl
      (fun s input => s.modify input (fun n => { n with outputs := eraseAll n.outputs node })) g
    let g2 := g1.modify node (fun n => { n with inputs := [] })
    let g3 := (nodeOf g2.m_list_nodes.m_list node).outputs.foldl
      (fun s output =>
        let s1 := s.modify output (fun n => { n with inputs := eraseAll n.inputs node })
        if rem_orphans && (nodeOf s1.m_list_nodes.m_list output).inputs.isEmpty then
          removeNode fuel s1 output true
        else s1)
      g2
    let g4 := g3.modify node (fun n => { n with outputs := [] })
    let g5 := g4.modify node (fun n => { n with valid := false })
    { g5 with m_list_nodes := g5.m_list_nodes.Remove (Node.null T) node,
              m_node_count := wrap32 (g5.m_node_count - 1) }

/-- `RemoveNode(node, rem_orphans)` with a recursion bound of one more than the length of the
node list. -/
def RemoveNode (g : Graph T) (node : Nat) (rem_orphans : Bool) : Graph T :=
  removeNode (g.m_list_nodes.m_list.length + 1) g node rem_orphans

/-- `AddEdge(from, to)`. -/
def AddEdge (g : Graph T) (src dst : Nat) : Graph T :=
  (g.modify src (fun n => { n with outputs := n.outputs ++ [dst] })).modify dst
    (fun n => { n with inputs := n.inputs ++ [src] })

/-- `RemoveEdge(from, to)`. -/
def RemoveEdge (g : Graph T) (src dst : Nat) : Graph T :=
  (g.modify src (fun n => { n with outputs := eraseAll n.outputs dst })).modify dst
    (fun n => { n with inputs := eraseAll n.inputs src })

/-- `ClearAll()`. -/
def ClearAll (g : Graph T) : Graph T :=
  { g with m_list_nodes := g.m_list_nodes.Clear }

/-- `dftPreOrder(index, list_nodes, list_visit_order)`; the first argument bounds the
recursion depth. -/
def dftPreOrder : Nat → Nat → List (Node T) → List Nat → List Nat
  | 0, _, _, list_visit_order => list_visit_order
  | fuel + 1, index, list_nodes, list_visit_order =>
    (nodeOf list_nodes index).outputs.foldl
      (fun order output => dftPreOrder fuel output list_nodes order)
      (list_visit_order ++ [index])

/-- `GetDFTPreOrder(start)`, with a recursion bound of one more than the length of the node
list. -/
def GetDFTPreOrder (g : Graph T) (start : Nat) : List Nat :=
  dftPreOrder (g.m_list_nodes.m_list.length + 1) start g.m_list_nodes.m_list []

/-- The loop `for(i...) list_nodes[i].state = 0;`. -/
def resetStates (list_nodes : List (Node T)) : List (Node T) :=
  list_nodes.map (fun n => { n with state := 0 })

/-- `topologicalSort(index, list_nodes, list_rev_sorted_nodes)`; the first argument bounds the
recursion depth. -/
def topologicalSort : Nat → Nat → List (Node T) × List Nat → List (Node T) × List Nat
  | 0, _, s => s
  | fuel + 1, index, s =>
    if (nodeOf s.1 index).state ≠ 0 then s
    else
      let s1 : List (Node T) × List Nat :=
        (setNode s.1 index (fun n => { n with state := 1 }), s.2)
      let s2 := (nodeOf s1.1 index).outputs.foldl
        (fun s output =>
          if (nodeOf s.1 output).state = 0 then topologicalSort fuel output s
          else if (nodeOf s.1 output).state = 1 then s
          else s)
        s1
      (setNode s2.1 index (fun n => { n with state := 2 }), s2.2 ++ [index])

/-- `undirectedDfsPostOrder(index, list_nodes, list_visit_order)`; the first argument bounds
the recursion depth. -/
def undirectedDfsPostOrder : Nat → Nat → List (Node T) × List Nat → List (Node T) × List Nat
  | 0, _, s => s
  | fuel + 1, index, s =>
    if (nodeOf s.1 index).state ≠ 0 then s
    else
      let s1 : List (Node T) × List Nat :=
        (setNode s.1 index (fun n => { n with state := 1 }), s.2)
      let s2 := (nodeOf s1.1 index).inputs.foldl
        (fun s input =>
          if (nodeOf s.1 input).state = 0 then undirectedDfsPostOrder fuel input s else s)
        s1
      let s3 := (nodeOf s2.1 index).outputs.foldl
        (fun s output =>
          if (nodeOf s.1 output).state = 0 then undirectedDfsPostOrder fuel output s else s)
        s2
      (setNode s3.1 index (fun n => { n with state := 2 }), s3.2 ++ [index])

/-- `GetTopologicallySorted()`: the sorted indices (the state markers it leaves in the nodes
are reset by every traversal before use and are not returned here). -/
def GetTopologicallySorted (g : Graph T) : List Nat :=
  let list_nodes := resetStates g.m_list_nodes.m_list
  let r := (List.range list_nodes.length).foldl
    (fun s i =>
      if g.m_list_nodes.GetValid i then topologicalSort (list_nodes.length + 1) i s else s)
    (list_nodes, [])
  r.2.reverse

/-- The first loop of `GetDisjointSubgraphs`: one traversal per valid index, each with a fresh
visit list that is kept when it is not empty.  The state is the node list and the subgraphs
found so far. -/
def subgraphsLoop (g : Graph T) (list_nodes : List (Node T)) :
    List (Node T) × List (List Nat) :=
  (List.range list_nodes.length).foldl
    (fun s i =>
      if g.m_list_nodes.GetValid i then
        let r := undirectedDfsPostOrder (list_nodes.length + 1) i (s.1, [])
        if r.2.isEmpty then (r.1, s.2) else (r.1, s.2 ++ [r.2])
      else s)
    (list_nodes, [])

/-- `GetDisjointSubgraphs(topologically_sorted)`: the lists returned (the state markers the
traversals leave in the nodes are reset by every traversal before use and are not returned
here). -/
def GetDisjointSubgraphs (g : Graph T) (topologically_sorted : Bool) : List (List Nat) :=
  let list_nodes := resetStates g.m_list_nodes.m_list
  let r := subgraphsLoop g list_nodes
  let list_subgraph_nodes := r.2
  if topologically_sorted then
    let list_nodes2 := resetStates r.1
    let r2 := list_subgraph_nodes.foldl
      (fun (s : List (Node T) × List (List Nat)) sg =>
        let t := (List.range sg.length).foldl
          (fun (u : List (Node T) × List Nat) i =>
            if g.m_list_nodes.GetValid i then
              topologicalSort (list_nodes.length + 1) (sg.getD i 0) u
            else u)
          (s.1, [])
        (t.1, s.2 ++ [t.2.reverse]))
      (list_nodes2, [])
    r2.2
  else list_subgraph_nodes

end Graph

namespace RecycleIndexList

variable {α : Type}

/-- Consistency of the three vectors: one flag per slot, and `m_list_avail` is the strictly
ascending list of the slots whose flag is invalid. -/
def Sound (l : RecycleIndexList α) : Prop :=
  l.m_list_valid.length = l.m_list.length ∧
  l.m_list_avail.Pairwise (fun a b => a < b) ∧
  (∀ i ∈ l.m_list_avail, i < l.m_list.length ∧ l.GetValid i = false) ∧
  (∀ i, i < l.m_list.length → l.GetValid i = false → i ∈ l.m_list_avail)

/-- Representation invariant for the policy `Resize`: the vectors are consistent and the last
slot, if there is one, is valid. -/
def Inv (l : RecycleIndexList α) : Prop :=
  l.Sound ∧ l.m_list_valid.getLast? ≠ some k_invalid

end RecycleIndexList

namespace Graph

variable {T : Type} [Inhabited T]

/-- The erasure of `node` from the input and output list of a node. -/
def unlink (node : Nat) (n : Node T) : Node T :=
  { n with inputs := eraseAll n.inputs node, outputs := eraseAll n.outputs node }

/-- Representation invariant of the graph: the node list is consistent, the null node is a
value-initialised node, a slot is a value-initialised node when its flag is invalid and holds
a node marked valid when its flag is valid, and every edge is recorded on both of its ends
(`b` occurs in the outputs of `a` as often as `a` occurs in the inputs of `b`). -/
def Inv (g : Graph T) : Prop :=
  g.m_list_nodes.Sound ∧
  g.m_null_node = Node.null T ∧
  (∀ i, i < g.m_list_nodes.m_list.length → g.m_list_nodes.GetValid i = false →
    nodeOf g.m_list_nodes.m_list i = Node.null T) ∧
  (∀ i, g.m_list_nodes.GetValid i = true → (nodeOf g.m_list_nodes.m_list i).valid = true) ∧
  (∀ a b, (nodeOf g.m_list_nodes.m_list a).outputs.count b =
    (nodeOf g.m_list_nodes.m_list b).inputs.count a)

end Graph

/-! ## Graphs of the test suite (`ks/shared/test/KsAutoTestGraph.cpp`) -/

/-- `AddNode` for each value of a list, in order. -/
def addNodes {T : Type} [Inhabited T] (g : Graph T) (vals : List T) : Graph T :=
  vals.foldl (fun s val => (s.AddNode val).2) g

/-- `AddEdge(from,to)` for each pair of a list, in order. -/
def addEdges {T : Type} [Inhabited T] (g : Graph T) (edges : List (Nat × Nat)) : Graph T :=
  edges.foldl (fun s e => s.AddEdge e.1 e.2) g

/-- The chain `a -> b -> c -> d -> e` of "Test Add/Remove Edges Only" (indices 0..4). -/
def edgeChain : Graph String :=
  addEdges (addNodes Graph.empty ["a", "b", "c", "d", "e"]) [(0, 1), (1, 2), (2, 3), (3, 4)]

/-- The chain `p -> a -> b -> c -> d -> e` of "Test Add/Remove Nodes with Edges"
(indices 0..5). -/
def nodeChain : Graph String :=
  addEdges (addNodes Graph.empty ["p", "a", "b", "c", "d", "e"])
    [(0, 1), (1, 2), (2, 3), (3, 4), (4, 5)]

/-- The network `p->a, a->c, c->d, c->e, p->b, b->a, b->c` of "Test Add/Remove Nodes with
Edges" (`p`, `a`, `b`, `c`, `d`, `e` are the indices 0..5). -/
def network : Graph String :=
  addEdges (addNodes Graph.empty ["p", "a", "b", "c", "d", "e"])
    [(0, 1), (1, 3), (3, 4), (3, 5), (0, 2), (2, 1), (2, 3)]

/-- The eight-node graph of "Test Topological Sort" (`a`..`h` are the indices 0..7). -/
def sortGraph : Graph String :=
  addEdges (addNodes Graph.empty ["a", "b", "c", "d", "e", "f", "g", "h"])
    [(0, 3), (0, 4), (1, 3), (2, 4), (2, 7), (3, 5), (3, 6), (3, 7), (4, 6)]

/-- The fourteen-node graph of "Get disjoint subgraphs" (`a`..`n` are the indices 0..13). -/
def islands : Graph String :=
  addEdges
    (addNodes Graph.empty ["a", "b", "c", "d", "e", "f", "g", "h", "i", "j", "k", "l", "m", "n"])
    [(0, 1), (1, 2), (2, 3), (1, 3), (4, 5), (6, 7), (7, 8), (8, 10), (10, 13), (7, 9), (9, 10),
      (9, 11), (11, 13), (11, 12)]

/-! ## Sequences of calls of the node interface -/

/-- A call of `AddNode`, `RemoveNode` or `ClearAll`. -/
inductive NodeCall (T : Type) where
  | addNode (val : T)
  | removeNode (node : Nat) (rem_orphans : Bool)
  | clearAll

/-- A graph together with the record of the handles in use: for every node added and not
removed since, the index `AddNode` returned and the value passed to that call. -/
structure Tracked (T : Type) where
  graph : Graph T
  live : List (Nat × T)

namespace Tracked

variable {T : Type} [Inhabited T]

/-- The effect of one call on the graph and on the record of handles. -/
def step (s : Tracked T) : NodeCall T → Tracked T
  | .addNode val =>
    { graph := (s.graph.AddNode val).2, live := s.live ++ [((s.graph.AddNode val).1, val)] }
  | .removeNode node rem_orphans =>
    { graph := s.graph.RemoveNode node rem_orphans,
      live := s.live.filter (fun e => e.1 ≠ node) }
  | .clearAll => { graph := s.graph.ClearAll, live := [] }

/-- A default-constructed graph with no handle in use. -/
def start : Tracked T := { graph := Graph.empty, live := [] }

/-- The state after a sequence of calls on a default-constructed graph. -/
def run (calls : List (NodeCall T)) : Tracked T := calls.foldl step start

/-- A sequence of calls in which `RemoveNode` is only called with a handle in use. -/
def CallsOk : Tracked T → List (NodeCall T) → Prop
  | _, [] => True
  | s, .removeNode node rem_orphans :: rest =>
    node ∈ s.live.map Prod.fst ∧ CallsOk (s.step (.removeNode node rem_orphans)) rest
  | s, .addNode val :: rest => CallsOk (s.step (.addNode val)) rest
  | s, .clearAll :: rest => CallsOk (s.step .clearAll) rest

/-- The agreement between the graph and the record of handles that every admissible
sequence of calls keeps: the graph satisfies its invariant and has no edge, the valid indices
are the handles in use, every handle is recorded once, and the node of a handle holds the
value recorded for it. -/
def Agrees (s : Tracked T) : Prop :=
  s.graph.Inv ∧
  (∀ i, (Graph.nodeOf s.graph.m_list_nodes.m_list i).inputs = [] ∧
    (Graph.nodeOf s.graph.m_list_nodes.m_list i).outputs = []) ∧
  (∀ i, s.graph.m_list_nodes.GetValid i = true ↔ i ∈ s.live.map Prod.fst) ∧
  (s.live.map Prod.fst).Nodup ∧
  (∀ e ∈ s.live, (Graph.nodeOf s.graph.m_list_nodes.m_list e.1).value = e.2)

end Tracked

/-- The calls of "Test Add/Remove Nodes Only" (five nodes are added, then `a`, `c` and `e`
are removed, which trims the node list to four slots), followed by one more `AddNode`, which
takes the free slot 2. -/
def nodeCalls : List (NodeCall String) :=
  [ .addNode "a", .addNode "b", .addNode "c", .addNode "d", .addNode "e",
    .removeNode 0 false, .removeNode 2 false, .removeNode 4 false, .addNode "x" ]

namespace Graph

variable {T : Type} [Inhabited T]

/-- The edge relation of a node list: `b` occurs in the outputs of `a`. -/
def Edge (list_nodes : List (Node T)) (a b : Nat) : Prop :=
  b ∈ (nodeOf list_nodes a).outputs

/-- A graph is acyclic when no node reaches itself along one or more edges. -/
def Acyclic (g : Graph T) : Prop :=
  ∀ a, ¬ Relation.TransGen (Edge g.m_list_nodes.m_list) a a

end Graph

namespace Graph

variable {T : Type} [Inhabited T]

/-- The state markers of a node list. -/
def stateOf (list_nodes : List (Node T)) : Nat → Nat :=
  fun i => (nodeOf list_nodes i).state

/-- The neighbours of a node in the order `undirectedDfsPostOrder` visits them: its inputs,
then its outputs. -/
def adjOf (list_nodes : List (Node T)) : Nat → List Nat :=
  fun i => (nodeOf list_nodes i).inputs ++ (nodeOf list_nodes i).outputs

/-- Two node lists that differ in the state markers only. -/
def SameEdges (l1 l2 : List (Node T)) : Prop :=
  l1.length = l2.length ∧
  ∀ i, (nodeOf l2 i).inputs = (nodeOf l1 i).inputs ∧
    (nodeOf l2 i).outputs = (nodeOf l1 i).outputs

end Graph

namespace Graph

variable {T : Type} [Inhabited T]

end Graph

/-! ## What `GetNode` observes of `RemoveNode` -/

/-- What the accessors observe of a graph: the node of every index (a value-initialised node
beyond the end of the node list) and the validity flag of every index. -/
structure Obs (T : Type) where
  node : Nat → Node T
  valid : Nat → Bool

namespace Obs

variable {T : Type} [Inhabited T]

/-- An assignment through `m_list_nodes[index]`, as observed. -/
def modify (s : Obs T) (index : Nat) (f : Node T → Node T) : Obs T :=
  { s with node := fun j => if j = index then f (s.node index) else s.node j }

/-- `m_list_nodes.Remove(index)`, as observed: the slot holds `Node()` and its flag is
cleared. -/
def kill (s : Obs T) (index : Nat) : Obs T :=
  { node := fun j => if j = index then Node.null T else s.node j,
    valid := fun j => if j = index then false else s.valid j }

/-- `RemoveNode(node, rem_orphans)`, as observed; the statements are those of
`Graph.removeNode`. -/
def removeNode : Nat → Obs T → Nat → Bool → Obs T
  | 0, s, _, _ => s
  | fuel + 1, s, node, rem_orphans =>
    let s1 := (s.node node).inputs.foldl
      (fun s input =>
        s.modify input (fun n => { n with outputs := Graph.eraseAll n.outputs node })) s
    let s2 := s1.modify node (fun n => { n with inputs := [] })
    let s3 := (s2.node node).outputs.foldl
      (fun s output =>
        let s1 := s.modify output (fun n => { n with inputs := Graph.eraseAll n.inputs node })
        if rem_orphans && (s1.node output).inputs.isEmpty then removeNode fuel s1 output true
        else s1)
      s2
    let s4 := s3.modify node (fun n => { n with outputs := [] })
    let s5 := s4.modify node (fun n => { n with valid := false })
    s5.kill node

end Obs

namespace Graph

variable {T : Type} [Inhabited T]

/-- The observation of a graph. -/
def obs (g : Graph T) : Obs T :=
  { node := nodeOf g.m_list_nodes.m_list, valid := g.m_list_nodes.GetValid }

/-- The part of the invariant that the accessors depend on: one flag per slot, a
value-initialised node in every slot whose flag is not valid, and a value-initialised null
node. -/
def Tidy (g : Graph T) : Prop :=
  g.m_list_nodes.m_list_valid.length = g.m_list_nodes.m_list.length ∧
  (∀ i, g.m_list_nodes.GetValid i = false → nodeOf g.m_list_nodes.m_list i = Node.null T) ∧
  g.m_null_node = Node.null T

/-- The set of nodes that `RemoveNode(n,true)` is to remove: the smallest set that contains
`n` and every node that has at least one input and all of whose inputs are in the set. -/
inductive Orphaned (g : Graph T) (n : Nat) : Nat → Prop where
  | root : Orphaned g n n
  | step (m : Nat) : (nodeOf g.m_list_nodes.m_list m).inputs ≠ [] →
      (∀ a ∈ (nodeOf g.m_list_nodes.m_list m).inputs, Orphaned g n a) → Orphaned g n m

end Graph

namespace Obs

variable {T : Type} [Inhabited T]

/-- The relation between the reference state `ref` (the graph when the cascade starts, the
input edges of the first node already detached) and a later state `s` of the cascade, where
`D` are the nodes removed so far, `P` the nodes whose removal is in progress and `R` the set
to be removed: removed nodes are value-initialised and invalid; every other node differs from
its reference at most in its inputs, which are the reference inputs without some removed or
in-progress nodes and without any removed node; removed and in-progress nodes belong to `R`;
in-progress nodes have no inputs left; and no other node has lost all of its inputs. -/
def Cascade (ref s : Obs T) (R D P : Nat → Prop) : Prop :=
  (∀ y, D y → s.node y = Node.null T ∧ s.valid y = false) ∧
  (∀ m, ¬ D m → s.valid m = ref.valid m ∧
    s.node m = { ref.node m with inputs := (s.node m).inputs }) ∧
  (∀ m, (s.node m).inputs =
    (ref.node m).inputs.filter (fun a => decide (a ∈ (s.node m).inputs))) ∧
  (∀ m, ¬ D m → ∀ a ∈ (ref.node m).inputs, a ∉ (s.node m).inputs → D a ∨ P a) ∧
  (∀ m, ∀ a ∈ (s.node m).inputs, ¬ D a) ∧
  (∀ y, D y ∨ P y → R y) ∧
  (∀ p, P p → (s.node p).inputs = [] ∧ ¬ D p) ∧
  (∀ m, ¬ D m → ¬ P m → (ref.node m).inputs ≠ [] → (s.node m).inputs ≠ [])

end Obs

/-! ## Call sequences on which the graph misbehaves -/

/-- Three nodes `n`, `m`, `z` (indices 0, 1, 2) and the edge `n -> m` added twice. -/
def parallelEdges : Graph String :=
  addEdges (addNodes Graph.empty ["n", "m", "z"]) [(0, 1), (0, 1)]

/-- `RemoveNode(n,true)` on `parallelEdges`: the orphan `m` is met twice in the outputs of
`n`. -/
def orphanRemovedTwice : Graph String := parallelEdges.RemoveNode 0 true

/-- `x = AddNode("x")` after that, then `AddEdge(z,x)`. -/
def firstReuse : Nat × Graph String :=
  ((orphanRemovedTwice.AddNode "x").1,
    (orphanRemovedTwice.AddNode "x").2.AddEdge 2 (orphanRemovedTwice.AddNode "x").1)

/-- `y = AddNode("y")` after that. -/
def secondReuse : Nat × Graph String := firstReuse.2.AddNode "y"

/-- `RemoveNode(y,false)` after that. -/
def danglingEdge : Graph String := secondReuse.2.RemoveNode secondReuse.1 false

/-- Three nodes without edges of which the first has been removed: `AddNode` three times, then
`RemoveNode(0,false)`. -/
def firstSlotFree : Graph String :=
  (addNodes Graph.empty ["a", "b", "c"]).RemoveNode 0 false

/-! ## `RangeAllocator` (`ks/shared/KsRangeAllocator.hpp`) -/

/-- `RangeAllocator::Range`; `block` is the position of the block in the block list, `none`
for the default-constructed iterator of the null range. -/
structure Range where
  start : Nat
  size : Nat
  block : Option Nat
  deriving DecidableEq, Inhabited

/-- `RangeAllocator::Block`. -/
structure Block (DataT : Type) where
  data : DataT
  used_count : Nat
  list_avail : List Range

/-- The members of `RangeAllocator<DataT,uint>`; the block list only grows at its end. -/
structure RangeAllocator (DataT : Type) where
  m_block_size : Nat
  m_range_count_hint : Nat
  m_list_blocks : List (Block DataT)

/-- The exception `RequestedEmptyRange`. -/
inductive RangeError where
  | requestedEmptyRange
  deriving DecidableEq

namespace RangeAllocator

variable {DataT : Type}

/-- Arithmetic of `IndexT = uint`. -/
def u32 (n : Nat) : Nat := n % 4294967296

/-- The constructor `RangeAllocator(block_size, range_count_hint)`. -/
def create (block_size range_count_hint : Nat) : RangeAllocator DataT :=
  { m_block_size := block_size, m_range_count_hint := range_count_hint, m_list_blocks := [] }

/-- `CreateBlock(block_data)`: returns the position of the new block and the new allocator. -/
def CreateBlock (a : RangeAllocator DataT) (block_data : DataT) : Nat × RangeAllocator DataT :=
  (a.m_list_blocks.length,
    { a with m_list_blocks := a.m_list_blocks ++
        [{ data := block_data, used_count := 0,
           list_avail := [{ start := 0, size := a.m_block_size,
                            block := some a.m_list_blocks.length }] }] })

/-- `std::upper_bound` with the comparison `a.start < b.start` on a list sorted by `start`:
the position of the first entry whose start is greater than that of `range`, or the length of
the list. -/
def upperBound (list_avail : List Range) (range : Range) : Nat :=
  list_avail.findIdx (fun e => decide (range.start < e.start))

/-- `listAvailOrderedInsert(list_avail, range)`. -/
def listAvailOrderedInsert (list_avail : List Range) (range : Range) : List Range :=
  if list_avail.isEmpty then [range]
  else
    let it_next := upperBound list_avail range
    let next := list_avail.getD it_next default
    let prev := list_avail.getD (it_next - 1) default
    if it_next = 0 then
      if next.start = u32 (range.start + range.size) then
        list_avail.set it_next
          { next with start := range.start, size := u32 (next.size + range.size) }
      else range :: list_avail
    else if it_next = list_avail.length then
      if range.start = u32 (prev.start + prev.size) then
        list_avail.set (it_next - 1) { prev with size := u32 (prev.size + range.size) }
      else list_avail ++ [range]
    else
      if range.start = u32 (prev.start + prev.size) then
        if next.start = u32 (range.start + range.size) then
          (list_avail.set (it_next - 1)
            { prev with size := u32 (prev.size + u32 (range.size + next.size)) }).eraseIdx
            it_next
        else list_avail.set (it_next - 1) { prev with size := u32 (prev.size + range.size) }
      else if next.start = u32 (range.start + range.size) then
        list_avail.set it_next
          { next with start := range.start, size := u32 (next.size + range.size) }
      else list_avail.take it_next ++ range :: list_avail.drop it_next

/-- The inner loop of `AcquireRange` over the available ranges of one block, from position
`pos` on (`rest` is the part of `block.list_avail` from there): the range handed out and the
block afterwards, or `none` when no range of the block is large enough. -/
def scanAvail (size block_it : Nat) (block : Block DataT) :
    Nat → List Range → Option (Range × Block DataT)
  | _, [] => none
  | pos, r :: rest =>
    if r.size > size then
      let range_used : Range := { start := r.start, size := size, block := some block_it }
      let range_keep : Range :=
        { start := u32 (r.start + size), size := u32 (r.size - size), block := some block_it }
      some (range_used,
        { block with
          list_avail := listAvailOrderedInsert (block.list_avail.eraseIdx pos) range_keep
          used_count := u32 (block.used_count + 1) })
    else if r.size = size then
      some (r,
        { block with
          list_avail := block.list_avail.eraseIdx pos
          used_count := u32 (block.used_count + 1) })
    else scanAvail size block_it block (pos + 1) rest

/-- The outer loop of `AcquireRange` over the blocks, from position `block_it` on. -/
def scanBlocks (size : Nat) : Nat → List (Block DataT) → Option (Range × List (Block DataT))
  | _, [] => none
  | block_it, block :: rest =>
    match scanAvail size block_it block 0 block.list_avail with
    | some (range_used, block1) => some (range_used, block1 :: rest)
    | none =>
      match scanBlocks size (block_it + 1) rest with
      | some (range_used, rest1) => some (range_used, block :: rest1)
      | none => none

/-- `AcquireRange(size)`: `RequestedEmptyRange` is thrown for `size == 0`; otherwise the range
returned (the null range with start 0 and size 0 when nothing fits) and the allocator
afterwards. -/
def AcquireRange (a : RangeAllocator DataT) (size : Nat) :
    Except RangeError (Range × RangeAllocator DataT) :=
  if size = 0 then .error .requestedEmptyRange
  else
    match scanBlocks size 0 a.m_list_blocks with
    | some (range_used, blocks) => .ok (range_used, { a with m_list_blocks := blocks })
    | none => .ok ({ start := 0, size := 0, block := none }, a)

/-- `ReleaseRange(range, empty)`: the allocator afterwards and the value stored in `empty`;
`none` when `range.block` is not an iterator to a block of the list. -/
def ReleaseRange (a : RangeAllocator DataT) (range : Range) :
    Option (RangeAllocator DataT × Bool) :=
  match range.block with
  | none => none
  | some block_it =>
    match a.m_list_blocks[block_it]? with
    | none => none
    | some block =>
      let block1 : Block DataT :=
        { block with
          used_count := u32 (block.used_count + 4294967295)
          list_avail := listAvailOrderedInsert block.list_avail range }
      some ({ a with m_list_blocks := a.m_list_blocks.set block_it block1 },
        decide (block1.used_count = 0))

/-- The allocator of the test "Acquire Range < Block Size" after the two acquisitions of 25:
one block of size 100 whose only available range is `{50, 50}`. -/
def halfFull : RangeAllocator Nat :=
  match ((create 100 0 : RangeAllocator Nat).CreateBlock 0).2.AcquireRange 25 with
  | .ok (_, a1) =>
    match a1.AcquireRange 25 with
    | .ok (_, a2) => a2
    | .error _ => a1
  | .error _ => create 100 0

end RangeAllocator

/-! ## Nested evaluation -/

/-- A call of `Add`, `Remove` or `Clear`. -/
inductive ListCall (α : Type) where
  | add (val : α)
  | remove (index : Nat)
  | clear

namespace RecycleIndexList

variable {α : Type}

/-- The effect of one call on the list; `dflt` is `T()`. -/
def step (dflt : α) (l : RecycleIndexList α) : ListCall α → RecycleIndexList α
  | .add val => (l.Add val).2
  | .remove index => l.Remove dflt index
  | .clear => l.Clear

/-- The state after a sequence of calls on a default-constructed list. -/
def run (dflt : α) (calls : List (ListCall α)) : RecycleIndexList α :=
  calls.foldl (step dflt) empty

/-- A sequence of calls in which `Remove` is only called with a currently valid index. -/
def CallsOk (dflt : α) : RecycleIndexList α → List (ListCall α) → Prop
  | _, [] => True
  | l, .add val :: rest => CallsOk dflt (l.step dflt (.add val)) rest
  | l, .remove index :: rest =>
    l.GetValid index = true ∧ CallsOk dflt (l.step dflt (.remove index)) rest
  | l, .clear :: rest => CallsOk dflt (l.step dflt .clear) rest

end RecycleIndexList

/-- The calls of the test section "Remove": `a` to `e` are added, then `Remove(1)`,
`Remove(3)`. -/
def removeCalls : List (ListCall String) :=
  [ .add "a", .add "b", .add "c", .add "d", .add "e", .remove 1, .remove 3 ]

/-- The calls of the test section "Peek next index": `a` to `e` are added, then `Remove(1)`,
`Remove(2)`. -/
def peekCalls : List (ListCall String) :=
  [ .add "a", .add "b", .add "c", .add "d", .add "e", .remove 1, .remove 2 ]

/-- The first calls of the test section "Recycle": `a` to `e` are added, then `Remove(0)`. -/
def recycleCalls : List (ListCall String) :=
  [ .add "a", .add "b", .add "c", .add "d", .add "e", .remove 0 ]

/-! ## Sequences of calls on a `RangeAllocator` -/

/-- A call of `CreateBlock`, `AcquireRange` or `ReleaseRange`. -/
inductive RangeCall (DataT : Type) where
  | createBlock (block_data : DataT)
  | acquireRange (size : Nat)
  | releaseRange (range : Range)

/-- An allocator together with the record of the ranges its client holds: the ranges that
`AcquireRange` returned (the null range, of size 0, apart) and that have not been released
since. -/
structure Ledger (DataT : Type) where
  alloc : RangeAllocator DataT
  held : List Range

namespace Ledger

variable {DataT : Type}

/-- The effect of one call on the allocator and on the record of held ranges.  A call that
throws (`AcquireRange(0)`) or that has no defined behaviour (`ReleaseRange` of a range whose
block iterator is not valid) leaves the state as it is. -/
def step (s : Ledger DataT) : RangeCall DataT → Ledger DataT
  | .createBlock block_data => { s with alloc := (s.alloc.CreateBlock block_data).2 }
  | .acquireRange size =>
    match s.alloc.AcquireRange size with
    | .ok (r, a1) => { alloc := a1, held := if r.size = 0 then s.held else r :: s.held }
    | .error _ => s
  | .releaseRange range =>
    match s.alloc.ReleaseRange range with
    | some (a1, _) => { alloc := a1, held := s.held.erase range }
    | none => s

/-- A newly constructed allocator, nothing held. -/
def start (block_size range_count_hint : Nat) : Ledger DataT :=
  { alloc := RangeAllocator.create block_size range_count_hint, held := [] }

/-- The state after a sequence of calls on a newly constructed allocator. -/
def run (block_size range_count_hint : Nat) (calls : List (RangeCall DataT)) : Ledger DataT :=
  calls.foldl step (start block_size range_count_hint)

/-- A sequence of calls in which every range released was returned by `AcquireRange` and has
not been released yet. -/
def CallsOk : Ledger DataT → List (RangeCall DataT) → Prop
  | _, [] => True
  | s, .releaseRange range :: rest =>
    range ∈ s.held ∧ CallsOk (s.step (.releaseRange range)) rest
  | s, .createBlock block_data :: rest => CallsOk (s.step (.createBlock block_data)) rest
  | s, .acquireRange size :: rest => CallsOk (s.step (.acquireRange size)) rest

end Ledger

/-- Two ranges do not overlap. -/
def Range.Apart (r s : Range) : Prop :=
  r.start + r.size ≤ s.start ∨ s.start + s.size ≤ r.start

/-- The first range ends before the second starts, with a gap between them. -/
def Range.Before (r s : Range) : Prop := r.start + r.size < s.start

/-- The ranges of a list that belong to the block at position `b`. -/
def heldIn (b : Nat) (held : List Range) : List Range :=
  held.filter (fun h => decide (h.block = some b))

/-- The total size of a list of ranges. -/
def sizeSum (l : List Range) : Nat := (l.map (fun r => r.size)).sum

/-- What every admissible sequence of calls keeps true of the block at position `b`: its
available ranges are separated by gaps, lie inside the block and carry the iterator of the
block; `used_count` counts the held ranges of the block; available and held ranges together
have the size of the block; no held range overlaps an available one; a block of size 0 keeps
its initial range. -/
structure BlockInv {DataT : Type} (B b : Nat) (blk : Block DataT) (held : List Range) :
    Prop where
  chain : blk.list_avail.Pairwise Range.Before
  bound : ∀ r ∈ blk.list_avail, r.start + r.size ≤ B
  owner : ∀ r ∈ blk.list_avail, r.block = some b
  count : blk.used_count = (heldIn b held).length
  total : sizeSum blk.list_avail + sizeSum (heldIn b held) = B
  apart : ∀ h ∈ heldIn b held, ∀ r ∈ blk.list_avail, h.Apart r
  zero : B = 0 → blk.list_avail = [{ start := 0, size := 0, block := some b }]

/-- What every admissible sequence of calls keeps true of the allocator and the record of
held ranges. -/
structure Ledger.Inv {DataT : Type} (s : Ledger DataT) : Prop where
  small : s.alloc.m_block_size < 4294967296
  blocks : ∀ b blk, s.alloc.m_list_blocks[b]? = some blk →
    BlockInv s.alloc.m_block_size b blk s.held
  held_ok : ∀ h ∈ s.held, 0 < h.size ∧ h.start + h.size ≤ s.alloc.m_block_size ∧
    ∃ b, h.block = some b ∧ b < s.alloc.m_list_blocks.length
  held_apart : s.held.Pairwise (fun h k => h.block = k.block → h.Apart k)

/-- Successive calls of `AcquireRange` with the given sizes: the ranges returned, in order
(a call that throws returns nothing). -/
def acquireAll {DataT : Type} (a : RangeAllocator DataT) : List Nat → List Range
  | [] => []
  | size :: rest =>
    match a.AcquireRange size with
    | .ok (r, a1) => r :: acquireAll a1 rest
    | .error _ => acquireAll a rest

/-- Ranges of the given sizes laid out one directly after the other, from `start` on, in the
block at position `b`. -/
def consecutive (b : Nat) : Nat → List Nat → List Range
  | _, [] => []
  | start, size :: rest =>
    { start := start, size := size, block := some b } :: consecutive b (start + size) rest

/-- An allocator with one block of which the part below `t` has been handed out by `k`
acquisitions and the rest is available. -/
def partlyUsed {DataT : Type} (B hint : Nat) (d : DataT) (t k : Nat) : RangeAllocator DataT :=
  { m_block_size := B
    m_range_count_hint := hint
    m_list_blocks :=
      [{ data := d
         used_count := k
         list_avail :=
           if t < B then [{ start := t, size := B - t, block := some 0 }] else [] }] }

/-- The calls of the test "Acquire Range < Block Size" before the acquisition of 50: a block
of size 100 is created and 25 is acquired twice. -/
def halfCalls : List (RangeCall Nat) := [ .createBlock 0, .acquireRange 25, .acquireRange 25 ]

/-- The calls of the test "Release Range" up to the release of `r1`: on a block of size 100,
25 and 25 are acquired, 75 fails, 50 is acquired, 1 fails; then `r2 = {50, 50}` and
`r0 = {0, 25}` are released, 25 is acquired again and `r1 = {25, 25}` is released. -/
def releaseCalls : List (RangeCall Nat) :=
  [ .createBlock 0, .acquireRange 25, .acquireRange 25, .acquireRange 75, .acquireRange 50,
    .acquireRange 1,
    .releaseRange { start := 50, size := 50, block := some 0 },
    .releaseRange { start := 0, size := 25, block := some 0 },
    .acquireRange 25,
    .releaseRange { start := 25, size := 25, block := some 0 } ]

/-- The end of the test "Release Range": after `releaseCalls`, 75 is acquired (`rf`), which
fills the block. -/
def filledCalls : List (RangeCall Nat) := releaseCalls ++ [ .acquireRange 75 ]

/-- The acquisitions of the test "Realistic usage": a block of size 900 is created and 60
ranges of size 15 are acquired. -/
def realisticCalls : List (RangeCall Nat) :=
  .createBlock 0 :: List.replicate 60 (.acquireRange 15)

/-- A shuffled order of the 60 ranges of "Realistic usage": the range at position `i` starts
at `15 * ((7 * i + 3) % 60)`. -/
def shuffled : List Range :=
  (List.range 60).map
    (fun i => { start := 15 * ((7 * i + 3) % 60), size := 15, block := some 0 })


/-! ## Cyclic fixtures and the count of valid entries -/

/-- Two properties that read each other: `a = 1` and `b = a + 1` are constructed, then `a` is
bound to `b + 1`.  The output edges `a -> b` and `b -> a` form a cycle. -/
def loopOps : List (Op Int) :=
  [ .construct "a" 1 false,
    .constructBound "b" (.get 0 fun a => .ret (a + 1)) false,
    .bind 0 (.get 1 fun b => .ret (b + 1)) ]

/-- The graph of the two properties that read each other. -/
def loopWorld : World Int := runOps loopOps

/-- The number of valid entries of a `RecycleIndexList`: the number of indices `i` for which
`GetValid(i)` is true. -/
def RecycleIndexList.validCount {α : Type} (l : RecycleIndexList α) : Nat :=
  (List.range l.m_list_valid.length).countP (fun i => l.GetValid i)

/-- The calls `Add("a"); Clear();`. -/
def clearCalls : List (ListCall String) := [ .add "a", .clear ]

namespace image_detail

namespace png_data_1_16

/-- `png_data<1,16>::assign(list_bytes, list_pixels)`: the loop
`for(i = 0; i < list_bytes.size(); i += 2)` takes the bytes two at a time and appends the pixel
`(static_cast<u16>(list_bytes[i+1]) << 8) | list_bytes[i]`, converted to the 16-bit channel of
the pixel.  With a single byte left `list_bytes[i+1]` is a read past the end of the vector:
`none`. -/
def assign : List Nat → List Nat → Option (List Nat)
  | [], list_pixels => some list_pixels
  | [_], _ => none
  | byte0 :: byte1 :: rest, list_pixels =>
    assign rest (list_pixels ++ [((byte1 <<< 8) ||| byte0) % 65536])

end png_data_1_16

end image_detail

/-- `LoadPNGFormat(png_data, color_type, bit_depth)` on a byte vector: the value returned and
the two output parameters afterwards, as `(result, color_type, bit_depth)`; `.error i` when the
element access `png_data[i]` is past the end of the vector. -/
def LoadPNGFormat (png_data : List Nat) (color_type bit_depth : Nat) :
    Except Nat (Bool × Nat × Nat) :=
  if png_data.isEmpty || decide (png_data.length < 25) then .ok (false, color_type, bit_depth)
  else
    match png_data[24]? with
    | none => .error 24
    | some depth =>
      match png_data[25]? with
      | none => .error 25
      | some ctype => .ok (true, ctype, depth)

/-- The first 25 bytes of a PNG file of width 1 and height 1 with bit depth 8: the signature,
the length and the name of the `IHDR` chunk, the width, the height and the bit depth.  The
color type would be the next byte. -/
def truncatedHeader : List Nat :=
  [137, 80, 78, 71, 13, 10, 26, 10, 0, 0, 0, 13, 73, 72, 68, 82, 0, 0, 0, 1, 0, 0, 0, 1, 8]

/-! ## `BinPackShelf` (`ks/shared/KsBinPackShelf.cpp`) -/

/-- `BinPackRectangle`; the coordinates and sizes are `uint`. -/
structure BinPackRectangle where
  x : Nat
  y : Nat
  width : Nat
  height : Nat
  flipped : Bool

/-- The members of `BinPackShelf`, all of type `uint`. -/
structure BinPackShelf where
  m_width : Nat
  m_height : Nat
  m_place_x : Nat
  m_place_y : Nat
  m_shelf_y : Nat
  m_spacing : Nat

namespace BinPackShelf

/-- The constructor `BinPackShelf(width, height, spacing)`. -/
def create (width height spacing : Nat) : BinPackShelf :=
  { m_width := width, m_height := height, m_place_x := 0, m_place_y := 0, m_shelf_y := 0,
    m_spacing := spacing }

/-- The statements "advance place" and "adjust shelf" of the two branches in which the
rectangle fits. -/
def place (b : BinPackShelf) (rect_right rect_bottom : Nat) : BinPackShelf :=
  { b with
    m_place_x := rect_right
    m_shelf_y := if b.m_shelf_y < rect_bottom then rect_bottom else b.m_shelf_y }

/-- `AddRectangle(rect)`: the value returned, the rectangle and the bin afterwards.  The sums
are taken modulo 2^32. -/
def AddRectangle (b : BinPackShelf) (rect : BinPackRectangle) :
    Bool × BinPackRectangle × BinPackShelf :=
  let rect1 : BinPackRectangle :=
    { rect with
      x := (b.m_place_x + b.m_spacing) % 4294967296
      y := (b.m_place_y + b.m_spacing) % 4294967296 }
  let rect_right := (rect1.x + rect1.width) % 4294967296
  let rect_bottom := (rect1.y + rect1.height) % 4294967296
  if rect_bottom < b.m_height then
    if rect_right < b.m_width then
      (true, rect1, b.place rect_right rect_bottom)
    else
      let b1 : BinPackShelf := { b with m_place_x := 0, m_place_y := b.m_shelf_y }
      let rect2 : BinPackRectangle :=
        { rect1 with
          x := (b1.m_place_x + b1.m_spacing) % 4294967296
          y := (b1.m_place_y + b1.m_spacing) % 4294967296 }
      let rect_right2 := (rect2.x + rect2.width) % 4294967296
      let rect_bottom2 := (rect2.y + rect2.height) % 4294967296
      if rect_bottom2 < b1.m_height then
        if rect_right2 < b1.m_width then
          (true, rect2, b1.place rect_right2 rect_bottom2)
        else (false, rect2, b1)
      else (false, rect2, b1)
  else (false, rect1, b)

/-- The rectangles for which successive calls of `AddRectangle` returned true, as the calls
left them, in the order of the calls. -/
def accepted (b : BinPackShelf) : List BinPackRectangle → List BinPackRectangle
  | [] => []
  | rect :: rest =>
    if (b.AddRectangle rect).1 then
      (b.AddRectangle rect).2.1 :: accepted (b.AddRectangle rect).2.2 rest
    else accepted (b.AddRectangle rect).2.2 rest

/-- The bin after successive calls of `AddRectangle`. -/
def addAll (b : BinPackShelf) (rects : List BinPackRectangle) : BinPackShelf :=
  rects.foldl (fun s rect => (s.AddRectangle rect).2.2) b

/-- No sum computed by `AddRectangle(rect)` exceeds the range of `uint`: the two sums of the
first placement and, when the jump to the next shelf is tried, the two sums of the second
placement. -/
def Fits32 (b : BinPackShelf) (rect : BinPackRectangle) : Prop :=
  b.m_place_x + b.m_spacing + rect.width < 4294967296 ∧
  b.m_place_y + b.m_spacing + rect.height < 4294967296 ∧
  (b.m_place_y + b.m_spacing + rect.height < b.m_height →
    ¬ b.m_place_x + b.m_spacing + rect.width < b.m_width →
    b.m_shelf_y + b.m_spacing + rect.height < 4294967296)

/-- No call of a sequence of `AddRectangle` calls overflows. -/
def NoOverflow : BinPackShelf → List BinPackRectangle → Prop
  | _, [] => True
  | b, rect :: rest => b.Fits32 rect ∧ NoOverflow (b.AddRectangle rect).2.2 rest

end BinPackShelf

/-- Two rectangles do not overlap: one lies to the left of the other or above it. -/
def BinPackRectangle.Apart (r s : BinPackRectangle) : Prop :=
  r.x + r.width ≤ s.x ∨ s.x + s.width ≤ r.x ∨ r.y + r.height ≤ s.y ∨ s.y + s.height ≤ r.y

/-- What every sequence of calls without overflow keeps true of the bin and of a set of placed
rectangles: each lies inside the bin and ends at or before `m_shelf_y`, and each either ends at
or before `m_place_y` (it stands on an earlier shelf) or ends at or before `m_place_x` (it
stands on the current shelf, to the left of the next placement). -/
def BinPackShelf.Packed (b : BinPackShelf) (placed : List BinPackRectangle) : Prop :=
  ∀ r ∈ placed, r.x + r.width < b.m_width ∧ r.y + r.height < b.m_height ∧
    r.y + r.height ≤ b.m_shelf_y ∧ (r.y + r.height ≤ b.m_place_y ∨ r.x + r.width ≤ b.m_place_x)

/-- A sequence of calls on a bin of width 10 and height 10 with spacing 1: 4x3 is placed at
(1,1); 5x2 does not fit beside it and is placed on the next shelf at (1,5); 9x1 fits on no
shelf and is rejected; 2x1 is placed at (1,8). -/
def shelfCalls : List BinPackRectangle :=
  [ { x := 0, y := 0, width := 4, height := 3, flipped := false },
    { x := 0, y := 0, width := 5, height := 2, flipped := false },
    { x := 0, y := 0, width := 9, height := 1, flipped := false },
    { x := 0, y := 0, width := 2, height := 1, flipped := false } ]


/-! ## `RemoveNode` with every element access checked -/

/-- What stops a call before it returns: an element access `v[index]` on a vector of `size`
elements with `size <= index`, a `back()` or `pop_back()` on an empty vector (each is
undefined behaviour in the source), or the bound on the recursion depth of the model. -/
inductive Fault where
  | outOfRange (index size : Nat)
  | emptyVector
  | depth
  deriving DecidableEq

namespace RecycleIndexList

/-- The trimming loop of `RemoveHelper<T,I,Policy::Resize>::remove` with every access
checked: `m_list_valid.back()` needs a flag, and the three `pop_back` calls need an element in
`m_list`, in `m_list_valid` and in `m_list_avail`.  The first argument bounds the number of
iterations. -/
def trimChecked {α : Type} : Nat → RecycleIndexList α → Except Fault (RecycleIndexList α)
  | 0, _ => .error .depth
  | fuel + 1, l =>
    match l.m_list_valid.getLast? with
    | none => .error .emptyVector
    | some flag =>
      if flag = k_invalid then
        if l.m_list.isEmpty || l.m_list_avail.isEmpty then .error .emptyVector
        else if l.popBack.m_list_valid.isEmpty then .ok l.popBack
        else trimChecked fuel l.popBack
      else .ok l

/-- `Remove(index)` for the policy `Resize` with every access checked: the assignments
`m_list[index] = T()` and `m_list_valid[index] = k_invalid` need `index` inside both vectors;
the trimming loop follows. -/
def RemoveChecked {α : Type} (l : RecycleIndexList α) (dflt : α) (index : Nat) :
    Except Fault (RecycleIndexList α) :=
  if l.m_list.length ≤ index then .error (.outOfRange index l.m_list.length)
  else if l.m_list_valid.length ≤ index then .error (.outOfRange index l.m_list_valid.length)
  else trimChecked (l.markRemoved dflt index).m_list_valid.length (l.markRemoved dflt index)

end RecycleIndexList

namespace Graph

/-- An access `m_list_nodes[index]` followed by an assignment through it, with the access
checked: `RecycleIndexList::operator[]` is `m_list[index]` and needs `index` inside the
vector. -/
def modifyChecked {T : Type} [Inhabited T] (g : Graph T) (index : Nat) (f : Node T → Node T) :
    Except Fault (Graph T) :=
  if index < g.m_list_nodes.m_list.length then .ok (g.modify index f)
  else .error (.outOfRange index g.m_list_nodes.m_list.length)

/-- A range-based `for` loop over a list of indices whose body can stop the call. -/
def forEach {T : Type} (body : Graph T → Nat → Except Fault (Graph T)) :
    List Nat → Graph T → Except Fault (Graph T)
  | [], g => .ok g
  | index :: rest, g =>
    match body g index with
    | .error e => .error e
    | .ok s => forEach body rest s

/-- `RemoveNode(node, rem_orphans)` with every element access checked; the statements are
those of `removeNode`, in the same order.  `m_list_nodes[node]` is accessed when the references
`list_inputs` and `list_outputs` are taken and again for `m_list_nodes[node].valid = false`;
`m_list_nodes[input]` and `m_list_nodes[output]` are accessed in the loops; `Remove(node)`
accesses the three vectors.  The recursive calls can shorten the vector (the trimming loop of
`Remove`), so that an index that was inside the vector when the call began can be past its end
later.  As in `removeNode`, the loops run over the lists as they are when the loop starts.
The first argument bounds the recursion depth. -/
def removeNodeChecked {T : Type} [Inhabited T] :
    Nat → Graph T → Nat → Bool → Except Fault (Graph T)
  | 0, _, _, _ => .error .depth
  | fuel + 1, g, node, rem_orphans =>
    if g.m_list_nodes.m_list.length ≤ node then
      .error (.outOfRange node g.m_list_nodes.m_list.length)
    else
      match forEach
        (fun s input =>
          s.modifyChecked input (fun n => { n with outputs := eraseAll n.outputs node }))
        (nodeOf g.m_list_nodes.m_list node).inputs g with
      | .error e => .error e
      | .ok g1 =>
        let g2 := g1.modify node (fun n => { n with inputs := [] })
        match forEach
          (fun s output =>
            match s.modifyChecked output
              (fun n => { n with inputs := eraseAll n.inputs node }) with
            | .error e => .error e
            | .ok s1 =>
              if rem_orphans && (nodeOf s1.m_list_nodes.m_list output).inputs.isEmpty then
                removeNodeChecked fuel s1 output true
              else .ok s1)
          (nodeOf g2.m_list_nodes.m_list node).outputs g2 with
        | .error e => .error e
        | .ok g3 =>
          if g3.m_list_nodes.m_list.length ≤ node then
            .error (.outOfRange node g3.m_list_nodes.m_list.length)
          else
            let g4 := g3.modify node (fun n => { n with outputs := [] })
            let g5 := g4.modify node (fun n => { n with valid := false })
            match g5.m_list_nodes.RemoveChecked (Node.null T) node with
            | .error e => .error e
            | .ok list_nodes =>
              .ok { g5 with m_list_nodes := list_nodes,
                            m_node_count := wrap32 (g5.m_node_count - 1) }

/-- `RemoveNode(node, rem_orphans)` with every element access checked and a recursion bound
of one more than the length of the node list. -/
def RemoveNodeChecked {T : Type} [Inhabited T] (g : Graph T) (node : Nat)
    (rem_orphans : Bool) : Except Fault (Graph T) :=
  removeNodeChecked (g.m_list_nodes.m_list.length + 1) g node rem_orphans

end Graph

/-- Two nodes `n`, `m` (indices 0, 1) and the edge `n -> m` added twice: `AddNode("n")`,
`AddNode("m")`, `AddEdge(0,1)`, `AddEdge(0,1)`.  The node `m` is in the last slot of the node
list. -/
def parallelPair : Graph String :=
  addEdges (addNodes Graph.empty ["n", "m"]) [(0, 1), (0, 1)]

/-- Two nodes `n`, `m` (indices 0, 1) and the edge `n -> m` added once. -/
def edgePair : Graph String :=
  addEdges (addNodes Graph.empty ["n", "m"]) [(0, 1)]

end ks

/-! ## Depth-first traversal: correctness -/

namespace ks

theorem visitOutputs_nil (outputs : Nat → List Nat) (fuel : Nat) (st : SortState) :
    visitOutputs outputs fuel [] st = st := rfl

theorem visitOutputs_cons (outputs : Nat → List Nat) (fuel : Nat) (c : Nat) (l : List Nat)
    (st : SortState) :
    visitOutputs outputs fuel (c :: l) st =
      visitOutputs outputs fuel l
        (if st.state c = 0 then topologicalSort outputs fuel c st else st) := rfl

theorem topologicalSort_succ (outputs : Nat → List Nat) (fuel index : Nat) (st : SortState)
    (h : st.state index = 0) :
    topologicalSort outputs (fuel + 1) index st =
      { state := setState
          (visitOutputs outputs fuel (outputs index)
            { st with state := setState st.state index 1 }).state index 2,
        sorted := (visitOutputs outputs fuel (outputs index)
            { st with state := setState st.state index 1 }).sorted ++ [index] } := by
  simp [topologicalSort, visitOutputs, h]

theorem Extends.refl (outputs : Nat → List Nat) (src : Nat → Prop) (st : SortState) :
    Extends outputs src st st [] :=
  ⟨by simp, by simp, by simp, by simp, by simp, by simp⟩

theorem Extends.state_zero {outputs : Nat → List Nat} {src : Nat → Prop} {st st' : SortState}
    {new : List Nat} (h : Extends outputs src st st' new) (v : Nat) (hv : st'.state v = 0) :
    st.state v = 0 := by
  have := h.state_eq v
  by_cases hm : v ∈ new
  · simp [hm] at this; omega
  · simp [hm] at this; omega

theorem Extends.state_one {outputs : Nat → List Nat} {src : Nat → Prop} {st st' : SortState}
    {new : List Nat} (h : Extends outputs src st st' new) (v : Nat) :
    st'.state v = 1 ↔ st.state v = 1 := by
  have := h.state_eq v
  have hw := h.white v
  by_cases hm : v ∈ new
  · simp [hm] at this; have := hw hm; omega
  · simp [hm] at this; omega

theorem Extends.inv {outputs : Nat → List Nat} {src : Nat → Prop} {st st' : SortState}
    {new : List Nat} (h : Extends outputs src st st' new) (hi : SortInv st) : SortInv st' := by
  intro v
  have h1 := h.state_eq v
  have h2 := hi v
  rw [h.sorted_eq, List.mem_append]
  by_cases hm : v ∈ new
  · simp [hm] at h1; simp [hm, h1]
  · simp [hm] at h1; rw [h1]; simp [hm, h2]

theorem Extends.trans {outputs : Nat → List Nat} {src1 src2 src : Nat → Prop}
    {st st1 st2 : SortState} {n1 n2 : List Nat}
    (h1 : Extends outputs src1 st st1 n1) (h2 : Extends outputs src2 st1 st2 n2)
    (hs1 : ∀ c, src1 c → src c) (hs2 : ∀ c, src2 c → src c) :
    Extends outputs src st st2 (n1 ++ n2) := by
  have hdisj : ∀ v, v ∈ n1 → v ∈ n2 → False := by
    intro v hv1 hv2
    have a := h1.state_eq v
    have b := h2.white v hv2
    simp [hv1] at a; omega
  refine ⟨?_, ?_, ?_, ?_, ?_, ?_⟩
  · rw [h2.sorted_eq, h1.sorted_eq, List.append_assoc]
  · intro v
    have a := h1.state_eq v
    have b := h2.state_eq v
    by_cases hv2 : v ∈ n2
    · simp [hv2] at b; simp [hv2, b]
    · by_cases hv1 : v ∈ n1
      · simp [hv1] at a; simp [hv2] at b; simp [hv1, b, a]
      · simp [hv1] at a; simp [hv2] at b; simp [hv1, hv2, b, a]
  · intro v hv
    rcases List.mem_append.1 hv with hv | hv
    · exact h1.white v hv
    · exact h1.state_zero v (h2.white v hv)
  · exact List.nodup_append.2 ⟨h1.nodup, h2.nodup, fun v a b => hdisj v a b⟩
  · intro v hv
    rcases List.mem_append.1 hv with hv | hv
    · obtain ⟨c, hc, hr⟩ := h1.reach v hv; exact ⟨c, hs1 c hc, hr⟩
    · obtain ⟨c, hc, hr⟩ := h2.reach v hv; exact ⟨c, hs2 c hc, hr⟩
  · intro u hu v hv
    rcases List.mem_append.1 hu with hu | hu
    · rcases h1.order u hu v hv with h | h | ⟨h, h'⟩
      · left
        rw [h2.sorted_eq]
        exact h.trans (List.sublist_append_left _ _)
      · exact Or.inr (Or.inl h)
      · exact Or.inr (Or.inr ⟨List.mem_append_left _ h, h'⟩)
    · rcases h2.order u hu v hv with h | h | ⟨h, h'⟩
      · exact Or.inl h
      · exact Or.inr (Or.inl ((h1.state_one v).1 h))
      · exact Or.inr (Or.inr ⟨List.mem_append_right _ h, h'⟩)

theorem whiteCard_mono (U : Finset Nat) (st st' : SortState)
    (h : ∀ v, st'.state v = 0 → st.state v = 0) : whiteCard U st' ≤ whiteCard U st := by
  unfold whiteCard
  apply Finset.card_le_card
  intro v hv
  simp only [Finset.mem_filter] at hv ⊢
  exact ⟨hv.1, h v hv.2⟩

theorem whiteCard_lt (U : Finset Nat) (st : SortState) (n : Nat) (hn : n ∈ U)
    (hw : st.state n = 0) :
    whiteCard U { st with state := setState st.state n 1 } < whiteCard U st := by
  unfold whiteCard
  apply Finset.card_lt_card
  rw [Finset.ssubset_iff_of_subset]
  · refine ⟨n, by simp [hn, hw], by simp [setState]⟩
  · intro v hv
    simp only [Finset.mem_filter, setState] at hv ⊢
    refine ⟨hv.1, ?_⟩
    by_cases h : v = n
    · simp [h] at hv
    · simpa [h] using hv.2

theorem visitOutputs_spec (outputs : Nat → List Nat) (U : Finset Nat) (fuel : Nat)
    (ih : ∀ n st, n ∈ U → SortInv st → st.state n = 0 → whiteCard U st < fuel →
      ∃ new, Extends outputs (fun c => c = n) st (topologicalSort outputs fuel n st) new
        ∧ n ∈ new) :
    ∀ (l : List Nat) (s : SortState), (∀ c ∈ l, c ∈ U) → SortInv s → whiteCard U s < fuel →
      ∃ new, Extends outputs (fun c => c ∈ l) s (visitOutputs outputs fuel l s) new
        ∧ ∀ c ∈ l, (visitOutputs outputs fuel l s).state c ≠ 0 := by
  intro l
  induction l with
  | nil =>
    intro s _ _ _
    exact ⟨[], Extends.refl _ _ _, by simp⟩
  | cons c l ihl =>
    intro s hU hi hf
    rw [visitOutputs_cons]
    by_cases hc : s.state c = 0
    · rw [if_pos hc]
      obtain ⟨n1, e1, hcn⟩ := ih c s (hU c (by simp)) hi hc hf
      have hf' : whiteCard U (topologicalSort outputs fuel c s) < fuel :=
        lt_of_le_of_lt (whiteCard_mono U _ _ e1.state_zero) hf
      obtain ⟨n2, e2, hall⟩ := ihl _ (fun x hx => hU x (by simp [hx])) (e1.inv hi) hf'
      refine ⟨n1 ++ n2, Extends.trans e1 e2 (by intro x hx; simp [hx]) (by intro x hx; simp [hx]),
        ?_⟩
      intro x hx
      rcases List.mem_cons.1 hx with hx | hx
      · subst hx
        intro h0
        have h1 := e2.state_zero _ h0
        have h2 := e1.state_eq x
        simp [hcn] at h2
        omega
      · exact hall x hx
    · rw [if_neg hc]
      obtain ⟨n2, e2, hall⟩ := ihl s (fun x hx => hU x (by simp [hx])) hi hf
      refine ⟨[] ++ n2, Extends.trans (Extends.refl outputs (fun _ => False) s) e2
        (by intro x hx; exact hx.elim) (by intro x hx; simp [hx]), ?_⟩
      intro x hx
      rcases List.mem_cons.1 hx with hx | hx
      · subst hx
        intro h0
        exact hc (e2.state_zero _ h0)
      · exact hall x hx

theorem topologicalSort_spec (outputs : Nat → List Nat) (U : Finset Nat)
    (hU : ∀ u ∈ U, ∀ v ∈ outputs u, v ∈ U) :
    ∀ (fuel n : Nat) (st : SortState), n ∈ U → SortInv st → st.state n = 0 →
      whiteCard U st < fuel →
      ∃ new, Extends outputs (fun c => c = n) st (topologicalSort outputs fuel n st) new
        ∧ n ∈ new := by
  intro fuel
  induction fuel with
  | zero => intro n st _ _ _ h; omega
  | succ fuel ih =>
    intro n st hn hi hw hf
    rw [topologicalSort_succ outputs fuel n st hw]
    have hi1 : SortInv { st with state := setState st.state n 1 } := by
      intro v
      have := hi v
      by_cases hv : v = n
      · subst hv; simp [setState, this, hw]
      · simp [setState, hv, this]
    have hf1 : whiteCard U { st with state := setState st.state n 1 } < fuel := by
      have := whiteCard_lt U st n hn hw
      omega
    obtain ⟨nl, e, hall⟩ := visitOutputs_spec outputs U fuel ih (outputs n)
      { st with state := setState st.state n 1 } (fun c hc => hU n hn c hc) hi1 hf1
    have hi' := e.inv hi1
    have hnl : n ∉ nl := by
      intro h
      have := e.white n h
      simp [setState] at this
    refine ⟨nl ++ [n], ⟨?_, ?_, ?_, ?_, ?_, ?_⟩, by simp⟩
    · simp [e.sorted_eq]
    · intro v
      have := e.state_eq v
      by_cases hv : v = n
      · subst hv; simp [setState]
      · simp only [setState, hv, if_false] at this ⊢
        simp [this, hv]
    · intro v hv
      rcases List.mem_append.1 hv with hv | hv
      · have := e.white v hv
        by_cases h : v = n
        · subst h; exact hw
        · simpa [setState, h] using this
      · simp at hv; subst hv; exact hw
    · exact List.nodup_append.2 ⟨e.nodup, by simp, by
        intro a ha hb; simp at hb; subst hb; exact hnl ha⟩
    · intro v hv
      refine ⟨n, rfl, ?_⟩
      rcases List.mem_append.1 hv with hv | hv
      · obtain ⟨c, hc, hr⟩ := e.reach v hv
        exact Relation.ReflTransGen.head hc hr
      · simp at hv; subst hv; exact Relation.ReflTransGen.refl
    · intro u hu v hv
      rcases List.mem_append.1 hu with hu | hu
      · have hru : Reach outputs n u := by
          obtain ⟨c, hc, hr⟩ := e.reach u hu
          exact Relation.ReflTransGen.head hc hr
        rcases e.order u hu v hv with h | h | ⟨h, h'⟩
        · exact Or.inl (h.trans (List.sublist_append_left _ _))
        · by_cases hvn : v = n
          · subst hvn; exact Or.inr (Or.inr ⟨by simp, hru⟩)
          · simp [setState, hvn] at h; exact Or.inr (Or.inl h)
        · exact Or.inr (Or.inr ⟨List.mem_append_left _ h, h'⟩)
      · simp at hu; subst hu
        have h0 := hall v hv
        by_cases h1 : (visitOutputs outputs fuel (outputs u)
            { st with state := setState st.state u 1 }).state v = 1
        · have h1' := (e.state_one v).1 h1
          by_cases hvn : v = u
          · subst hvn; exact Or.inr (Or.inr ⟨by simp, Relation.ReflTransGen.refl⟩)
          · simp [setState, hvn] at h1'; exact Or.inr (Or.inl h1')
        · left
          have hm : v ∈ _ := (hi' v).2 ⟨h0, h1⟩
          exact List.Sublist.append (List.singleton_sublist.2 hm) (List.Sublist.refl [u])

/-- Result of a whole traversal started with every marker unvisited: the pushed vertices are
the vertices reachable from the start, each once; every output of a pushed vertex is pushed
too, and it is pushed earlier unless it lies on a cycle through that vertex. -/
theorem topologicalSort_fresh (outputs : Nat → List Nat) (U : Finset Nat)
    (hU : ∀ u ∈ U, ∀ v ∈ outputs u, v ∈ U) (fuel n : Nat) (hn : n ∈ U) (hf : U.card < fuel) :
    (topologicalSort outputs fuel n ⟨fun _ => 0, []⟩).sorted.Nodup ∧
    (∀ v, v ∈ (topologicalSort outputs fuel n ⟨fun _ => 0, []⟩).sorted ↔ Reach outputs n v) ∧
    (∀ u ∈ (topologicalSort outputs fuel n ⟨fun _ => 0, []⟩).sorted, ∀ v ∈ outputs u,
      List.Sublist [v, u] (topologicalSort outputs fuel n ⟨fun _ => 0, []⟩).sorted
        ∨ Reach outputs v u) := by
  have hi : SortInv ⟨fun _ => 0, []⟩ := by intro v; simp
  have hw : whiteCard U ⟨fun _ => 0, []⟩ < fuel := by
    refine lt_of_le_of_lt ?_ hf
    unfold whiteCard
    exact Finset.card_le_card (Finset.filter_subset _ _)
  obtain ⟨new, e, hnn⟩ := topologicalSort_spec outputs U hU fuel n ⟨fun _ => 0, []⟩ hn hi rfl hw
  have hs : (topologicalSort outputs fuel n ⟨fun _ => 0, []⟩).sorted = new := by
    simpa using e.sorted_eq
  have hord : ∀ u ∈ new, ∀ v ∈ outputs u,
      List.Sublist [v, u] new ∨ (v ∈ new ∧ Reach outputs v u) := by
    intro u hu v hv
    rcases e.order u hu v hv with h | h | h
    · rw [hs] at h; exact Or.inl h
    · simp at h
    · exact Or.inr h
  have hclosed : ∀ u ∈ new, ∀ v ∈ outputs u, v ∈ new := by
    intro u hu v hv
    rcases hord u hu v hv with h | h
    · exact h.subset (by simp)
    · exact h.1
  rw [hs]
  refine ⟨e.nodup, ?_, ?_⟩
  · intro v
    constructor
    · intro hv
      obtain ⟨c, hc, hr⟩ := e.reach v hv
      subst hc; exact hr
    · intro hr
      induction hr with
      | refl => exact hnn
      | tail _ hbc ih => exact hclosed _ ih _ hbc
  · intro u hu v hv
    rcases hord u hu v hv with h | h
    · exact Or.inl h
    · exact Or.inr h.2


end ks

/-! ## Basic facts about the heap operations -/

namespace ks

variable {T : Type}

@[simp] theorem props_modify (w : World T) (p : Nat) (f : DynamicProperty T → DynamicProperty T)
    (q : Nat) : (w.modify p f).props q = if q = p then f (w.props q) else w.props q := rfl

@[simp] theorem count_modify (w : World T) (p : Nat) (f : DynamicProperty T → DynamicProperty T) :
    (w.modify p f).count = w.count := rfl

@[simp] theorem current_modify (w : World T) (p : Nat)
    (f : DynamicProperty T → DynamicProperty T) : (w.modify p f).current = w.current := rfl

@[simp] theorem trace_modify (w : World T) (p : Nat) (f : DynamicProperty T → DynamicProperty T) :
    (w.modify p f).trace = w.trace := rfl

@[simp] theorem props_log (w : World T) (e : Event T) : (w.log e).props = w.props := rfl

@[simp] theorem count_log (w : World T) (e : Event T) : (w.log e).count = w.count := rfl

@[simp] theorem current_log (w : World T) (e : Event T) : (w.log e).current = w.current := rfl

@[simp] theorem trace_log (w : World T) (e : Event T) : (w.log e).trace = w.trace ++ [e] := rfl

@[simp] theorem props_setCurrent (w : World T) (c : Option Nat) :
    (setCurrent w c).props = w.props := rfl

@[simp] theorem count_setCurrent (w : World T) (c : Option Nat) :
    (setCurrent w c).count = w.count := rfl

@[simp] theorem current_setCurrent (w : World T) (c : Option Nat) :
    (setCurrent w c).current = c := rfl

@[simp] theorem trace_setCurrent (w : World T) (c : Option Nat) :
    (setCurrent w c).trace = w.trace := rfl

/-- Generic induction principle for loops written as a left fold. -/
theorem foldl_invariant {α β : Type} (P : β → Prop) (f : β → α → β)
    (h : ∀ b a, P b → P (f b a)) : ∀ (l : List α) (b : β), P b → P (l.foldl f b) := by
  intro l
  induction l with
  | nil => intro b hb; exact hb
  | cons a l ih => intro b hb; exact ih _ (h b a hb)

/-- Loop invariant principle where the body is only known to preserve the invariant for the
elements of the list. -/
theorem foldl_invariant_mem {α β : Type} (P : β → Prop) (f : β → α → β) :
    ∀ (l : List α) (b : β), (∀ b a, a ∈ l → P b → P (f b a)) → P b → P (l.foldl f b) := by
  intro l
  induction l with
  | nil => intro b _ hb; exact hb
  | cons a l ih =>
    intro b h hb
    exact ih _ (fun b x hx hp => h b x (by simp [hx]) hp) (h b a (by simp) hb)

/-! ### `registerInput`, `captureAsInput` and the steps of a binding -/

theorem mem_inputs_registerInput (w : World T) (this input_prop a b : Nat) :
    a ∈ (registerInput w this input_prop).inputs b ↔
      a ∈ w.inputs b ∨ (b = this ∧ a = input_prop) := by
  unfold registerInput
  by_cases h1 : input_prop ∈ w.inputs this <;> simp only [h1, if_true, if_false]
  · by_cases h2 : this ∈ w.outputs input_prop <;> simp only [h2, if_true, if_false]
    · constructor
      · exact Or.inl
      · rintro (h | ⟨rfl, rfl⟩)
        · exact h
        · exact h1
    · simp only [World.inputs, props_modify]
      by_cases hb : b = input_prop
      · simp only [hb, if_true]
        constructor
        · exact Or.inl
        · rintro (h | ⟨h', rfl⟩)
          · exact h
          · rw [← h'] at h1; exact h1
      · simp only [hb, if_false]
        constructor
        · exact Or.inl
        · rintro (h | ⟨rfl, rfl⟩)
          · exact h
          · exact h1
  · have key : ∀ w' : World T, w'.inputs = (w.modify this
        (fun c => { c with m_list_inputs := c.m_list_inputs ++ [input_prop] })).inputs →
        (a ∈ w'.inputs b ↔ a ∈ w.inputs b ∨ (b = this ∧ a = input_prop)) := by
      intro w' hw'
      rw [hw']
      simp only [World.inputs, props_modify]
      by_cases hb : b = this
      · subst hb; simp
      · simp [hb]
    split
    · exact key _ rfl
    · apply key
      funext x
      simp only [World.inputs, props_modify]
      split <;> split <;> rfl

theorem mem_outputs_registerInput (w : World T) (this input_prop a b : Nat) :
    b ∈ (registerInput w this input_prop).outputs a ↔
      b ∈ w.outputs a ∨ (a = input_prop ∧ b = this) := by
  have hout : ∀ (w0 : World T), (if input_prop ∈ w0.inputs this then w0
      else w0.modify this
        (fun c => { c with m_list_inputs := c.m_list_inputs ++ [input_prop] })).outputs
      = w0.outputs := by
    intro w0
    split
    · rfl
    · funext x
      simp only [World.outputs, props_modify]
      split <;> rfl
  unfold registerInput
  simp only []
  rw [hout w]
  split
  · rw [hout w]
    constructor
    · exact Or.inl
    · rintro (h | ⟨rfl, rfl⟩)
      · exact h
      · assumption
  · simp only [World.outputs, props_modify]
    have := congrFun (hout w)
    simp only [World.outputs] at this
    by_cases ha : a = input_prop
    · subst ha; simp [this]
    · simp [ha, this]

end ks

namespace ks

variable {T : Type}

theorem sameCore_refl (w : World T) : SameCore w w :=
  ⟨rfl, rfl, rfl, fun _ => rfl, fun _ => rfl, fun _ => rfl, fun _ => rfl, fun _ => rfl⟩

theorem sameCore_trans {w1 w2 w3 : World T} (h : SameCore w1 w2) (h' : SameCore w2 w3) :
    SameCore w1 w3 :=
  ⟨h'.count.trans h.count, h'.current.trans h.current, h'.trace.trans h.trace,
    fun q => (h'.value q).trans (h.value q), fun q => (h'.binding q).trans (h.binding q),
    fun q => (h'.init q).trans (h.init q), fun q => (h'.notifier q).trans (h.notifier q),
    fun q => (h'.name q).trans (h.name q)⟩

/-- Changing only adjacency lists or the capture flag of one property keeps the core. -/
theorem sameCore_modify (w : World T) (p : Nat) (f : DynamicProperty T → DynamicProperty T)
    (hv : ∀ c, (f c).m_value = c.m_value) (hb : ∀ c, (f c).m_binding = c.m_binding)
    (hi : ∀ c, (f c).m_binding_init = c.m_binding_init)
    (hn : ∀ c, (f c).m_notifier = c.m_notifier) (hm : ∀ c, (f c).m_name = c.m_name) :
    SameCore w (w.modify p f) := by
  refine ⟨rfl, rfl, rfl, ?_, ?_, ?_, ?_, ?_⟩ <;> intro q <;> simp only [props_modify] <;>
    split <;> simp [*]

theorem sameCore_modify_inputs (w : World T) (p : Nat) (g : List Nat → List Nat) :
    SameCore w (w.modify p (fun c => { c with m_list_inputs := g c.m_list_inputs })) :=
  sameCore_modify w _ _ (fun _ => rfl) (fun _ => rfl) (fun _ => rfl) (fun _ => rfl)
    (fun _ => rfl)

theorem sameCore_modify_outputs (w : World T) (p : Nat) (g : List Nat → List Nat) :
    SameCore w (w.modify p (fun c => { c with m_list_outputs := g c.m_list_outputs })) :=
  sameCore_modify w _ _ (fun _ => rfl) (fun _ => rfl) (fun _ => rfl) (fun _ => rfl)
    (fun _ => rfl)

theorem sameCore_modify_flag (w : World T) (p : Nat) (b : Bool) :
    SameCore w (w.modify p (fun c => { c with m_capture_failed := b })) :=
  sameCore_modify w _ _ (fun _ => rfl) (fun _ => rfl) (fun _ => rfl) (fun _ => rfl)
    (fun _ => rfl)

theorem sameCore_registerInput (w : World T) (this input_prop : Nat) :
    SameCore w (registerInput w this input_prop) := by
  unfold registerInput
  have hm : ∀ (w0 : World T) (p : Nat) (g : List Nat → List Nat),
      SameCore w0 (w0.modify p (fun c => { c with m_list_inputs := g c.m_list_inputs })) :=
    fun w0 p g => sameCore_modify w0 _ _ (fun _ => rfl) (fun _ => rfl) (fun _ => rfl)
      (fun _ => rfl) (fun _ => rfl)
  have hm' : ∀ (w0 : World T) (p : Nat) (g : List Nat → List Nat),
      SameCore w0 (w0.modify p (fun c => { c with m_list_outputs := g c.m_list_outputs })) :=
    fun w0 p g => sameCore_modify w0 _ _ (fun _ => rfl) (fun _ => rfl) (fun _ => rfl)
      (fun _ => rfl) (fun _ => rfl)
  by_cases h1 : input_prop ∈ w.inputs this
  · simp only [h1, if_true]
    split
    · exact sameCore_refl w
    · exact hm' w input_prop (fun l => l ++ [this])
  · simp only [h1, if_false]
    split
    · exact hm w this (fun l => l ++ [input_prop])
    · exact sameCore_trans (hm w this (fun l => l ++ [input_prop]))
        (hm' _ input_prop (fun l => l ++ [this]))

theorem sameCore_captureAsInput (w : World T) (this : Nat) :
    SameCore w (captureAsInput w this) := by
  unfold captureAsInput
  split
  · split
    · exact sameCore_registerInput w _ _
    · exact sameCore_refl w
  · exact sameCore_refl w

theorem sameCore_stepWorld (w : World T) (s : Option Nat) : SameCore w (stepWorld w s) := by
  cases s with
  | some q => exact sameCore_captureAsInput w q
  | none =>
    simp only [stepWorld]
    split
    · exact sameCore_modify w _ _ (fun _ => rfl) (fun _ => rfl) (fun _ => rfl) (fun _ => rfl)
        (fun _ => rfl)
    · exact sameCore_refl w

theorem sameCore_foldl_stepWorld (steps : List (Option Nat)) (w : World T) :
    SameCore w (steps.foldl stepWorld w) :=
  foldl_invariant (fun w' => SameCore w w') stepWorld
    (fun b a hb => sameCore_trans hb (sameCore_stepWorld b a)) steps w (sameCore_refl w)

theorem sameCore_value_eq {w w' : World T} (h : SameCore w w') : w'.value = w.value :=
  funext h.value

/-- A binding run returns the value computed from the values read and performs its steps in
order. -/
theorem runBinding_eq (f : BindingFn T) :
    ∀ w : World T, runBinding f w = (evalPure f w.value, (stepsOf f w.value).foldl stepWorld w) := by
  induction f with
  | ret v => intro w; rfl
  | get q k ih =>
    intro w
    have hv : (captureAsInput w q).value = w.value := sameCore_value_eq (sameCore_captureAsInput w q)
    simp only [runBinding, evalPure, stepsOf, List.foldl_cons, stepWorld]
    rw [ih, hv]
  | fail k ih =>
    intro w
    simp only [runBinding, evalPure, stepsOf, List.foldl_cons, stepWorld]
    split
    · rename_i cur hc
      rw [ih]
      have hv : (w.modify cur (fun c => { c with m_capture_failed := true })).value = w.value :=
        sameCore_value_eq (sameCore_modify w _ _ (fun _ => rfl) (fun _ => rfl) (fun _ => rfl)
          (fun _ => rfl) (fun _ => rfl))
      rw [hv]
    · rw [ih]

theorem sameCore_runBinding (f : BindingFn T) (w : World T) : SameCore w (runBinding f w).2 := by
  rw [runBinding_eq]
  exact sameCore_foldl_stepWorld _ w

end ks

/-! ### Adjacency lists under the primitive operations -/

namespace ks

variable {T : Type}

theorem inputs_modify (w : World T) (p : Nat) (f : DynamicProperty T → DynamicProperty T)
    (h : ∀ c, (f c).m_list_inputs = c.m_list_inputs) : (w.modify p f).inputs = w.inputs := by
  funext q
  simp only [World.inputs, props_modify]
  split <;> simp [h]

theorem outputs_modify (w : World T) (p : Nat) (f : DynamicProperty T → DynamicProperty T)
    (h : ∀ c, (f c).m_list_outputs = c.m_list_outputs) : (w.modify p f).outputs = w.outputs := by
  funext q
  simp only [World.outputs, props_modify]
  split <;> simp [h]

@[simp] theorem inputs_log (w : World T) (e : Event T) : (w.log e).inputs = w.inputs := rfl

@[simp] theorem outputs_log (w : World T) (e : Event T) : (w.log e).outputs = w.outputs := rfl

@[simp] theorem value_log (w : World T) (e : Event T) : (w.log e).value = w.value := rfl

@[simp] theorem inputs_setCurrent (w : World T) (c : Option Nat) :
    (setCurrent w c).inputs = w.inputs := rfl

@[simp] theorem outputs_setCurrent (w : World T) (c : Option Nat) :
    (setCurrent w c).outputs = w.outputs := rfl

@[simp] theorem value_setCurrent (w : World T) (c : Option Nat) :
    (setCurrent w c).value = w.value := rfl

@[simp] theorem inputs_resetBinding (w : World T) (p : Nat) :
    (resetBinding w p).inputs = w.inputs :=
  inputs_modify w p _ (fun _ => rfl)

@[simp] theorem outputs_resetBinding (w : World T) (p : Nat) :
    (resetBinding w p).outputs = w.outputs :=
  outputs_modify w p _ (fun _ => rfl)

@[simp] theorem inputs_notify (w : World T) (p : Nat) : (notify w p).inputs = w.inputs := by
  unfold notify; split <;> rfl

@[simp] theorem outputs_notify (w : World T) (p : Nat) : (notify w p).outputs = w.outputs := by
  unfold notify; split <;> rfl

@[simp] theorem props_notify (w : World T) (p : Nat) : (notify w p).props = w.props := by
  unfold notify; split <;> rfl

@[simp] theorem current_notify (w : World T) (p : Nat) : (notify w p).current = w.current := by
  unfold notify; split <;> rfl

@[simp] theorem count_notify (w : World T) (p : Nat) : (notify w p).count = w.count := by
  unfold notify; split <;> rfl

/-- The edge a step of a binding run wires: reading `a` while `b` is being captured. -/
theorem mem_inputs_stepWorld (w : World T) (s : Option Nat) (a b : Nat) :
    a ∈ (stepWorld w s).inputs b ↔
      a ∈ w.inputs b ∨ (s = some a ∧ w.current = some b ∧ b ≠ a) := by
  cases s with
  | none =>
    simp only [stepWorld]
    split
    · rw [inputs_modify w _ (fun c => { c with m_capture_failed := true }) (fun _ => rfl)]; simp
    · simp
  | some q =>
    simp only [stepWorld, captureAsInput]
    split
    · rename_i cur hc
      split
      · rename_i hne
        rw [mem_inputs_registerInput, hc]
        constructor
        · rintro (h | ⟨rfl, rfl⟩)
          · exact Or.inl h
          · exact Or.inr ⟨rfl, rfl, hne⟩
        · rintro (h | ⟨h1, h2, _⟩)
          · exact Or.inl h
          · simp only [Option.some.injEq] at h1 h2
            exact Or.inr ⟨h2.symm, h1.symm⟩
      · rename_i hne
        simp only [ne_eq, not_not] at hne
        rw [hc]
        constructor
        · exact Or.inl
        · rintro (h | ⟨h1, h2, h3⟩)
          · exact h
          · simp only [Option.some.injEq] at h1 h2
            exact absurd (by omega : b = a) h3
    · rename_i hc
      simp [hc]

theorem mem_outputs_stepWorld (w : World T) (s : Option Nat) (a b : Nat) :
    b ∈ (stepWorld w s).outputs a ↔
      b ∈ w.outputs a ∨ (s = some a ∧ w.current = some b ∧ b ≠ a) := by
  cases s with
  | none =>
    simp only [stepWorld]
    split
    · rw [outputs_modify w _ (fun c => { c with m_capture_failed := true }) (fun _ => rfl)]; simp
    · simp
  | some q =>
    simp only [stepWorld, captureAsInput]
    split
    · rename_i cur hc
      split
      · rename_i hne
        rw [mem_outputs_registerInput, hc]
        constructor
        · rintro (h | ⟨rfl, rfl⟩)
          · exact Or.inl h
          · exact Or.inr ⟨rfl, rfl, hne⟩
        · rintro (h | ⟨h1, h2, _⟩)
          · exact Or.inl h
          · simp only [Option.some.injEq] at h1 h2
            exact Or.inr ⟨h1.symm, h2.symm⟩
      · rename_i hne
        simp only [ne_eq, not_not] at hne
        rw [hc]
        constructor
        · exact Or.inl
        · rintro (h | ⟨h1, h2, h3⟩)
          · exact h
          · simp only [Option.some.injEq] at h1 h2
            exact absurd (by omega : b = a) h3
    · rename_i hc
      simp [hc]

theorem mem_inputs_foldl_stepWorld (steps : List (Option Nat)) :
    ∀ (w : World T) (a b : Nat), a ∈ (steps.foldl stepWorld w).inputs b ↔
      a ∈ w.inputs b ∨ (some a ∈ steps ∧ w.current = some b ∧ b ≠ a) := by
  induction steps with
  | nil => intro w a b; simp
  | cons s steps ih =>
    intro w a b
    rw [List.foldl_cons, ih, mem_inputs_stepWorld, (sameCore_stepWorld w s).current]
    simp only [List.mem_cons]
    constructor
    · rintro ((h | ⟨h1, h2⟩) | ⟨h1, h2⟩)
      · exact Or.inl h
      · exact Or.inr ⟨Or.inl h1.symm, h2⟩
      · exact Or.inr ⟨Or.inr h1, h2⟩
    · rintro (h | ⟨h1 | h1, h2⟩)
      · exact Or.inl (Or.inl h)
      · exact Or.inl (Or.inr ⟨h1.symm, h2⟩)
      · exact Or.inr ⟨h1, h2⟩

theorem mem_outputs_foldl_stepWorld (steps : List (Option Nat)) :
    ∀ (w : World T) (a b : Nat), b ∈ (steps.foldl stepWorld w).outputs a ↔
      b ∈ w.outputs a ∨ (some a ∈ steps ∧ w.current = some b ∧ b ≠ a) := by
  induction steps with
  | nil => intro w a b; simp
  | cons s steps ih =>
    intro w a b
    rw [List.foldl_cons, ih, mem_outputs_stepWorld, (sameCore_stepWorld w s).current]
    simp only [List.mem_cons]
    constructor
    · rintro ((h | ⟨h1, h2⟩) | ⟨h1, h2⟩)
      · exact Or.inl h
      · exact Or.inr ⟨Or.inl h1.symm, h2⟩
      · exact Or.inr ⟨Or.inr h1, h2⟩
    · rintro (h | ⟨h1 | h1, h2⟩)
      · exact Or.inl (Or.inl h)
      · exact Or.inl (Or.inr ⟨h1.symm, h2⟩)
      · exact Or.inr ⟨h1, h2⟩

/-- With no property being captured a binding run changes nothing. -/
theorem foldl_stepWorld_idle (steps : List (Option Nat)) (w : World T) (h : w.current = none) :
    steps.foldl stepWorld w = w := by
  induction steps with
  | nil => rfl
  | cons s steps ih =>
    rw [List.foldl_cons]
    have : stepWorld w s = w := by
      cases s <;> simp [stepWorld, captureAsInput, h]
    rw [this, ih]

end ks

namespace ks

variable {T : Type}

@[simp] theorem inputs_modify_value (w : World T) (p : Nat) (v : T) :
    (w.modify p (fun c => { c with m_value := v })).inputs = w.inputs :=
  inputs_modify w p _ (fun _ => rfl)

@[simp] theorem outputs_modify_value (w : World T) (p : Nat) (v : T) :
    (w.modify p (fun c => { c with m_value := v })).outputs = w.outputs :=
  outputs_modify w p _ (fun _ => rfl)

@[simp] theorem inputs_modify_flag (w : World T) (p : Nat) (v : Bool) :
    (w.modify p (fun c => { c with m_capture_failed := v })).inputs = w.inputs :=
  inputs_modify w p _ (fun _ => rfl)

@[simp] theorem outputs_modify_flag (w : World T) (p : Nat) (v : Bool) :
    (w.modify p (fun c => { c with m_capture_failed := v })).outputs = w.outputs :=
  outputs_modify w p _ (fun _ => rfl)

@[simp] theorem inputs_modify_init (w : World T) (p : Nat) (v : Bool) :
    (w.modify p (fun c => { c with m_binding_init := v })).inputs = w.inputs :=
  inputs_modify w p _ (fun _ => rfl)

@[simp] theorem outputs_modify_init (w : World T) (p : Nat) (v : Bool) :
    (w.modify p (fun c => { c with m_binding_init := v })).outputs = w.outputs :=
  outputs_modify w p _ (fun _ => rfl)

@[simp] theorem inputs_modify_binding (w : World T) (p : Nat) (v : Option (BindingFn T)) :
    (w.modify p (fun c => { c with m_binding := v })).inputs = w.inputs :=
  inputs_modify w p _ (fun _ => rfl)

@[simp] theorem outputs_modify_binding (w : World T) (p : Nat) (v : Option (BindingFn T)) :
    (w.modify p (fun c => { c with m_binding := v })).outputs = w.outputs :=
  outputs_modify w p _ (fun _ => rfl)

@[simp] theorem inputs_modify_notifier (w : World T) (p : Nat) (v : Bool) :
    (w.modify p (fun c => { c with m_notifier := v })).inputs = w.inputs :=
  inputs_modify w p _ (fun _ => rfl)

@[simp] theorem outputs_modify_notifier (w : World T) (p : Nat) (v : Bool) :
    (w.modify p (fun c => { c with m_notifier := v })).outputs = w.outputs :=
  outputs_modify w p _ (fun _ => rfl)

@[simp] theorem inputs_modify_name (w : World T) (p : Nat) (v : String) :
    (w.modify p (fun c => { c with m_name := v })).inputs = w.inputs :=
  inputs_modify w p _ (fun _ => rfl)

@[simp] theorem outputs_modify_name (w : World T) (p : Nat) (v : String) :
    (w.modify p (fun c => { c with m_name := v })).outputs = w.outputs :=
  outputs_modify w p _ (fun _ => rfl)

end ks

/-! ### `clearInputs` and `clearOutputs` -/

namespace ks

variable {T : Type}

@[simp] theorem mem_RemoveProperty (l : List Nat) (p x : Nat) :
    x ∈ RemoveProperty l p ↔ x ∈ l ∧ x ≠ p := by
  simp [RemoveProperty]

/-- The loop of `clearInputs`. -/
theorem clearInputs_loop (this : Nat) (l : List Nat) :
    ∀ w : World T,
      SameCore w (l.foldl (fun s input => s.modify input
        (fun c => { c with m_list_outputs := RemoveProperty c.m_list_outputs this })) w) ∧
      (l.foldl (fun s input => s.modify input
        (fun c => { c with m_list_outputs := RemoveProperty c.m_list_outputs this })) w).inputs
        = w.inputs ∧
      ∀ a b, b ∈ (l.foldl (fun s input => s.modify input
        (fun c => { c with m_list_outputs := RemoveProperty c.m_list_outputs this })) w).outputs a
        ↔ b ∈ w.outputs a ∧ ¬ (b = this ∧ a ∈ l) := by
  induction l with
  | nil => intro w; exact ⟨sameCore_refl w, rfl, by simp⟩
  | cons i l ih =>
    intro w
    rw [List.foldl_cons]
    obtain ⟨h1, h2, h3⟩ := ih (w.modify i
      (fun c => { c with m_list_outputs := RemoveProperty c.m_list_outputs this }))
    refine ⟨sameCore_trans (sameCore_modify_outputs w i (fun l => RemoveProperty l this)) h1,
      ?_, ?_⟩
    · rw [h2]
      exact inputs_modify w i
        (fun c => { c with m_list_outputs := RemoveProperty c.m_list_outputs this })
        (fun _ => rfl)
    · intro a b
      rw [h3]
      simp only [World.outputs, props_modify, List.mem_cons]
      by_cases ha : a = i
      · subst ha
        simp only [if_true, mem_RemoveProperty]
        tauto
      · simp only [ha, if_false]
        tauto

theorem sameCore_clearInputs_pre (w : World T) (this : Nat) :
    ∃ w1 : World T, SameCore w w1 ∧ clearInputs w this = resetBinding w1 this ∧
      (∀ a b, a ∈ w1.inputs b ↔ b ≠ this ∧ a ∈ w.inputs b) ∧
      (∀ a b, b ∈ w1.outputs a ↔ b ∈ w.outputs a ∧ ¬ (b = this ∧ a ∈ w.inputs this)) := by
  obtain ⟨h1, h2, h3⟩ := clearInputs_loop this (w.inputs this) w
  refine ⟨_, sameCore_trans h1 (sameCore_modify_inputs _ this (fun _ => [])), rfl, ?_, ?_⟩
  · intro a b
    have hx := congrFun h2 b
    simp only [World.inputs] at hx
    simp only [World.inputs, props_modify]
    by_cases hb : b = this
    · subst hb; simp
    · simp [hb, hx]
  · intro a b
    rw [outputs_modify _ this (fun c => { c with m_list_inputs := [] }) (fun _ => rfl)]
    exact h3 a b

theorem mem_inputs_clearInputs (w : World T) (this a b : Nat) :
    a ∈ (clearInputs w this).inputs b ↔ b ≠ this ∧ a ∈ w.inputs b := by
  obtain ⟨w1, _, h2, h3, _⟩ := sameCore_clearInputs_pre w this
  rw [h2, inputs_resetBinding]; exact h3 a b

theorem mem_outputs_clearInputs (w : World T) (this a b : Nat) :
    b ∈ (clearInputs w this).outputs a ↔
      b ∈ w.outputs a ∧ ¬ (b = this ∧ a ∈ w.inputs this) := by
  obtain ⟨w1, _, h2, _, h4⟩ := sameCore_clearInputs_pre w this
  rw [h2, outputs_resetBinding]; exact h4 a b

theorem inputs_clearInputs_self (w : World T) (this : Nat) :
    (clearInputs w this).inputs this = [] := by
  apply List.eq_nil_iff_forall_not_mem.2
  intro a h
  exact ((mem_inputs_clearInputs w this a this).1 h).1 rfl

@[simp] theorem count_clearInputs (w : World T) (this : Nat) :
    (clearInputs w this).count = w.count := by
  obtain ⟨w1, h1, h2, _⟩ := sameCore_clearInputs_pre w this
  rw [h2]; exact h1.count

@[simp] theorem current_clearInputs (w : World T) (this : Nat) :
    (clearInputs w this).current = w.current := by
  obtain ⟨w1, h1, h2, _⟩ := sameCore_clearInputs_pre w this
  rw [h2]; exact h1.current

@[simp] theorem trace_clearInputs (w : World T) (this : Nat) :
    (clearInputs w this).trace = w.trace := by
  obtain ⟨w1, h1, h2, _⟩ := sameCore_clearInputs_pre w this
  rw [h2]; exact h1.trace

@[simp] theorem value_clearInputs (w : World T) (this q : Nat) :
    ((clearInputs w this).props q).m_value = (w.props q).m_value := by
  obtain ⟨w1, h1, h2, _⟩ := sameCore_clearInputs_pre w this
  rw [h2, ← h1.value q]
  simp only [resetBinding, props_modify]; split <;> rfl

@[simp] theorem notifier_clearInputs (w : World T) (this q : Nat) :
    ((clearInputs w this).props q).m_notifier = (w.props q).m_notifier := by
  obtain ⟨w1, h1, h2, _⟩ := sameCore_clearInputs_pre w this
  rw [h2, ← h1.notifier q]
  simp only [resetBinding, props_modify]; split <;> rfl

theorem binding_clearInputs (w : World T) (this q : Nat) :
    ((clearInputs w this).props q).m_binding =
      if q = this then none else (w.props q).m_binding := by
  obtain ⟨w1, h1, h2, _⟩ := sameCore_clearInputs_pre w this
  rw [h2, ← h1.binding q]
  simp only [resetBinding, props_modify]; split <;> rfl

theorem init_clearInputs (w : World T) (this q : Nat) :
    ((clearInputs w this).props q).m_binding_init =
      if q = this then false else (w.props q).m_binding_init := by
  obtain ⟨w1, h1, h2, _⟩ := sameCore_clearInputs_pre w this
  rw [h2, ← h1.init q]
  simp only [resetBinding, props_modify]; split <;> rfl

/-- The loop of `clearOutputs`. -/
theorem clearOutputs_loop (this : Nat) (l : List Nat) :
    ∀ w : World T,
      (l.foldl (fun s output => resetBinding (s.modify output
        (fun c => { c with m_list_inputs := RemoveProperty c.m_list_inputs this })) output)
        w).outputs = w.outputs ∧
      ∀ a b, a ∈ (l.foldl (fun s output => resetBinding (s.modify output
        (fun c => { c with m_list_inputs := RemoveProperty c.m_list_inputs this })) output)
        w).inputs b ↔ a ∈ w.inputs b ∧ ¬ (a = this ∧ b ∈ l) := by
  induction l with
  | nil => intro w; exact ⟨rfl, by simp⟩
  | cons o l ih =>
    intro w
    rw [List.foldl_cons]
    obtain ⟨h2, h3⟩ := ih (resetBinding (w.modify o
      (fun c => { c with m_list_inputs := RemoveProperty c.m_list_inputs this })) o)
    refine ⟨?_, ?_⟩
    · rw [h2, outputs_resetBinding]
      exact outputs_modify w o
        (fun c => { c with m_list_inputs := RemoveProperty c.m_list_inputs this })
        (fun _ => rfl)
    · intro a b
      rw [h3, inputs_resetBinding]
      simp only [World.inputs, props_modify, List.mem_cons]
      by_cases hb : b = o
      · subst hb
        simp only [if_true, mem_RemoveProperty]
        tauto
      · simp only [hb, if_false]
        tauto

theorem mem_inputs_clearOutputs (w : World T) (this a b : Nat) :
    a ∈ (clearOutputs w this).inputs b ↔
      a ∈ w.inputs b ∧ ¬ (a = this ∧ b ∈ w.outputs this) := by
  obtain ⟨_, h3⟩ := clearOutputs_loop this (w.outputs this) w
  unfold clearOutputs
  simp only []
  rw [inputs_modify _ this (fun c => { c with m_list_outputs := [] }) (fun _ => rfl)]
  exact h3 a b

theorem mem_outputs_clearOutputs (w : World T) (this a b : Nat) :
    b ∈ (clearOutputs w this).outputs a ↔ a ≠ this ∧ b ∈ w.outputs a := by
  obtain ⟨h2, _⟩ := clearOutputs_loop this (w.outputs this) w
  have hx := congrFun h2 a
  simp only [World.outputs] at hx
  unfold clearOutputs
  simp only [World.outputs, props_modify]
  by_cases ha : a = this
  · subst ha; simp
  · simp [ha, hx]

/-! ### Edge symmetry is preserved by the primitives -/

theorem edgeSymmetry_congr {w w' : World T} (hi : w'.inputs = w.inputs)
    (ho : w'.outputs = w.outputs) (h : EdgeSymmetry w) : EdgeSymmetry w' := by
  intro a b; rw [hi, ho]; exact h a b

theorem edgeSymmetry_clearInputs (w : World T) (this : Nat) (h : EdgeSymmetry w) :
    EdgeSymmetry (clearInputs w this) := by
  intro a b
  rw [mem_inputs_clearInputs, mem_outputs_clearInputs]
  have h1 := h a b
  have h2 := h a this
  constructor
  · rintro ⟨hb, ha⟩
    exact ⟨h1.1 ha, fun hc => hb hc.1⟩
  · rintro ⟨hb, hn⟩
    refine ⟨?_, h1.2 hb⟩
    intro hc
    subst hc
    exact hn ⟨rfl, h1.2 hb⟩

theorem edgeSymmetry_clearOutputs (w : World T) (this : Nat) (h : EdgeSymmetry w) :
    EdgeSymmetry (clearOutputs w this) := by
  intro a b
  rw [mem_inputs_clearOutputs, mem_outputs_clearOutputs]
  have h1 := h a b
  constructor
  · rintro ⟨ha, hn⟩
    refine ⟨?_, h1.1 ha⟩
    intro hc
    subst hc
    exact hn ⟨rfl, h1.1 ha⟩
  · rintro ⟨ha, hb⟩
    exact ⟨h1.2 hb, fun hc => ha hc.1⟩

theorem edgeSymmetry_foldl_stepWorld (steps : List (Option Nat)) (w : World T)
    (h : EdgeSymmetry w) : EdgeSymmetry (steps.foldl stepWorld w) := by
  intro a b
  rw [mem_inputs_foldl_stepWorld, mem_outputs_foldl_stepWorld, h a b]

theorem edgeSymmetry_modify (w : World T) (p : Nat) (f : DynamicProperty T → DynamicProperty T)
    (hi : ∀ c, (f c).m_list_inputs = c.m_list_inputs)
    (ho : ∀ c, (f c).m_list_outputs = c.m_list_outputs) (h : EdgeSymmetry w) :
    EdgeSymmetry (w.modify p f) :=
  edgeSymmetry_congr (inputs_modify w p f hi) (outputs_modify w p f ho) h

end ks

/-! ### `evaluate()` -/

namespace ks

variable {T : Type}

theorem evaluate_none (w : World T) (d : Nat) (h : (w.props d).m_binding = none) :
    evaluate w d = w.log (.evaluated d) := by
  unfold evaluate
  simp only [props_log, h]

theorem evaluate_steady (w : World T) (d : Nat) (f : BindingFn T)
    (h : (w.props d).m_binding = some f) (hi : (w.props d).m_binding_init = true) :
    evaluate w d =
      notify (((stepsOf f w.value).foldl stepWorld (w.log (.evaluated d))).modify d
        (fun c => { c with m_value := evalPure f w.value })) d := by
  unfold evaluate
  simp only [props_log, h, hi, if_true, runBinding_eq, value_log]

theorem evaluate_capture (w : World T) (d : Nat) (f : BindingFn T)
    (h : (w.props d).m_binding = some f) (hi : (w.props d).m_binding_init = false) :
    evaluate w d =
      if !((setCurrent (((stepsOf f w.value).foldl stepWorld
            (setCurrent ((w.log (.evaluated d)).modify d
              (fun c => { c with m_capture_failed := false })) (some d))).modify d
            (fun c => { c with m_value := evalPure f w.value })) none).props d).m_capture_failed
      then
        notify ((setCurrent (((stepsOf f w.value).foldl stepWorld
            (setCurrent ((w.log (.evaluated d)).modify d
              (fun c => { c with m_capture_failed := false })) (some d))).modify d
            (fun c => { c with m_value := evalPure f w.value })) none).modify d
          (fun c => { c with m_binding_init := true })) d
      else
        resetBinding (setCurrent (((stepsOf f w.value).foldl stepWorld
            (setCurrent ((w.log (.evaluated d)).modify d
              (fun c => { c with m_capture_failed := false })) (some d))).modify d
            (fun c => { c with m_value := evalPure f w.value })) none) d := by
  have hv : (setCurrent ((w.log (.evaluated d)).modify d
      (fun c => { c with m_capture_failed := false })) (some d)).value = w.value := by
    have hx := sameCore_value_eq (sameCore_modify_flag (w.log (.evaluated d)) d false)
    exact hx
  unfold evaluate
  simp only [props_log, h, hi, runBinding_eq, hv]
  rfl

end ks

namespace ks

variable {T : Type}

@[simp] theorem value_foldl_stepWorld (steps : List (Option Nat)) (w : World T) (q : Nat) :
    ((steps.foldl stepWorld w).props q).m_value = (w.props q).m_value :=
  (sameCore_foldl_stepWorld steps w).value q

@[simp] theorem binding_foldl_stepWorld (steps : List (Option Nat)) (w : World T) (q : Nat) :
    ((steps.foldl stepWorld w).props q).m_binding = (w.props q).m_binding :=
  (sameCore_foldl_stepWorld steps w).binding q

@[simp] theorem init_foldl_stepWorld (steps : List (Option Nat)) (w : World T) (q : Nat) :
    ((steps.foldl stepWorld w).props q).m_binding_init = (w.props q).m_binding_init :=
  (sameCore_foldl_stepWorld steps w).init q

@[simp] theorem notifier_foldl_stepWorld (steps : List (Option Nat)) (w : World T) (q : Nat) :
    ((steps.foldl stepWorld w).props q).m_notifier = (w.props q).m_notifier :=
  (sameCore_foldl_stepWorld steps w).notifier q

@[simp] theorem count_foldl_stepWorld (steps : List (Option Nat)) (w : World T) :
    (steps.foldl stepWorld w).count = w.count :=
  (sameCore_foldl_stepWorld steps w).count

@[simp] theorem current_foldl_stepWorld (steps : List (Option Nat)) (w : World T) :
    (steps.foldl stepWorld w).current = w.current :=
  (sameCore_foldl_stepWorld steps w).current

@[simp] theorem trace_foldl_stepWorld (steps : List (Option Nat)) (w : World T) :
    (steps.foldl stepWorld w).trace = w.trace :=
  (sameCore_foldl_stepWorld steps w).trace

theorem flag_registerInput (w : World T) (this input_prop x : Nat) :
    ((registerInput w this input_prop).props x).m_capture_failed =
      (w.props x).m_capture_failed := by
  unfold registerInput
  by_cases h1 : input_prop ∈ w.inputs this
  · simp only [h1, if_true]
    split
    · rfl
    · simp only [props_modify]; split <;> rfl
  · simp only [h1, if_false]
    split
    · simp only [props_modify]; split <;> rfl
    · simp only [props_modify]; split <;> split <;> rfl

theorem flag_stepWorld (w : World T) (s : Option Nat) (d : Nat) (hc : w.current = some d) :
    ((stepWorld w s).props d).m_capture_failed =
      ((w.props d).m_capture_failed || s.isNone) := by
  cases s with
  | none => simp [stepWorld, hc]
  | some q =>
    simp only [stepWorld, captureAsInput, hc]
    split
    · rw [flag_registerInput]; simp
    · simp

theorem flag_foldl_stepWorld (steps : List (Option Nat)) :
    ∀ (w : World T) (d : Nat), w.current = some d →
      ((steps.foldl stepWorld w).props d).m_capture_failed =
        ((w.props d).m_capture_failed || steps.any (fun s => s.isNone)) := by
  induction steps with
  | nil => intro w d _; simp
  | cons s steps ih =>
    intro w d hc
    rw [List.foldl_cons, ih _ d (by rw [(sameCore_stepWorld w s).current]; exact hc),
      flag_stepWorld w s d hc]
    simp [Bool.or_assoc]

/-- The world in which the binding of `d` has been run in capturing mode and its result
stored, before the outcome of the capture is examined. -/
theorem evaluate_capture_ok (w : World T) (d : Nat) (f : BindingFn T)
    (h : (w.props d).m_binding = some f) (hi : (w.props d).m_binding_init = false)
    (hf : runFails f w.value = false) :
    evaluate w d =
      notify ((setCurrent (((stepsOf f w.value).foldl stepWorld
            (setCurrent ((w.log (.evaluated d)).modify d
              (fun c => { c with m_capture_failed := false })) (some d))).modify d
            (fun c => { c with m_value := evalPure f w.value })) none).modify d
          (fun c => { c with m_binding_init := true })) d := by
  rw [evaluate_capture w d f h hi]
  have hflag := flag_foldl_stepWorld (stepsOf f w.value)
    (setCurrent ((w.log (.evaluated d)).modify d
      (fun c => { c with m_capture_failed := false })) (some d)) d rfl
  unfold runFails at hf
  simp only [props_setCurrent, props_modify, if_true, hflag, hf]
  simp

theorem evaluate_capture_fail (w : World T) (d : Nat) (f : BindingFn T)
    (h : (w.props d).m_binding = some f) (hi : (w.props d).m_binding_init = false)
    (hf : runFails f w.value = true) :
    evaluate w d =
      resetBinding (setCurrent (((stepsOf f w.value).foldl stepWorld
            (setCurrent ((w.log (.evaluated d)).modify d
              (fun c => { c with m_capture_failed := false })) (some d))).modify d
            (fun c => { c with m_value := evalPure f w.value })) none) d := by
  rw [evaluate_capture w d f h hi]
  have hflag := flag_foldl_stepWorld (stepsOf f w.value)
    (setCurrent ((w.log (.evaluated d)).modify d
      (fun c => { c with m_capture_failed := false })) (some d)) d rfl
  unfold runFails at hf
  simp only [props_setCurrent, props_modify, if_true, hflag, hf]
  simp

/-- The four ways `evaluate()` can go. -/
theorem evaluate_cases (w : World T) (d : Nat) :
    ((w.props d).m_binding = none ∧ evaluate w d = w.log (.evaluated d)) ∨
    (∃ f, (w.props d).m_binding = some f ∧ (w.props d).m_binding_init = true ∧
      evaluate w d = notify (((stepsOf f w.value).foldl stepWorld
        (w.log (.evaluated d))).modify d (fun c => { c with m_value := evalPure f w.value })) d) ∨
    (∃ f, (w.props d).m_binding = some f ∧ (w.props d).m_binding_init = false ∧
      runFails f w.value = false ∧
      evaluate w d = notify ((setCurrent (((stepsOf f w.value).foldl stepWorld
            (setCurrent ((w.log (.evaluated d)).modify d
              (fun c => { c with m_capture_failed := false })) (some d))).modify d
            (fun c => { c with m_value := evalPure f w.value })) none).modify d
          (fun c => { c with m_binding_init := true })) d) ∨
    (∃ f, (w.props d).m_binding = some f ∧ (w.props d).m_binding_init = false ∧
      runFails f w.value = true ∧
      evaluate w d = resetBinding (setCurrent (((stepsOf f w.value).foldl stepWorld
            (setCurrent ((w.log (.evaluated d)).modify d
              (fun c => { c with m_capture_failed := false })) (some d))).modify d
            (fun c => { c with m_value := evalPure f w.value })) none) d) := by
  cases hb : (w.props d).m_binding with
  | none => exact Or.inl ⟨rfl, evaluate_none w d hb⟩
  | some f =>
    cases hi : (w.props d).m_binding_init with
    | true => exact Or.inr (Or.inl ⟨f, rfl, rfl, evaluate_steady w d f hb hi⟩)
    | false =>
      cases hf : runFails f w.value with
      | false => exact Or.inr (Or.inr (Or.inl ⟨f, rfl, rfl, hf, evaluate_capture_ok w d f hb hi hf⟩))
      | true => exact Or.inr (Or.inr (Or.inr ⟨f, rfl, rfl, hf, evaluate_capture_fail w d f hb hi hf⟩))

end ks

namespace ks

variable {T : Type}

theorem trace_notify (w : World T) (p : Nat) :
    (notify w p).trace =
      if (w.props p).m_notifier then w.trace ++ [.notified p (w.value p)] else w.trace := by
  unfold notify; split <;> rfl

@[simp] theorem evaluations_notify (w : World T) (p : Nat) :
    evaluations (notify w p).trace = evaluations w.trace := by
  rw [trace_notify]; split <;> simp [evaluations]

@[simp] theorem notificationsOf_notify_ne (w : World T) (p q : Nat) (h : q ≠ p) :
    notificationsOf q (notify w p).trace = notificationsOf q w.trace := by
  rw [trace_notify]; split <;> simp [notificationsOf, h.symm]

@[simp] theorem evaluations_log_evaluated (tr : List (Event T)) (d : Nat) :
    evaluations (tr ++ [.evaluated d]) = evaluations tr ++ [d] := by
  simp [evaluations]

@[simp] theorem notificationsOf_log_evaluated (tr : List (Event T)) (p d : Nat) :
    notificationsOf p (tr ++ [.evaluated d]) = notificationsOf p tr := by
  simp [notificationsOf]

@[simp] theorem count_resetBinding (w : World T) (p : Nat) :
    (resetBinding w p).count = w.count := rfl

@[simp] theorem current_resetBinding (w : World T) (p : Nat) :
    (resetBinding w p).current = w.current := rfl

@[simp] theorem trace_resetBinding (w : World T) (p : Nat) :
    (resetBinding w p).trace = w.trace := rfl

@[simp] theorem count_evaluate (w : World T) (d : Nat) : (evaluate w d).count = w.count := by
  rcases evaluate_cases w d with ⟨_, h⟩ | ⟨f, _, _, h⟩ | ⟨f, _, _, _, h⟩ | ⟨f, _, _, _, h⟩ <;>
    rw [h] <;> simp

/-- Each `evaluate()` call is recorded once. -/
@[simp] theorem evaluations_evaluate (w : World T) (d : Nat) :
    evaluations (evaluate w d).trace = evaluations w.trace ++ [d] := by
  rcases evaluate_cases w d with ⟨_, h⟩ | ⟨f, _, _, h⟩ | ⟨f, _, _, _, h⟩ | ⟨f, _, _, _, h⟩ <;>
    rw [h] <;> simp

theorem notificationsOf_evaluate_ne (w : World T) (d p : Nat) (hp : p ≠ d) :
    notificationsOf p (evaluate w d).trace = notificationsOf p w.trace := by
  rcases evaluate_cases w d with ⟨_, h⟩ | ⟨f, _, _, h⟩ | ⟨f, _, _, _, h⟩ | ⟨f, _, _, _, h⟩ <;>
    rw [h] <;> simp [hp]

/-- The slot after `evaluate()`: unchanged, or null after a capturing evaluation. -/
theorem current_evaluate (w : World T) (d : Nat) :
    (evaluate w d).current = w.current ∨ (evaluate w d).current = none := by
  rcases evaluate_cases w d with ⟨_, h⟩ | ⟨f, _, _, h⟩ | ⟨f, _, _, _, h⟩ | ⟨f, _, _, _, h⟩ <;>
    rw [h] <;> simp

theorem props_evaluate_ne_core (w : World T) (d q : Nat) (hq : q ≠ d) :
    ((evaluate w d).props q).m_value = (w.props q).m_value ∧
    ((evaluate w d).props q).m_binding = (w.props q).m_binding ∧
    ((evaluate w d).props q).m_binding_init = (w.props q).m_binding_init ∧
    ((evaluate w d).props q).m_notifier = (w.props q).m_notifier := by
  rcases evaluate_cases w d with ⟨_, h⟩ | ⟨f, _, _, h⟩ | ⟨f, _, _, _, h⟩ | ⟨f, _, _, _, h⟩ <;>
    rw [h] <;> simp [hq, resetBinding]

theorem notifier_evaluate (w : World T) (d q : Nat) :
    ((evaluate w d).props q).m_notifier = (w.props q).m_notifier := by
  by_cases hq : q = d
  · subst hq
    rcases evaluate_cases w q with ⟨_, h⟩ | ⟨f, _, _, h⟩ | ⟨f, _, _, _, h⟩ | ⟨f, _, _, _, h⟩ <;>
      rw [h] <;> simp [resetBinding]
  · exact (props_evaluate_ne_core w d q hq).2.2.2

/-- A property without binding is left alone by any `evaluate()` call. -/
theorem evaluate_unbound (w : World T) (d q : Nat) (hq : (w.props q).m_binding = none) :
    ((evaluate w d).props q).m_binding = none ∧
      ((evaluate w d).props q).m_value = (w.props q).m_value := by
  by_cases h : q = d
  · subst h
    rw [evaluate_none w q hq]
    simp [hq]
  · obtain ⟨h1, h2, _⟩ := props_evaluate_ne_core w d q h
    rw [h1, h2]; exact ⟨hq, rfl⟩

theorem mem_inputs_evaluate (w : World T) (d a b : Nat) :
    a ∈ (evaluate w d).inputs b ↔ a ∈ w.inputs b ∨ Wires w d a b := by
  unfold Wires
  rcases evaluate_cases w d with ⟨hb, h⟩ | ⟨f, hb, hi, h⟩ | ⟨f, hb, hi, _, h⟩ | ⟨f, hb, hi, _, h⟩
  · rw [h]; simp [hb]
  · rw [h, inputs_notify, inputs_modify_value, mem_inputs_foldl_stepWorld]
    simp [hb, hi]
  · rw [h, inputs_notify, inputs_modify_init, inputs_setCurrent, inputs_modify_value,
      mem_inputs_foldl_stepWorld, current_setCurrent, inputs_setCurrent, inputs_modify_flag]
    simp [hb, hi]
  · rw [h, inputs_resetBinding, inputs_setCurrent, inputs_modify_value,
      mem_inputs_foldl_stepWorld, current_setCurrent, inputs_setCurrent, inputs_modify_flag]
    simp [hb, hi]

theorem mem_outputs_evaluate (w : World T) (d a b : Nat) :
    b ∈ (evaluate w d).outputs a ↔ b ∈ w.outputs a ∨ Wires w d a b := by
  unfold Wires
  rcases evaluate_cases w d with ⟨hb, h⟩ | ⟨f, hb, hi, h⟩ | ⟨f, hb, hi, _, h⟩ | ⟨f, hb, hi, _, h⟩
  · rw [h]; simp [hb]
  · rw [h, outputs_notify, outputs_modify_value, mem_outputs_foldl_stepWorld]
    simp [hb, hi]
  · rw [h, outputs_notify, outputs_modify_init, outputs_setCurrent, outputs_modify_value,
      mem_outputs_foldl_stepWorld, current_setCurrent, outputs_setCurrent, outputs_modify_flag]
    simp [hb, hi]
  · rw [h, outputs_resetBinding, outputs_setCurrent, outputs_modify_value,
      mem_outputs_foldl_stepWorld, current_setCurrent, outputs_setCurrent, outputs_modify_flag]
    simp [hb, hi]

theorem edgeSymmetry_evaluate (w : World T) (d : Nat) (h : EdgeSymmetry w) :
    EdgeSymmetry (evaluate w d) := by
  intro a b
  rw [mem_inputs_evaluate, mem_outputs_evaluate, h a b]

end ks

/-! ### Well-formed states -/

namespace ks

variable {T : Type}

theorem WellFormed.inRange {w : World T} (h : WellFormed w) : w.InRange := by
  intro p q hq
  by_contra hlt
  have h1 := (h.fresh q (by omega)).1
  have h2 := (h.symm p q).2 hq
  rw [h1] at h2
  simp at h2

theorem mem_readsOf (f : BindingFn T) (ρ : Nat → T) (a : Nat) :
    a ∈ readsOf f ρ ↔ some a ∈ stepsOf f ρ := by
  simp [readsOf]

/-- In a well-formed state `evaluate()` is a steady-state evaluation: it re-runs the binding
against the current values, stores the result and notifies. -/
theorem evaluate_idle (w : World T) (d : Nat) (f : BindingFn T) (hc : w.current = none)
    (hb : (w.props d).m_binding = some f) (hi : (w.props d).m_binding_init = true) :
    evaluate w d = notify ((w.log (.evaluated d)).modify d
      (fun c => { c with m_value := evalPure f w.value })) d := by
  rw [evaluate_steady w d f hb hi, foldl_stepWorld_idle _ _ (by simpa using hc)]

theorem wellFormed_congr {w w' : World T} (h : WellFormed w) (hi : w'.inputs = w.inputs)
    (ho : w'.outputs = w.outputs) (hc : w'.current = w.current) (hn : w'.count = w.count)
    (hb : ∀ q, (w'.props q).m_binding = (w.props q).m_binding)
    (hini : ∀ q, (w'.props q).m_binding_init = (w.props q).m_binding_init) : WellFormed w' := by
  refine ⟨edgeSymmetry_congr hi ho h.symm, fun q => by rw [hi]; exact h.irrefl q, ?_, ?_, ?_⟩
  · intro q f hq
    rw [hini]
    rw [hb] at hq
    exact h.validated q f hq
  · rw [hc]; exact h.idle
  · intro q hq
    rw [hi, ho]
    exact h.fresh q (by omega)

theorem wellFormed_evaluate (w : World T) (d : Nat) (h : WellFormed w) :
    WellFormed (evaluate w d) := by
  cases hb : (w.props d).m_binding with
  | none =>
    rw [evaluate_none w d hb]
    exact wellFormed_congr h rfl rfl rfl rfl (fun _ => rfl) (fun _ => rfl)
  | some f =>
    rw [evaluate_idle w d f h.idle hb (h.validated d f hb)]
    refine wellFormed_congr h (by simp) (by simp) (by simp) (by simp) ?_ ?_
    · intro q; simp only [props_notify, props_modify, props_log]; split <;> rfl
    · intro q; simp only [props_notify, props_modify, props_log]; split <;> rfl

theorem wellFormed_evaluateOutputs (w : World T) (p : Nat) (h : WellFormed w) :
    WellFormed (evaluateOutputs w p) :=
  foldl_invariant WellFormed evaluate (fun b a hb => wellFormed_evaluate b a hb) _ w h

theorem wellFormed_clearInputs (w : World T) (p : Nat) (h : WellFormed w) :
    WellFormed (clearInputs w p) := by
  refine ⟨edgeSymmetry_clearInputs w p h.symm,
    fun q hq => h.irrefl q ((mem_inputs_clearInputs w p q q).1 hq).2, ?_,
    by simpa using h.idle, ?_⟩
  · intro q f hq
    rw [binding_clearInputs] at hq
    rw [init_clearInputs]
    by_cases hqp : q = p
    · simp [hqp] at hq
    · simp only [hqp, if_false] at hq ⊢
      exact h.validated q f hq
  · intro q hq
    rw [count_clearInputs] at hq
    obtain ⟨h1, h2⟩ := h.fresh q hq
    constructor
    · apply List.eq_nil_iff_forall_not_mem.2
      intro a ha
      have := ((mem_inputs_clearInputs w p a q).1 ha).2
      rw [h1] at this; simp at this
    · apply List.eq_nil_iff_forall_not_mem.2
      intro a ha
      have := ((mem_outputs_clearInputs w p q a).1 ha).1
      rw [h2] at this; simp at this

theorem wellFormed_Assign (w : World T) (p : Nat) (v : T) (h : WellFormed w) :
    WellFormed (Assign w p v) := by
  unfold Assign
  apply wellFormed_evaluateOutputs
  refine wellFormed_congr (wellFormed_clearInputs w p h) (by simp) (by simp) (by simp) (by simp)
    ?_ ?_
  · intro q; simp only [props_notify, props_modify]; split <;> rfl
  · intro q; simp only [props_notify, props_modify]; split <;> rfl

end ks

namespace ks

variable {T : Type}

theorem binding_clearOutputs_loop (this : Nat) (l : List Nat) :
    ∀ w : World T,
      (l.foldl (fun s output => resetBinding (s.modify output
        (fun c => { c with m_list_inputs := RemoveProperty c.m_list_inputs this })) output)
        w).count = w.count ∧
      (l.foldl (fun s output => resetBinding (s.modify output
        (fun c => { c with m_list_inputs := RemoveProperty c.m_list_inputs this })) output)
        w).current = w.current ∧
      ∀ q, (((l.foldl (fun s output => resetBinding (s.modify output
        (fun c => { c with m_list_inputs := RemoveProperty c.m_list_inputs this })) output)
        w).props q).m_binding = if q ∈ l then none else (w.props q).m_binding) ∧
        (((l.foldl (fun s output => resetBinding (s.modify output
        (fun c => { c with m_list_inputs := RemoveProperty c.m_list_inputs this })) output)
        w).props q).m_binding_init = if q ∈ l then false else (w.props q).m_binding_init) ∧
        (((l.foldl (fun s output => resetBinding (s.modify output
        (fun c => { c with m_list_inputs := RemoveProperty c.m_list_inputs this })) output)
        w).props q).m_value = (w.props q).m_value) := by
  induction l with
  | nil => intro w; simp
  | cons o l ih =>
    intro w
    rw [List.foldl_cons]
    obtain ⟨h1, h2, h3⟩ := ih (resetBinding (w.modify o
      (fun c => { c with m_list_inputs := RemoveProperty c.m_list_inputs this })) o)
    refine ⟨by rw [h1]; rfl, by rw [h2]; rfl, ?_⟩
    intro q
    obtain ⟨h4, h5, h6⟩ := h3 q
    rw [h4, h5, h6]
    simp only [resetBinding, props_modify, List.mem_cons]
    by_cases hq : q = o
    · subst hq; simp
    · simp [hq]

@[simp] theorem count_clearOutputs (w : World T) (this : Nat) :
    (clearOutputs w this).count = w.count :=
  (binding_clearOutputs_loop this (w.outputs this) w).1

@[simp] theorem current_clearOutputs (w : World T) (this : Nat) :
    (clearOutputs w this).current = w.current :=
  (binding_clearOutputs_loop this (w.outputs this) w).2.1

theorem binding_clearOutputs (w : World T) (this q : Nat) :
    ((clearOutputs w this).props q).m_binding =
      if q ∈ w.outputs this then none else (w.props q).m_binding := by
  have h := ((binding_clearOutputs_loop this (w.outputs this) w).2.2 q).1
  unfold clearOutputs
  simp only [props_modify]
  split <;> exact h

theorem init_clearOutputs (w : World T) (this q : Nat) :
    ((clearOutputs w this).props q).m_binding_init =
      if q ∈ w.outputs this then false else (w.props q).m_binding_init := by
  have h := ((binding_clearOutputs_loop this (w.outputs this) w).2.2 q).2.1
  unfold clearOutputs
  simp only [props_modify]
  split <;> exact h

theorem value_clearOutputs (w : World T) (this q : Nat) :
    ((clearOutputs w this).props q).m_value = (w.props q).m_value := by
  have h := ((binding_clearOutputs_loop this (w.outputs this) w).2.2 q).2.2
  unfold clearOutputs
  simp only [props_modify]
  split <;> exact h

theorem wellFormed_clearOutputs (w : World T) (p : Nat) (h : WellFormed w) :
    WellFormed (clearOutputs w p) := by
  refine ⟨edgeSymmetry_clearOutputs w p h.symm,
    fun q hq => h.irrefl q ((mem_inputs_clearOutputs w p q q).1 hq).1, ?_,
    by simpa using h.idle, ?_⟩
  · intro q f hq
    rw [binding_clearOutputs] at hq
    rw [init_clearOutputs]
    by_cases hqp : q ∈ w.outputs p
    · simp [hqp] at hq
    · simp only [hqp, if_false] at hq ⊢
      exact h.validated q f hq
  · intro q hq
    rw [count_clearOutputs] at hq
    obtain ⟨h1, h2⟩ := h.fresh q hq
    constructor
    · apply List.eq_nil_iff_forall_not_mem.2
      intro a ha
      have := ((mem_inputs_clearOutputs w p a q).1 ha).1
      rw [h1] at this; simp at this
    · apply List.eq_nil_iff_forall_not_mem.2
      intro a ha
      have := ((mem_outputs_clearOutputs w p q a).1 ha).2
      rw [h2] at this; simp at this

theorem wellFormed_destroy (w : World T) (p : Nat) (h : WellFormed w) :
    WellFormed (destroy w p) :=
  wellFormed_clearOutputs _ p (wellFormed_clearInputs w p h)

/-- The capturing evaluation of `Bind` keeps the state well-formed when the binding reads
constructed properties. -/
theorem wellFormed_bindCapture (w : World T) (p : Nat) (f : BindingFn T) (h : WellFormed w)
    (hp : p < w.count) (hr : ∀ a ∈ readsOf f w.value, a < w.count) :
    WellFormed (bindCapture w p f) := by
  have h1 := wellFormed_clearInputs w p h
  have hb : ((clearInputs w p).modify p (fun c => { c with m_binding := some f })).props p
      = { (clearInputs w p).props p with m_binding := some f } := by simp
  have hini : (((clearInputs w p).modify p
      (fun c => { c with m_binding := some f })).props p).m_binding_init = false := by
    rw [hb]; simp [init_clearInputs]
  have hval : ((clearInputs w p).modify p (fun c => { c with m_binding := some f })).value
      = w.value := by
    funext q
    simp only [World.value, props_modify]
    split <;> simp
  unfold bindCapture
  simp only []
  refine ⟨edgeSymmetry_evaluate _ p (edgeSymmetry_modify _ _ _ (fun _ => rfl) (fun _ => rfl)
    h1.symm), ?_, ?_, ?_, ?_⟩
  · intro q hq
    rcases (mem_inputs_evaluate _ p q q).1 hq with hx | ⟨_, _, _, _, hx⟩
    · rw [inputs_modify_binding] at hx; exact h1.irrefl q hx
    · exact hx rfl
  · intro q g hq
    by_cases hqp : q = p
    · subst hqp
      rcases evaluate_cases ((clearInputs w q).modify q
        (fun c => { c with m_binding := some f })) q with
        ⟨hn, _⟩ | ⟨_, _, hi, _⟩ | ⟨_, _, _, _, e⟩ | ⟨_, _, _, _, e⟩
      · rw [hb] at hn; simp at hn
      · rw [hini] at hi; simp at hi
      · rw [e]; simp
      · rw [e] at hq; simp [resetBinding] at hq
    · obtain ⟨_, e2, e3, _⟩ := props_evaluate_ne_core ((clearInputs w p).modify p
        (fun c => { c with m_binding := some f })) p q hqp
      rw [e2] at hq
      rw [e3]
      simp only [props_modify, hqp, if_false] at hq ⊢
      exact h1.validated q g hq
  · rcases current_evaluate ((clearInputs w p).modify p
      (fun c => { c with m_binding := some f })) p with e | e
    · rw [e]; simpa using h.idle
    · exact e
  · intro q hq
    simp only [count_evaluate, count_modify, count_clearInputs] at hq
    obtain ⟨f1, f2⟩ := h1.fresh q (by simpa using hq)
    have hw : ∀ a b, Wires ((clearInputs w p).modify p
        (fun c => { c with m_binding := some f })) p a b → a < w.count ∧ b < w.count := by
      rintro a b ⟨g, hg, hs, hc, _⟩
      rw [hb] at hg
      simp only [Option.some.injEq] at hg
      subst hg
      rw [hini] at hc
      simp only [Bool.false_eq_true, if_false, Option.some.injEq] at hc
      rw [hval] at hs
      exact ⟨hr a ((mem_readsOf _ _ a).2 hs), by omega⟩
    constructor
    · apply List.eq_nil_iff_forall_not_mem.2
      intro a ha
      rcases (mem_inputs_evaluate _ p a q).1 ha with hx | hx
      · rw [inputs_modify_binding, f1] at hx; simp at hx
      · have := (hw a q hx).2; omega
    · apply List.eq_nil_iff_forall_not_mem.2
      intro a ha
      rcases (mem_outputs_evaluate _ p q a).1 ha with hx | hx
      · rw [outputs_modify_binding, f2] at hx; simp at hx
      · have := (hw q a hx).1; omega

theorem wellFormed_Bind (w : World T) (p : Nat) (f : BindingFn T) (h : WellFormed w)
    (hp : p < w.count) (hr : ∀ a ∈ readsOf f w.value, a < w.count) :
    WellFormed (Bind w p f) :=
  wellFormed_evaluateOutputs _ p (wellFormed_bindCapture w p f h hp hr)

end ks

namespace ks

variable {T : Type}

theorem wellFormed_empty [Inhabited T] : WellFormed (World.empty : World T) :=
  ⟨fun _ _ => by simp [World.empty, World.inputs, World.outputs, freshProperty],
    fun _ => by simp [World.empty, World.inputs, freshProperty],
    fun _ _ h => by simp [World.empty, freshProperty] at h, rfl,
    fun _ _ => ⟨rfl, rfl⟩⟩

@[simp] theorem count_construct [Inhabited T] (w : World T) (name : String) (value : T)
    (notifier : Bool) : (construct w name value notifier).count = w.count + 1 := rfl

theorem wellFormed_construct [Inhabited T] (w : World T) (name : String) (value : T)
    (notifier : Bool) (h : WellFormed w) : WellFormed (construct w name value notifier) := by
  obtain ⟨f1, f2⟩ := h.fresh w.count (le_refl _)
  have hi : (construct w name value notifier).inputs = w.inputs := by
    funext q
    simp only [construct, SetNotifier, World.inputs, props_modify]
    by_cases hq : q = w.count
    · subst hq; simp only [if_true]; exact f1.symm
    · simp [hq]
  have ho : (construct w name value notifier).outputs = w.outputs := by
    funext q
    simp only [construct, SetNotifier, World.outputs, props_modify]
    by_cases hq : q = w.count
    · subst hq; simp only [if_true]; exact f2.symm
    · simp [hq]
  refine ⟨edgeSymmetry_congr hi ho h.symm, fun q => by rw [hi]; exact h.irrefl q, ?_, h.idle,
    ?_⟩
  · intro q f hq
    simp only [construct, SetNotifier, props_modify] at hq ⊢
    by_cases hqc : q = w.count
    · simp [hqc, freshProperty] at hq
    · simp only [hqc, if_false] at hq ⊢
      exact h.validated q f hq
  · intro q hq
    rw [hi, ho]
    exact h.fresh q (by simp at hq; omega)

theorem wellFormed_Get (w : World T) (p : Nat) (h : WellFormed w) : (Get w p).2 = w := by
  simp [Get, captureAsInput, h.idle]

theorem wellFormed_applyOp [Inhabited T] (w : World T) (op : Op T) (h : WellFormed w)
    (hv : ValidOp w op) : WellFormed (applyOp w op) := by
  cases op with
  | construct name value notifier => exact wellFormed_construct w name value notifier h
  | constructBound name f notifier =>
    refine wellFormed_Bind _ _ f (wellFormed_construct w name default notifier h) (by simp) ?_
    intro a ha
    have := hv a ha
    simp only [count_construct]
    omega
  | get p => simp only [applyOp]; rw [wellFormed_Get w p h]; exact h
  | assign p v => exact wellFormed_Assign w p v h
  | bind p f => exact wellFormed_Bind w p f h hv.1 hv.2
  | setNotifier p n =>
    exact wellFormed_congr h (by simp [applyOp, SetNotifier]) (by simp [applyOp, SetNotifier]) rfl
      rfl (fun q => by simp only [applyOp, SetNotifier, props_modify]; split <;> rfl)
      (fun q => by simp only [applyOp, SetNotifier, props_modify]; split <;> rfl)
  | setName p n =>
    exact wellFormed_congr h (by simp [applyOp, SetName]) (by simp [applyOp, SetName]) rfl
      rfl (fun q => by simp only [applyOp, SetName, props_modify]; split <;> rfl)
      (fun q => by simp only [applyOp, SetName, props_modify]; split <;> rfl)
  | destroy p => exact wellFormed_destroy w p h

theorem wellFormed_foldl_applyOp [Inhabited T] (ops : List (Op T)) :
    ∀ w : World T, WellFormed w → ValidOps w ops → WellFormed (ops.foldl applyOp w) := by
  induction ops with
  | nil => intro w h _; exact h
  | cons op ops ih =>
    intro w h hv
    exact ih _ (wellFormed_applyOp w op h hv.1) hv.2

/-- Every state reached from the empty world by valid client calls is well-formed. -/
theorem wellFormed_runOps [Inhabited T] (ops : List (Op T))
    (hv : ValidOps (World.empty : World T) ops) : WellFormed (runOps ops) :=
  wellFormed_foldl_applyOp ops _ wellFormed_empty hv

end ks

/-! ### Frame properties of propagation -/

namespace ks

variable {T : Type}

theorem init_evaluate_unbound (w : World T) (d q : Nat) (hq : (w.props q).m_binding = none) :
    ((evaluate w d).props q).m_binding_init = (w.props q).m_binding_init := by
  by_cases h : q = d
  · subst h
    rw [evaluate_none w q hq]
    simp
  · exact (props_evaluate_ne_core w d q h).2.2.1

/-- A property without binding, which is not the one being captured, is left entirely alone by
an `evaluate()` call on any property: binding, value, flag of initialisation, input list
membership and its occurrences in output lists. -/
theorem evaluate_frame_unbound (w : World T) (d p : Nat) (hb : (w.props p).m_binding = none)
    (hc : w.current ≠ some p) :
    ((evaluate w d).props p).m_binding = none ∧
    ((evaluate w d).props p).m_value = (w.props p).m_value ∧
    ((evaluate w d).props p).m_binding_init = (w.props p).m_binding_init ∧
    (evaluate w d).current ≠ some p ∧
    (∀ a, a ∈ (evaluate w d).inputs p ↔ a ∈ w.inputs p) ∧
    (∀ x, p ∈ (evaluate w d).outputs x ↔ p ∈ w.outputs x) := by
  have hw : ∀ a, ¬ Wires w d a p := by
    rintro a ⟨f, hf, _, hcur, _⟩
    by_cases hi : (w.props d).m_binding_init = true
    · rw [if_pos hi] at hcur; exact hc hcur
    · rw [if_neg hi] at hcur
      simp only [Option.some.injEq] at hcur
      subst hcur
      rw [hb] at hf; simp at hf
  refine ⟨(evaluate_unbound w d p hb).1, (evaluate_unbound w d p hb).2,
    init_evaluate_unbound w d p hb, ?_, ?_, ?_⟩
  · rcases current_evaluate w d with e | e
    · rw [e]; exact hc
    · rw [e]; simp
  · intro a
    rw [mem_inputs_evaluate]
    exact ⟨fun h => h.resolve_right (hw a), Or.inl⟩
  · intro x
    rw [mem_outputs_evaluate]
    exact ⟨fun h => h.resolve_right (hw x), Or.inl⟩

/-- The same frame property for a whole propagation pass. -/
theorem foldl_evaluate_frame_unbound (l : List Nat) (p : Nat) :
    ∀ w : World T, (w.props p).m_binding = none → w.current ≠ some p →
      ((l.foldl evaluate w).props p).m_binding = none ∧
      ((l.foldl evaluate w).props p).m_value = (w.props p).m_value ∧
      ((l.foldl evaluate w).props p).m_binding_init = (w.props p).m_binding_init ∧
      (l.foldl evaluate w).current ≠ some p ∧
      (∀ a, a ∈ (l.foldl evaluate w).inputs p ↔ a ∈ w.inputs p) ∧
      (∀ x, p ∈ (l.foldl evaluate w).outputs x ↔ p ∈ w.outputs x) := by
  induction l with
  | nil => intro w hb hc; exact ⟨hb, rfl, rfl, hc, fun _ => Iff.rfl, fun _ => Iff.rfl⟩
  | cons d l ih =>
    intro w hb hc
    obtain ⟨h1, h2, h3, h4, h5, h6⟩ := evaluate_frame_unbound w d p hb hc
    obtain ⟨k1, k2, k3, k4, k5, k6⟩ := ih (evaluate w d) h1 h4
    rw [List.foldl_cons]
    exact ⟨k1, k2.trans h2, k3.trans h3, k4, fun a => (k5 a).trans (h5 a),
      fun x => (k6 x).trans (h6 x)⟩

/-- State of the assigned property when `Assign` has finished. -/
theorem Assign_self (w : World T) (p : Nat) (v : T) (hc : w.current ≠ some p) :
    ((Assign w p v).props p).m_binding = none ∧
    ((Assign w p v).props p).m_value = v ∧
    ((Assign w p v).props p).m_binding_init = false ∧
    (Assign w p v).current ≠ some p ∧
    (Assign w p v).inputs p = [] ∧
    (∀ x, p ∈ (Assign w p v).outputs x ↔ (p ∈ w.outputs x ∧ x ∉ w.inputs p)) := by
  have hb : ((notify ((clearInputs w p).modify p (fun c => { c with m_value := v })) p).props
      p).m_binding = none := by
    simp [binding_clearInputs]
  have hcur : (notify ((clearInputs w p).modify p (fun c => { c with m_value := v })) p).current
      ≠ some p := by simpa using hc
  obtain ⟨k1, k2, k3, k4, k5, k6⟩ := foldl_evaluate_frame_unbound
    (evaluationOrder (notify ((clearInputs w p).modify p (fun c => { c with m_value := v })) p) p)
    p _ hb hcur
  unfold Assign evaluateOutputs
  simp only []
  refine ⟨k1, ?_, ?_, k4, ?_, ?_⟩
  · rw [k2]; simp
  · rw [k3]; simp [init_clearInputs]
  · apply List.eq_nil_iff_forall_not_mem.2
    intro a ha
    rw [k5, inputs_notify, inputs_modify_value] at ha
    exact ((mem_inputs_clearInputs w p a p).1 ha).1 rfl
  · intro x
    rw [k6, outputs_notify, outputs_modify_value, mem_outputs_clearInputs]
    simp

/-- `Assign` to another property leaves a property without binding at its value. -/
theorem Assign_other_unbound (w : World T) (s p : Nat) (y : T) (hsp : s ≠ p)
    (hb : (w.props p).m_binding = none) :
    ((Assign w s y).props p).m_binding = none ∧
      ((Assign w s y).props p).m_value = (w.props p).m_value := by
  have hb' : ((notify ((clearInputs w s).modify s (fun c => { c with m_value := y })) s).props
      p).m_binding = none := by
    simp [binding_clearInputs, hsp.symm, hb]
  have hv : ((notify ((clearInputs w s).modify s (fun c => { c with m_value := y })) s).props
      p).m_value = (w.props p).m_value := by
    simp [hsp.symm]
  have key : ∀ (l : List Nat) (w0 : World T), (w0.props p).m_binding = none →
      ((l.foldl evaluate w0).props p).m_binding = none ∧
        ((l.foldl evaluate w0).props p).m_value = (w0.props p).m_value := by
    intro l
    induction l with
    | nil => intro w0 h0; exact ⟨h0, rfl⟩
    | cons d l ih =>
      intro w0 h0
      obtain ⟨e1, e2⟩ := evaluate_unbound w0 d p h0
      obtain ⟨i1, i2⟩ := ih (evaluate w0 d) e1
      exact ⟨i1, i2.trans e2⟩
  obtain ⟨a1, a2⟩ := key (evaluationOrder
    (notify ((clearInputs w s).modify s (fun c => { c with m_value := y })) s) s) _ hb'
  exact ⟨a1, a2.trans hv⟩

theorem Get_value (w : World T) (p : Nat) : (Get w p).1 = (w.props p).m_value := by
  simp only [Get, World.value]
  exact (sameCore_captureAsInput w p).value p

end ks

/-! ### The evaluation order of a propagation pass -/

namespace ks

variable {T : Type}

/-- The traversal of a graph whose edges stay among the constructed properties. -/
theorem TopologicalSort_spec (w : World T) (a : Nat) (hr : w.InRange) (ha : a < w.count) :
    (TopologicalSort w a).Nodup ∧
    (∀ v, v ∈ TopologicalSort w a ↔ Reach w.outputs a v) ∧
    (∀ u ∈ TopologicalSort w a, ∀ v ∈ w.outputs u,
      List.Sublist [v, u] (TopologicalSort w a) ∨ Reach w.outputs v u) :=
  topologicalSort_fresh w.outputs (Finset.range w.count)
    (fun u _ v hv => Finset.mem_range.2 (hr u v hv)) (w.count + 1) a (Finset.mem_range.2 ha)
    (by simp)

theorem evaluationOrder_spec (w : World T) (a : Nat) (hr : w.InRange) (ha : a < w.count) :
    (evaluationOrder w a).Nodup ∧
    (∀ v, v ∈ evaluationOrder w a ↔ (Reach w.outputs a v ∧ v ≠ a)) ∧
    (∀ u ∈ evaluationOrder w a, ∀ v ∈ w.outputs u, v ≠ a →
      List.Sublist [u, v] (evaluationOrder w a) ∨ Reach w.outputs v u) := by
  obtain ⟨h1, h2, h3⟩ := TopologicalSort_spec w a hr ha
  unfold evaluationOrder
  refine ⟨(List.nodup_reverse.2 h1).filter _, ?_, ?_⟩
  · intro v
    simp only [List.mem_filter, List.mem_reverse, h2, decide_eq_true_eq]
  · intro u hu v hv hva
    simp only [List.mem_filter, List.mem_reverse, decide_eq_true_eq] at hu
    rcases h3 u hu.1 v hv with h | h
    · left
      have hs := (List.reverse_sublist.2 h).filter (fun p => decide (p ≠ a))
      simpa [List.filter, hu.2, hva] using hs
    · exact Or.inr h

/-- Each `evaluate()` of a pass is recorded, in order. -/
theorem evaluations_foldl_evaluate (l : List Nat) :
    ∀ w : World T, evaluations (l.foldl evaluate w).trace = evaluations w.trace ++ l := by
  induction l with
  | nil => intro w; simp
  | cons d l ih => intro w; rw [List.foldl_cons, ih, evaluations_evaluate]; simp

theorem evaluations_evaluateOutputs (w : World T) (a : Nat) :
    evaluations (evaluateOutputs w a).trace = evaluations w.trace ++ evaluationOrder w a :=
  evaluations_foldl_evaluate _ w

/-- Removing edges that point to `s` does not change what is reachable from `s`. -/
theorem reach_of_edges_except {E E' : Nat → Nat → Prop} (s : Nat)
    (h : ∀ u v, v ≠ s → E u v → E' u v) (p : Nat) (hp : Relation.ReflTransGen E s p) :
    Relation.ReflTransGen E' s p := by
  induction hp with
  | refl => exact Relation.ReflTransGen.refl
  | @tail b c _ hbc ih =>
    by_cases hc : c = s
    · rw [hc]
    · exact Relation.ReflTransGen.tail ih (h b c hc hbc)

theorem transGen_iff_reach_ne {E : Nat → Nat → Prop} (hac : ∀ p, ¬ Relation.TransGen E p p)
    (a p : Nat) : Relation.TransGen E a p ↔ (Relation.ReflTransGen E a p ∧ p ≠ a) := by
  constructor
  · intro h
    refine ⟨h.to_reflTransGen, ?_⟩
    rintro rfl
    exact hac _ h
  · rintro ⟨h, hne⟩
    rcases Relation.reflTransGen_iff_eq_or_transGen.1 h with h | h
    · exact absurd h hne
    · exact h

/-- In a duplicate-free order, "before" read off a two-element sublist. -/
theorem mem_left_of_sublist_pair {u d : Nat} {l1 l2 : List Nat}
    (hn : (l1 ++ d :: l2).Nodup) (hs : List.Sublist [u, d] (l1 ++ d :: l2)) : u ∈ l1 := by
  have hd1 : d ∉ l1 := fun h => by
    have := (List.nodup_append.1 hn).2.2
    exact this h (List.mem_cons_self d l2)
  have hd2 : d ∉ l2 := by
    have := (List.nodup_append.1 hn).2.1
    exact (List.nodup_cons.1 this).1
  obtain ⟨x, y, hxy, hx, hy⟩ := List.sublist_append_iff.1 hs
  match x, hxy with
  | [], hxy =>
    simp only [List.nil_append] at hxy
    subst hxy
    rcases List.sublist_cons_iff.1 hy with h | ⟨r, hr, hr'⟩
    · exact absurd (h.subset (by simp)) hd2
    · simp only [List.cons.injEq] at hr
      obtain ⟨_, rfl⟩ := hr
      exact absurd (hr'.subset (by simp)) hd2
  | [x1], hxy =>
    simp only [List.singleton_append, List.cons.injEq] at hxy
    obtain ⟨rfl, _⟩ := hxy
    exact hx.subset (by simp)
  | x1 :: x2 :: xs, hxy =>
    simp only [List.cons_append, List.cons.injEq] at hxy
    obtain ⟨_, rfl, _⟩ := hxy
    exact absurd (hx.subset (by simp)) hd1

end ks

namespace ks

variable {T : Type}

theorem isPropagationOrder_evaluationOrder (w : World T) (a : Nat) (h : WellFormed w)
    (hac : w.Acyclic) (ha : a < w.count) : IsPropagationOrder w a (evaluationOrder w a) := by
  obtain ⟨h1, h2, h3⟩ := evaluationOrder_spec w a h.inRange ha
  have hmem : ∀ p, p ∈ evaluationOrder w a ↔ Relation.TransGen (Edge w.outputs) a p := by
    intro p
    rw [h2, transGen_iff_reach_ne hac]
    rfl
  refine ⟨fun p hp => List.count_eq_one_of_mem h1 ((hmem p).2 hp), fun p hp => (hmem p).1 hp, ?_⟩
  intro v u l1 l2 hL hu huL
  have hvL : v ∈ evaluationOrder w a := by rw [hL]; simp
  have hva : v ≠ a := ((h2 v).1 hvL).2
  have hedge : v ∈ w.outputs u := (h.symm u v).1 hu
  rcases h3 u huL v hedge hva with hs | hr
  · rw [hL] at hs h1
    exact mem_left_of_sublist_pair h1 hs
  · exact absurd (Relation.TransGen.head' hedge hr) (hac u)

/-- The state in which `Assign` starts its propagation pass. -/
theorem Assign_eq (w : World T) (a : Nat) (x : T) :
    Assign w a x = evaluateOutputs
      (notify ((clearInputs w a).modify a (fun c => { c with m_value := x })) a) a := rfl

theorem wellFormed_Assign_pre (w : World T) (a : Nat) (x : T) (h : WellFormed w) :
    WellFormed (notify ((clearInputs w a).modify a (fun c => { c with m_value := x })) a) := by
  refine wellFormed_congr (wellFormed_clearInputs w a h) (by simp) (by simp) (by simp) (by simp)
    ?_ ?_
  · intro q; simp only [props_notify, props_modify]; split <;> rfl
  · intro q; simp only [props_notify, props_modify]; split <;> rfl

theorem outputs_Assign_pre (w : World T) (a : Nat) (x : T) (u v : Nat) :
    v ∈ (notify ((clearInputs w a).modify a (fun c => { c with m_value := x })) a).outputs u ↔
      v ∈ w.outputs u ∧ ¬ (v = a ∧ u ∈ w.inputs a) := by
  rw [outputs_notify, outputs_modify_value, mem_outputs_clearInputs]

theorem inputs_Assign_pre (w : World T) (a : Nat) (x : T) (u v : Nat) :
    u ∈ (notify ((clearInputs w a).modify a (fun c => { c with m_value := x })) a).inputs v ↔
      v ≠ a ∧ u ∈ w.inputs v := by
  rw [inputs_notify, inputs_modify_value, mem_inputs_clearInputs]

theorem acyclic_Assign_pre (w : World T) (a : Nat) (x : T) (hac : w.Acyclic) :
    (notify ((clearInputs w a).modify a (fun c => { c with m_value := x })) a).Acyclic := by
  intro p hp
  refine hac p (Relation.TransGen.mono ?_ hp)
  intro u v huv
  exact ((outputs_Assign_pre w a x u v).1 huv).1

theorem transGen_Assign_pre (w : World T) (a : Nat) (x : T) (hac : w.Acyclic) (p : Nat) :
    Relation.TransGen
      (Edge (notify ((clearInputs w a).modify a (fun c => { c with m_value := x })) a).outputs)
      a p ↔ Relation.TransGen (Edge w.outputs) a p := by
  constructor
  · intro hp
    refine Relation.TransGen.mono ?_ hp
    intro u v huv
    exact ((outputs_Assign_pre w a x u v).1 huv).1
  · intro hp
    rw [transGen_iff_reach_ne (acyclic_Assign_pre w a x hac)]
    obtain ⟨hr, hne⟩ := (transGen_iff_reach_ne hac a p).1 hp
    refine ⟨reach_of_edges_except a ?_ p hr, hne⟩
    intro u v hv huv
    exact (outputs_Assign_pre w a x u v).2 ⟨huv, fun hc => hv hc.1⟩

@[simp] theorem evaluations_Assign_pre (w : World T) (a : Nat) (x : T) :
    evaluations (notify ((clearInputs w a).modify a (fun c => { c with m_value := x })) a).trace
      = evaluations w.trace := by
  simp

theorem isPropagationOrder_Assign (w : World T) (a : Nat) (x : T) (h : WellFormed w)
    (hac : w.Acyclic) (ha : a < w.count) :
    IsPropagationOrder w a (evaluationOrder
      (notify ((clearInputs w a).modify a (fun c => { c with m_value := x })) a) a) := by
  obtain ⟨h1, h2, h3⟩ := isPropagationOrder_evaluationOrder _ a (wellFormed_Assign_pre w a x h)
    (acyclic_Assign_pre w a x hac) (by simpa using ha)
  refine ⟨fun p hp => h1 p ((transGen_Assign_pre w a x hac p).2 hp),
    fun p hp => (transGen_Assign_pre w a x hac p).1 (h2 p hp), ?_⟩
  intro v u l1 l2 hL hu huL
  have hva : v ≠ a := by
    have hv := h2 v (by rw [hL]; simp)
    rintro rfl
    exact acyclic_Assign_pre w v x hac v hv
  exact h3 v u l1 l2 hL ((inputs_Assign_pre w a x u v).2 ⟨hva, hu⟩) huL

end ks

namespace ks

variable {T : Type}

/-- A graph whose edges all point to later-constructed properties has no cycle. -/
theorem acyclic_of_forall_lt (w : World T) (h : WellFormed w)
    (hlt : ∀ u < w.count, ∀ v ∈ w.outputs u, u < v) : w.Acyclic := by
  have hedge : ∀ u v, Edge w.outputs u v → u < v := by
    intro u v huv
    by_cases hu : u < w.count
    · exact hlt u hu v huv
    · have := (h.fresh u (by omega)).2
      unfold Edge at huv
      rw [this] at huv
      simp at huv
  have htrans : ∀ u v, Relation.TransGen (Edge w.outputs) u v → u < v := by
    intro u v huv
    induction huv with
    | single hab => exact hedge _ _ hab
    | tail _ hbc ih => exact lt_trans ih (hedge _ _ hbc)
  intro p hp
  exact lt_irrefl p (htrans p p hp)

theorem diamond_valid : ValidOps (World.empty : World Int) diamondOps := by
  refine ⟨trivial, ?_, ?_, ?_, trivial⟩ <;> (simp only [ValidOp]; decide)

theorem diamond_wellFormed : WellFormed diamond := wellFormed_runOps diamondOps diamond_valid

theorem diamond_acyclic : diamond.Acyclic :=
  acyclic_of_forall_lt diamond diamond_wellFormed (by decide)

/-- C1: in an acyclic (well-formed) dependency graph, the propagation pass started by a change
to `a` (`evaluateOutputs`, which is the propagation step of `Bind`, and `Assign`) evaluates every
property transitively reachable from `a` through output edges exactly once and nothing else,
and evaluates each such property only after all of its inputs that are reachable from `a`. -/
theorem propagation_evaluates_once_in_order (w : World T) (a : Nat) (h : WellFormed w)
    (hac : w.Acyclic) (ha : a < w.count) :
    (∃ L, evaluations (evaluateOutputs w a).trace = evaluations w.trace ++ L ∧
      IsPropagationOrder w a L) ∧
    (∀ x, ∃ L, evaluations (Assign w a x).trace = evaluations w.trace ++ L ∧
      IsPropagationOrder w a L) := by
  refine ⟨⟨evaluationOrder w a, evaluations_evaluateOutputs w a,
    isPropagationOrder_evaluationOrder w a h hac ha⟩, ?_⟩
  intro x
  refine ⟨_, ?_, isPropagationOrder_Assign w a x h hac ha⟩
  rw [Assign_eq, evaluations_evaluateOutputs, evaluations_Assign_pre]

/-- C1, diamond: a change to `A` evaluates `D` exactly once (the order is `C`, `B`, `D`). -/
theorem propagation_evaluates_once_in_order_diamond :
    ((∃ L, evaluations (evaluateOutputs diamond 0).trace = evaluations diamond.trace ++ L ∧
        IsPropagationOrder diamond 0 L) ∧
      (∀ x, ∃ L, evaluations (Assign diamond 0 x).trace = evaluations diamond.trace ++ L ∧
        IsPropagationOrder diamond 0 L)) ∧
    (evaluations (Assign diamond 0 5).trace).drop (evaluations diamond.trace).length
      = [2, 1, 3] :=
  ⟨propagation_evaluates_once_in_order diamond 0 diamond_wellFormed diamond_acyclic (by decide),
    by decide⟩

end ks

namespace ks

variable {T : Type}

@[simp] theorem count_foldl_evaluate (l : List Nat) (w : World T) :
    (l.foldl evaluate w).count = w.count := by
  induction l generalizing w with
  | nil => rfl
  | cons d l ih => rw [List.foldl_cons, ih, count_evaluate]

@[simp] theorem count_evaluateOutputs (w : World T) (p : Nat) :
    (evaluateOutputs w p).count = w.count :=
  count_foldl_evaluate _ w

@[simp] theorem count_Assign (w : World T) (p : Nat) (x : T) : (Assign w p x).count = w.count := by
  rw [Assign_eq]; simp

/-- C10: edge symmetry is an invariant of the property graph: after every sequence of
constructions, `Get` calls (outside an evaluation, or inside one as part of a binding),
`Assign`, `Bind`, `SetNotifier`, `SetName` and destructions addressed to constructed
properties, `a` is in `b`'s input list iff `b` is in `a`'s output list. -/
theorem edge_symmetry_invariant [Inhabited T] (ops : List (Op T))
    (hv : ValidOps (World.empty : World T) ops) (a b : Nat) :
    a ∈ (runOps ops).inputs b ↔ b ∈ (runOps ops).outputs a :=
  (wellFormed_runOps ops hv).symm a b

/-- C10, on the diamond: `B` is an input of `D` and `D` is an output of `B`. -/
theorem edge_symmetry_invariant_diamond :
    ValidOps (World.empty : World Int) diamondOps ∧
      (1 ∈ (runOps diamondOps).inputs 3 ↔ 3 ∈ (runOps diamondOps).outputs 1) :=
  ⟨diamond_valid, edge_symmetry_invariant diamondOps diamond_valid 1 3⟩

/-- C5: after a property `q` is destroyed (in any edge-symmetric graph state), `q` appears in
the input list of no property and in the output list of no property. -/
theorem destroy_leaves_no_reference (w : World T) (q : Nat) (h : EdgeSymmetry w) (x : Nat) :
    q ∉ (destroy w q).inputs x ∧ q ∉ (destroy w q).outputs x := by
  have h1 := edgeSymmetry_clearInputs w q h
  unfold destroy
  constructor
  · intro hq
    obtain ⟨hin, hn⟩ := (mem_inputs_clearOutputs _ q q x).1 hq
    exact hn ⟨rfl, (h1 q x).1 hin⟩
  · intro hq
    obtain ⟨_, hout⟩ := (mem_outputs_clearOutputs _ q x q).1 hq
    obtain ⟨ho, hn⟩ := (mem_outputs_clearInputs w q x q).1 hout
    exact hn ⟨rfl, (h x q).2 ho⟩

/-- C5, on the diamond: after `B` is destroyed neither `A` nor `D` refers to it. -/
theorem destroy_leaves_no_reference_diamond :
    EdgeSymmetry diamond ∧
      (1 ∉ (destroy diamond 1).inputs 3 ∧ 1 ∉ (destroy diamond 1).outputs 3) ∧
      (1 ∉ (destroy diamond 1).inputs 0 ∧ 1 ∉ (destroy diamond 1).outputs 0) :=
  ⟨diamond_wellFormed.symm, destroy_leaves_no_reference diamond 1 diamond_wellFormed.symm 3,
    destroy_leaves_no_reference diamond 1 diamond_wellFormed.symm 0⟩

/-- C7: after `p.Assign(v)`, called outside any evaluation on a property holding a constant or
a binding: `p.Get()` returns `v`, `p` has no binding (`GetBindingValid()` is false and
`m_binding_init` is false) and `p` has no input edges.  (The driving mode is the content of
`m_binding`, so a property is never driven by a constant and a binding at once.) -/
theorem assign_voids_binding (w : World T) (p : Nat) (v : T) (hc : w.current = none) :
    (Get (Assign w p v) p).1 = v ∧ GetBindingValid (Assign w p v) p = false ∧
      ((Assign w p v).props p).m_binding_init = false ∧ (Assign w p v).inputs p = [] := by
  obtain ⟨h1, h2, h3, _, h5, _⟩ := Assign_self w p v (by rw [hc]; simp)
  refine ⟨by rw [Get_value, h2], ?_, h3, h5⟩
  unfold GetBindingValid
  rw [h1]; rfl

/-- C7, on the diamond: assigning 42 to the bound property `D`. -/
theorem assign_voids_binding_diamond :
    diamond.current = none ∧ GetBindingValid diamond 3 = true ∧
      ((Get (Assign diamond 3 42) 3).1 = 42 ∧ GetBindingValid (Assign diamond 3 42) 3 = false ∧
        ((Assign diamond 3 42).props 3).m_binding_init = false ∧
        (Assign diamond 3 42).inputs 3 = []) :=
  ⟨diamond_wellFormed.idle, by decide, assign_voids_binding diamond 3 42 diamond_wellFormed.idle⟩

theorem lt_count_of_mem_inputs (w : World T) (h : WellFormed w) (s p : Nat)
    (hs : s ∈ w.inputs p) : s < w.count := by
  by_contra hlt
  have h1 := (h.fresh s (by omega)).2
  have h2 := (h.symm s p).1 hs
  rw [h1] at h2
  simp at h2

/-- C4: for a property `p` with captured input set `S` (its input list in a well-formed
state), after `p.Assign(x)`: the input list of `p` is empty, `p` is in the output list of no
member of `S`, and a later `Assign` to a member of `S` leaves `p.Get() == x` and does not
evaluate `p`. -/
theorem assign_tears_down_input_edges (w : World T) (p : Nat) (x : T) (h : WellFormed w) :
    (Assign w p x).inputs p = [] ∧
    (∀ s ∈ w.inputs p, p ∉ (Assign w p x).outputs s) ∧
    (∀ s ∈ w.inputs p, ∀ y,
      (Get (Assign (Assign w p x) s y) p).1 = x ∧
      p ∉ (evaluations (Assign (Assign w p x) s y).trace).drop
        (evaluations (Assign w p x).trace).length) := by
  obtain ⟨h1, h2, _, _, h5, h6⟩ := Assign_self w p x (by rw [h.idle]; simp)
  have hw1 := wellFormed_Assign w p x h
  refine ⟨h5, ?_, ?_⟩
  · intro s hs hp
    exact ((h6 s).1 hp).2 hs
  · intro s hs y
    have hsp : s ≠ p := by rintro rfl; exact h.irrefl s hs
    constructor
    · rw [Get_value, (Assign_other_unbound (Assign w p x) s p y hsp h1).2, h2]
    · rw [Assign_eq (Assign w p x) s y, evaluations_evaluateOutputs, evaluations_Assign_pre,
        List.drop_left]
      intro hp
      have hs' : s < (Assign w p x).count := by
        have := lt_count_of_mem_inputs w h s p hs
        rw [count_Assign]
        exact this
      have hwA := wellFormed_Assign_pre (Assign w p x) s y hw1
      obtain ⟨hr, hne⟩ := ((evaluationOrder_spec _ s hwA.inRange (by simpa using hs')).2.1 p).1 hp
      rcases Relation.reflTransGen_iff_eq_or_transGen.1 hr with e | ht
      · exact hne e
      · obtain ⟨u, _, hu⟩ := Relation.TransGen.tail'_iff.1 ht
        have hu1 : p ∈ (Assign w p x).outputs u := ((outputs_Assign_pre _ s y u p).1 hu).1
        have hu2 := (hw1.symm u p).2 hu1
        rw [h5] at hu2
        simp at hu2

/-- C4, on the diamond: after `D.Assign(42)` a later `B.Assign(7)` leaves `D` at 42. -/
theorem assign_tears_down_input_edges_diamond :
    (Assign diamond 3 42).inputs 3 = [] ∧
    (∀ s ∈ diamond.inputs 3, 3 ∉ (Assign diamond 3 42).outputs s) ∧
    (∀ s ∈ diamond.inputs 3, ∀ y,
      (Get (Assign (Assign diamond 3 42) s y) 3).1 = 42 ∧
      3 ∉ (evaluations (Assign (Assign diamond 3 42) s y).trace).drop
        (evaluations (Assign diamond 3 42).trace).length) :=
  assign_tears_down_input_edges diamond 3 42 diamond_wellFormed

end ks

/-! ### Binding runs as functions of the values read -/

namespace ks

variable {T : Type}

/-- A binding run depends only on the values of the properties it reads. -/
theorem stepsOf_congr (f : BindingFn T) :
    ∀ (ρ ρ' : Nat → T), (∀ q ∈ readsOf f ρ, ρ q = ρ' q) →
      stepsOf f ρ = stepsOf f ρ' ∧ evalPure f ρ = evalPure f ρ' := by
  induction f with
  | ret v => intro ρ ρ' _; exact ⟨rfl, rfl⟩
  | get q k ih =>
    intro ρ ρ' h
    have hq : ρ q = ρ' q := h q (by simp [readsOf, stepsOf])
    have hk := ih (ρ q) ρ ρ' (fun a ha => h a (by
      simp only [readsOf, stepsOf, List.filterMap_cons, id_eq, List.mem_cons]
      exact Or.inr ha))
    simp only [stepsOf, evalPure]
    rw [← hq]
    exact ⟨by rw [hk.1], hk.2⟩
  | fail k ih =>
    intro ρ ρ' h
    have hk := ih ρ ρ' (fun a ha => h a (by
      simpa [readsOf, stepsOf] using ha))
    simp only [stepsOf, evalPure]
    exact ⟨by rw [hk.1], hk.2⟩

theorem evalPure_congr (f : BindingFn T) (ρ ρ' : Nat → T)
    (h : ∀ q ∈ readsOf f ρ, ρ q = ρ' q) : evalPure f ρ = evalPure f ρ' :=
  (stepsOf_congr f ρ ρ' h).2

theorem readsOf_congr (f : BindingFn T) (ρ ρ' : Nat → T)
    (h : ∀ q ∈ readsOf f ρ, ρ q = ρ' q) : readsOf f ρ = readsOf f ρ' := by
  unfold readsOf; rw [(stepsOf_congr f ρ ρ' h).1]

theorem runFails_congr (f : BindingFn T) (ρ ρ' : Nat → T)
    (h : ∀ q ∈ readsOf f ρ, ρ q = ρ' q) : runFails f ρ = runFails f ρ' := by
  unfold runFails; rw [(stepsOf_congr f ρ ρ' h).1]

/-! ### Frame properties for properties that are not evaluated -/

/-- `evaluate()` of `d` leaves another property `p`, which is not the one being captured,
entirely alone. -/
theorem evaluate_frame_ne (w : World T) (d p : Nat) (hd : d ≠ p) (hc : w.current ≠ some p) :
    ((evaluate w d).props p).m_value = (w.props p).m_value ∧
    ((evaluate w d).props p).m_binding = (w.props p).m_binding ∧
    ((evaluate w d).props p).m_binding_init = (w.props p).m_binding_init ∧
    (evaluate w d).current ≠ some p ∧
    (∀ a, a ∈ (evaluate w d).inputs p ↔ a ∈ w.inputs p) ∧
    (∀ x, p ∈ (evaluate w d).outputs x ↔ p ∈ w.outputs x) := by
  have hw : ∀ a, ¬ Wires w d a p := by
    rintro a ⟨f, _, _, hcur, _⟩
    by_cases hi : (w.props d).m_binding_init = true
    · rw [if_pos hi] at hcur; exact hc hcur
    · rw [if_neg hi] at hcur
      simp only [Option.some.injEq] at hcur
      exact hd hcur
  obtain ⟨h1, h2, h3, _⟩ := props_evaluate_ne_core w d p hd.symm
  refine ⟨h1, h2, h3, ?_, ?_, ?_⟩
  · rcases current_evaluate w d with e | e
    · rw [e]; exact hc
    · rw [e]; simp
  · intro a
    rw [mem_inputs_evaluate]
    exact ⟨fun h => h.resolve_right (hw a), Or.inl⟩
  · intro x
    rw [mem_outputs_evaluate]
    exact ⟨fun h => h.resolve_right (hw x), Or.inl⟩

theorem foldl_evaluate_frame_ne (l : List Nat) (p : Nat) (hl : p ∉ l) :
    ∀ w : World T, w.current ≠ some p →
      ((l.foldl evaluate w).props p).m_value = (w.props p).m_value ∧
      ((l.foldl evaluate w).props p).m_binding = (w.props p).m_binding ∧
      ((l.foldl evaluate w).props p).m_binding_init = (w.props p).m_binding_init ∧
      (l.foldl evaluate w).current ≠ some p ∧
      (∀ a, a ∈ (l.foldl evaluate w).inputs p ↔ a ∈ w.inputs p) ∧
      (∀ x, p ∈ (l.foldl evaluate w).outputs x ↔ p ∈ w.outputs x) := by
  induction l with
  | nil => intro w hc; exact ⟨rfl, rfl, rfl, hc, fun _ => Iff.rfl, fun _ => Iff.rfl⟩
  | cons d l ih =>
    intro w hc
    have hd : d ≠ p := fun e => hl (by simp [e])
    obtain ⟨h1, h2, h3, h4, h5, h6⟩ := evaluate_frame_ne w d p hd hc
    obtain ⟨k1, k2, k3, k4, k5, k6⟩ := ih (fun h => hl (by simp [h])) (evaluate w d) h4
    rw [List.foldl_cons]
    exact ⟨k1.trans h1, k2.trans h2, k3.trans h3, k4, fun a => (k5 a).trans (h5 a),
      fun x => (k6 x).trans (h6 x)⟩

/-- What a pass leaves untouched in a property it does not evaluate, whatever the slot. -/
theorem foldl_evaluate_not_mem (l : List Nat) (p : Nat) (hl : p ∉ l) :
    ∀ w : World T,
      ((l.foldl evaluate w).props p).m_value = (w.props p).m_value ∧
      ((l.foldl evaluate w).props p).m_binding = (w.props p).m_binding ∧
      ((l.foldl evaluate w).props p).m_binding_init = (w.props p).m_binding_init ∧
      ((l.foldl evaluate w).props p).m_notifier = (w.props p).m_notifier ∧
      notificationsOf p (l.foldl evaluate w).trace = notificationsOf p w.trace := by
  induction l with
  | nil => intro w; exact ⟨rfl, rfl, rfl, rfl, rfl⟩
  | cons d l ih =>
    intro w
    have hd : p ≠ d := fun e => hl (by simp [e])
    obtain ⟨h1, h2, h3, h4⟩ := props_evaluate_ne_core w d p hd
    obtain ⟨k1, k2, k3, k4, k5⟩ := ih (fun h => hl (by simp [h])) (evaluate w d)
    rw [List.foldl_cons]
    exact ⟨k1.trans h1, k2.trans h2, k3.trans h3, k4.trans h4,
      k5.trans (notificationsOf_evaluate_ne w d p hd)⟩

theorem not_mem_evaluationOrder_self (w : World T) (p : Nat) : p ∉ evaluationOrder w p := by
  simp [evaluationOrder]

/-! ### `Bind` seen from the bound property -/

/-- The state after the capturing evaluation of `Bind`. -/
theorem bindCapture_self (w : World T) (p : Nat) (f : BindingFn T) :
    ((bindCapture w p f).props p).m_value = evalPure f w.value ∧
    ((bindCapture w p f).props p).m_binding = (if runFails f w.value then none else some f) ∧
    ((bindCapture w p f).props p).m_binding_init = !runFails f w.value ∧
    (bindCapture w p f).current = none ∧
    (∀ a, a ∈ (bindCapture w p f).inputs p ↔ (a ∈ readsOf f w.value ∧ a ≠ p)) ∧
    (∀ a b, b ∈ (bindCapture w p f).outputs a ↔
      ((b ∈ w.outputs a ∧ ¬ (b = p ∧ a ∈ w.inputs p)) ∨
        (b = p ∧ a ∈ readsOf f w.value ∧ a ≠ p))) ∧
    (∀ q, q ≠ p → ((bindCapture w p f).props q).m_value = (w.props q).m_value) := by
  have hb : (((clearInputs w p).modify p (fun c => { c with m_binding := some f })).props
      p).m_binding = some f := by simp
  have hini : (((clearInputs w p).modify p
      (fun c => { c with m_binding := some f })).props p).m_binding_init = false := by
    simp [init_clearInputs]
  have hval : ((clearInputs w p).modify p (fun c => { c with m_binding := some f })).value
      = w.value := by
    funext q
    simp only [World.value, props_modify]
    split <;> simp
  have hwires : ∀ a b, Wires ((clearInputs w p).modify p
      (fun c => { c with m_binding := some f })) p a b ↔
      (b = p ∧ a ∈ readsOf f w.value ∧ a ≠ p) := by
    intro a b
    unfold Wires
    rw [hb, hini, hval]
    simp only [Option.some.injEq, Bool.false_eq_true, if_false, exists_eq_left', mem_readsOf]
    constructor
    · rintro ⟨h1, h2, h3⟩
      subst h2
      exact ⟨rfl, h1, fun e => h3 e.symm⟩
    · rintro ⟨h1, h2, h3⟩
      subst h1
      exact ⟨h2, rfl, fun e => h3 e.symm⟩
  have hedges_in : ∀ a, a ∈ (bindCapture w p f).inputs p ↔ (a ∈ readsOf f w.value ∧ a ≠ p) := by
    intro a
    unfold bindCapture
    simp only []
    rw [mem_inputs_evaluate, hwires, inputs_modify_binding, mem_inputs_clearInputs]
    simp
  have hedges_out : ∀ a b, b ∈ (bindCapture w p f).outputs a ↔
      ((b ∈ w.outputs a ∧ ¬ (b = p ∧ a ∈ w.inputs p)) ∨
        (b = p ∧ a ∈ readsOf f w.value ∧ a ≠ p)) := by
    intro a b
    unfold bindCapture
    simp only []
    rw [mem_outputs_evaluate, hwires, outputs_modify_binding, mem_outputs_clearInputs]
  have hother : ∀ q, q ≠ p → ((bindCapture w p f).props q).m_value = (w.props q).m_value := by
    intro q hq
    unfold bindCapture
    simp only []
    rw [(props_evaluate_ne_core _ p q hq).1]
    simp [hq]
  cases hf : runFails f w.value with
  | false =>
    have e := evaluate_capture_ok _ p f hb hini (by rw [hval]; exact hf)
    rw [hval] at e
    refine ⟨?_, ?_, ?_, ?_, hedges_in, hedges_out, hother⟩
    · unfold bindCapture; simp only []; rw [e]; simp
    · unfold bindCapture; simp only []; rw [e]; simp
    · unfold bindCapture; simp only []; rw [e]; simp
    · unfold bindCapture; simp only []; rw [e]; simp
  | true =>
    have e := evaluate_capture_fail _ p f hb hini (by rw [hval]; exact hf)
    rw [hval] at e
    refine ⟨?_, ?_, ?_, ?_, hedges_in, hedges_out, hother⟩
    · unfold bindCapture; simp only []; rw [e]; simp [resetBinding]
    · unfold bindCapture; simp only []; rw [e]; simp [resetBinding]
    · unfold bindCapture; simp only []; rw [e]; simp [resetBinding]
    · unfold bindCapture; simp only []; rw [e]; simp [resetBinding]

/-- The state of the bound property when `Bind` has finished. -/
theorem Bind_self (w : World T) (p : Nat) (f : BindingFn T) :
    ((Bind w p f).props p).m_value = evalPure f w.value ∧
    ((Bind w p f).props p).m_binding = (if runFails f w.value then none else some f) ∧
    ((Bind w p f).props p).m_binding_init = !runFails f w.value ∧
    (Bind w p f).current ≠ some p ∧
    (∀ a, a ∈ (Bind w p f).inputs p ↔ (a ∈ readsOf f w.value ∧ a ≠ p)) ∧
    (∀ a, p ∈ (Bind w p f).outputs a ↔
      ((p ∈ w.outputs a ∧ a ∉ w.inputs p) ∨ (a ∈ readsOf f w.value ∧ a ≠ p))) := by
  obtain ⟨h1, h2, h3, h4, h5, h6, _⟩ := bindCapture_self w p f
  obtain ⟨k1, k2, k3, k4, k5, k6⟩ := foldl_evaluate_frame_ne
    (evaluationOrder (bindCapture w p f) p) p (not_mem_evaluationOrder_self _ p)
    (bindCapture w p f) (by rw [h4]; simp)
  unfold Bind evaluateOutputs
  refine ⟨k1.trans h1, k2.trans h2, k3.trans h3, k4, fun a => (k5 a).trans (h5 a), ?_⟩
  intro a
  rw [k6, h6]
  simp

end ks

namespace ks

variable {T : Type}

theorem reach_eq_of_outputs_nil (w : World T) (p q : Nat) (h : w.outputs p = [])
    (hr : Reach w.outputs p q) : q = p := by
  rcases Relation.ReflTransGen.cases_head hr with e | ⟨c, hc, _⟩
  · exact e.symm
  · unfold Edge at hc
    rw [h] at hc
    simp at hc

theorem areaBase_wellFormed : WellFormed areaBase :=
  wellFormed_runOps _ ⟨trivial, trivial, trivial, trivial⟩

/-- A pass changes the value of evaluated properties only. -/
theorem value_evaluateOutputs_of_not_mem (w : World T) (p q : Nat)
    (hq : q ∉ evaluationOrder w p) :
    ((evaluateOutputs w p).props q).m_value = (w.props q).m_value :=
  (foldl_evaluate_not_mem _ q hq w).1

/-- Counterexample to C3 as stated: the binding `p.Get() + 1` installed on `p` itself (held
constant 5 before) captures without failure and `p` reports a binding, yet afterwards
`p.Get()` is 6 while the binding evaluated against the current values gives 7. -/
theorem bind_value_self_read_stale :
    WellFormed areaBase ∧ runFails selfRead areaBase.value = false ∧
      GetBindingValid (Bind areaBase 0 selfRead) 0 = true ∧
      (Get (Bind areaBase 0 selfRead) 0).1 = 6 ∧
      evalPure selfRead (Bind areaBase 0 selfRead).value = 7 ∧
      (Get (Bind areaBase 0 selfRead) 0).1 ≠ evalPure selfRead (Bind areaBase 0 selfRead).value :=
  ⟨areaBase_wellFormed, by decide, by decide, by decide, by decide, by decide⟩

/-- C3 (amended): for a binding `f` whose capturing evaluation does not fail and which reads
neither `p` nor a property reachable from `p` through output edges, immediately after
`p.Bind(f)` the call `p.Get()` returns the value of `f` evaluated against the current values
of the properties, and `GetBindingValid()` is true. -/
theorem bind_value_correct (w : World T) (p : Nat) (f : BindingFn T) (h : WellFormed w)
    (hp : p < w.count) (hr : ∀ a ∈ readsOf f w.value, a < w.count)
    (hf : runFails f w.value = false)
    (hup : ∀ q ∈ readsOf f w.value, ¬ Reach w.outputs p q) :
    (Get (Bind w p f) p).1 = evalPure f (Bind w p f).value ∧
      GetBindingValid (Bind w p f) p = true := by
  obtain ⟨h1, h2, _⟩ := Bind_self w p f
  obtain ⟨_, _, _, _, _, c6, c7⟩ := bindCapture_self w p f
  have hwc := wellFormed_bindCapture w p f h hp hr
  have hcount : (bindCapture w p f).count = w.count := by
    unfold bindCapture; simp
  constructor
  · rw [Get_value, h1]
    apply evalPure_congr
    intro q hq
    have hqp : q ≠ p := by
      rintro rfl
      exact hup q hq Relation.ReflTransGen.refl
    have hnot : q ∉ evaluationOrder (bindCapture w p f) p := by
      intro hmem
      have hreach := ((evaluationOrder_spec _ p hwc.inRange (by rw [hcount]; exact hp)).2.1 q).1
        hmem
      refine hup q hq (reach_of_edges_except p ?_ q hreach.1)
      intro u v hv huv
      rcases (c6 u v).1 huv with hx | hx
      · exact hx.1
      · exact absurd hx.1 hv
    show w.value q = (Bind w p f).value q
    unfold Bind World.value
    rw [value_evaluateOutputs_of_not_mem _ p q hnot, c7 q hqp]
  · unfold GetBindingValid
    rw [h2, hf]
    rfl

/-- C3 (amended), on the area scenario: binding `area` to `width * height` gives 50. -/
theorem bind_value_correct_area :
    (Get (Bind areaBase 2 areaFn) 2).1 = evalPure areaFn (Bind areaBase 2 areaFn).value ∧
      GetBindingValid (Bind areaBase 2 areaFn) 2 = true :=
  bind_value_correct areaBase 2 areaFn areaBase_wellFormed (by decide) (by decide) (by decide)
    (by
      intro q hq hreach
      have hq2 : q = 2 := reach_eq_of_outputs_nil areaBase 2 q (by decide) hreach
      subst hq2
      revert hq
      decide)

/-- C6: with the upstream state unchanged in between (every property that `f` reads holds the
same value when the second `Bind` is called as when the first one was), the sequence
`p.Bind(f); p.Assign(x); p.Bind(f)` leaves `p` with the same value, the same set of input edges
and the same upstream output edges to `p` as the first `p.Bind(f)` alone. -/
theorem rebind_idempotent (w : World T) (p : Nat) (f : BindingFn T) (x : T)
    (hup : ∀ q ∈ readsOf f w.value, (Assign (Bind w p f) p x).value q = w.value q) :
    (Bind (Assign (Bind w p f) p x) p f).value p = (Bind w p f).value p ∧
    (∀ a, a ∈ (Bind (Assign (Bind w p f) p x) p f).inputs p ↔ a ∈ (Bind w p f).inputs p) ∧
    (∀ q, p ∈ (Bind (Assign (Bind w p f) p x) p f).outputs q ↔ p ∈ (Bind w p f).outputs q) := by
  obtain ⟨h1, _, _, h4, h5, h6⟩ := Bind_self w p f
  obtain ⟨_, _, _, _, a5, a6⟩ := Assign_self (Bind w p f) p x h4
  obtain ⟨k1, _, _, _, k5, k6⟩ := Bind_self (Assign (Bind w p f) p x) p f
  have hcongr : ∀ q ∈ readsOf f w.value, w.value q = (Assign (Bind w p f) p x).value q :=
    fun q hq => (hup q hq).symm
  have hreads := readsOf_congr f _ _ hcongr
  have hval := evalPure_congr f _ _ hcongr
  refine ⟨?_, ?_, ?_⟩
  · show ((Bind (Assign (Bind w p f) p x) p f).props p).m_value = ((Bind w p f).props p).m_value
    rw [k1, h1, hval]
  · intro a
    rw [k5, h5, hreads]
  · intro q
    rw [k6, a6, a5, h6, h5, ← hreads]
    simp only [List.not_mem_nil, not_false_eq_true, and_true]
    generalize (p ∈ w.outputs q ∧ q ∉ w.inputs p) = S
    generalize (q ∈ readsOf f w.value ∧ q ≠ p) = R
    by_cases hR : R <;> simp [hR]

/-- C6, on the area scenario: `area.Bind(f); area.Assign(99); area.Bind(f)`. -/
theorem rebind_idempotent_area :
    (Bind (Assign (Bind areaBase 2 areaFn) 2 99) 2 areaFn).value 2
        = (Bind areaBase 2 areaFn).value 2 ∧
    (∀ a, a ∈ (Bind (Assign (Bind areaBase 2 areaFn) 2 99) 2 areaFn).inputs 2 ↔
      a ∈ (Bind areaBase 2 areaFn).inputs 2) ∧
    (∀ q, 2 ∈ (Bind (Assign (Bind areaBase 2 areaFn) 2 99) 2 areaFn).outputs q ↔
      2 ∈ (Bind areaBase 2 areaFn).outputs q) :=
  rebind_idempotent areaBase 2 areaFn 99 (by decide)

end ks

namespace ks

variable {T : Type}

theorem notificationsOf_notify_self (w : World T) (p : Nat) :
    notificationsOf p (notify w p).trace =
      notificationsOf p w.trace ++ (if (w.props p).m_notifier then [w.value p] else []) := by
  rw [trace_notify]
  split <;> simp [notificationsOf]

theorem wellFormed_foldl_evaluate (l : List Nat) (w : World T) (h : WellFormed w) :
    WellFormed (l.foldl evaluate w) :=
  foldl_invariant WellFormed evaluate (fun b a hb => wellFormed_evaluate b a hb) l w h

/-- A pass over an order in which `p` occurs exactly once, split at the evaluation of `p`. -/
theorem Assign_split (w : World T) (s : Nat) (x : T) (p : Nat) (h : WellFormed w)
    (hs : s < w.count)
    (hp : p ∈ evaluationOrder
      (notify ((clearInputs w s).modify s (fun c => { c with m_value := x })) s) s) :
    ∃ l1 l2, evaluationOrder
        (notify ((clearInputs w s).modify s (fun c => { c with m_value := x })) s) s
        = l1 ++ p :: l2 ∧ p ∉ l1 ∧ p ∉ l2 ∧ (l1 ++ p :: l2).Nodup ∧
      Assign w s x = l2.foldl evaluate (evaluate (l1.foldl evaluate
        (notify ((clearInputs w s).modify s (fun c => { c with m_value := x })) s)) p) := by
  obtain ⟨l1, l2, hL⟩ := List.append_of_mem hp
  have hnd := (evaluationOrder_spec _ s (wellFormed_Assign_pre w s x h).inRange
    (by simpa using hs)).1
  rw [hL] at hnd
  refine ⟨l1, l2, hL, ?_, ?_, hnd, ?_⟩
  · intro h1
    exact (List.nodup_append.1 hnd).2.2 h1 (List.mem_cons_self p l2)
  · exact (List.nodup_cons.1 (List.nodup_append.1 hnd).2.1).1
  · rw [Assign_eq]
    unfold evaluateOutputs
    rw [hL, List.foldl_append, List.foldl_cons]

/-- C9: for a validated bound property `p` with a notifier, one `Assign` on a property `s`
that `p` transitively depends on invokes the notifier of `p` exactly once, with the new value
of `p`. -/
theorem notifier_fires_once (w : World T) (s p : Nat) (x : T) (f : BindingFn T)
    (h : WellFormed w) (hs : s < w.count)
    (hreach : Relation.TransGen (Edge w.outputs) s p)
    (hb : (w.props p).m_binding = some f) (hn : (w.props p).m_notifier = true) :
    notificationsOf p (Assign w s x).trace =
      notificationsOf p w.trace ++ [(Assign w s x).value p] := by
  by_cases hps : p = s
  · subst hps
    obtain ⟨k1, _, _, k4, k5⟩ := foldl_evaluate_not_mem
      (evaluationOrder (notify ((clearInputs w p).modify p (fun c => { c with m_value := x })) p)
        p) p (not_mem_evaluationOrder_self _ p)
      (notify ((clearInputs w p).modify p (fun c => { c with m_value := x })) p)
    rw [Assign_eq]
    unfold evaluateOutputs World.value
    rw [k5, k1, notificationsOf_notify_self]
    simp [hn, World.value]
  · have hreach' : Reach
        (notify ((clearInputs w s).modify s (fun c => { c with m_value := x })) s).outputs s p :=
      reach_of_edges_except s (fun u v hv huv =>
        (outputs_Assign_pre w s x u v).2 ⟨huv, fun hc => hv hc.1⟩) p hreach.to_reflTransGen
    have hmem := ((evaluationOrder_spec _ s (wellFormed_Assign_pre w s x h).inRange
      (by simpa using hs)).2.1 p).2 ⟨hreach', hps⟩
    obtain ⟨l1, l2, _, hl1, hl2, _, hA⟩ := Assign_split w s x p h hs hmem
    obtain ⟨_, a2, a3, a4, a5⟩ := foldl_evaluate_not_mem l1 p hl1
      (notify ((clearInputs w s).modify s (fun c => { c with m_value := x })) s)
    have hwa := wellFormed_foldl_evaluate l1 _ (wellFormed_Assign_pre w s x h)
    have hba : ((l1.foldl evaluate
        (notify ((clearInputs w s).modify s (fun c => { c with m_value := x })) s)).props
        p).m_binding = some f := by
      rw [a2]; simp [binding_clearInputs, hps, hb]
    have hna : ((l1.foldl evaluate
        (notify ((clearInputs w s).modify s (fun c => { c with m_value := x })) s)).props
        p).m_notifier = true := by
      rw [a4]; simp [hps, hn]
    have htr : notificationsOf p (l1.foldl evaluate
        (notify ((clearInputs w s).modify s (fun c => { c with m_value := x })) s)).trace
        = notificationsOf p w.trace := by
      rw [a5, notificationsOf_notify_ne _ _ _ hps]; simp
    obtain ⟨b1, _, _, _, b5⟩ := foldl_evaluate_not_mem l2 p hl2 (evaluate (l1.foldl evaluate
      (notify ((clearInputs w s).modify s (fun c => { c with m_value := x })) s)) p)
    have he := evaluate_idle _ p f hwa.idle hba (hwa.validated p f hba)
    rw [hA]
    unfold World.value
    rw [b5, b1, he, notificationsOf_notify_self]
    simp [hna, htr, World.value]

end ks

namespace ks

variable {T : Type}

theorem areaWorld_wellFormed : WellFormed areaWorld :=
  wellFormed_Bind areaBase 2 areaFn areaBase_wellFormed (by decide) (by decide)

/-- C9, on the area scenario: `width.Assign(7)` fires the notifier of `area` once, with 70. -/
theorem notifier_fires_once_area :
    (notificationsOf 2 (Assign areaWorld 0 7).trace =
      notificationsOf 2 areaWorld.trace ++ [(Assign areaWorld 0 7).value 2]) ∧
    (Assign areaWorld 0 7).value 2 = 70 ∧ notificationsOf 2 areaWorld.trace = [50] :=
  ⟨notifier_fires_once areaWorld 0 2 7 areaFn areaWorld_wellFormed (by decide)
    (Relation.TransGen.single (by show 2 ∈ areaWorld.outputs 0; decide)) rfl (by decide),
    by decide, by decide⟩

theorem chain_valid : ValidOps (World.empty : World Int) chainOps := by
  refine ⟨trivial, ?_, ?_, ?_, trivial⟩ <;> (simp only [ValidOp]; decide)

theorem chain_wellFormed : WellFormed chain := wellFormed_runOps chainOps chain_valid

theorem chain_acyclic : chain.Acyclic :=
  acyclic_of_forall_lt chain chain_wellFormed (by decide)

theorem condWorld_valid : ValidOps (World.empty : World Int) condOps := by
  refine ⟨trivial, ?_, ?_, trivial⟩ <;> (simp only [ValidOp]; decide)

theorem condWorld_wellFormed : WellFormed condWorld := wellFormed_runOps condOps condWorld_valid

theorem condWorld_acyclic : condWorld.Acyclic :=
  acyclic_of_forall_lt condWorld condWorld_wellFormed (by decide)

/-- Counterexample to C2 as stated: in the acyclic graph `a = 1`, `q = a + 1`,
`p = (a > 5 ? q : 0)` of validated bindings, `p` depends on `a`; after `a.Assign(10)` the
property `p` holds 2 (the value `q` had when `p` was re-evaluated), while its binding evaluated
on the post-propagation values gives 11. -/
theorem assign_leaves_stale_value_on_uncaptured_read :
    WellFormed condWorld ∧ condWorld.Acyclic ∧
      (condWorld.props 2).m_binding = some condFn ∧
      (condWorld.props 2).m_binding_init = true ∧
      2 ∈ condWorld.outputs 0 ∧ (Assign condWorld 0 10).value 1 = 11 ∧
      (Assign condWorld 0 10).value 2 = 2 ∧
      evalPure condFn (Assign condWorld 0 10).value = 11 ∧
      (Get (Assign condWorld 0 10) 2).1 ≠ evalPure condFn (Assign condWorld 0 10).value :=
  ⟨condWorld_wellFormed, condWorld_acyclic, rfl, by decide, by decide, by decide, by decide,
    by decide, by decide⟩

/-- C2 (amended): after `Assign(v)` on a property `a` in an acyclic well-formed graph (every
installed binding validated), every property `p` that transitively depends on `a` and whose
binding, run against the post-propagation values, reads only properties in the input list of
`p`, holds the value of its binding evaluated on the post-propagation values. -/
theorem assign_propagates_values (w : World T) (a : Nat) (v : T) (h : WellFormed w)
    (hac : w.Acyclic) (ha : a < w.count) (p : Nat) (f : BindingFn T)
    (hreach : Relation.TransGen (Edge w.outputs) a p)
    (hb : (w.props p).m_binding = some f)
    (hreads : ∀ q ∈ readsOf f (Assign w a v).value, q ∈ w.inputs p) :
    (Get (Assign w a v) p).1 = evalPure f (Assign w a v).value := by
  have hpa : p ≠ a := by rintro rfl; exact hac p hreach
  obtain ⟨_, o2, o3⟩ := isPropagationOrder_Assign w a v h hac ha
  have hmem : p ∈ evaluationOrder
      (notify ((clearInputs w a).modify a (fun c => { c with m_value := v })) a) a := by
    have hc := (isPropagationOrder_Assign w a v h hac ha).1 p hreach
    exact List.count_pos_iff.1 (by omega)
  obtain ⟨l1, l2, hL, hl1, hl2, hnd, hA⟩ := Assign_split w a v p h ha hmem
  obtain ⟨_, a2, _⟩ := foldl_evaluate_not_mem l1 p hl1
    (notify ((clearInputs w a).modify a (fun c => { c with m_value := v })) a)
  have hwa := wellFormed_foldl_evaluate l1 _ (wellFormed_Assign_pre w a v h)
  have hba : ((l1.foldl evaluate
      (notify ((clearInputs w a).modify a (fun c => { c with m_value := v })) a)).props
      p).m_binding = some f := by
    rw [a2]; simp [binding_clearInputs, hpa, hb]
  have he := evaluate_idle _ p f hwa.idle hba (hwa.validated p f hba)
  obtain ⟨b1, _⟩ := foldl_evaluate_not_mem l2 p hl2 (evaluate (l1.foldl evaluate
    (notify ((clearInputs w a).modify a (fun c => { c with m_value := v })) a)) p)
  have hvalp : ((Assign w a v).props p).m_value = evalPure f (l1.foldl evaluate
      (notify ((clearInputs w a).modify a (fun c => { c with m_value := v })) a)).value := by
    rw [hA, b1, he]; simp
  rw [Get_value, hvalp]
  symm
  apply evalPure_congr
  intro q hq
  have hqin := hreads q hq
  have hqp : q ≠ p := by rintro rfl; exact h.irrefl q hqin
  have hq2 : q ∉ l2 := by
    intro hq2
    have hq1 := o3 p q l1 l2 hL hqin (by rw [hL]; simp [hq2])
    exact (List.nodup_append.1 hnd).2.2 hq1 (List.mem_cons_of_mem p hq2)
  obtain ⟨c1, _⟩ := foldl_evaluate_not_mem l2 q hq2 (evaluate (l1.foldl evaluate
    (notify ((clearInputs w a).modify a (fun c => { c with m_value := v })) a)) p)
  show ((Assign w a v).props q).m_value = _
  rw [hA, c1, (props_evaluate_ne_core _ p q hqp).1]
  rfl

/-- C2 (amended), on the chain `a = 1`, `b = a + 1`, `c = b + 1`, `d = c + 1`: `d.Get()` is 4,
and 13 after `a.Assign(10)`; and on `area = width * height`: 50, and 70 after
`width.Assign(7)`. -/
theorem assign_propagates_values_chain :
    (Get (Assign chain 0 10) 3).1
        = evalPure (.get 2 fun c => .ret (c + 1)) (Assign chain 0 10).value ∧
      (Get chain 3).1 = 4 ∧ (Get (Assign chain 0 10) 3).1 = 13 ∧
      (Get areaWorld 2).1 = 50 ∧ (Get (Assign areaWorld 0 7) 2).1 = 70 :=
  ⟨assign_propagates_values chain 0 10 chain_wellFormed chain_acyclic (by decide) 3
      (.get 2 fun c => .ret (c + 1))
      (Relation.TransGen.tail (Relation.TransGen.tail
        (Relation.TransGen.single (by show 1 ∈ chain.outputs 0; decide))
        (by show 2 ∈ chain.outputs 1; decide)) (by show 3 ∈ chain.outputs 2; decide))
      rfl (by decide),
    by decide, by decide, by decide, by decide⟩

end ks

/-! ### The captured input list -/

namespace ks

variable {T : Type}

theorem inputs_registerInput (w : World T) (this input_prop b : Nat) :
    (registerInput w this input_prop).inputs b =
      if b = this ∧ input_prop ∉ w.inputs this then w.inputs this ++ [input_prop]
      else w.inputs b := by
  unfold registerInput
  by_cases h1 : input_prop ∈ w.inputs this
  · simp only [h1, if_true, not_true_eq_false, and_false, if_false]
    split
    · rfl
    · simp only [World.inputs, props_modify]
      split <;> rfl
  · simp only [h1, if_false, not_false_eq_true, and_true]
    have key : (w.modify this
        (fun c => { c with m_list_inputs := c.m_list_inputs ++ [input_prop] })).inputs b
        = if b = this then w.inputs this ++ [input_prop] else w.inputs b := by
      simp only [World.inputs, props_modify]
      by_cases hb : b = this
      · subst hb; simp
      · simp [hb]
    split
    · exact key
    · rw [← key]
      simp only [World.inputs, props_modify]
      split <;> rfl

theorem inputs_stepWorld (w : World T) (s : Option Nat) (b : Nat) :
    (stepWorld w s).inputs b =
      if w.current = some b then stepInputs b (w.inputs b) s else w.inputs b := by
  cases s with
  | none =>
    simp only [stepWorld, stepInputs, ite_self]
    split
    · exact congrFun (inputs_modify_flag w _ true) b
    · rfl
  | some q =>
    simp only [stepWorld, captureAsInput, stepInputs]
    cases hc : w.current with
    | none => simp
    | some cur =>
      simp only [Option.some.injEq]
      by_cases hq : cur = q
      · subst hq
        by_cases hb : cur = b
        · subst hb; simp
        · simp [hb]
      · simp only [ne_eq, hq, not_false_eq_true, if_true]
        rw [inputs_registerInput]
        by_cases hb : cur = b
        · subst hb; simp [hq]
        · have hb' : ¬ b = cur := fun e => hb e.symm
          simp [hb, hb']

theorem inputs_foldl_stepWorld (steps : List (Option Nat)) :
    ∀ (w : World T) (b : Nat), (steps.foldl stepWorld w).inputs b =
      if w.current = some b then capturedInputs b (w.inputs b) steps else w.inputs b := by
  induction steps with
  | nil => intro w b; simp [capturedInputs]
  | cons s steps ih =>
    intro w b
    rw [List.foldl_cons, ih, (sameCore_stepWorld w s).current, inputs_stepWorld]
    by_cases hc : w.current = some b
    · simp [hc, capturedInputs]
    · simp [hc]

/-- The input list of a property that is not in the slot is left as it is by `evaluate()`
of another property. -/
theorem inputs_evaluate_of_ne (w : World T) (d p : Nat) (hd : d ≠ p) (hc : w.current ≠ some p) :
    (evaluate w d).inputs p = w.inputs p := by
  have hdp : ¬ some d = some p := fun e => hd (Option.some.inj e)
  rcases evaluate_cases w d with ⟨_, h⟩ | ⟨f, _, _, h⟩ | ⟨f, _, _, _, h⟩ | ⟨f, _, _, _, h⟩
  · rw [h]; rfl
  · rw [h, inputs_notify, inputs_modify_value, inputs_foldl_stepWorld]
    simp [hc]
  · rw [h, inputs_notify, inputs_modify_init, inputs_setCurrent, inputs_modify_value,
      inputs_foldl_stepWorld, current_setCurrent, inputs_setCurrent, inputs_modify_flag]
    simp [hdp]
  · rw [h, inputs_resetBinding, inputs_setCurrent, inputs_modify_value,
      inputs_foldl_stepWorld, current_setCurrent, inputs_setCurrent, inputs_modify_flag]
    simp [hdp]

theorem inputs_foldl_evaluate_of_not_mem (l : List Nat) (p : Nat) (hl : p ∉ l) :
    ∀ w : World T, w.current ≠ some p → (l.foldl evaluate w).inputs p = w.inputs p := by
  induction l with
  | nil => intro w _; rfl
  | cons d l ih =>
    intro w hc
    have hd : d ≠ p := fun e => hl (by simp [e])
    rw [List.foldl_cons, ih (fun h => hl (by simp [h])) _
      (evaluate_frame_ne w d p hd hc).2.2.2.1, inputs_evaluate_of_ne w d p hd hc]

/-- The input list that `Bind` leaves in the bound property. -/
theorem inputs_Bind_self (w : World T) (p : Nat) (f : BindingFn T) :
    (Bind w p f).inputs p = capturedInputs p [] (stepsOf f w.value) := by
  have hb : (((clearInputs w p).modify p (fun c => { c with m_binding := some f })).props
      p).m_binding = some f := by simp
  have hini : (((clearInputs w p).modify p
      (fun c => { c with m_binding := some f })).props p).m_binding_init = false := by
    simp [init_clearInputs]
  have hval : ((clearInputs w p).modify p (fun c => { c with m_binding := some f })).value
      = w.value := by
    funext q
    simp only [World.value, props_modify]
    split <;> simp
  have hcap : (bindCapture w p f).inputs p = capturedInputs p [] (stepsOf f w.value) := by
    unfold bindCapture
    simp only []
    rw [evaluate_capture _ p f hb hini, hval]
    split
    · simp only [inputs_notify, inputs_modify_init, inputs_setCurrent, inputs_modify_value,
        inputs_foldl_stepWorld, current_setCurrent, inputs_modify_flag, inputs_log,
        inputs_modify_binding, inputs_clearInputs_self, if_true]
    · simp only [inputs_resetBinding, inputs_setCurrent, inputs_modify_value,
        inputs_foldl_stepWorld, current_setCurrent, inputs_modify_flag, inputs_log,
        inputs_modify_binding, inputs_clearInputs_self, if_true]
  unfold Bind evaluateOutputs
  rw [inputs_foldl_evaluate_of_not_mem _ p (not_mem_evaluationOrder_self _ p) _
    (by rw [(bindCapture_self w p f).2.2.2.1]; simp), hcap]

theorem capturedInputs_spec (cur : Nat) (steps : List (Option Nat)) :
    ∀ l : List Nat, l.Nodup → cur ∉ l →
      (capturedInputs cur l steps).Nodup ∧ cur ∉ capturedInputs cur l steps ∧
      ∀ a, a ∈ capturedInputs cur l steps ↔ (a ∈ l ∨ (some a ∈ steps ∧ a ≠ cur)) := by
  induction steps with
  | nil => intro l h1 h2; simp [capturedInputs, h1, h2]
  | cons s steps ih =>
    intro l h1 h2
    have hstep : (stepInputs cur l s).Nodup ∧ cur ∉ stepInputs cur l s ∧
        ∀ a, a ∈ stepInputs cur l s ↔ (a ∈ l ∨ (s = some a ∧ a ≠ cur)) := by
      cases s with
      | none => simp [stepInputs, h1, h2]
      | some q =>
        simp only [stepInputs]
        by_cases hq : cur ≠ q ∧ q ∉ l
        · rw [if_pos hq]
          refine ⟨List.nodup_append.2 ⟨h1, by simp, by
            intro a ha hb; simp at hb; subst hb; exact hq.2 ha⟩, ?_, ?_⟩
          · simp [h2, hq.1]
          · intro a
            simp only [List.mem_append, List.mem_singleton, Option.some.injEq]
            constructor
            · rintro (h | h)
              · exact Or.inl h
              · subst h; exact Or.inr ⟨rfl, fun e => hq.1 e.symm⟩
            · rintro (h | ⟨h, _⟩)
              · exact Or.inl h
              · exact Or.inr h.symm
        · rw [if_neg hq]
          refine ⟨h1, h2, ?_⟩
          intro a
          simp only [Option.some.injEq]
          constructor
          · exact Or.inl
          · rintro (h | ⟨h, hne⟩)
            · exact h
            · subst h
              by_contra hcon
              exact hq ⟨fun e => hne e.symm, hcon⟩
    obtain ⟨i1, i2, i3⟩ := ih (stepInputs cur l s) hstep.1 hstep.2.1
    refine ⟨i1, i2, ?_⟩
    intro a
    have : capturedInputs cur l (s :: steps) = capturedInputs cur (stepInputs cur l s) steps :=
      rfl
    rw [this, i3, hstep.2.2]
    simp only [List.mem_cons]
    constructor
    · rintro ((h | ⟨h, hne⟩) | ⟨h, hne⟩)
      · exact Or.inl h
      · exact Or.inr ⟨Or.inl h.symm, hne⟩
      · exact Or.inr ⟨Or.inr h, hne⟩
    · rintro (h | ⟨h | h, hne⟩)
      · exact Or.inl (Or.inl h)
      · exact Or.inl (Or.inr ⟨h.symm, hne⟩)
      · exact Or.inr ⟨h, hne⟩

/-- C11: after a successful `p.Bind(f)` the input list of `p` contains exactly the
properties other than `p` whose `Get()` was called during the capturing run of `f`: each of
them once however often it was read, nothing that was not read, and never `p` itself. -/
theorem bind_captures_exactly_the_reads (w : World T) (p : Nat) (f : BindingFn T)
    (hf : runFails f w.value = false) :
    GetBindingValid (Bind w p f) p = true ∧
    (∀ a, a ∈ (Bind w p f).inputs p ↔ (a ∈ readsOf f w.value ∧ a ≠ p)) ∧
    (∀ a ∈ readsOf f w.value, a ≠ p → ((Bind w p f).inputs p).count a = 1) ∧
    ((Bind w p f).inputs p).Nodup ∧ p ∉ (Bind w p f).inputs p := by
  obtain ⟨h1, h2, h3⟩ := capturedInputs_spec p (stepsOf f w.value) [] List.nodup_nil (by simp)
  have hmem : ∀ a, a ∈ (Bind w p f).inputs p ↔ (a ∈ readsOf f w.value ∧ a ≠ p) := by
    intro a
    rw [inputs_Bind_self, h3, mem_readsOf]
    simp
  refine ⟨?_, hmem, ?_, ?_, ?_⟩
  · unfold GetBindingValid
    rw [(Bind_self w p f).2.1, hf]
    rfl
  · intro a ha hap
    exact List.count_eq_one_of_mem (by rw [inputs_Bind_self]; exact h1) ((hmem a).2 ⟨ha, hap⟩)
  · rw [inputs_Bind_self]; exact h1
  · rw [inputs_Bind_self]; exact h2

theorem bind_captures_exactly_the_reads_area :
    readsOf repeatedRead areaBase.value = [0, 2, 0, 1] ∧
    (Bind areaBase 2 repeatedRead).inputs 2 = [0, 1] ∧
    (GetBindingValid (Bind areaBase 2 repeatedRead) 2 = true ∧
      (∀ a, a ∈ (Bind areaBase 2 repeatedRead).inputs 2 ↔
        (a ∈ readsOf repeatedRead areaBase.value ∧ a ≠ 2)) ∧
      (∀ a ∈ readsOf repeatedRead areaBase.value, a ≠ 2 →
        ((Bind areaBase 2 repeatedRead).inputs 2).count a = 1) ∧
      ((Bind areaBase 2 repeatedRead).inputs 2).Nodup ∧
      2 ∉ (Bind areaBase 2 repeatedRead).inputs 2) :=
  ⟨by decide, by decide, bind_captures_exactly_the_reads areaBase 2 repeatedRead (by decide)⟩

end ks

/-! ## `Graph`: element access -/

namespace ks

namespace Graph

variable {T : Type} [Inhabited T]

theorem length_setNode (l : List (Node T)) (i : Nat) (f : Node T → Node T) :
    (setNode l i f).length = l.length := by
  simp [setNode]

theorem nodeOf_of_le (l : List (Node T)) (i : Nat) (h : l.length ≤ i) :
    nodeOf l i = Node.null T := by
  simp [nodeOf, List.getD_eq_getElem?_getD, List.getElem?_eq_none h]

theorem nodeOf_setNode (l : List (Node T)) (i j : Nat) (f : Node T → Node T) :
    nodeOf (setNode l i f) j = if j = i ∧ i < l.length then f (nodeOf l i) else nodeOf l j := by
  unfold setNode nodeOf
  by_cases hji : j = i
  · subst hji
    by_cases hlt : j < l.length
    · simp [hlt, List.getD_eq_getElem?_getD, List.getElem?_set]
    · simp [hlt, List.getD_eq_getElem?_getD, List.getElem?_set,
        List.getElem?_eq_none (Nat.not_lt.1 hlt)]
  · have : i ≠ j := fun h => hji h.symm
    simp [hji, List.getD_eq_getElem?_getD, List.getElem?_set, this]

theorem nodeOf_setNode_self (l : List (Node T)) (i : Nat) (f : Node T → Node T)
    (h : i < l.length) : nodeOf (setNode l i f) i = f (nodeOf l i) := by
  rw [nodeOf_setNode]; simp [h]

theorem nodeOf_setNode_ne (l : List (Node T)) (i j : Nat) (f : Node T → Node T)
    (h : j ≠ i) : nodeOf (setNode l i f) j = nodeOf l j := by
  rw [nodeOf_setNode]; simp [h]

/-- Two node lists of the same length with the same elements are equal. -/
theorem list_ext_nodeOf (l1 l2 : List (Node T)) (hlen : l1.length = l2.length)
    (h : ∀ i, i < l1.length → nodeOf l1 i = nodeOf l2 i) : l1 = l2 := by
  apply List.ext_getElem hlen
  intro i h1 h2
  have := h i h1
  simpa [nodeOf, List.getD_eq_getElem?_getD, List.getElem?_eq_getElem h1,
    List.getElem?_eq_getElem h2] using this

theorem length_modify (g : Graph T) (i : Nat) (f : Node T → Node T) :
    (g.modify i f).m_list_nodes.m_list.length = g.m_list_nodes.m_list.length := by
  simp [modify, length_setNode]

theorem m_list_modify (g : Graph T) (i : Nat) (f : Node T → Node T) :
    (g.modify i f).m_list_nodes.m_list = setNode g.m_list_nodes.m_list i f := rfl

theorem m_null_node_modify (g : Graph T) (i : Nat) (f : Node T → Node T) :
    (g.modify i f).m_null_node = g.m_null_node := rfl

theorem m_list_valid_modify (g : Graph T) (i : Nat) (f : Node T → Node T) :
    (g.modify i f).m_list_nodes.m_list_valid = g.m_list_nodes.m_list_valid := rfl

theorem GetNode_of_lt (g : Graph T) (i : Nat) (h : i < g.m_list_nodes.m_list.length) :
    g.GetNode i = nodeOf g.m_list_nodes.m_list i := by
  simp [GetNode, h]

theorem GetNode_of_le (g : Graph T) (i : Nat) (h : g.m_list_nodes.m_list.length ≤ i) :
    g.GetNode i = g.m_null_node := by
  simp [GetNode, Nat.not_lt.2 h]

theorem GetNode_modify (g : Graph T) (i j : Nat) (f : Node T → Node T) :
    (g.modify i f).GetNode j =
      if j = i ∧ i < g.m_list_nodes.m_list.length then f (g.GetNode i) else g.GetNode j := by
  unfold GetNode
  rw [length_modify, m_list_modify, m_null_node_modify, nodeOf_setNode]
  by_cases hj : j < g.m_list_nodes.m_list.length
  · by_cases hji : j = i
    · subst hji; simp [hj]
    · simp [hj, hji]
  · by_cases hji : j = i
    · subst hji; simp [hj]
    · simp [hj, hji]

theorem mem_eraseAll (v : List Nat) (x y : Nat) : y ∈ eraseAll v x ↔ y ∈ v ∧ y ≠ x := by
  simp [eraseAll]

theorem not_mem_eraseAll (v : List Nat) (x : Nat) : x ∉ eraseAll v x := by
  simp [eraseAll]

theorem eraseAll_of_not_mem (v : List Nat) (x : Nat) (h : x ∉ v) : eraseAll v x = v := by
  unfold eraseAll
  rw [List.filter_eq_self]
  intro a ha
  simp only [ne_eq, decide_not, Bool.not_eq_eq_eq_not, Bool.not_true, decide_eq_false_iff_not]
  rintro rfl
  exact h ha

theorem eraseAll_singleton_self (x : Nat) : eraseAll [x] x = [] := by
  simp [eraseAll]

theorem eraseAll_append (v w : List Nat) (x : Nat) :
    eraseAll (v ++ w) x = eraseAll v x ++ eraseAll w x := by
  simp [eraseAll]

theorem eraseAll_sublist (v : List Nat) (x : Nat) : List.Sublist (eraseAll v x) v :=
  List.filter_sublist v

theorem count_eraseAll (v : List Nat) (x y : Nat) :
    (eraseAll v x).count y = if y = x then 0 else v.count y := by
  unfold eraseAll
  by_cases h : y = x
  · subst h
    simp [List.count_eq_zero]
  · rw [List.count_filter] <;> simp [h]

end Graph

end ks

/-! ## `Graph::AddEdge` and `Graph::RemoveEdge` -/

namespace ks

namespace Graph

variable {T : Type} [Inhabited T]

theorem length_AddEdge (g : Graph T) (src dst : Nat) :
    (g.AddEdge src dst).m_list_nodes.m_list.length = g.m_list_nodes.m_list.length := by
  simp [AddEdge, length_modify]

theorem length_RemoveEdge (g : Graph T) (src dst : Nat) :
    (g.RemoveEdge src dst).m_list_nodes.m_list.length = g.m_list_nodes.m_list.length := by
  simp [RemoveEdge, length_modify]

theorem GetNode_AddEdge (g : Graph T) (src dst i : Nat)
    (hs : src < g.m_list_nodes.m_list.length) (hd : dst < g.m_list_nodes.m_list.length) :
    (g.AddEdge src dst).GetNode i =
      { g.GetNode i with
        inputs := if i = dst then (g.GetNode i).inputs ++ [src] else (g.GetNode i).inputs
        outputs := if i = src then (g.GetNode i).outputs ++ [dst] else (g.GetNode i).outputs } := by
  unfold AddEdge
  rw [GetNode_modify, GetNode_modify, length_modify, GetNode_modify]
  by_cases h1 : i = dst <;> by_cases h2 : i = src <;> by_cases h3 : dst = src <;>
    simp_all

theorem GetNode_RemoveEdge (g : Graph T) (src dst i : Nat)
    (hs : src < g.m_list_nodes.m_list.length) (hd : dst < g.m_list_nodes.m_list.length) :
    (g.RemoveEdge src dst).GetNode i =
      { g.GetNode i with
        inputs := if i = dst then eraseAll (g.GetNode i).inputs src else (g.GetNode i).inputs
        outputs :=
          if i = src then eraseAll (g.GetNode i).outputs dst else (g.GetNode i).outputs } := by
  unfold RemoveEdge
  rw [GetNode_modify, GetNode_modify, length_modify, GetNode_modify]
  by_cases h1 : i = dst <;> by_cases h2 : i = src <;> by_cases h3 : dst = src <;>
    simp_all

/-- Two graphs with the same counters, flags and free list and the same nodes are equal. -/
theorem graph_ext (g1 g2 : Graph T) (h1 : g1.m_node_count = g2.m_node_count)
    (h2 : g1.m_null_node = g2.m_null_node)
    (h3 : g1.m_list_nodes.m_count = g2.m_list_nodes.m_count)
    (h4 : g1.m_list_nodes.m_list_valid = g2.m_list_nodes.m_list_valid)
    (h5 : g1.m_list_nodes.m_list_avail = g2.m_list_nodes.m_list_avail)
    (h6 : g1.m_list_nodes.m_list.length = g2.m_list_nodes.m_list.length)
    (h7 : ∀ i, i < g1.m_list_nodes.m_list.length → g1.GetNode i = g2.GetNode i) : g1 = g2 := by
  have h8 : g1.m_list_nodes.m_list = g2.m_list_nodes.m_list := by
    apply list_ext_nodeOf _ _ h6
    intro i hi
    have := h7 i hi
    rwa [GetNode_of_lt g1 i hi, GetNode_of_lt g2 i (h6 ▸ hi)] at this
  cases g1 with
  | mk c1 n1 l1 =>
    cases g2 with
    | mk c2 n2 l2 =>
      cases l1; cases l2
      simp_all

/-- C18: for a graph `g` and two nodes `from`, `to` of its node list (every valid node is),
after `RemoveEdge(from,to)` the index `to` does not occur in the outputs of `from` and `from`
does not occur in the inputs of `to`; the outputs of `from` and the inputs of `to` are the old
lists with exactly those entries erased (the remaining entries in their old order), every
other adjacency list and every value, validity flag and state is unchanged; and `AddEdge`
followed by `RemoveEdge` on a graph without a `from -> to` edge gives back the original
graph. -/
theorem removeEdge_erases_exactly_that_edge (g : Graph T) (src dst : Nat)
    (hs : src < g.m_list_nodes.m_list.length) (hd : dst < g.m_list_nodes.m_list.length) :
    dst ∉ ((g.RemoveEdge src dst).GetNode src).outputs ∧
    src ∉ ((g.RemoveEdge src dst).GetNode dst).inputs ∧
    (∀ i, ((g.RemoveEdge src dst).GetNode i).outputs =
        if i = src then (g.GetNode i).outputs.filter (fun y => y ≠ dst)
        else (g.GetNode i).outputs) ∧
    (∀ i, ((g.RemoveEdge src dst).GetNode i).inputs =
        if i = dst then (g.GetNode i).inputs.filter (fun y => y ≠ src)
        else (g.GetNode i).inputs) ∧
    (∀ i, ((g.RemoveEdge src dst).GetNode i).value = (g.GetNode i).value ∧
        ((g.RemoveEdge src dst).GetNode i).valid = (g.GetNode i).valid ∧
        ((g.RemoveEdge src dst).GetNode i).state = (g.GetNode i).state) ∧
    (dst ∉ (g.GetNode src).outputs → src ∉ (g.GetNode dst).inputs →
      (g.AddEdge src dst).RemoveEdge src dst = g) := by
  refine ⟨?_, ?_, ?_, ?_, ?_, ?_⟩
  · rw [GetNode_RemoveEdge g src dst src hs hd]
    simp [not_mem_eraseAll]
  · rw [GetNode_RemoveEdge g src dst dst hs hd]
    simp [not_mem_eraseAll]
  · intro i
    rw [GetNode_RemoveEdge g src dst i hs hd]
    rfl
  · intro i
    rw [GetNode_RemoveEdge g src dst i hs hd]
    rfl
  · intro i
    rw [GetNode_RemoveEdge g src dst i hs hd]
    exact ⟨rfl, rfl, rfl⟩
  · intro h1 h2
    have hs2 : src < (g.AddEdge src dst).m_list_nodes.m_list.length := by
      rw [length_AddEdge]; exact hs
    have hd2 : dst < (g.AddEdge src dst).m_list_nodes.m_list.length := by
      rw [length_AddEdge]; exact hd
    apply graph_ext
    · rfl
    · rfl
    · rfl
    · rfl
    · rfl
    · rw [length_RemoveEdge, length_AddEdge]
    · intro i _
      rw [GetNode_RemoveEdge _ src dst i hs2 hd2, GetNode_AddEdge g src dst i hs hd]
      have e1 := eraseAll_of_not_mem _ _ h1
      have e2 := eraseAll_of_not_mem _ _ h2
      by_cases h3 : i = dst <;> by_cases h4 : i = src
      · subst h3; subst h4
        simp only [if_true, eraseAll_append, e1, e2, eraseAll_singleton_self, List.append_nil]
      · subst h3
        simp only [if_true, h4, if_false, eraseAll_append, e2, eraseAll_singleton_self,
          List.append_nil]
      · subst h4
        simp only [if_true, h3, if_false, eraseAll_append, e1, eraseAll_singleton_self,
          List.append_nil]
      · simp only [h3, h4, if_false]

theorem removeEdge_erases_exactly_that_edge_chain :
    (edgeChain.RemoveEdge 2 3).GetDFTPreOrder 0 = [0, 1, 2] ∧
    3 ∉ ((edgeChain.RemoveEdge 2 3).GetNode 2).outputs ∧
    2 ∉ ((edgeChain.RemoveEdge 2 3).GetNode 3).inputs ∧
    (edgeChain.AddEdge 0 2).RemoveEdge 0 2 = edgeChain :=
  ⟨by decide,
    (removeEdge_erases_exactly_that_edge edgeChain 2 3 (by decide) (by decide)).1,
    (removeEdge_erases_exactly_that_edge edgeChain 2 3 (by decide) (by decide)).2.1,
    (removeEdge_erases_exactly_that_edge edgeChain 0 2 (by decide) (by decide)).2.2.2.2.2
      (by decide) (by decide)⟩

end Graph

end ks

/-! ## `RecycleIndexList`: the representation invariant -/

namespace ks

namespace RecycleIndexList

variable {α : Type}

theorem mem_insertAvail (l : List Nat) (i x : Nat) : x ∈ insertAvail l i ↔ x = i ∨ x ∈ l := by
  induction l with
  | nil => simp [insertAvail]
  | cons a t ih =>
    unfold insertAvail
    split
    · simp
    · simp only [List.mem_cons, ih]
      tauto

theorem pairwise_insertAvail (l : List Nat) (i : Nat) (hl : l.Pairwise (fun a b => a < b))
    (hi : i ∉ l) : (insertAvail l i).Pairwise (fun a b => a < b) := by
  induction l with
  | nil => simp [insertAvail]
  | cons a t ih =>
    rw [List.pairwise_cons] at hl
    unfold insertAvail
    split
    · rename_i h
      rw [List.pairwise_cons]
      refine ⟨?_, List.pairwise_cons.2 hl⟩
      intro b hb
      rcases List.mem_cons.1 hb with rfl | hb
      · exact h
      · exact lt_trans h (hl.1 b hb)
    · rename_i h
      have hia : i ≠ a := fun e => hi (by simp [e])
      have hai : a < i := by omega
      rw [List.pairwise_cons]
      refine ⟨?_, ih hl.2 (fun hm => hi (List.mem_cons_of_mem _ hm))⟩
      intro b hb
      rcases (mem_insertAvail t i b).1 hb with rfl | hb
      · exact hai
      · exact hl.1 b hb

theorem GetValid_eq (l : RecycleIndexList α) (i : Nat) :
    l.GetValid i = (l.m_list_valid.getD i 0 != 0) := rfl

theorem GetValid_of_le (l : RecycleIndexList α) (i : Nat) (h : l.m_list_valid.length ≤ i) :
    l.GetValid i = false := by
  simp [GetValid, k_invalid, List.getD_eq_getElem?_getD, List.getElem?_eq_none h]

theorem lt_of_GetValid (l : RecycleIndexList α) (i : Nat) (h : l.GetValid i = true) :
    i < l.m_list_valid.length := by
  by_contra hn
  rw [GetValid_of_le l i (Nat.not_lt.1 hn)] at h
  exact Bool.false_ne_true h

/-- In a strictly ascending list every entry is at most the last one. -/
theorem le_getLast_of_pairwise (l : List Nat) (hl : l.Pairwise (fun a b => a < b)) (x : Nat)
    (hx : x ∈ l) : x ≤ l.getLastD 0 := by
  induction l generalizing x with
  | nil => simp at hx
  | cons a t ih =>
    rw [List.pairwise_cons] at hl
    cases t with
    | nil => simp at hx; simp [hx]
    | cons b u =>
      rcases List.mem_cons.1 hx with rfl | hx
      · have h1 := hl.1 b (by simp)
        have h2 := ih hl.2 b (by simp)
        simp only [List.getLastD_cons] at h2 ⊢
        omega
      · have h2 := ih hl.2 x hx
        simpa only [List.getLastD_cons] using h2

theorem getLastD_mem (l : List Nat) (h : l ≠ []) : l.getLastD 0 ∈ l := by
  cases l with
  | nil => exact absurd rfl h
  | cons a t =>
    rw [List.getLastD_cons]
    induction t generalizing a with
    | nil => simp
    | cons b u ih =>
      rw [List.getLastD_cons]
      exact List.mem_cons_of_mem _ (ih b (by simp))

theorem mem_dropLast_of_pairwise (l : List Nat) (hl : l.Pairwise (fun a b => a < b)) (x : Nat) :
    x ∈ l.dropLast ↔ x ∈ l ∧ x ≠ l.getLastD 0 := by
  induction l with
  | nil => simp
  | cons a t ih =>
    rw [List.pairwise_cons] at hl
    cases t with
    | nil => simp
    | cons b u =>
      have ih2 := ih hl.2
      simp only [List.dropLast_cons₂, List.mem_cons, List.getLastD_cons] at ih2 ⊢
      rw [ih2]
      have hlast : (b :: u).getLastD 0 ∈ b :: u := getLastD_mem _ (by simp)
      have ha := hl.1 _ hlast
      simp only [List.getLastD_cons] at ha
      constructor
      · rintro (rfl | ⟨h1, h2⟩)
        · exact ⟨Or.inl rfl, by omega⟩
        · exact ⟨Or.inr h1, h2⟩
      · rintro ⟨rfl | h1, h2⟩
        · exact Or.inl rfl
        · exact Or.inr ⟨h1, h2⟩

theorem length_popBack (l : RecycleIndexList α) :
    l.popBack.m_list.length = l.m_list.length - 1 := by
  simp [popBack]

theorem length_valid_popBack (l : RecycleIndexList α) :
    l.popBack.m_list_valid.length = l.m_list_valid.length - 1 := by
  simp [popBack]

theorem getElem?_popBack (l : RecycleIndexList α) (j : Nat) (h : j < l.m_list.length - 1) :
    l.popBack.m_list[j]? = l.m_list[j]? := by
  simp [popBack, List.getElem?_dropLast, h]

theorem length_markRemoved (l : RecycleIndexList α) (dflt : α) (index : Nat) :
    (l.markRemoved dflt index).m_list.length = l.m_list.length := by
  simp [markRemoved]

theorem getElem?_markRemoved (l : RecycleIndexList α) (dflt : α) (index j : Nat)
    (h : j < l.m_list.length) :
    (l.markRemoved dflt index).m_list[j]? = if j = index then some dflt else l.m_list[j]? := by
  simp only [markRemoved, List.getElem?_set]
  by_cases hji : j = index
  · subst hji; simp [h]
  · have : index ≠ j := fun e => hji e.symm
    simp [hji, this]

/-- One iteration of the trimming loop: the three `pop_back` calls. -/
theorem sound_pop (l : RecycleIndexList α) (hs : l.Sound)
    (hlast : l.m_list_valid.getLast? = some k_invalid) :
    l.popBack.Sound ∧
    (∀ j, l.popBack.GetValid j = l.GetValid j) := by
  obtain ⟨h1, h2, h3, h4⟩ := hs
  have hne : l.m_list_valid ≠ [] := by
    intro h
    rw [h] at hlast
    simp at hlast
  have hpos : 0 < l.m_list_valid.length := List.length_pos.2 hne
  have hflag : l.m_list_valid[l.m_list_valid.length - 1]? = some 0 := by
    rw [← List.getLast?_eq_getElem?]; exact hlast
  have hn : l.GetValid (l.m_list_valid.length - 1) = false := by
    simp [GetValid, k_invalid, List.getD_eq_getElem?_getD, hflag]
  have hmem : l.m_list_valid.length - 1 ∈ l.m_list_avail :=
    h4 _ (by omega) hn
  have hav : l.m_list_avail.getLastD 0 = l.m_list_valid.length - 1 := by
    have a1 := le_getLast_of_pairwise _ h2 _ hmem
    have a2 := (h3 _ (getLastD_mem _ (List.ne_nil_of_mem hmem))).1
    omega
  have hv : ∀ j, l.popBack.GetValid j = l.GetValid j := by
    intro j
    simp only [GetValid, popBack, List.getD_eq_getElem?_getD, List.getElem?_dropLast]
    by_cases hj : j < l.m_list_valid.length - 1
    · simp [hj]
    · rcases Nat.lt_or_ge j l.m_list_valid.length with h | h
      · have : j = l.m_list_valid.length - 1 := by omega
        simp [hj, this, hflag, k_invalid]
      · simp [hj, List.getElem?_eq_none h, k_invalid]
  refine ⟨⟨?_, ?_, ?_, ?_⟩, hv⟩
  · simp [popBack, h1]
  · exact h2.sublist (List.dropLast_sublist _)
  · intro i hi
    simp only [popBack] at hi
    rw [mem_dropLast_of_pairwise _ h2, hav] at hi
    have := h3 i hi.1
    refine ⟨?_, ?_⟩
    · simp only [popBack, List.length_dropLast]
      omega
    · rw [hv]; exact this.2
  · intro i hi hval
    simp only [popBack, List.length_dropLast] at hi
    show i ∈ l.m_list_avail.dropLast
    rw [hv] at hval
    rw [mem_dropLast_of_pairwise _ h2, hav]
    exact ⟨h4 i (by omega) hval, by omega⟩

/-- The trimming loop keeps the vectors consistent, changes no flag as seen by `GetValid`,
keeps every remaining slot, and with enough iterations ends with a valid last slot. -/
theorem trim_spec (fuel : Nat) : ∀ l : RecycleIndexList α, l.Sound →
    (trim fuel l).Sound ∧ (trim fuel l).m_count = l.m_count ∧
    (trim fuel l).m_list.length ≤ l.m_list.length ∧
    (∀ j, j < (trim fuel l).m_list.length → (trim fuel l).m_list[j]? = l.m_list[j]?) ∧
    (∀ j, (trim fuel l).GetValid j = l.GetValid j) ∧
    (l.m_list_valid.length ≤ fuel → (trim fuel l).m_list_valid.getLast? ≠ some k_invalid) := by
  induction fuel with
  | zero =>
    intro l hs
    refine ⟨hs, rfl, le_rfl, fun _ _ => rfl, fun _ => rfl, ?_⟩
    intro h
    have : l.m_list_valid = [] := List.eq_nil_of_length_eq_zero (by simpa using h)
    simp [trim, this]
  | succ fuel ih =>
    intro l hs
    unfold trim
    split
    · rename_i hlast
      obtain ⟨hs1, hv1⟩ := sound_pop l hs hlast
      split
      · rename_i hemp
        refine ⟨hs1, rfl, by rw [length_popBack]; omega, ?_, hv1, ?_⟩
        · intro j hj
          rw [length_popBack] at hj
          exact getElem?_popBack l j hj
        · intro _
          have : l.popBack.m_list_valid = [] := by simpa using hemp
          simp [this]
      · obtain ⟨a1, a2, a3, a4, a5, a6⟩ := ih _ hs1
        rw [length_popBack] at a3
        refine ⟨a1, a2, ?_, ?_, ?_, ?_⟩
        · omega
        · intro j hj
          rw [a4 j hj]
          exact getElem?_popBack l j (by omega)
        · intro j
          rw [a5, hv1]
        · intro h
          apply a6
          rw [length_valid_popBack]
          omega
    · rename_i hlast
      exact ⟨hs, rfl, le_rfl, fun _ _ => rfl, fun _ => rfl, fun _ => hlast⟩

/-- `Remove(index)` of a valid index: the invariant holds afterwards, exactly the flag of
`index` changes, and every slot that remains keeps its content or, for `index`, holds `T()`. -/
theorem Remove_spec (l : RecycleIndexList α) (dflt : α) (index : Nat) (hs : l.Sound)
    (hv : l.GetValid index = true) :
    (l.Remove dflt index).Inv ∧
    (l.Remove dflt index).m_count = wrap32 (l.m_count - 1) ∧
    (l.Remove dflt index).m_list.length ≤ l.m_list.length ∧
    (∀ j, j < (l.Remove dflt index).m_list.length →
      (l.Remove dflt index).m_list[j]? = if j = index then some dflt else l.m_list[j]?) ∧
    (∀ j, (l.Remove dflt index).GetValid j = if j = index then false else l.GetValid j) := by
  obtain ⟨h1, h2, h3, h4⟩ := hs
  have hlt : index < l.m_list_valid.length := lt_of_GetValid l index hv
  have hva : ∀ j, (l.markRemoved dflt index).GetValid j =
        if j = index then false else l.GetValid j := by
    intro j
    simp only [GetValid, markRemoved, List.getD_eq_getElem?_getD, List.getElem?_set]
    by_cases hj : j = index
    · subst hj; simp [hlt, k_invalid]
    · have : index ≠ j := fun e => hj e.symm
      simp [hj, this]
  have hs1 : (l.markRemoved dflt index).Sound := by
    refine ⟨by simp [markRemoved, h1], ?_, ?_, ?_⟩
    · apply pairwise_insertAvail _ _ h2
      intro hm
      have := (h3 index hm).2
      rw [hv] at this
      exact Bool.noConfusion this
    · intro i hi
      rw [hva]
      rcases (mem_insertAvail _ _ _).1 hi with rfl | hi
      · exact ⟨by simp only [markRemoved, List.length_set]; omega, by simp⟩
      · have := h3 i hi
        refine ⟨by simp only [markRemoved, List.length_set]; exact this.1, ?_⟩
        split
        · rfl
        · exact this.2
    · intro i hi hval
      rw [hva] at hval
      simp only [markRemoved, List.length_set] at hi
      show i ∈ insertAvail l.m_list_avail index
      rw [mem_insertAvail]
      by_cases hj : i = index
      · exact Or.inl hj
      · simp only [hj, if_false] at hval
        exact Or.inr (h4 i hi hval)
  obtain ⟨a1, a2, a3, a4, a5, a6⟩ :=
    trim_spec (l.markRemoved dflt index).m_list_valid.length _ hs1
  rw [length_markRemoved] at a3
  refine ⟨⟨a1, a6 le_rfl⟩, a2, a3, ?_, ?_⟩
  · intro j hj
    have hjl : j < l.m_list.length := lt_of_lt_of_le hj a3
    unfold Remove
    rw [a4 j hj, getElem?_markRemoved l dflt index j hjl]
  · intro j
    unfold Remove
    rw [a5, hva]

/-- `Add(val)`: the index returned is the one `PeekNextIndex()` announces, it was not valid
before and is valid afterwards, its slot holds `val`, no other slot or flag changes and the
invariant is kept. -/
theorem Add_spec (l : RecycleIndexList α) (val : α) (hs : l.Sound) :
    (l.Add val).2.Sound ∧
    (l.m_list_valid.getLast? ≠ some k_invalid →
      (l.Add val).2.m_list_valid.getLast? ≠ some k_invalid) ∧
    (l.Add val).1 = l.PeekNextIndex ∧ l.GetValid (l.Add val).1 = false ∧
    (l.Add val).1 < (l.Add val).2.m_list.length ∧
    l.m_list.length ≤ (l.Add val).2.m_list.length ∧
    (∀ j, (l.Add val).2.m_list[j]? = if j = (l.Add val).1 then some val else l.m_list[j]?) ∧
    (∀ j, (l.Add val).2.GetValid j = if j = (l.Add val).1 then true else l.GetValid j) := by
  obtain ⟨h1, h2, h3, h4⟩ := hs
  by_cases hemp : l.m_list_avail = []
  · have hA : l.Add val = (l.m_list.length,
        { m_count := wrap32 (l.m_count + 1), m_list := l.m_list ++ [val],
          m_list_valid := l.m_list_valid ++ [k_valid], m_list_avail := l.m_list_avail }) := by
      simp [Add, hemp]
    have hval : ∀ j, (l.Add val).2.GetValid j =
        if j = (l.Add val).1 then true else l.GetValid j := by
      intro j
      rw [hA]
      simp only [GetValid, List.getD_eq_getElem?_getD, List.getElem?_append]
      by_cases hj : j < l.m_list_valid.length
      · have : j ≠ l.m_list.length := by omega
        simp [hj, this]
      · by_cases hj2 : j = l.m_list.length
        · simp [hj2, h1, k_valid]
        · have : l.m_list_valid.length ≤ j := by omega
          have h5 : ¬ (j - l.m_list_valid.length = 0) := by omega
          simp [hj, hj2, List.getElem?_eq_none this, List.getElem?_cons, h5]
    refine ⟨⟨?_, ?_, ?_, ?_⟩, ?_, ?_, ?_, ?_, ?_, ?_, hval⟩
    · rw [hA]; simp [h1]
    · rw [hA]; exact h2
    · intro i hi
      rw [hA] at hi
      simp [hemp] at hi
    · intro i hi hv
      rw [hval] at hv
      split at hv
      · exact Bool.noConfusion hv
      · rename_i hne
        rw [hA] at hi hne
        simp only [List.length_append, List.length_singleton] at hi
        have := h4 i (by simp only at hne; omega) hv
        rw [hA]
        exact this
    · intro _
      rw [hA]
      simp [List.getLast?_concat, k_valid, k_invalid]
    · rw [hA]; simp [PeekNextIndex, hemp]
    · rw [hA]; exact GetValid_of_le l _ (by simp [h1])
    · rw [hA]; simp
    · rw [hA]; simp
    · intro j
      rw [hA]
      simp only [List.getElem?_append]
      by_cases hj : j < l.m_list.length
      · have : j ≠ l.m_list.length := by omega
        simp [hj, this]
      · by_cases hj2 : j = l.m_list.length
        · simp [hj2]
        · have : l.m_list.length ≤ j := by omega
          have h5 : ¬ (j - l.m_list.length = 0) := by omega
          simp [hj, hj2, List.getElem?_eq_none this, List.getElem?_cons, h5]
  · have hA : l.Add val = (l.m_list_avail.getLastD 0,
        { m_count := wrap32 (l.m_count + 1),
          m_list := l.m_list.set (l.m_list_avail.getLastD 0) val,
          m_list_valid := l.m_list_valid.set (l.m_list_avail.getLastD 0) k_valid,
          m_list_avail := l.m_list_avail.dropLast }) := by
      simp [Add, hemp]
    have hmem := getLastD_mem _ hemp
    have hidx := h3 _ hmem
    obtain ⟨index, hlast⟩ : ∃ index, l.m_list_avail.getLastD 0 = index := ⟨_, rfl⟩
    rw [hlast] at hA hmem hidx
    have hval : ∀ j, (l.Add val).2.GetValid j =
        if j = (l.Add val).1 then true else l.GetValid j := by
      intro j
      rw [hA]
      simp only [GetValid, List.getD_eq_getElem?_getD, List.getElem?_set]
      by_cases hj : j = index
      · subst hj; simp [h1, hidx.1, k_valid]
      · have : index ≠ j := fun e => hj e.symm
        simp [hj, this]
    refine ⟨⟨?_, ?_, ?_, ?_⟩, ?_, ?_, ?_, ?_, ?_, ?_, hval⟩
    · rw [hA]; simp [h1]
    · rw [hA]; exact h2.sublist (List.dropLast_sublist _)
    · intro i hi
      rw [hval]
      rw [hA] at hi ⊢
      simp only at hi ⊢
      rw [mem_dropLast_of_pairwise _ h2, hlast] at hi
      refine ⟨by simpa using (h3 i hi.1).1, ?_⟩
      rw [if_neg hi.2]
      exact (h3 i hi.1).2
    · intro i hi hv
      rw [hval] at hv
      rw [hA] at hi hv ⊢
      simp only [List.length_set] at hi hv ⊢
      by_cases hj : i = index
      · rw [if_pos hj] at hv
        exact Bool.noConfusion hv
      · rw [if_neg hj] at hv
        rw [mem_dropLast_of_pairwise _ h2, hlast]
        exact ⟨h4 i hi hv, hj⟩
    · intro htr
      rw [hA]
      simp only [List.getLast?_eq_getElem?, List.length_set, List.getElem?_set]
      rw [List.getLast?_eq_getElem?] at htr
      split
      · split
        · simp [k_valid, k_invalid]
        · simp
      · exact htr
    · rw [hA]
      unfold PeekNextIndex
      rw [hlast]
      simp [hemp]
    · rw [hA]; exact hidx.2
    · rw [hA]; simpa using hidx.1
    · rw [hA]; simp
    · intro j
      rw [hA]
      simp only [List.getElem?_set]
      by_cases hj : j = index
      · subst hj; simp [hidx.1]
      · have : index ≠ j := fun e => hj e.symm
        simp [hj, this]

end RecycleIndexList

end ks

/-! ## `Graph`: the representation invariant -/

namespace ks

namespace Graph

variable {T : Type} [Inhabited T]

theorem getValid_modify (g : Graph T) (i j : Nat) (f : Node T → Node T) :
    (g.modify i f).m_list_nodes.GetValid j = g.m_list_nodes.GetValid j := rfl

theorem m_list_avail_modify (g : Graph T) (i : Nat) (f : Node T → Node T) :
    (g.modify i f).m_list_nodes.m_list_avail = g.m_list_nodes.m_list_avail := rfl

theorem m_count_modify (g : Graph T) (i : Nat) (f : Node T → Node T) :
    (g.modify i f).m_list_nodes.m_count = g.m_list_nodes.m_count := rfl

theorem m_node_count_modify (g : Graph T) (i : Nat) (f : Node T → Node T) :
    (g.modify i f).m_node_count = g.m_node_count := rfl

theorem sound_modify (g : Graph T) (i : Nat) (f : Node T → Node T)
    (h : g.m_list_nodes.Sound) : (g.modify i f).m_list_nodes.Sound := by
  obtain ⟨h1, h2, h3, h4⟩ := h
  refine ⟨?_, h2, ?_, ?_⟩
  · rw [length_modify]; exact h1
  · intro k hk
    rw [length_modify]
    exact h3 k hk
  · intro k hk hv
    rw [length_modify] at hk
    exact h4 k hk hv

/-- What a fold of `modify` with an idempotent update over a list of indices leaves. -/
theorem foldl_modify (f : Node T → Node T) (hf : ∀ n, f (f n) = f n) (xs : List Nat) :
    ∀ g : Graph T,
      (xs.foldl (fun s x => s.modify x f) g).m_list_nodes.m_list.length =
        g.m_list_nodes.m_list.length ∧
      (xs.foldl (fun s x => s.modify x f) g).m_list_nodes.m_list_valid =
        g.m_list_nodes.m_list_valid ∧
      (xs.foldl (fun s x => s.modify x f) g).m_list_nodes.m_list_avail =
        g.m_list_nodes.m_list_avail ∧
      (xs.foldl (fun s x => s.modify x f) g).m_list_nodes.m_count = g.m_list_nodes.m_count ∧
      (xs.foldl (fun s x => s.modify x f) g).m_node_count = g.m_node_count ∧
      (xs.foldl (fun s x => s.modify x f) g).m_null_node = g.m_null_node ∧
      ∀ i, nodeOf (xs.foldl (fun s x => s.modify x f) g).m_list_nodes.m_list i =
        if i ∈ xs ∧ i < g.m_list_nodes.m_list.length then f (nodeOf g.m_list_nodes.m_list i)
        else nodeOf g.m_list_nodes.m_list i := by
  induction xs with
  | nil => intro g; simp
  | cons x xs ih =>
    intro g
    obtain ⟨a1, a2, a3, a4, a5, a6, a7⟩ := ih (g.modify x f)
    simp only [List.foldl_cons]
    refine ⟨by rw [a1, length_modify], by rw [a2]; rfl, by rw [a3]; rfl, by rw [a4]; rfl,
      by rw [a5]; rfl, by rw [a6]; rfl, ?_⟩
    intro i
    rw [a7 i, length_modify, m_list_modify, nodeOf_setNode]
    by_cases hix : i = x
    · subst hix
      by_cases hlt : i < g.m_list_nodes.m_list.length
      · simp [hlt, hf]
      · simp [hlt]
    · by_cases hlt : i < g.m_list_nodes.m_list.length
      · simp [hix, hlt]
      · simp [hix, hlt]

end Graph

end ks

/-! ## `Graph::RemoveNode` without orphan removal -/

namespace ks

namespace Graph

variable {T : Type} [Inhabited T]

/-- The statements of `RemoveNode(node,false)` before `m_list_nodes.Remove(node)`: the graph
they leave has the old flags and free list, `node` is marked invalid with empty edge lists,
and every other node has lost exactly its entries `node`. -/
theorem removeNode_false_eq (fuel : Nat) (g : Graph T) (node : Nat) :
    ∃ g5 : Graph T,
      removeNode (fuel + 1) g node false =
        { g5 with m_list_nodes := g5.m_list_nodes.Remove (Node.null T) node,
                  m_node_count := wrap32 (g5.m_node_count - 1) } ∧
      g5.m_list_nodes.m_list.length = g.m_list_nodes.m_list.length ∧
      g5.m_list_nodes.m_list_valid = g.m_list_nodes.m_list_valid ∧
      g5.m_list_nodes.m_list_avail = g.m_list_nodes.m_list_avail ∧
      g5.m_list_nodes.m_count = g.m_list_nodes.m_count ∧
      g5.m_node_count = g.m_node_count ∧
      g5.m_null_node = g.m_null_node ∧
      ∀ i, nodeOf g5.m_list_nodes.m_list i =
        if i = node then
          { nodeOf g.m_list_nodes.m_list node with
            valid := (nodeOf g.m_list_nodes.m_list node).valid &&
              decide (g.m_list_nodes.m_list.length ≤ node),
            inputs := [], outputs := [] }
        else
          { nodeOf g.m_list_nodes.m_list i with
            inputs :=
              if i ∈ (nodeOf g.m_list_nodes.m_list node).outputs then
                eraseAll (nodeOf g.m_list_nodes.m_list i).inputs node
              else (nodeOf g.m_list_nodes.m_list i).inputs
            outputs :=
              if i ∈ (nodeOf g.m_list_nodes.m_list node).inputs then
                eraseAll (nodeOf g.m_list_nodes.m_list i).outputs node
              else (nodeOf g.m_list_nodes.m_list i).outputs } := by
  have hf1 : ∀ n : Node T,
      (fun n : Node T => { n with outputs := eraseAll n.outputs node })
        ((fun n : Node T => { n with outputs := eraseAll n.outputs node }) n) =
      (fun n : Node T => { n with outputs := eraseAll n.outputs node }) n := by
    intro n
    simp [eraseAll, List.filter_filter]
  have hf2 : ∀ n : Node T,
      (fun n : Node T => { n with inputs := eraseAll n.inputs node })
        ((fun n : Node T => { n with inputs := eraseAll n.inputs node }) n) =
      (fun n : Node T => { n with inputs := eraseAll n.inputs node }) n := by
    intro n
    simp [eraseAll, List.filter_filter]
  obtain ⟨g1, hg1⟩ : ∃ g1, g1 = (nodeOf g.m_list_nodes.m_list node).inputs.foldl
      (fun s input => s.modify input (fun n => { n with outputs := eraseAll n.outputs node })) g :=
    ⟨_, rfl⟩
  obtain ⟨a1, a2, a3, a4, a5, a6, a7⟩ :=
    foldl_modify (fun n : Node T => { n with outputs := eraseAll n.outputs node }) hf1
      (nodeOf g.m_list_nodes.m_list node).inputs g
  rw [← hg1] at a1 a2 a3 a4 a5 a6 a7
  obtain ⟨g2, hg2⟩ : ∃ g2, g2 = g1.modify node (fun n => { n with inputs := [] }) := ⟨_, rfl⟩
  obtain ⟨g3, hg3⟩ : ∃ g3, g3 = (nodeOf g2.m_list_nodes.m_list node).outputs.foldl
      (fun s output => s.modify output (fun n => { n with inputs := eraseAll n.inputs node })) g2 :=
    ⟨_, rfl⟩
  obtain ⟨b1, b2, b3, b4, b5, b6, b7⟩ :=
    foldl_modify (fun n : Node T => { n with inputs := eraseAll n.inputs node }) hf2
      (nodeOf g2.m_list_nodes.m_list node).outputs g2
  rw [← hg3] at b1 b2 b3 b4 b5 b6 b7
  have hlen2 : g2.m_list_nodes.m_list.length = g.m_list_nodes.m_list.length := by
    rw [hg2, length_modify, a1]
  refine ⟨(g3.modify node (fun n => { n with outputs := [] })).modify node
      (fun n => { n with valid := false }), ?_, ?_, ?_, ?_, ?_, ?_, ?_, ?_⟩
  · simp only [removeNode, Bool.false_and, Bool.false_eq_true, if_false]
    rw [← hg1, ← hg2, ← hg3]
  · rw [length_modify, length_modify, b1, hlen2]
  · rw [m_list_valid_modify, m_list_valid_modify, b2, hg2, m_list_valid_modify, a2]
  · rw [m_list_avail_modify, m_list_avail_modify, b3, hg2, m_list_avail_modify, a3]
  · rw [m_count_modify, m_count_modify, b4, hg2, m_count_modify, a4]
  · rw [m_node_count_modify, m_node_count_modify, b5, hg2, m_node_count_modify, a5]
  · rw [m_null_node_modify, m_null_node_modify, b6, hg2, m_null_node_modify, a6]
  · intro i
    have hlen3 : g3.m_list_nodes.m_list.length = g.m_list_nodes.m_list.length := by
      rw [b1, hlen2]
    have h2 : ∀ j, nodeOf g2.m_list_nodes.m_list j =
        if j = node ∧ node < g.m_list_nodes.m_list.length then
          { nodeOf g1.m_list_nodes.m_list node with inputs := [] }
        else nodeOf g1.m_list_nodes.m_list j := by
      intro j
      rw [hg2, m_list_modify, nodeOf_setNode, a1]
    by_cases hlt : i < g.m_list_nodes.m_list.length
    · by_cases hin : i = node
      · subst hin
        have hle : ¬ g.m_list_nodes.m_list.length ≤ i := by omega
        rw [m_list_modify, nodeOf_setNode_self _ _ _ (by rw [length_modify, hlen3]; exact hlt),
          m_list_modify, nodeOf_setNode_self _ _ _ (by rw [hlen3]; exact hlt), b7, h2, a7]
        simp only [true_and, hlt, if_true, if_pos]
        split <;> split <;> simp [hle, eraseAll]
      · rw [m_list_modify, nodeOf_setNode_ne _ _ _ _ hin, m_list_modify,
          nodeOf_setNode_ne _ _ _ _ hin, b7, hlen2]
        have hout : (nodeOf g2.m_list_nodes.m_list node).outputs =
            (nodeOf g1.m_list_nodes.m_list node).outputs := by
          rw [h2]; split <;> rfl
        have hmem : i ∈ (nodeOf g2.m_list_nodes.m_list node).outputs ↔
            i ∈ (nodeOf g.m_list_nodes.m_list node).outputs := by
          rw [hout, a7]
          split
          · simp [mem_eraseAll, hin]
          · rfl
        have hg2i : nodeOf g2.m_list_nodes.m_list i = nodeOf g1.m_list_nodes.m_list i := by
          rw [h2]; simp [hin]
        rw [hg2i, a7 i]
        simp only [hin, if_false, hmem, hlt, and_true]
        by_cases ho : i ∈ (nodeOf g.m_list_nodes.m_list node).outputs <;>
          by_cases hi : i ∈ (nodeOf g.m_list_nodes.m_list node).inputs <;>
          simp [ho, hi]
    · have hnull := nodeOf_of_le g.m_list_nodes.m_list i (Nat.not_lt.1 hlt)
      rw [nodeOf_of_le _ i (by rw [length_modify, length_modify, hlen3]; omega), hnull]
      by_cases hin : i = node
      · subst hin
        rw [hnull]
        simp [Node.null]
      · simp [hin, Node.null, eraseAll]

end Graph

end ks

namespace ks

namespace Graph

variable {T : Type} [Inhabited T]

theorem GetNode_eq_nodeOf (g : Graph T) (h : g.m_null_node = Node.null T) (i : Nat) :
    g.GetNode i = nodeOf g.m_list_nodes.m_list i := by
  unfold GetNode
  split
  · rfl
  · rename_i hlt
    rw [h, nodeOf_of_le _ _ (Nat.not_lt.1 hlt)]

theorem nodeOf_eq_getElem? (l : List (Node T)) (i : Nat) :
    nodeOf l i = l[i]?.getD (Node.null T) := by
  simp [nodeOf, List.getD_eq_getElem?_getD]

theorem unlink_null (node : Nat) : unlink node (Node.null T) = Node.null T := by
  simp [unlink, Node.null, eraseAll]

/-- In a graph that satisfies the invariant a slot outside the valid ones is a
value-initialised node. -/
theorem nodeOf_of_not_valid (g : Graph T) (hinv : g.Inv) (i : Nat)
    (h : g.m_list_nodes.GetValid i = false) : nodeOf g.m_list_nodes.m_list i = Node.null T := by
  rcases Nat.lt_or_ge i g.m_list_nodes.m_list.length with hlt | hge
  · exact hinv.2.2.1 i hlt h
  · exact nodeOf_of_le _ _ hge

theorem mem_inputs_iff (g : Graph T) (hinv : g.Inv) (a b : Nat) :
    a ∈ (nodeOf g.m_list_nodes.m_list b).inputs ↔ b ∈ (nodeOf g.m_list_nodes.m_list a).outputs := by
  rw [← List.count_pos_iff, ← List.count_pos_iff, hinv.2.2.2.2 a b]

/-- The effect of `RemoveNode(node,false)` on a graph that satisfies the invariant, `node`
being valid: the slot of `node` becomes a value-initialised node, every other node loses its
entries `node` and nothing else, exactly the flag of `node` is cleared, and the invariant
holds again. -/
theorem RemoveNode_false_spec (g : Graph T) (node : Nat) (hinv : g.Inv)
    (hv : g.m_list_nodes.GetValid node = true) :
    (g.RemoveNode node false).Inv ∧
    (g.RemoveNode node false).m_list_nodes.Inv ∧
    (∀ j, (g.RemoveNode node false).m_list_nodes.GetValid j =
      if j = node then false else g.m_list_nodes.GetValid j) ∧
    (∀ i, nodeOf (g.RemoveNode node false).m_list_nodes.m_list i =
      if i = node then Node.null T else unlink node (nodeOf g.m_list_nodes.m_list i)) := by
  obtain ⟨g5, e0, e1, e2, e3, e4, e5, e6, e7⟩ :=
    removeNode_false_eq g.m_list_nodes.m_list.length g node
  obtain ⟨⟨s1, s2, s3, s4⟩, hnull, hslot, hvalid, hsym⟩ := hinv
  have hinv : g.Inv := ⟨⟨s1, s2, s3, s4⟩, hnull, hslot, hvalid, hsym⟩
  have hgv : ∀ j, g5.m_list_nodes.GetValid j = g.m_list_nodes.GetValid j := by
    intro j
    simp only [RecycleIndexList.GetValid, e2]
  have hs5 : g5.m_list_nodes.Sound := by
    refine ⟨by rw [e2, e1]; exact s1, by rw [e3]; exact s2, ?_, ?_⟩
    · intro i hi
      rw [e3] at hi
      rw [e1, hgv]
      exact s3 i hi
    · intro i hi hval
      rw [e1] at hi
      rw [hgv] at hval
      rw [e3]
      exact s4 i hi hval
  obtain ⟨r1, _, r3, r4, r5⟩ :=
    RecycleIndexList.Remove_spec g5.m_list_nodes (Node.null T) node hs5 (by rw [hgv]; exact hv)
  have hR : g.RemoveNode node false =
      { g5 with m_list_nodes := g5.m_list_nodes.Remove (Node.null T) node,
                m_node_count := wrap32 (g5.m_node_count - 1) } := e0
  have hlist : (g.RemoveNode node false).m_list_nodes =
      g5.m_list_nodes.Remove (Node.null T) node := by rw [hR]
  have hval : ∀ j, (g.RemoveNode node false).m_list_nodes.GetValid j =
      if j = node then false else g.m_list_nodes.GetValid j := by
    intro j
    rw [hlist, r5, hgv]
  have hnode : ∀ i, nodeOf (g.RemoveNode node false).m_list_nodes.m_list i =
      if i = node then Node.null T else unlink node (nodeOf g.m_list_nodes.m_list i) := by
    intro i
    rw [hlist]
    rcases Nat.lt_or_ge i (g5.m_list_nodes.Remove (Node.null T) node).m_list.length with h | h
    · rw [nodeOf_eq_getElem?, r4 i h]
      by_cases hin : i = node
      · simp [hin]
      · rw [if_neg hin, if_neg hin, ← nodeOf_eq_getElem?, e7 i, if_neg hin]
        have hi1 : (if i ∈ (nodeOf g.m_list_nodes.m_list node).outputs then
              eraseAll (nodeOf g.m_list_nodes.m_list i).inputs node
            else (nodeOf g.m_list_nodes.m_list i).inputs) =
            eraseAll (nodeOf g.m_list_nodes.m_list i).inputs node := by
          split
          · rfl
          · rename_i hno
            rw [eraseAll_of_not_mem]
            intro hmem
            exact hno ((mem_inputs_iff g hinv node i).1 hmem)
        have hi2 : (if i ∈ (nodeOf g.m_list_nodes.m_list node).inputs then
              eraseAll (nodeOf g.m_list_nodes.m_list i).outputs node
            else (nodeOf g.m_list_nodes.m_list i).outputs) =
            eraseAll (nodeOf g.m_list_nodes.m_list i).outputs node := by
          split
          · rfl
          · rename_i hno
            rw [eraseAll_of_not_mem]
            intro hmem
            exact hno ((mem_inputs_iff g hinv i node).2 hmem)
        rw [hi1, hi2]
        rfl
    · rw [nodeOf_of_le _ _ h]
      by_cases hin : i = node
      · simp [hin]
      · rw [if_neg hin]
        have hvi : (g5.m_list_nodes.Remove (Node.null T) node).GetValid i = false :=
          RecycleIndexList.GetValid_of_le _ _ (by rw [r1.1.1]; exact h)
        rw [r5, if_neg hin, hgv] at hvi
        rw [nodeOf_of_not_valid g hinv i hvi, unlink_null]
  refine ⟨⟨?_, ?_, ?_, ?_, ?_⟩, ?_, hval, hnode⟩
  · rw [hlist]; exact r1.1
  · rw [hR]; simp only; rw [e6]; exact hnull
  · intro i _ hvi
    rw [hnode]
    split
    · rfl
    · rename_i hin
      rw [hval, if_neg hin] at hvi
      rw [nodeOf_of_not_valid g hinv i hvi, unlink_null]
  · intro i hvi
    rw [hval] at hvi
    rw [hnode]
    split
    · rename_i hin
      rw [if_pos hin] at hvi
      exact Bool.noConfusion hvi
    · rename_i hin
      rw [if_neg hin] at hvi
      exact hvalid i hvi
  · intro a b
    rw [hnode a, hnode b]
    by_cases ha : a = node <;> by_cases hb : b = node
    · simp [ha, hb, Node.null]
    · rw [if_pos ha, if_neg hb]
      simp only [Node.null, unlink, List.count_nil, count_eraseAll, ha, if_true]
    · rw [if_neg ha, if_pos hb]
      simp only [Node.null, unlink, List.count_nil, count_eraseAll, hb, if_true]
    · rw [if_neg ha, if_neg hb]
      simp only [unlink, count_eraseAll, ha, hb, if_false]
      exact hsym a b
  · rw [hlist]; exact r1

end Graph

end ks

/-! ## `Graph`: the invariant under `AddNode` and `AddEdge` -/

namespace ks

namespace Graph

variable {T : Type} [Inhabited T]

theorem inv_empty : (Graph.empty : Graph T).Inv := by
  refine ⟨⟨rfl, List.Pairwise.nil, ?_, ?_⟩, rfl, ?_, ?_, ?_⟩
  · intro i hi; simp [Graph.empty, RecycleIndexList.empty] at hi
  · intro i hi; simp [Graph.empty, RecycleIndexList.empty] at hi
  · intro i hi; simp [Graph.empty, RecycleIndexList.empty] at hi
  · intro i hi
    simp [Graph.empty, RecycleIndexList.empty, RecycleIndexList.GetValid, k_invalid] at hi
  · intro a b
    simp [Graph.empty, RecycleIndexList.empty, nodeOf, Node.null]

theorem lt_of_valid (g : Graph T) (hinv : g.Inv) (i : Nat)
    (h : g.m_list_nodes.GetValid i = true) : i < g.m_list_nodes.m_list.length := by
  rw [← hinv.1.1]
  exact RecycleIndexList.lt_of_GetValid _ _ h

/-- `AddNode(val)` on a graph that satisfies the invariant: the index returned was not valid,
it is valid afterwards and its slot holds the fresh node, no other slot or flag changes, and
the invariant holds again. -/
theorem AddNode_spec (g : Graph T) (val : T) (hinv : g.Inv) :
    (g.AddNode val).2.Inv ∧
    g.m_list_nodes.GetValid (g.AddNode val).1 = false ∧
    (∀ j, (g.AddNode val).2.m_list_nodes.GetValid j =
      if j = (g.AddNode val).1 then true else g.m_list_nodes.GetValid j) ∧
    (∀ j, nodeOf (g.AddNode val).2.m_list_nodes.m_list j =
      if j = (g.AddNode val).1 then
        { value := val, valid := true, state := 0, inputs := [], outputs := [] }
      else nodeOf g.m_list_nodes.m_list j) := by
  obtain ⟨r1, _, _, r4, r5, r6, r7, r8⟩ := RecycleIndexList.Add_spec g.m_list_nodes
    ({ value := val, valid := true, state := 0, inputs := [], outputs := [] } : Node T) hinv.1
  have hnode : ∀ j, nodeOf (g.AddNode val).2.m_list_nodes.m_list j =
      if j = (g.AddNode val).1 then
        { value := val, valid := true, state := 0, inputs := [], outputs := [] }
      else nodeOf g.m_list_nodes.m_list j := by
    intro j
    show nodeOf (g.m_list_nodes.Add _).2.m_list j = if j = (g.m_list_nodes.Add _).1 then _ else _
    rw [nodeOf_eq_getElem?, r7 j]
    split
    · rfl
    · rw [nodeOf_eq_getElem?]
  have hval : ∀ j, (g.AddNode val).2.m_list_nodes.GetValid j =
      if j = (g.AddNode val).1 then true else g.m_list_nodes.GetValid j := r8
  have hnew : nodeOf g.m_list_nodes.m_list (g.AddNode val).1 = Node.null T :=
    nodeOf_of_not_valid g hinv _ r4
  refine ⟨⟨r1, hinv.2.1, ?_, ?_, ?_⟩, r4, hval, hnode⟩
  · intro i _ hvi
    rw [hval] at hvi
    rw [hnode]
    split
    · rename_i h
      rw [if_pos h] at hvi
      exact Bool.noConfusion hvi
    · rename_i h
      rw [if_neg h] at hvi
      exact nodeOf_of_not_valid g hinv i hvi
  · intro i hvi
    rw [hval] at hvi
    rw [hnode]
    split
    · rfl
    · rename_i h
      rw [if_neg h] at hvi
      exact hinv.2.2.2.1 i hvi
  · intro a b
    rw [hnode a, hnode b]
    have hsym := hinv.2.2.2.2
    by_cases ha : a = (g.AddNode val).1 <;> by_cases hb : b = (g.AddNode val).1
    · simp [ha, hb]
    · rw [if_pos ha, if_neg hb]
      have := hsym (g.AddNode val).1 b
      rw [hnew] at this
      simp only [Node.null, List.count_nil] at this
      simp only [List.count_nil, ha]
      exact this
    · rw [if_neg ha, if_pos hb]
      have := hsym a (g.AddNode val).1
      rw [hnew] at this
      simp only [Node.null, List.count_nil] at this
      simp only [List.count_nil, hb]
      exact this
    · rw [if_neg ha, if_neg hb]
      exact hsym a b

theorem nodeOf_AddEdge (g : Graph T) (src dst i : Nat)
    (hs : src < g.m_list_nodes.m_list.length) (hd : dst < g.m_list_nodes.m_list.length) :
    nodeOf (g.AddEdge src dst).m_list_nodes.m_list i =
      { nodeOf g.m_list_nodes.m_list i with
        inputs :=
          if i = dst then (nodeOf g.m_list_nodes.m_list i).inputs ++ [src]
          else (nodeOf g.m_list_nodes.m_list i).inputs
        outputs :=
          if i = src then (nodeOf g.m_list_nodes.m_list i).outputs ++ [dst]
          else (nodeOf g.m_list_nodes.m_list i).outputs } := by
  unfold AddEdge
  simp only [m_list_modify, nodeOf_setNode, length_setNode]
  by_cases h1 : i = dst <;> by_cases h2 : i = src <;> by_cases h3 : dst = src <;>
    simp_all

/-- `AddEdge(from,to)` between two valid nodes keeps the invariant. -/
theorem inv_AddEdge (g : Graph T) (src dst : Nat) (hinv : g.Inv)
    (hs : g.m_list_nodes.GetValid src = true) (hd : g.m_list_nodes.GetValid dst = true) :
    (g.AddEdge src dst).Inv := by
  have hs1 := lt_of_valid g hinv src hs
  have hd1 := lt_of_valid g hinv dst hd
  have hnode := fun i => nodeOf_AddEdge g src dst i hs1 hd1
  refine ⟨sound_modify _ _ _ (sound_modify _ _ _ hinv.1), hinv.2.1, ?_, ?_, ?_⟩
  · intro i _ hvi
    have hvi2 : g.m_list_nodes.GetValid i = false := hvi
    have h1 : i ≠ src := by rintro rfl; rw [hs] at hvi2; exact Bool.noConfusion hvi2
    have h2 : i ≠ dst := by rintro rfl; rw [hd] at hvi2; exact Bool.noConfusion hvi2
    rw [hnode, if_neg h1, if_neg h2]
    exact nodeOf_of_not_valid g hinv i hvi2
  · intro i hvi
    rw [hnode]
    exact hinv.2.2.2.1 i hvi
  · intro a b
    rw [hnode a, hnode b]
    have hsym := hinv.2.2.2.2 a b
    by_cases ha : a = src <;> by_cases hb : b = dst
    · simp only [ha, hb, if_true, List.count_append]
      rw [← ha, ← hb, hsym]
      simp
    · simp only [ha, hb, if_true, if_false, List.count_append]
      rw [← ha, hsym]
      have : ¬ (dst = b) := fun e => hb e.symm
      simp [this, List.count_singleton]
    · simp only [ha, hb, if_true, if_false, List.count_append]
      rw [← hb, ← hsym]
      have : ¬ (src = a) := fun e => ha e.symm
      simp [this, List.count_singleton]
    · simp only [ha, hb, if_false]
      exact hsym

end Graph

end ks

/-! ## Test graphs and the frame of `RemoveNode(n,false)` -/

namespace ks

namespace Graph

variable {T : Type} [Inhabited T]

theorem inv_addNodes (vals : List T) : ∀ g : Graph T, g.Inv → (addNodes g vals).Inv := by
  induction vals with
  | nil => intro g h; exact h
  | cons v vs ih =>
    intro g h
    exact ih _ (AddNode_spec g v h).1

theorem inv_addEdges (edges : List (Nat × Nat)) : ∀ g : Graph T, g.Inv →
    (∀ e ∈ edges, g.m_list_nodes.GetValid e.1 = true ∧ g.m_list_nodes.GetValid e.2 = true) →
    (addEdges g edges).Inv := by
  induction edges with
  | nil => intro g h _; exact h
  | cons e es ih =>
    intro g h hv
    have he := hv e (by simp)
    refine ih _ (inv_AddEdge g e.1 e.2 h he.1 he.2) ?_
    intro e2 he2
    exact hv e2 (List.mem_cons_of_mem _ he2)

theorem getValid_of_valid (g : Graph T) (hinv : g.Inv) (n : Nat)
    (h : (g.GetNode n).valid = true) : g.m_list_nodes.GetValid n = true := by
  by_contra hn
  rw [Bool.not_eq_true] at hn
  rw [GetNode_eq_nodeOf g hinv.2.1, nodeOf_of_not_valid g hinv n hn] at h
  exact Bool.noConfusion h

end Graph

end ks

/-! ## Validity of handles over sequences of `AddNode`, `RemoveNode` and `ClearAll` -/

namespace ks

namespace Graph

variable {T : Type} [Inhabited T]

/-- On a node without edges `RemoveNode` does the same with and without orphan removal. -/
theorem removeNode_of_no_edges (fuel : Nat) (g : Graph T) (node : Nat) (rem_orphans : Bool)
    (hin : (nodeOf g.m_list_nodes.m_list node).inputs = [])
    (hout : (nodeOf g.m_list_nodes.m_list node).outputs = []) :
    removeNode (fuel + 1) g node rem_orphans = removeNode (fuel + 1) g node false := by
  have h : (nodeOf (g.modify node fun n => { n with inputs := [] }).m_list_nodes.m_list
      node).outputs = [] := by
    rw [m_list_modify, nodeOf_setNode]
    split
    · exact hout
    · exact hout
  simp only [removeNode, hin, List.foldl_nil, h]

theorem inv_ClearAll (g : Graph T) (hinv : g.Inv) : g.ClearAll.Inv := by
  refine ⟨⟨rfl, List.Pairwise.nil, ?_, ?_⟩, hinv.2.1, ?_, ?_, ?_⟩
  · intro i hi; simp [ClearAll, RecycleIndexList.Clear] at hi
  · intro i hi; simp [ClearAll, RecycleIndexList.Clear] at hi
  · intro i hi; simp [ClearAll, RecycleIndexList.Clear] at hi
  · intro i hi
    simp [ClearAll, RecycleIndexList.Clear, RecycleIndexList.GetValid, k_invalid] at hi
  · intro a b
    simp [ClearAll, RecycleIndexList.Clear, nodeOf, Node.null]

end Graph

namespace Tracked

variable {T : Type} [Inhabited T]

theorem agrees_start : (start : Tracked T).Agrees := by
  refine ⟨Graph.inv_empty, ?_, ?_, List.nodup_nil, ?_⟩
  · intro i
    simp [start, Graph.empty, RecycleIndexList.empty, Graph.nodeOf, Node.null]
  · intro i
    simp [start, Graph.empty, RecycleIndexList.empty, RecycleIndexList.GetValid, k_invalid]
  · intro e he
    simp [start] at he

theorem agrees_addNode (s : Tracked T) (val : T) (h : s.Agrees) :
    (s.step (.addNode val)).Agrees := by
  obtain ⟨h1, h2, h3, h4, h5⟩ := h
  obtain ⟨a1, a2, a3, a4⟩ := Graph.AddNode_spec s.graph val h1
  have hnot : (s.graph.AddNode val).1 ∉ s.live.map Prod.fst := by
    intro hm
    rw [← h3, a2] at hm
    exact Bool.noConfusion hm
  refine ⟨a1, ?_, ?_, ?_, ?_⟩
  · intro i
    show (Graph.nodeOf (s.graph.AddNode val).2.m_list_nodes.m_list i).inputs = [] ∧
      (Graph.nodeOf (s.graph.AddNode val).2.m_list_nodes.m_list i).outputs = []
    rw [a4]
    split
    · exact ⟨rfl, rfl⟩
    · exact h2 i
  · intro i
    show (s.graph.AddNode val).2.m_list_nodes.GetValid i = true ↔
      i ∈ (s.live ++ [((s.graph.AddNode val).1, val)]).map Prod.fst
    rw [a3, List.map_append, List.mem_append, ← h3]
    by_cases hi : i = (s.graph.AddNode val).1
    · simp [hi]
    · simp [hi]
  · show ((s.live ++ [((s.graph.AddNode val).1, val)]).map Prod.fst).Nodup
    rw [List.map_append, List.nodup_append]
    refine ⟨h4, by simp, ?_⟩
    intro a ha hb
    simp only [List.map_cons, List.map_nil, List.mem_singleton] at hb
    exact hnot (hb ▸ ha)
  · intro e he
    show (Graph.nodeOf (s.graph.AddNode val).2.m_list_nodes.m_list e.1).value = e.2
    have he2 : e ∈ s.live ++ [((s.graph.AddNode val).1, val)] := he
    rw [a4]
    rcases List.mem_append.1 he2 with hl | hl
    · have : e.1 ≠ (s.graph.AddNode val).1 := by
        intro heq
        exact hnot (heq ▸ List.mem_map_of_mem Prod.fst hl)
      rw [if_neg this]
      exact h5 e hl
    · simp only [List.mem_singleton] at hl
      subst hl
      simp

theorem agrees_removeNode (s : Tracked T) (node : Nat) (rem_orphans : Bool) (h : s.Agrees)
    (hn : node ∈ s.live.map Prod.fst) : (s.step (.removeNode node rem_orphans)).Agrees := by
  obtain ⟨h1, h2, h3, h4, h5⟩ := h
  have hv : s.graph.m_list_nodes.GetValid node = true := (h3 node).2 hn
  have hR : s.graph.RemoveNode node rem_orphans = s.graph.RemoveNode node false :=
    Graph.removeNode_of_no_edges _ _ _ _ (h2 node).1 (h2 node).2
  obtain ⟨a1, _, a3, a4⟩ := Graph.RemoveNode_false_spec s.graph node h1 hv
  have hg : (s.step (.removeNode node rem_orphans)).graph = s.graph.RemoveNode node false := hR
  have hl : (s.step (.removeNode node rem_orphans)).live =
      s.live.filter (fun e => e.1 ≠ node) := rfl
  refine ⟨by rw [hg]; exact a1, ?_, ?_, ?_, ?_⟩
  · intro i
    rw [hg, a4]
    split
    · exact ⟨rfl, rfl⟩
    · simp [Graph.unlink, (h2 i).1, (h2 i).2, Graph.eraseAll]
  · intro i
    rw [hg, hl, a3]
    by_cases hi : i = node
    · simp [hi]
    · rw [if_neg hi, h3]
      simp only [List.mem_map, List.mem_filter]
      constructor
      · rintro ⟨e, he, rfl⟩
        exact ⟨e, ⟨he, by simpa using hi⟩, rfl⟩
      · rintro ⟨e, ⟨he, _⟩, rfl⟩
        exact ⟨e, he, rfl⟩
  · rw [hl]
    exact (h4.sublist (List.Sublist.map _ (List.filter_sublist _)))
  · intro e he
    rw [hl] at he
    rw [hg, a4]
    have he2 := List.mem_filter.1 he
    have hne : e.1 ≠ node := by simpa using he2.2
    rw [if_neg hne]
    exact h5 e he2.1

theorem agrees_clearAll (s : Tracked T) (h : s.Agrees) : (s.step .clearAll).Agrees := by
  refine ⟨Graph.inv_ClearAll _ h.1, ?_, ?_, List.nodup_nil, ?_⟩
  · intro i
    simp [step, Graph.ClearAll, RecycleIndexList.Clear, Graph.nodeOf, Node.null]
  · intro i
    simp [step, Graph.ClearAll, RecycleIndexList.Clear, RecycleIndexList.GetValid, k_invalid]
  · intro e he
    simp [step] at he

theorem agrees_foldl (calls : List (NodeCall T)) : ∀ s : Tracked T, s.Agrees →
    CallsOk s calls → (calls.foldl step s).Agrees := by
  induction calls with
  | nil => intro s h _; exact h
  | cons c cs ih =>
    intro s h hok
    cases c with
    | addNode val => exact ih _ (agrees_addNode s val h) hok
    | removeNode node b => exact ih _ (agrees_removeNode s node b h hok.1) hok.2
    | clearAll => exact ih _ (agrees_clearAll s h) hok

/-- C19: after every sequence of `AddNode`, `RemoveNode` and `ClearAll` calls on a
default-constructed graph (`RemoveNode` being called with handles in use only) and for every
index `i`: `GetNode(i).valid` is true if and only if `i` was returned by an `AddNode` call and
has not been removed or cleared since, in which case `GetNode(i).value` is the value passed to
that call; a node added next has that value, is valid, and has state 0 and empty inputs and
outputs; and an index at or beyond the end of the node list yields the null node, whose
`valid` is false. -/
theorem getNode_valid_iff_handle_in_use (calls : List (NodeCall T))
    (hok : CallsOk start calls) (i : Nat) :
    (((run calls).graph.GetNode i).valid = true ↔ i ∈ (run calls).live.map Prod.fst) ∧
    (∀ v, (i, v) ∈ (run calls).live → ((run calls).graph.GetNode i).value = v) ∧
    (∀ val, ((run calls).graph.AddNode val).2.GetNode ((run calls).graph.AddNode val).1 =
      { value := val, valid := true, state := 0, inputs := [], outputs := [] }) ∧
    ((run calls).graph.m_list_nodes.m_list.length ≤ i →
      (run calls).graph.GetNode i = (run calls).graph.m_null_node ∧
      ((run calls).graph.GetNode i).valid = false) := by
  obtain ⟨h1, _, h3, _, h5⟩ := agrees_foldl calls start agrees_start hok
  have hrun : calls.foldl step start = run calls := rfl
  rw [hrun] at h1 h3 h5
  refine ⟨?_, ?_, ?_, ?_⟩
  · rw [← h3]
    constructor
    · exact Graph.getValid_of_valid _ h1 i
    · intro hv
      rw [Graph.GetNode_eq_nodeOf _ h1.2.1]
      exact h1.2.2.2.1 i hv
  · intro v hv
    rw [Graph.GetNode_eq_nodeOf _ h1.2.1]
    exact h5 (i, v) hv
  · intro val
    obtain ⟨a1, _, _, a4⟩ := Graph.AddNode_spec (run calls).graph val h1
    rw [Graph.GetNode_eq_nodeOf _ a1.2.1, a4, if_pos rfl]
  · intro hle
    have := Graph.GetNode_of_le _ i hle
    refine ⟨this, ?_⟩
    rw [this, h1.2.1]
    rfl

theorem getNode_valid_iff_handle_in_use_test :
    (run nodeCalls).live = [(1, "b"), (3, "d"), (2, "x")] ∧
    (run nodeCalls).graph.m_list_nodes.m_list.length = 4 ∧
    ((((run nodeCalls).graph.GetNode 2).valid = true ↔
        2 ∈ (run nodeCalls).live.map Prod.fst) ∧
      (∀ v, (2, v) ∈ (run nodeCalls).live → ((run nodeCalls).graph.GetNode 2).value = v) ∧
      (∀ val, ((run nodeCalls).graph.AddNode val).2.GetNode
          ((run nodeCalls).graph.AddNode val).1 =
        { value := val, valid := true, state := 0, inputs := [], outputs := [] }) ∧
      ((run nodeCalls).graph.m_list_nodes.m_list.length ≤ 2 →
        (run nodeCalls).graph.GetNode 2 = (run nodeCalls).graph.m_null_node ∧
        ((run nodeCalls).graph.GetNode 2).valid = false)) :=
  ⟨by decide, by decide,
    getNode_valid_iff_handle_in_use nodeCalls (by simp only [nodeCalls, CallsOk]; decide) 2⟩

end Tracked

end ks

/-! ## `Graph::GetDFTPreOrder` -/

namespace ks

namespace Graph

variable {T : Type} [Inhabited T]

theorem lt_of_edge (l : List (Node T)) (a b : Nat) (h : Edge l a b) : a < l.length := by
  by_contra hn
  unfold Edge at h
  rw [nodeOf_of_le l a (Nat.not_lt.1 hn)] at h
  simp [Node.null] at h

/-- A graph whose edges all lead to a node of higher rank is acyclic. -/
theorem acyclic_of_rank (g : Graph T) (rank : Nat → Nat)
    (h : ∀ a, a < g.m_list_nodes.m_list.length →
      ∀ b ∈ (nodeOf g.m_list_nodes.m_list a).outputs, rank a < rank b) : g.Acyclic := by
  have hlt : ∀ a b, Relation.TransGen (Edge g.m_list_nodes.m_list) a b → rank a < rank b := by
    intro a b hab
    induction hab with
    | single hab => exact h _ (lt_of_edge _ _ _ hab) _ hab
    | tail _ hbc ih => exact lt_trans ih (h _ (lt_of_edge _ _ _ hbc) _ hbc)
  intro a haa
  exact lt_irrefl _ (hlt a a haa)

end Graph

end ks

/-! ## `Graph::undirectedDfsPostOrder` and `Graph::GetDisjointSubgraphs` -/

namespace ks

namespace Graph

variable {T : Type} [Inhabited T]

theorem sameEdges_refl (l : List (Node T)) : SameEdges l l :=
  ⟨rfl, fun _ => ⟨rfl, rfl⟩⟩

theorem sameEdges_trans {l1 l2 l3 : List (Node T)} (h1 : SameEdges l1 l2)
    (h2 : SameEdges l2 l3) : SameEdges l1 l3 :=
  ⟨h1.1.trans h2.1, fun i =>
    ⟨((h2.2 i).1).trans (h1.2 i).1, ((h2.2 i).2).trans (h1.2 i).2⟩⟩

theorem sameEdges_setState (l : List (Node T)) (index v : Nat) :
    SameEdges l (setNode l index (fun n => { n with state := v })) := by
  refine ⟨(length_setNode _ _ _).symm, fun i => ?_⟩
  rw [nodeOf_setNode]
  split
  · rename_i h
    rw [h.1]
    exact ⟨rfl, rfl⟩
  · exact ⟨rfl, rfl⟩

theorem adjOf_eq_of_sameEdges {l1 l2 : List (Node T)} (h : SameEdges l1 l2) :
    adjOf l2 = adjOf l1 := by
  funext i
  simp only [adjOf, (h.2 i).1, (h.2 i).2]

theorem stateOf_setState (l : List (Node T)) (index v : Nat) (h : index < l.length) :
    stateOf (setNode l index (fun n => { n with state := v })) =
      setState (stateOf l) index v := by
  funext i
  simp only [stateOf, setState, nodeOf_setNode]
  by_cases hi : i = index
  · simp [hi, h]
  · simp [hi]

end Graph

end ks

namespace ks

namespace Graph

variable {T : Type} [Inhabited T]

theorem nodeOf_resetStates (l : List (Node T)) (i : Nat) :
    nodeOf (resetStates l) i = { nodeOf l i with state := 0 } := by
  simp only [nodeOf, resetStates, List.getD_eq_getElem?_getD, List.getElem?_map]
  cases h : l[i]? with
  | none => simp [Node.null]
  | some n => simp

theorem sameEdges_resetStates (l : List (Node T)) : SameEdges l (resetStates l) := by
  refine ⟨by simp [resetStates], fun i => ?_⟩
  rw [nodeOf_resetStates]
  exact ⟨rfl, rfl⟩

theorem mem_adjOf_symm (g : Graph T) (hinv : g.Inv) (a b : Nat) :
    b ∈ adjOf g.m_list_nodes.m_list a ↔ a ∈ adjOf g.m_list_nodes.m_list b := by
  simp only [adjOf, List.mem_append, mem_inputs_iff g hinv]
  exact Or.comm

theorem adjOf_lt (g : Graph T) (hinv : g.Inv) (a : Nat) (b : Nat)
    (h : b ∈ adjOf g.m_list_nodes.m_list a) : b < g.m_list_nodes.m_list.length := by
  have h2 := (mem_adjOf_symm g hinv a b).1 h
  by_contra hn
  simp [adjOf, nodeOf_of_le _ b (Nat.not_lt.1 hn), Node.null] at h2

theorem valid_of_adjOf (g : Graph T) (hinv : g.Inv) (a : Nat) (b : Nat)
    (h : b ∈ adjOf g.m_list_nodes.m_list a) : g.m_list_nodes.GetValid b = true := by
  have h2 := (mem_adjOf_symm g hinv a b).1 h
  by_contra hn
  rw [Bool.not_eq_true] at hn
  simp [adjOf, nodeOf_of_not_valid g hinv b hn, Node.null] at h2

end Graph

end ks

namespace ks

namespace Graph

variable {T : Type} [Inhabited T]

end Graph

end ks

namespace ks

namespace Graph

variable {T : Type} [Inhabited T]

end Graph

end ks

/-! ## `Graph::topologicalSort` and `Graph::GetTopologicallySorted` on well-formed graphs -/

namespace ks

namespace Graph

variable {T : Type} [Inhabited T]

/-- The traversal `Graph::topologicalSort` is the three-state depth-first traversal over the
output lists: it changes state markers only, and its markers and its list of finished nodes are
those of `ks.topologicalSort`. -/
theorem topologicalSort_eq (l0 : List (Node T))
    (hrange : ∀ a, ∀ b ∈ (nodeOf l0 a).outputs, b < l0.length) (fuel : Nat) :
    ∀ (index : Nat) (s : List (Node T) × List Nat), index < l0.length → SameEdges l0 s.1 →
      SameEdges l0 (topologicalSort fuel index s).1 ∧
      ks.topologicalSort (fun a => (nodeOf l0 a).outputs) fuel index ⟨stateOf s.1, s.2⟩ =
        ⟨stateOf (topologicalSort fuel index s).1, (topologicalSort fuel index s).2⟩ := by
  induction fuel with
  | zero =>
    intro index s _ hs
    exact ⟨hs, rfl⟩
  | succ fuel ih =>
    intro index s hi hs
    have hfold : ∀ (xs : List Nat) (u : List (Node T) × List Nat),
        (∀ x ∈ xs, x < l0.length) → SameEdges l0 u.1 →
        SameEdges l0 (xs.foldl (fun s output =>
          if (nodeOf s.1 output).state = 0 then topologicalSort fuel output s
          else if (nodeOf s.1 output).state = 1 then s
          else s) u).1 ∧
        visitOutputs (fun a => (nodeOf l0 a).outputs) fuel xs ⟨stateOf u.1, u.2⟩ =
          ⟨stateOf (xs.foldl (fun s output =>
              if (nodeOf s.1 output).state = 0 then topologicalSort fuel output s
              else if (nodeOf s.1 output).state = 1 then s
              else s) u).1,
            (xs.foldl (fun s output =>
              if (nodeOf s.1 output).state = 0 then topologicalSort fuel output s
              else if (nodeOf s.1 output).state = 1 then s
              else s) u).2⟩ := by
      intro xs
      induction xs with
      | nil => intro u _ hu; exact ⟨hu, rfl⟩
      | cons x xs ihx =>
        intro u hx hu
        simp only [List.foldl_cons, visitOutputs_cons]
        by_cases h0 : (nodeOf u.1 x).state = 0
        · have h0b : stateOf u.1 x = 0 := h0
          obtain ⟨e1, e2⟩ := ih x u (hx x (by simp)) hu
          simp only [h0, h0b, if_true]
          rw [e2]
          exact ihx _ (fun y hy => hx y (List.mem_cons_of_mem _ hy)) e1
        · have h0b : ¬ stateOf u.1 x = 0 := h0
          have hu2 : (if (nodeOf u.1 x).state = 1 then u else u) = u := ite_self _
          simp only [h0, h0b, if_false]
          rw [hu2]
          exact ihx _ (fun y hy => hx y (List.mem_cons_of_mem _ hy)) hu
    have hlen : index < s.1.length := hs.1 ▸ hi
    by_cases h0 : (nodeOf s.1 index).state = 0
    · have h0b : stateOf s.1 index = 0 := h0
      have hs1 : SameEdges l0 (setNode s.1 index (fun n => { n with state := 1 })) :=
        sameEdges_trans hs (sameEdges_setState _ _ _)
      obtain ⟨g1, g2⟩ := hfold (nodeOf l0 index).outputs
        (setNode s.1 index (fun n => { n with state := 1 }), s.2)
        (fun x hx => hrange index x hx) hs1
      have hlen2 : index < ((nodeOf l0 index).outputs.foldl (fun s output =>
          if (nodeOf s.1 output).state = 0 then topologicalSort fuel output s
          else if (nodeOf s.1 output).state = 1 then s
          else s)
          (setNode s.1 index (fun n => { n with state := 1 }), s.2)).1.length :=
        g1.1 ▸ hi
      have hU : topologicalSort (fuel + 1) index s =
          (setNode ((nodeOf l0 index).outputs.foldl (fun s output =>
              if (nodeOf s.1 output).state = 0 then topologicalSort fuel output s
              else if (nodeOf s.1 output).state = 1 then s
              else s)
              (setNode s.1 index (fun n => { n with state := 1 }), s.2)).1 index
              (fun n => { n with state := 2 }),
            ((nodeOf l0 index).outputs.foldl (fun s output =>
              if (nodeOf s.1 output).state = 0 then topologicalSort fuel output s
              else if (nodeOf s.1 output).state = 1 then s
              else s)
              (setNode s.1 index (fun n => { n with state := 1 }), s.2)).2 ++ [index]) := by
        simp only [topologicalSort, h0, ne_eq, not_true_eq_false, if_false]
        rw [(hs1.2 index).2]
      rw [hU]
      refine ⟨sameEdges_trans g1 (sameEdges_setState _ _ _), ?_⟩
      rw [topologicalSort_succ _ _ _ _ h0b]
      simp only
      rw [← stateOf_setState _ _ _ hlen, g2, stateOf_setState _ _ _ hlen2]
    · have h0b : stateOf s.1 index ≠ 0 := h0
      have hU : topologicalSort (fuel + 1) index s = s := by
        simp only [topologicalSort, ne_eq, h0, not_false_eq_true, if_true]
      rw [hU]
      refine ⟨hs, ?_⟩
      simp only [ks.topologicalSort, ne_eq, h0b, not_false_eq_true, if_true]

/-- The loop of `GetTopologicallySorted` over the valid indices is the traversal from the
list of valid indices. -/
theorem sortLoop_eq (g : Graph T) (l0 : List (Node T))
    (hrange : ∀ a, ∀ b ∈ (nodeOf l0 a).outputs, b < l0.length) (fuel : Nat) (hf : 0 < fuel)
    (idxs : List Nat) :
    ∀ (s : List (Node T) × List Nat), (∀ i ∈ idxs, i < l0.length) → SameEdges l0 s.1 →
      visitOutputs (fun a => (nodeOf l0 a).outputs) fuel
          (idxs.filter (fun i => g.m_list_nodes.GetValid i)) ⟨stateOf s.1, s.2⟩ =
        ⟨stateOf (idxs.foldl (fun s i =>
            if g.m_list_nodes.GetValid i then topologicalSort fuel i s else s) s).1,
          (idxs.foldl (fun s i =>
            if g.m_list_nodes.GetValid i then topologicalSort fuel i s else s) s).2⟩ := by
  induction idxs with
  | nil => intro s _ _; rfl
  | cons i idxs ih =>
    intro s hlt hs
    simp only [List.foldl_cons, List.filter_cons]
    by_cases hv : g.m_list_nodes.GetValid i = true
    · simp only [hv, if_true, visitOutputs_cons]
      obtain ⟨e1, e2⟩ := topologicalSort_eq l0 hrange fuel i s (hlt i (by simp)) hs
      have hskip : (if stateOf s.1 i = 0 then
            ks.topologicalSort (fun a => (nodeOf l0 a).outputs) fuel i ⟨stateOf s.1, s.2⟩
          else ⟨stateOf s.1, s.2⟩) =
          ks.topologicalSort (fun a => (nodeOf l0 a).outputs) fuel i ⟨stateOf s.1, s.2⟩ := by
        split
        · rfl
        · rename_i h0
          obtain ⟨f, rfl⟩ : ∃ f, fuel = f + 1 := ⟨fuel - 1, by omega⟩
          simp only [ks.topologicalSort, ne_eq, h0, not_false_eq_true, if_true]
      rw [hskip, e2]
      exact ih _ (fun j hj => hlt j (List.mem_cons_of_mem _ hj)) e1
    · simp only [hv, if_false]
      exact ih _ (fun j hj => hlt j (List.mem_cons_of_mem _ hj)) hs

end Graph

end ks

namespace ks

namespace Graph

variable {T : Type} [Inhabited T]

/-- On every acyclic graph that satisfies the representation invariant,
`GetTopologicallySorted()` returns every valid index exactly once, no other index, and the
start of every edge before its end. -/
theorem getTopologicallySorted_of_inv (g : Graph T) (hinv : g.Inv) (hac : g.Acyclic) :
    g.GetTopologicallySorted.Nodup ∧
    (∀ i, i ∈ g.GetTopologicallySorted ↔ (g.GetNode i).valid = true) ∧
    (∀ a b, (g.GetNode a).valid = true → b ∈ (g.GetNode a).outputs →
      List.Sublist [a, b] g.GetTopologicallySorted) := by
  have hlen : (resetStates g.m_list_nodes.m_list).length = g.m_list_nodes.m_list.length := by
    simp [resetStates]
  have hse := sameEdges_resetStates g.m_list_nodes.m_list
  have houts : ∀ a, (nodeOf (resetStates g.m_list_nodes.m_list) a).outputs =
      (nodeOf g.m_list_nodes.m_list a).outputs := fun a => (hse.2 a).2
  have hrange : ∀ a, ∀ b ∈ (nodeOf (resetStates g.m_list_nodes.m_list) a).outputs,
      b < (resetStates g.m_list_nodes.m_list).length := by
    intro a b hb
    rw [houts] at hb
    rw [hlen]
    exact adjOf_lt g hinv a b (List.mem_append_right _ hb)
  have hloop := sortLoop_eq g (resetStates g.m_list_nodes.m_list) hrange
    ((resetStates g.m_list_nodes.m_list).length + 1) (Nat.succ_pos _)
    (List.range (resetStates g.m_list_nodes.m_list).length)
    (resetStates g.m_list_nodes.m_list, [])
    (fun i hi => List.mem_range.1 hi) (sameEdges_refl _)
  have hzero : stateOf (resetStates g.m_list_nodes.m_list) = fun _ => 0 := by
    funext v
    simp [stateOf, nodeOf_resetStates]
  have hU : ∀ u ∈ Finset.range (resetStates g.m_list_nodes.m_list).length,
      ∀ v ∈ (fun a => (nodeOf (resetStates g.m_list_nodes.m_list) a).outputs) u,
        v ∈ Finset.range (resetStates g.m_list_nodes.m_list).length :=
    fun u _ v hv => Finset.mem_range.2 (hrange u v hv)
  have hinv0 : SortInv ⟨stateOf (resetStates g.m_list_nodes.m_list), []⟩ := by
    intro v
    rw [hzero]
    simp
  have hw : whiteCard (Finset.range (resetStates g.m_list_nodes.m_list).length)
      ⟨stateOf (resetStates g.m_list_nodes.m_list), []⟩ <
        (resetStates g.m_list_nodes.m_list).length + 1 := by
    have : whiteCard (Finset.range (resetStates g.m_list_nodes.m_list).length)
        ⟨stateOf (resetStates g.m_list_nodes.m_list), []⟩ ≤
          (Finset.range (resetStates g.m_list_nodes.m_list).length).card :=
      Finset.card_filter_le _ _
    rw [Finset.card_range] at this
    omega
  obtain ⟨new, hext, hdone⟩ := visitOutputs_spec
    (fun a => (nodeOf (resetStates g.m_list_nodes.m_list) a).outputs)
    (Finset.range (resetStates g.m_list_nodes.m_list).length)
    ((resetStates g.m_list_nodes.m_list).length + 1)
    (fun n st => topologicalSort_spec _ _ hU _ n st)
    ((List.range (resetStates g.m_list_nodes.m_list).length).filter
      (fun i => g.m_list_nodes.GetValid i))
    ⟨stateOf (resetStates g.m_list_nodes.m_list), []⟩
    (fun c hc => Finset.mem_range.2 (List.mem_range.1 (List.mem_filter.1 hc).1)) hinv0 hw
  rw [hloop] at hext hdone
  obtain ⟨r, hr⟩ : ∃ r, r = (List.range (resetStates g.m_list_nodes.m_list).length).foldl
      (fun s i =>
        if g.m_list_nodes.GetValid i then
          topologicalSort ((resetStates g.m_list_nodes.m_list).length + 1) i s
        else s)
      (resetStates g.m_list_nodes.m_list, []) := ⟨_, rfl⟩
  rw [← hr] at hext hdone
  have hG : g.GetTopologicallySorted = r.2.reverse := by
    rw [hr]
    rfl
  have hnew : r.2 = new := by
    have := hext.sorted_eq
    simpa using this
  have hvalid : ∀ i, (g.GetNode i).valid = true ↔ g.m_list_nodes.GetValid i = true := by
    intro i
    constructor
    · exact getValid_of_valid g hinv i
    · intro h
      rw [GetNode_eq_nodeOf g hinv.2.1]
      exact hinv.2.2.2.1 i h
  have hreach : ∀ c v, Reach (fun a => (nodeOf (resetStates g.m_list_nodes.m_list) a).outputs)
      c v → Relation.ReflTransGen (Edge g.m_list_nodes.m_list) c v := by
    intro c v h
    refine Relation.ReflTransGen.mono ?_ h
    intro x y hxy
    have hxy2 : y ∈ (nodeOf (resetStates g.m_list_nodes.m_list) x).outputs := hxy
    rw [houts] at hxy2
    exact hxy2
  have hmem : ∀ i, i ∈ new ↔ g.m_list_nodes.GetValid i = true := by
    intro i
    constructor
    · intro hi
      obtain ⟨c, hc, hci⟩ := hext.reach i hi
      have hcv : g.m_list_nodes.GetValid c = true := by
        simpa using (List.mem_filter.1 hc).2
      have h2 := hreach c i hci
      clear hci
      induction h2 with
      | refl => exact hcv
      | tail _ hbc _ => exact valid_of_adjOf g hinv _ _ (List.mem_append_right _ hbc)
    · intro hv
      have hroot : i ∈ (List.range (resetStates g.m_list_nodes.m_list).length).filter
          (fun i => g.m_list_nodes.GetValid i) := by
        rw [List.mem_filter]
        refine ⟨List.mem_range.2 ?_, by simpa using hv⟩
        rw [hlen]
        exact lt_of_valid g hinv i hv
      have h1 := hdone i hroot
      have h2 := hext.state_eq i
      by_contra hni
      simp only [hni, if_false] at h2
      rw [hzero] at h2
      exact h1 h2
  refine ⟨?_, ?_, ?_⟩
  · rw [hG, hnew, List.nodup_reverse]
    exact hext.nodup
  · intro i
    rw [hG, hnew, List.mem_reverse, hmem, hvalid]
  · intro a b ha hb
    rw [GetNode_eq_nodeOf g hinv.2.1] at hb
    have han : a ∈ new := (hmem a).2 ((hvalid a).1 ha)
    have hb2 : b ∈ (fun a => (nodeOf (resetStates g.m_list_nodes.m_list) a).outputs) a := by
      show b ∈ (nodeOf (resetStates g.m_list_nodes.m_list) a).outputs
      rw [houts]
      exact hb
    rcases hext.order a han b hb2 with h | h | h
    · rw [hG]
      have := h.reverse
      simpa using this
    · have h1 : stateOf (resetStates g.m_list_nodes.m_list) b = 1 := h
      rw [hzero] at h1
      exact absurd h1 (by simp)
    · exfalso
      have h2 := hreach b a h.2
      exact hac a (Relation.TransGen.head' hb h2)

theorem sortGraph_inv : sortGraph.Inv :=
  inv_addEdges _ _ (inv_addNodes _ _ inv_empty) (by decide)

end Graph

end ks

/-! ## Evaluation of the sorting functions after removals -/

namespace ks

namespace Graph

/-- C12, evaluation on the test graph (`c,b,a,e,d,h,g,f`) and at the failing call sequence: after
`AddNode` of `n`, `m`, `z`, `AddEdge(n,m)` twice and `RemoveNode(n,true)`, the index of `m` is
twice in the list of free indices, so the next two `AddNode` calls both return it; the edge `z
-> x` added in between stays in the outputs of `z` when the second call overwrites the node,
and after `RemoveNode(y,false)` the acyclic graph has the single valid node `z` while
`GetTopologicallySorted()` returns `z` followed by the invalid index 1. -/
theorem topologicalSort_returns_removed_index :
    sortGraph.GetTopologicallySorted = [2, 1, 0, 4, 3, 7, 6, 5] ∧
    (parallelEdges.GetNode 0).valid = true ∧ (parallelEdges.GetNode 1).valid = true ∧
    (parallelEdges.GetNode 2).valid = true ∧
    orphanRemovedTwice.m_list_nodes.m_list_avail = [0, 1, 1] ∧
    firstReuse.1 = 1 ∧ secondReuse.1 = 1 ∧
    (firstReuse.2.GetNode 2).outputs = [1] ∧
    (secondReuse.2.GetNode 1).valid = true ∧
    (List.range 4).map (fun i => (danglingEdge.GetNode i).valid) = [false, false, true, false] ∧
    (danglingEdge.GetNode 2).outputs = [1] ∧
    danglingEdge.Acyclic ∧
    danglingEdge.GetTopologicallySorted = [2, 1] :=
  ⟨by decide, by decide, by decide, by decide, by decide, by decide, by decide, by decide,
    by decide, by decide, by decide,
    acyclic_of_rank danglingEdge (fun i => if i = 1 then 1 else 0) (by decide), by decide⟩

set_option maxRecDepth 100000 in
/-- C14, evaluation at the failing call sequence: after three `AddNode` calls and
`RemoveNode(0,false)` the valid nodes 1 and 2 are two components, `GetDisjointSubgraphs(false)`
returns them, and `GetDisjointSubgraphs(true)` returns two empty lists, because the sorting
loop tests `GetValid` at the position 0 inside the subgraph instead of at the node index. -/
theorem sorted_subgraphs_lose_nodes :
    (List.range 3).map (fun i => (firstSlotFree.GetNode i).valid) = [false, true, true] ∧
    firstSlotFree.Acyclic ∧
    firstSlotFree.GetDisjointSubgraphs false = [[1], [2]] ∧
    firstSlotFree.GetDisjointSubgraphs true = [[], []] ∧
    islands.GetDisjointSubgraphs true =
      [[0, 1, 2, 3], [4, 5], [6, 7, 8, 9, 10, 11, 12, 13]] :=
  ⟨by decide, acyclic_of_rank firstSlotFree (fun _ => 0) (by decide), by decide, by decide,
    by decide⟩

end Graph

end ks

/-! ## `RangeAllocator::AcquireRange`: the null range -/

namespace ks

namespace RangeAllocator

variable {DataT : Type}

theorem scanAvail_none_iff (size block_it : Nat) (block : Block DataT) (rest : List Range) :
    ∀ pos, scanAvail size block_it block pos rest = none ↔ ∀ r ∈ rest, r.size < size := by
  induction rest with
  | nil => intro pos; simp [scanAvail]
  | cons r rest ih =>
    intro pos
    unfold scanAvail
    split
    · rename_i h
      simp only [List.mem_cons, forall_eq_or_imp, reduceCtorEq, false_iff, not_and]
      intro h2
      omega
    · split
      · rename_i h1 h2
        simp only [List.mem_cons, forall_eq_or_imp, reduceCtorEq, false_iff, not_and]
        intro h3
        omega
      · rename_i h1 h2
        rw [ih]
        simp only [List.mem_cons, forall_eq_or_imp]
        constructor
        · intro h
          exact ⟨by omega, h⟩
        · exact fun h => h.2

theorem scanAvail_size (size block_it : Nat) (block : Block DataT) (rest : List Range) :
    ∀ pos r b, scanAvail size block_it block pos rest = some (r, b) → r.size = size := by
  induction rest with
  | nil => intro pos r b h; simp [scanAvail] at h
  | cons r0 rest ih =>
    intro pos r b h
    unfold scanAvail at h
    split at h
    · simp only [Option.some.injEq, Prod.mk.injEq] at h
      rw [← h.1]
    · split at h
      · rename_i h2
        simp only [Option.some.injEq, Prod.mk.injEq] at h
        rw [← h.1]
        exact h2
      · exact ih _ r b h

theorem scanBlocks_none_iff (size : Nat) (blocks : List (Block DataT)) :
    ∀ block_it, scanBlocks size block_it blocks = none ↔
      ∀ b ∈ blocks, ∀ r ∈ b.list_avail, r.size < size := by
  induction blocks with
  | nil => intro block_it; simp [scanBlocks]
  | cons b rest ih =>
    intro block_it
    unfold scanBlocks
    cases h : scanAvail size block_it b 0 b.list_avail with
    | some p =>
      have hn : ¬ (∀ r ∈ b.list_avail, r.size < size) := by
        rw [← scanAvail_none_iff size block_it b b.list_avail 0, h]
        simp
      simp only [List.mem_cons, forall_eq_or_imp, reduceCtorEq, false_iff, not_and]
      intro h2
      exact absurd h2 hn
    | none =>
      have hb := (scanAvail_none_iff size block_it b b.list_avail 0).1 h
      simp only [List.mem_cons, forall_eq_or_imp]
      cases h2 : scanBlocks size (block_it + 1) rest with
      | some p =>
        have := (ih (block_it + 1)).not.1 (by rw [h2]; simp)
        simp only [reduceCtorEq, false_iff, not_and]
        intro _
        exact this
      | none =>
        simp only [true_iff]
        exact ⟨hb, (ih (block_it + 1)).1 h2⟩

theorem scanBlocks_size (size : Nat) (blocks : List (Block DataT)) :
    ∀ block_it r bs, scanBlocks size block_it blocks = some (r, bs) → r.size = size := by
  induction blocks with
  | nil => intro block_it r bs h; simp [scanBlocks] at h
  | cons b rest ih =>
    intro block_it r bs h
    unfold scanBlocks at h
    cases h1 : scanAvail size block_it b 0 b.list_avail with
    | some p =>
      rw [h1] at h
      simp only [Option.some.injEq, Prod.mk.injEq] at h
      exact scanAvail_size size block_it b b.list_avail 0 p.1 p.2 (by rw [h1]) ▸ (by rw [h.1])
    | none =>
      rw [h1] at h
      cases h2 : scanBlocks size (block_it + 1) rest with
      | some p =>
        rw [h2] at h
        simp only [Option.some.injEq, Prod.mk.injEq] at h
        rw [← h.1]
        exact ih (block_it + 1) p.1 p.2 (by rw [h2])
      | none =>
        rw [h2] at h
        exact Option.noConfusion h

/-- C20: for every allocator state and every `size > 0`, `AcquireRange(size)` returns (it does
not throw), and the range returned has the size field 0 if and only if no available range of
any block has at least the requested size; in that case the allocator is unchanged. -/
theorem acquireRange_null_iff_nothing_fits (a : RangeAllocator DataT) (size : Nat)
    (hs : 0 < size) :
    ∃ r a1, a.AcquireRange size = .ok (r, a1) ∧
      (r.size = 0 ↔ ∀ b ∈ a.m_list_blocks, ∀ rg ∈ b.list_avail, rg.size < size) ∧
      (r.size = 0 → a1 = a) := by
  have hne : size ≠ 0 := by omega
  unfold AcquireRange
  rw [if_neg hne]
  cases h : scanBlocks size 0 a.m_list_blocks with
  | none =>
    refine ⟨_, _, rfl, ?_, fun _ => rfl⟩
    simp only [true_iff]
    exact (scanBlocks_none_iff size a.m_list_blocks 0).1 h
  | some p =>
    have hsz := scanBlocks_size size a.m_list_blocks 0 p.1 p.2 (by rw [h])
    refine ⟨p.1, { a with m_list_blocks := p.2 }, rfl, ?_, ?_⟩
    · constructor
      · intro h0; omega
      · intro hall
        have := (scanBlocks_none_iff size a.m_list_blocks 0).2 hall
        rw [h] at this
        exact Option.noConfusion this
    · intro h0; omega

theorem acquireRange_null_iff_nothing_fits_test :
    (halfFull.m_list_blocks.map (fun b => b.list_avail.map (fun r => (r.start, r.size)))) =
      [[(50, 50)]] ∧
    (halfFull.AcquireRange 75).toOption.map (fun p => (p.1.start, p.1.size)) = some (0, 0) ∧
    ∃ r a1, halfFull.AcquireRange 75 = .ok (r, a1) ∧
      (r.size = 0 ↔ ∀ b ∈ halfFull.m_list_blocks, ∀ rg ∈ b.list_avail, rg.size < 75) ∧
      (r.size = 0 → a1 = halfFull) :=
  ⟨by decide, by decide, acquireRange_null_iff_nothing_fits halfFull 75 (by decide)⟩

end RangeAllocator

end ks

/-! ## `Graph::RemoveNode` with orphan removal: what the accessors observe -/

namespace ks

namespace RecycleIndexList

variable {α : Type}

theorem getValid_popBack (l : RecycleIndexList α)
    (hlast : l.m_list_valid.getLast? = some k_invalid) (j : Nat) :
    l.popBack.GetValid j = l.GetValid j := by
  have hflag : l.m_list_valid[l.m_list_valid.length - 1]? = some 0 := by
    rw [← List.getLast?_eq_getElem?]; exact hlast
  simp only [GetValid, popBack, List.getD_eq_getElem?_getD, List.getElem?_dropLast]
  by_cases hj : j < l.m_list_valid.length - 1
  · simp [hj]
  · rcases Nat.lt_or_ge j l.m_list_valid.length with h | h
    · have : j = l.m_list_valid.length - 1 := by omega
      simp [hj, this, hflag, k_invalid]
    · simp [hj, List.getElem?_eq_none h, k_invalid]

/-- The trimming loop, whatever the list of available indices is: it changes no flag as seen
by `GetValid` and keeps every remaining slot. -/
theorem trim_obs (fuel : Nat) : ∀ l : RecycleIndexList α,
    l.m_list_valid.length = l.m_list.length →
    (trim fuel l).m_list_valid.length = (trim fuel l).m_list.length ∧
    (trim fuel l).m_list.length ≤ l.m_list.length ∧
    (∀ j, j < (trim fuel l).m_list.length → (trim fuel l).m_list[j]? = l.m_list[j]?) ∧
    (∀ j, (trim fuel l).GetValid j = l.GetValid j) := by
  induction fuel with
  | zero => intro l h; exact ⟨h, le_rfl, fun _ _ => rfl, fun _ => rfl⟩
  | succ fuel ih =>
    intro l h
    unfold trim
    split
    · rename_i hlast
      have hp : l.popBack.m_list_valid.length = l.popBack.m_list.length := by
        rw [length_valid_popBack, length_popBack, h]
      split
      · refine ⟨hp, by rw [length_popBack]; omega, ?_, getValid_popBack l hlast⟩
        intro j hj
        rw [length_popBack] at hj
        exact getElem?_popBack l j hj
      · obtain ⟨a1, a2, a3, a4⟩ := ih _ hp
        rw [length_popBack] at a2
        refine ⟨a1, by omega, ?_, ?_⟩
        · intro j hj
          rw [a3 j hj]
          exact getElem?_popBack l j (by omega)
        · intro j
          rw [a4, getValid_popBack l hlast]
    · exact ⟨h, le_rfl, fun _ _ => rfl, fun _ => rfl⟩

/-- `Remove(index)`, whatever the list of available indices is and whether or not `index` is
valid: the flag of `index` is cleared, no other flag changes, and every slot that remains
keeps its content or, for `index`, holds `T()`. -/
theorem Remove_obs (l : RecycleIndexList α) (dflt : α) (index : Nat)
    (h : l.m_list_valid.length = l.m_list.length) :
    (l.Remove dflt index).m_list_valid.length = (l.Remove dflt index).m_list.length ∧
    (l.Remove dflt index).m_list.length ≤ l.m_list.length ∧
    (∀ j, j < (l.Remove dflt index).m_list.length →
      (l.Remove dflt index).m_list[j]? = if j = index then some dflt else l.m_list[j]?) ∧
    (∀ j, (l.Remove dflt index).GetValid j = if j = index then false else l.GetValid j) := by
  have hm : (l.markRemoved dflt index).m_list_valid.length =
      (l.markRemoved dflt index).m_list.length := by
    simp [markRemoved, h]
  obtain ⟨a1, a2, a3, a4⟩ := trim_obs (l.markRemoved dflt index).m_list_valid.length _ hm
  rw [length_markRemoved] at a2
  refine ⟨a1, a2, ?_, ?_⟩
  · intro j hj
    unfold Remove
    rw [a3 j hj, getElem?_markRemoved l dflt index j (lt_of_lt_of_le hj a2)]
  · intro j
    unfold Remove
    rw [a4]
    simp only [GetValid, markRemoved, List.getD_eq_getElem?_getD, List.getElem?_set]
    by_cases hj : j = index
    · subst hj
      by_cases hlt : j < l.m_list_valid.length
      · simp [hlt, k_invalid]
      · simp [hlt, List.getElem?_eq_none (Nat.not_lt.1 hlt), k_invalid]
    · have : index ≠ j := fun e => hj e.symm
      simp [hj, this]

end RecycleIndexList

namespace Graph

variable {T : Type} [Inhabited T]

theorem tidy_of_inv (g : Graph T) (hinv : g.Inv) : g.Tidy :=
  ⟨hinv.1.1, fun i h => nodeOf_of_not_valid g hinv i h, hinv.2.1⟩

theorem obs_modify (g : Graph T) (i : Nat) (f : Node T → Node T)
    (hf : f (Node.null T) = Node.null T) : (g.modify i f).obs = g.obs.modify i f := by
  unfold obs Obs.modify
  congr 1
  funext j
  rw [m_list_modify, nodeOf_setNode]
  by_cases hj : j = i
  · subst hj
    by_cases hlt : j < g.m_list_nodes.m_list.length
    · simp [hlt]
    · simp [hlt, nodeOf_of_le _ _ (Nat.not_lt.1 hlt), hf]
  · simp [hj]

theorem tidy_modify (g : Graph T) (i : Nat) (f : Node T → Node T)
    (hf : f (Node.null T) = Node.null T) (h : g.Tidy) : (g.modify i f).Tidy := by
  refine ⟨by rw [length_modify]; exact h.1, ?_, h.2.2⟩
  intro j hj
  have hj2 : g.m_list_nodes.GetValid j = false := hj
  rw [m_list_modify, nodeOf_setNode]
  split
  · rename_i hc
    rw [← hc.1, h.2.1 j hj2, hf]
  · exact h.2.1 j hj2

/-- The last statements of `RemoveNode`, as observed. -/
theorem obs_remove (g : Graph T) (node count : Nat) (h : g.Tidy) :
    ({ g with m_list_nodes := g.m_list_nodes.Remove (Node.null T) node,
              m_node_count := count } : Graph T).Tidy ∧
    ({ g with m_list_nodes := g.m_list_nodes.Remove (Node.null T) node,
              m_node_count := count } : Graph T).obs = g.obs.kill node := by
  obtain ⟨r1, r2, r3, r4⟩ := RecycleIndexList.Remove_obs g.m_list_nodes (Node.null T) node h.1
  have hnode : ∀ j, nodeOf (g.m_list_nodes.Remove (Node.null T) node).m_list j =
      if j = node then Node.null T else nodeOf g.m_list_nodes.m_list j := by
    intro j
    rcases Nat.lt_or_ge j (g.m_list_nodes.Remove (Node.null T) node).m_list.length with hj | hj
    · rw [nodeOf_eq_getElem?, r3 j hj]
      split
      · rfl
      · rw [nodeOf_eq_getElem?]
    · rw [nodeOf_of_le _ _ hj]
      split
      · rfl
      · rename_i hne
        have hv : (g.m_list_nodes.Remove (Node.null T) node).GetValid j = false :=
          RecycleIndexList.GetValid_of_le _ _ (by rw [r1]; exact hj)
        rw [r4, if_neg hne] at hv
        exact (h.2.1 j hv).symm
  refine ⟨⟨r1, ?_, h.2.2⟩, ?_⟩
  · intro j hj
    have hj2 : (g.m_list_nodes.Remove (Node.null T) node).GetValid j = false := hj
    show nodeOf (g.m_list_nodes.Remove (Node.null T) node).m_list j = Node.null T
    rw [hnode]
    split
    · rfl
    · rename_i hne
      rw [r4, if_neg hne] at hj2
      exact h.2.1 j hj2
  · unfold obs Obs.kill
    congr 1
    · funext j
      exact hnode j
    · funext j
      exact r4 j

end Graph

end ks

namespace ks

namespace Graph

variable {T : Type} [Inhabited T]

theorem obs_foldl (F : Graph T → Nat → Graph T) (G : Obs T → Nat → Obs T)
    (hF : ∀ g x, g.Tidy → (F g x).Tidy ∧ (F g x).obs = G g.obs x) (xs : List Nat) :
    ∀ g : Graph T, g.Tidy → (xs.foldl F g).Tidy ∧ (xs.foldl F g).obs = xs.foldl G g.obs := by
  induction xs with
  | nil => intro g h; exact ⟨h, rfl⟩
  | cons x xs ih =>
    intro g h
    obtain ⟨a1, a2⟩ := hF g x h
    obtain ⟨b1, b2⟩ := ih _ a1
    simp only [List.foldl_cons]
    exact ⟨b1, by rw [b2, a2]⟩

theorem obs_node (g : Graph T) (i : Nat) : g.obs.node i = nodeOf g.m_list_nodes.m_list i := rfl

/-- The accessors observe of `RemoveNode` exactly what `Obs.removeNode` computes. -/
theorem obs_removeNode (fuel : Nat) : ∀ (g : Graph T) (node : Nat) (rem_orphans : Bool),
    g.Tidy → (removeNode fuel g node rem_orphans).Tidy ∧
      (removeNode fuel g node rem_orphans).obs = Obs.removeNode fuel g.obs node rem_orphans := by
  induction fuel with
  | zero => intro g node b h; exact ⟨h, rfl⟩
  | succ fuel ih =>
    intro g node b h
    have e1 : ∀ x : Nat, (fun n : Node T => { n with outputs := eraseAll n.outputs x })
        (Node.null T) = Node.null T := fun x => by simp [Node.null, eraseAll]
    have e2 : ∀ x : Nat, (fun n : Node T => { n with inputs := eraseAll n.inputs x })
        (Node.null T) = Node.null T := fun x => by simp [Node.null, eraseAll]
    have e3 : (fun n : Node T => { n with inputs := [] }) (Node.null T) = Node.null T := rfl
    have e4 : (fun n : Node T => { n with outputs := [] }) (Node.null T) = Node.null T := rfl
    have e5 : (fun n : Node T => { n with valid := false }) (Node.null T) = Node.null T := rfl
    obtain ⟨a1, a2⟩ := obs_foldl
      (fun s input => s.modify input (fun n => { n with outputs := eraseAll n.outputs node }))
      (fun s input => s.modify input (fun n => { n with outputs := eraseAll n.outputs node }))
      (fun g x hg =>
        ⟨tidy_modify g x (fun n : Node T => { n with outputs := eraseAll n.outputs node })
            (e1 node) hg,
          obs_modify g x (fun n : Node T => { n with outputs := eraseAll n.outputs node })
            (e1 node)⟩)
      (nodeOf g.m_list_nodes.m_list node).inputs g h
    obtain ⟨g1, hg1⟩ : ∃ g1, g1 = (nodeOf g.m_list_nodes.m_list node).inputs.foldl
        (fun s input =>
          s.modify input (fun n => { n with outputs := eraseAll n.outputs node })) g := ⟨_, rfl⟩
    rw [← hg1] at a1 a2
    have b1 := tidy_modify g1 node (fun n : Node T => { n with inputs := [] }) e3 a1
    have b2 := obs_modify g1 node (fun n : Node T => { n with inputs := [] }) e3
    obtain ⟨g2, hg2⟩ : ∃ g2, g2 = g1.modify node (fun n => { n with inputs := [] }) :=
      ⟨_, rfl⟩
    rw [← hg2] at b1 b2
    obtain ⟨c1, c2⟩ := obs_foldl
      (fun s output =>
        if (b && (nodeOf (s.modify output
            (fun n => { n with inputs := eraseAll n.inputs node })).m_list_nodes.m_list
              output).inputs.isEmpty) = true then
          removeNode fuel
            (s.modify output (fun n => { n with inputs := eraseAll n.inputs node })) output true
        else s.modify output (fun n => { n with inputs := eraseAll n.inputs node }))
      (fun s output =>
        if (b && ((s.modify output
            (fun n => { n with inputs := eraseAll n.inputs node })).node
              output).inputs.isEmpty) = true then
          Obs.removeNode fuel
            (s.modify output (fun n => { n with inputs := eraseAll n.inputs node })) output true
        else s.modify output (fun n => { n with inputs := eraseAll n.inputs node }))
      (fun g x hg => by
        have t1 := tidy_modify g x
          (fun n : Node T => { n with inputs := eraseAll n.inputs node }) (e2 node) hg
        have t2 := obs_modify g x
          (fun n : Node T => { n with inputs := eraseAll n.inputs node }) (e2 node)
        simp only [← t2, obs_node]
        split
        · exact ih _ x true t1
        · exact ⟨t1, rfl⟩)
      (nodeOf g2.m_list_nodes.m_list node).outputs g2 b1
    obtain ⟨g3, hg3⟩ : ∃ g3, g3 = (nodeOf g2.m_list_nodes.m_list node).outputs.foldl
        (fun s output =>
          if (b && (nodeOf (s.modify output
              (fun n => { n with inputs := eraseAll n.inputs node })).m_list_nodes.m_list
                output).inputs.isEmpty) = true then
            removeNode fuel
              (s.modify output (fun n => { n with inputs := eraseAll n.inputs node })) output true
          else s.modify output (fun n => { n with inputs := eraseAll n.inputs node })) g2 :=
      ⟨_, rfl⟩
    rw [← hg3] at c1 c2
    have d1 := tidy_modify _ node (fun n : Node T => { n with valid := false }) e5
      (tidy_modify g3 node (fun n : Node T => { n with outputs := [] }) e4 c1)
    obtain ⟨f1, f2⟩ := obs_remove ((g3.modify node (fun n => { n with outputs := [] })).modify
      node (fun n => { n with valid := false }))
      node (wrap32 (((g3.modify node (fun n => { n with outputs := [] })).modify
      node (fun n => { n with valid := false })).m_node_count - 1)) d1
    have hL : removeNode (fuel + 1) g node b =
        { ((g3.modify node (fun n => { n with outputs := [] })).modify
            node (fun n => { n with valid := false })) with
          m_list_nodes := ((g3.modify node (fun n => { n with outputs := [] })).modify
            node (fun n => { n with valid := false })).m_list_nodes.Remove (Node.null T) node,
          m_node_count := wrap32 (((g3.modify node (fun n => { n with outputs := [] })).modify
            node (fun n => { n with valid := false })).m_node_count - 1) } := by
      rw [hg3, hg2, hg1]
      rfl
    rw [hL]
    refine ⟨f1, ?_⟩
    rw [f2, obs_modify _ _ (fun n : Node T => { n with valid := false }) e5,
      obs_modify _ _ (fun n : Node T => { n with outputs := [] }) e4, c2,
      ← obs_node g2, b2, a2]
    rfl

end Graph

end ks

/-! ## The cascade of `RemoveNode(n,true)` on observations -/

namespace ks

namespace Obs

variable {T : Type}

theorem ext_node_valid (s t : Obs T) (h1 : ∀ j, s.node j = t.node j)
    (h2 : ∀ j, s.valid j = t.valid j) : s = t := by
  cases s; cases t
  simp only [Obs.mk.injEq]
  exact ⟨funext h1, funext h2⟩

theorem node_modify (s : Obs T) (i j : Nat) (f : Node T → Node T) :
    (s.modify i f).node j = if j = i then f (s.node i) else s.node j := rfl

theorem valid_modify (s : Obs T) (i j : Nat) (f : Node T → Node T) :
    (s.modify i f).valid j = s.valid j := rfl

theorem modify_self (s : Obs T) (i : Nat) (f : Node T → Node T)
    (h : f (s.node i) = s.node i) : s.modify i f = s := by
  apply ext_node_valid
  · intro j
    rw [node_modify]
    split
    · rename_i hj; rw [h, hj]
    · rfl
  · intro j; rfl

variable [Inhabited T]

theorem node_kill (s : Obs T) (i j : Nat) :
    (s.kill i).node j = if j = i then Node.null T else s.node j := rfl

theorem valid_kill (s : Obs T) (i j : Nat) :
    (s.kill i).valid j = if j = i then false else s.valid j := rfl

theorem kill_modify (s : Obs T) (i : Nat) (f : Node T → Node T) :
    (s.modify i f).kill i = s.kill i := by
  apply ext_node_valid
  · intro j
    rw [node_kill, node_kill, node_modify]
    split
    · rfl
    · rfl
  · intro j; rfl

theorem kill_self (s : Obs T) (i : Nat) (h1 : s.node i = Node.null T)
    (h2 : s.valid i = false) : s.kill i = s := by
  apply ext_node_valid
  · intro j
    rw [node_kill]
    split
    · rename_i hj; rw [hj, h1]
    · rfl
  · intro j
    rw [valid_kill]
    split
    · rename_i hj; rw [hj, h2]
    · rfl

/-- `RemoveNode` of a node that is already removed changes nothing that is observed. -/
theorem removeNode_dead (fuel : Nat) (s : Obs T) (x : Nat) (b : Bool)
    (h1 : s.node x = Node.null T) (h2 : s.valid x = false) :
    removeNode fuel s x b = s := by
  cases fuel with
  | zero => rfl
  | succ fuel =>
    have e1 : (s.node x).inputs = [] := by rw [h1]; rfl
    have e2 : s.modify x (fun n => { n with inputs := [] }) = s :=
      modify_self s x _ (by rw [h1]; rfl)
    have e3 : (s.node x).outputs = [] := by rw [h1]; rfl
    simp only [removeNode, e1, List.foldl_nil, e2, e3, kill_modify]
    exact kill_self s x h1 h2

/-- `RemoveNode(x,true)` of a node without inputs: the loop over the outputs, then the
removal of `x`. -/
theorem removeNode_orphan (fuel : Nat) (s : Obs T) (x : Nat)
    (h : (s.node x).inputs = []) :
    removeNode (fuel + 1) s x true =
      ((s.node x).outputs.foldl
        (fun s output =>
          if ((s.modify output
              (fun n => { n with inputs := Graph.eraseAll n.inputs x })).node
                output).inputs.isEmpty = true then
            removeNode fuel
              (s.modify output (fun n => { n with inputs := Graph.eraseAll n.inputs x }))
              output true
          else s.modify output (fun n => { n with inputs := Graph.eraseAll n.inputs x }))
        s).kill x := by
  have e2 : s.modify x (fun n => { n with inputs := [] }) = s :=
    modify_self s x _ (by
      show ({ s.node x with inputs := [] } : Node T) = s.node x
      rw [← h])
  simp only [removeNode, h, List.foldl_nil, e2, kill_modify, Bool.true_and]

theorem cascade_congr (ref s : Obs T) (R D P P2 : Nat → Prop) (h : ∀ p, P p ↔ P2 p)
    (hc : Cascade ref s R D P) : Cascade ref s R D P2 := by
  obtain ⟨c1, c2, c3, c4, c5, c6, c7, c8⟩ := hc
  refine ⟨c1, c2, c3, ?_, c5, ?_, ?_, ?_⟩
  · intro m hm a ha hna
    rcases c4 m hm a ha hna with h1 | h1
    · exact Or.inl h1
    · exact Or.inr ((h a).1 h1)
  · intro y hy
    rcases hy with h1 | h1
    · exact c6 y (Or.inl h1)
    · exact c6 y (Or.inr ((h y).2 h1))
  · intro p hp
    exact c7 p ((h p).2 hp)
  · intro m hm hp
    exact c8 m hm (fun hp2 => hp ((h m).1 hp2))

end Obs

end ks

namespace ks

namespace Graph

variable {T : Type} [Inhabited T]

theorem nodeOf_RemoveEdge (g : Graph T) (src dst i : Nat) :
    nodeOf (g.RemoveEdge src dst).m_list_nodes.m_list i =
      { nodeOf g.m_list_nodes.m_list i with
        inputs :=
          if i = dst then eraseAll (nodeOf g.m_list_nodes.m_list i).inputs src
          else (nodeOf g.m_list_nodes.m_list i).inputs
        outputs :=
          if i = src then eraseAll (nodeOf g.m_list_nodes.m_list i).outputs dst
          else (nodeOf g.m_list_nodes.m_list i).outputs } := by
  have e1 : (fun n : Node T => { n with outputs := eraseAll n.outputs dst }) (Node.null T) =
      Node.null T := by simp [Node.null, eraseAll]
  have e2 : (fun n : Node T => { n with inputs := eraseAll n.inputs src }) (Node.null T) =
      Node.null T := by simp [Node.null, eraseAll]
  have h := congrArg (fun s => s.node i)
    ((obs_modify (g.modify src (fun n : Node T => { n with outputs := eraseAll n.outputs dst }))
      dst (fun n : Node T => { n with inputs := eraseAll n.inputs src }) e2).trans
      (congrArg (fun s => s.modify dst
        (fun n : Node T => { n with inputs := eraseAll n.inputs src }))
        (obs_modify g src (fun n : Node T => { n with outputs := eraseAll n.outputs dst }) e1)))
  have h2 : nodeOf (g.RemoveEdge src dst).m_list_nodes.m_list i =
      ((g.obs.modify src (fun n : Node T => { n with outputs := eraseAll n.outputs dst })).modify
        dst (fun n : Node T => { n with inputs := eraseAll n.inputs src })).node i := h
  rw [h2]
  simp only [Obs.node_modify, obs_node]
  by_cases h1 : i = dst <;> by_cases h3 : i = src <;> by_cases h4 : dst = src <;> simp_all

/-- `RemoveEdge(from,to)` keeps the invariant. -/
theorem inv_RemoveEdge (g : Graph T) (src dst : Nat) (hinv : g.Inv) :
    (g.RemoveEdge src dst).Inv := by
  refine ⟨sound_modify _ _ _ (sound_modify _ _ _ hinv.1), hinv.2.1, ?_, ?_, ?_⟩
  · intro i _ hvi
    have hvi2 : g.m_list_nodes.GetValid i = false := hvi
    rw [nodeOf_RemoveEdge, nodeOf_of_not_valid g hinv i hvi2]
    simp [Node.null, eraseAll]
  · intro i hvi
    rw [nodeOf_RemoveEdge]
    exact hinv.2.2.2.1 i hvi
  · intro a b
    rw [nodeOf_RemoveEdge, nodeOf_RemoveEdge]
    have hsym := hinv.2.2.2.2 a b
    by_cases ha : a = src <;> by_cases hb : b = dst
    · simp [ha, hb, count_eraseAll]
    · simp only [ha, hb, if_true, if_false, count_eraseAll]
      rw [← ha]
      exact hsym
    · simp only [ha, hb, if_true, if_false, count_eraseAll]
      rw [← hb]
      exact hsym
    · simp only [ha, hb, if_false]
      exact hsym

end Graph

end ks

namespace ks

namespace Obs

variable {T : Type} [Inhabited T]

/-- The erasure of the in-progress node `x` from the inputs of one of its outputs `o` that is
neither removed nor in progress; `o` joins the nodes in progress when it has no input left. -/
theorem cascade_erase (ref s : Obs T) (R D P P2 : Nat → Prop) (x o : Nat)
    (hR : ∀ m, (ref.node m).inputs ≠ [] → (∀ a ∈ (ref.node m).inputs, R a) → R m)
    (hc : Cascade ref s R D P) (hPx : P x) (hDo : ¬ D o) (hPo : ¬ P o)
    (hxo : x ∈ (ref.node o).inputs)
    (h1 : ∀ p, P p → P2 p)
    (h2 : ∀ p, P2 p → P p ∨ (p = o ∧
      ((s.modify o (fun n => { n with inputs := Graph.eraseAll n.inputs x })).node o).inputs
        = []))
    (h3 : ((s.modify o (fun n => { n with inputs := Graph.eraseAll n.inputs x })).node o).inputs
        = [] → P2 o) :
    Cascade ref (s.modify o (fun n => { n with inputs := Graph.eraseAll n.inputs x })) R D P2 := by
  obtain ⟨c1, c2, c3, c4, c5, c6, c7, c8⟩ := hc
  have hn : ∀ m, m ≠ o →
      (s.modify o (fun n => { n with inputs := Graph.eraseAll n.inputs x })).node m =
        s.node m := by
    intro m hm
    rw [node_modify, if_neg hm]
  have ho : (s.modify o (fun n => { n with inputs := Graph.eraseAll n.inputs x })).node o =
      { s.node o with inputs := Graph.eraseAll (s.node o).inputs x } := by
    rw [node_modify, if_pos rfl]
  have hin : ∀ m a,
      a ∈ ((s.modify o (fun n => { n with inputs := Graph.eraseAll n.inputs x })).node m).inputs
        → a ∈ (s.node m).inputs := by
    intro m a ha
    by_cases hm : m = o
    · rw [hm, ho] at ha
      rw [hm]
      exact ((Graph.mem_eraseAll _ _ _).1 ha).1
    · rw [hn m hm] at ha
      exact ha
  refine ⟨?_, ?_, ?_, ?_, ?_, ?_, ?_, ?_⟩
  · intro y hy
    have : y ≠ o := fun e => hDo (e ▸ hy)
    rw [hn y this]
    exact c1 y hy
  · intro m hm
    refine ⟨(c2 m hm).1, ?_⟩
    by_cases hmo : m = o
    · rw [hmo, ho]
      have := (c2 o hDo).2
      rw [this]
    · rw [hn m hmo]
      exact (c2 m hm).2
  · intro m
    by_cases hmo : m = o
    · rw [hmo, ho]
      show Graph.eraseAll (s.node o).inputs x = _
      unfold Graph.eraseAll
      conv_lhs => rw [c3 o]
      rw [List.filter_filter]
      apply List.filter_congr
      intro a _
      simp only [List.mem_filter, ne_eq, decide_not, Bool.not_eq_eq_eq_not, Bool.not_true,
        decide_eq_false_iff_not, Bool.decide_and, Bool.and_comm]
    · rw [hn m hmo]
      exact c3 m
  · intro m hm a ha hna
    by_cases hmo : m = o
    · rw [hmo, ho] at hna
      rw [hmo] at ha
      by_cases hs : a ∈ (s.node o).inputs
      · have hax : a = x := by
          by_contra hne
          exact hna ((Graph.mem_eraseAll _ _ _).2 ⟨hs, hne⟩)
        exact Or.inr (h1 a (hax ▸ hPx))
      · rcases c4 o hDo a ha hs with h | h
        · exact Or.inl h
        · exact Or.inr (h1 a h)
    · rw [hn m hmo] at hna
      rcases c4 m hm a ha hna with h | h
      · exact Or.inl h
      · exact Or.inr (h1 a h)
  · intro m a ha
    exact c5 m a (hin m a ha)
  · intro y hy
    rcases hy with h | h
    · exact c6 y (Or.inl h)
    · rcases h2 y h with h | ⟨hyo, hemp⟩
      · exact c6 y (Or.inr h)
      · rw [hyo]
        apply hR o (List.ne_nil_of_mem hxo)
        intro a ha
        by_cases hs : a ∈ (s.node o).inputs
        · have hax : a = x := by
            by_contra hne
            have : a ∈ ((s.modify o
                (fun n => { n with inputs := Graph.eraseAll n.inputs x })).node o).inputs := by
              rw [ho]
              exact (Graph.mem_eraseAll _ _ _).2 ⟨hs, hne⟩
            rw [hemp] at this
            simp at this
          exact c6 a (Or.inr (hax ▸ hPx))
        · exact c6 a (c4 o hDo a ha hs)
  · intro p hp
    rcases h2 p hp with h | ⟨hpo, hemp⟩
    · have : p ≠ o := fun e => hPo (e ▸ h)
      rw [hn p this]
      exact c7 p h
    · rw [hpo]
      exact ⟨hemp, hDo⟩
  · intro m hm hp hne
    by_cases hmo : m = o
    · intro hemp
      rw [hmo] at hemp hp
      exact hp (h3 hemp)
    · rw [hn m hmo]
      exact c8 m hm (fun h => hp (h1 m h)) hne

end Obs

end ks

namespace ks

namespace Obs

variable {T : Type}

open Classical in
/-- Along an edge of an acyclic graph the number of reachable nodes decreases. -/
theorem reachCard_lt (ref : Obs T) (N : Nat)
    (hac : ∀ a, ¬ Relation.TransGen (fun a b => b ∈ (ref.node a).outputs) a a)
    (x o : Nat) (hxo : o ∈ (ref.node x).outputs) (ho : o < N) :
    ((Finset.range N).filter
        (fun b => Relation.TransGen (fun a b => b ∈ (ref.node a).outputs) o b)).card <
      ((Finset.range N).filter
        (fun b => Relation.TransGen (fun a b => b ∈ (ref.node a).outputs) x b)).card := by
  apply Finset.card_lt_card
  rw [Finset.ssubset_iff_of_subset]
  · refine ⟨o, ?_, ?_⟩
    · simp only [Finset.mem_filter, Finset.mem_range]
      exact ⟨ho, Relation.TransGen.single hxo⟩
    · simp only [Finset.mem_filter, Finset.mem_range, not_and]
      intro _
      exact hac o
  · intro b hb
    simp only [Finset.mem_filter, Finset.mem_range] at hb ⊢
    exact ⟨hb.1, Relation.TransGen.head hxo hb.2⟩

variable [Inhabited T]

/-- The last statements of `RemoveNode(x,true)`: `x` passes from the nodes in progress to the
removed nodes. -/
theorem cascade_kill (ref s : Obs T) (R D P : Nat → Prop) (x : Nat)
    (hsym : ∀ a b, b ∈ (ref.node a).outputs ↔ a ∈ (ref.node b).inputs)
    (hc : Cascade ref s R D P) (hPx : P x)
    (hx : ∀ o ∈ (ref.node x).outputs, x ∉ (s.node o).inputs) :
    Cascade ref (s.kill x) R (fun y => D y ∨ y = x) (fun p => P p ∧ p ≠ x) := by
  obtain ⟨c1, c2, c3, c4, c5, c6, c7, c8⟩ := hc
  have hDx : ¬ D x := (c7 x hPx).2
  have hn : ∀ m, m ≠ x → (s.kill x).node m = s.node m := by
    intro m hm
    rw [node_kill, if_neg hm]
  have hv : ∀ m, m ≠ x → (s.kill x).valid m = s.valid m := by
    intro m hm
    rw [valid_kill, if_neg hm]
  have hk : (s.kill x).node x = Node.null T := by rw [node_kill, if_pos rfl]
  refine ⟨?_, ?_, ?_, ?_, ?_, ?_, ?_, ?_⟩
  · intro y hy
    by_cases hyx : y = x
    · rw [hyx, hk, valid_kill, if_pos rfl]
      exact ⟨rfl, rfl⟩
    · rw [hn y hyx, hv y hyx]
      rcases hy with h | h
      · exact c1 y h
      · exact absurd h hyx
  · intro m hm
    have hmx : m ≠ x := fun e => hm (Or.inr e)
    have hmD : ¬ D m := fun e => hm (Or.inl e)
    rw [hn m hmx, hv m hmx]
    exact c2 m hmD
  · intro m
    by_cases hmx : m = x
    · rw [hmx, hk]
      simp [Node.null]
    · rw [hn m hmx]
      exact c3 m
  · intro m hm a ha hna
    have hmx : m ≠ x := fun e => hm (Or.inr e)
    have hmD : ¬ D m := fun e => hm (Or.inl e)
    rw [hn m hmx] at hna
    rcases c4 m hmD a ha hna with h | h
    · exact Or.inl (Or.inl h)
    · by_cases hax : a = x
      · exact Or.inl (Or.inr hax)
      · exact Or.inr ⟨h, hax⟩
  · intro m a ha
    by_cases hmx : m = x
    · rw [hmx, hk] at ha
      simp [Node.null] at ha
    · rw [hn m hmx] at ha
      rintro (h | h)
      · exact c5 m a ha h
      · rw [h] at ha
        have hr : x ∈ (ref.node m).inputs := by
          have := c3 m
          rw [this] at ha
          exact (List.mem_filter.1 ha).1
        exact hx m ((hsym x m).2 hr) ha
  · intro y hy
    rcases hy with (h | h) | h
    · exact c6 y (Or.inl h)
    · exact c6 y (Or.inr (h ▸ hPx))
    · exact c6 y (Or.inr h.1)
  · intro p hp
    rw [hn p hp.2]
    refine ⟨(c7 p hp.1).1, ?_⟩
    rintro (h | h)
    · exact (c7 p hp.1).2 h
    · exact hp.2 h
  · intro m hm hp hne
    have hmx : m ≠ x := fun e => hm (Or.inr e)
    have hmD : ¬ D m := fun e => hm (Or.inl e)
    rw [hn m hmx]
    exact c8 m hmD (fun h => hp ⟨h, hmx⟩) hne

end Obs

end ks

namespace ks

namespace Obs

variable {T : Type} [Inhabited T]

open Classical in
/-- The cascade: `RemoveNode(x,true)` of an in-progress node `x` without inputs, run on a
state of the cascade with enough recursion depth, ends in a state of the cascade in which `x`
is removed, no removed node has come back and no input list has grown. -/
theorem cascade_removeNode (ref : Obs T) (R : Nat → Prop) (N : Nat)
    (hsym : ∀ a b, b ∈ (ref.node a).outputs ↔ a ∈ (ref.node b).inputs)
    (hac : ∀ a, ¬ Relation.TransGen (fun a b => b ∈ (ref.node a).outputs) a a)
    (hR : ∀ m, (ref.node m).inputs ≠ [] → (∀ a ∈ (ref.node m).inputs, R a) → R m)
    (hN : ∀ a b, b ∈ (ref.node a).outputs → b < N) :
    ∀ (fuel : Nat) (s : Obs T) (D P : Nat → Prop) (x : Nat), Cascade ref s R D P → P x →
      (∀ p, P p → p = x ∨ Relation.TransGen (fun a b => b ∈ (ref.node a).outputs) p x) →
      ((Finset.range N).filter
        (fun b => Relation.TransGen (fun a b => b ∈ (ref.node a).outputs) x b)).card < fuel →
      ∃ D2 : Nat → Prop,
        Cascade ref (removeNode fuel s x true) R D2 (fun p => P p ∧ p ≠ x) ∧
        (∀ y, D y → D2 y) ∧ D2 x ∧
        (∀ m a, a ∈ ((removeNode fuel s x true).node m).inputs → a ∈ (s.node m).inputs) := by
  intro fuel
  induction fuel with
  | zero => intro s D P x _ _ _ h; exact absurd h (Nat.not_lt_zero _)
  | succ fuel ih =>
    intro s D P x hc hPx hchain hmu
    have hinx : (s.node x).inputs = [] := (hc.2.2.2.2.2.2.1 x hPx).1
    have hDx : ¬ D x := (hc.2.2.2.2.2.2.1 x hPx).2
    have hout : (s.node x).outputs = (ref.node x).outputs := by
      rw [(hc.2.1 x hDx).2]
    rw [removeNode_orphan fuel s x hinx, hout]
    -- the loop over the outputs of `x`
    have hloop : ∀ (rest : List Nat) (s : Obs T) (D : Nat → Prop), Cascade ref s R D P →
        (∀ o ∈ rest, o ∈ (ref.node x).outputs) →
        ∃ D2 : Nat → Prop,
          Cascade ref (rest.foldl
            (fun s output =>
              if ((s.modify output
                  (fun n => { n with inputs := Graph.eraseAll n.inputs x })).node
                    output).inputs.isEmpty = true then
                removeNode fuel
                  (s.modify output (fun n => { n with inputs := Graph.eraseAll n.inputs x }))
                  output true
              else s.modify output (fun n => { n with inputs := Graph.eraseAll n.inputs x }))
            s) R D2 P ∧
          (∀ y, D y → D2 y) ∧
          (∀ m a, a ∈ ((rest.foldl
            (fun s output =>
              if ((s.modify output
                  (fun n => { n with inputs := Graph.eraseAll n.inputs x })).node
                    output).inputs.isEmpty = true then
                removeNode fuel
                  (s.modify output (fun n => { n with inputs := Graph.eraseAll n.inputs x }))
                  output true
              else s.modify output (fun n => { n with inputs := Graph.eraseAll n.inputs x }))
            s).node m).inputs → a ∈ (s.node m).inputs) ∧
          (∀ o ∈ rest, x ∉ ((rest.foldl
            (fun s output =>
              if ((s.modify output
                  (fun n => { n with inputs := Graph.eraseAll n.inputs x })).node
                    output).inputs.isEmpty = true then
                removeNode fuel
                  (s.modify output (fun n => { n with inputs := Graph.eraseAll n.inputs x }))
                  output true
              else s.modify output (fun n => { n with inputs := Graph.eraseAll n.inputs x }))
            s).node o).inputs) := by
      intro rest
      induction rest with
      | nil =>
        intro s D hc _
        exact ⟨D, hc, fun _ h => h, fun _ _ h => h, fun _ h => absurd h (List.not_mem_nil _)⟩
      | cons o rest ihr =>
        intro s D hc hrest
        have hxo : o ∈ (ref.node x).outputs := hrest o (by simp)
        have hrest2 : ∀ o2 ∈ rest, o2 ∈ (ref.node x).outputs :=
          fun o2 h => hrest o2 (List.mem_cons_of_mem _ h)
        simp only [List.foldl_cons]
        by_cases hDo : D o
        · -- `o` has been removed already
          have hnull := (hc.1 o hDo).1
          have hm : s.modify o (fun n => { n with inputs := Graph.eraseAll n.inputs x }) = s :=
            modify_self s o _ (by rw [hnull]; simp [Node.null, Graph.eraseAll])
          have hemp : (s.node o).inputs.isEmpty = true := by rw [hnull]; rfl
          rw [hm]
          simp only [hemp, if_true]
          rw [removeNode_dead fuel s o true hnull (hc.1 o hDo).2]
          obtain ⟨D2, a1, a2, a3, a4⟩ := ihr s D hc hrest2
          refine ⟨D2, a1, a2, a3, ?_⟩
          intro o2 ho2
          rcases List.mem_cons.1 ho2 with h | h
          · intro hx
            have := a3 o2 x hx
            rw [h, hnull] at this
            simp [Node.null] at this
          · exact a4 o2 h
        · -- `o` is neither removed nor in progress
          have hPo : ¬ P o := by
            intro hP
            rcases hchain o hP with h | h
            · exact hac x (Relation.TransGen.single (h ▸ hxo))
            · exact hac x (Relation.TransGen.head hxo h)
          have hxin : x ∈ (ref.node o).inputs := (hsym x o).1 hxo
          have hnot : x ∉ ((s.modify o
              (fun n => { n with inputs := Graph.eraseAll n.inputs x })).node o).inputs := by
            rw [node_modify, if_pos rfl]
            exact Graph.not_mem_eraseAll _ _
          have hshr : ∀ m a, a ∈ ((s.modify o
              (fun n => { n with inputs := Graph.eraseAll n.inputs x })).node m).inputs →
              a ∈ (s.node m).inputs := by
            intro m a ha
            rw [node_modify] at ha
            split at ha
            · rename_i hmo
              rw [hmo]
              exact ((Graph.mem_eraseAll _ _ _).1 ha).1
            · exact ha
          by_cases hemp : ((s.modify o
              (fun n => { n with inputs := Graph.eraseAll n.inputs x })).node o).inputs = []
          · have hemp2 : ((s.modify o
                (fun n => { n with inputs := Graph.eraseAll n.inputs x })).node
                  o).inputs.isEmpty = true := by rw [hemp]; rfl
            simp only [hemp2, if_true]
            have hc2 := cascade_erase ref s R D P (fun p => P p ∨ p = o) x o hR hc hPx hDo hPo
              hxin (fun p h => Or.inl h)
              (fun p h => h.elim Or.inl (fun e => Or.inr ⟨e, hemp⟩)) (fun _ => Or.inr rfl)
            obtain ⟨D1, b1, b2, b3, b4⟩ := ih _ D (fun p => P p ∨ p = o) o hc2 (Or.inr rfl)
              (by
                intro p hp
                rcases hp with hp | hp
                · right
                  rcases hchain p hp with h | h
                  · exact Relation.TransGen.single (h ▸ hxo)
                  · exact Relation.TransGen.tail h hxo
                · exact Or.inl hp)
              (by
                have := reachCard_lt ref N hac x o hxo (hN x o hxo)
                omega)
            have b1' := cascade_congr ref _ R D1 _ P
              (fun p => ⟨fun h => h.1.elim id (fun e => absurd e h.2),
                fun h => ⟨Or.inl h, fun e => hPo (e ▸ h)⟩⟩) b1
            obtain ⟨D2, a1, a2, a3, a4⟩ := ihr _ D1 b1' hrest2
            refine ⟨D2, a1, fun y h => a2 y (b2 y h), fun m a h => hshr m a (b4 m a (a3 m a h)),
              ?_⟩
            intro o2 ho2
            rcases List.mem_cons.1 ho2 with h | h
            · intro hx
              rw [h] at hx
              exact hnot (b4 o x (a3 o x hx))
            · exact a4 o2 h
          · have hemp2 : ¬ ((s.modify o
                (fun n => { n with inputs := Graph.eraseAll n.inputs x })).node
                  o).inputs.isEmpty = true := by
              rw [List.isEmpty_iff]
              exact hemp
            simp only [hemp2, if_false]
            have hc2 := cascade_erase ref s R D P P x o hR hc hPx hDo hPo
              hxin (fun p h => h) (fun p h => Or.inl h) (fun h => absurd h hemp)
            obtain ⟨D2, a1, a2, a3, a4⟩ := ihr _ D hc2 hrest2
            refine ⟨D2, a1, a2, fun m a h => hshr m a (a3 m a h), ?_⟩
            intro o2 ho2
            rcases List.mem_cons.1 ho2 with h | h
            · intro hx
              rw [h] at hx
              exact hnot (a3 o x hx)
            · exact a4 o2 h
    obtain ⟨D3, a1, a2, a3, a4⟩ := hloop (ref.node x).outputs s D hc (fun _ h => h)
    refine ⟨fun y => D3 y ∨ y = x, cascade_kill ref _ R D3 P x hsym a1 hPx a4,
      fun y h => Or.inl (a2 y h), Or.inr rfl, ?_⟩
    intro m a ha
    rw [node_kill] at ha
    split at ha
    · simp [Node.null] at ha
    · exact a3 m a ha

end Obs

end ks

namespace ks

namespace Obs

variable {T : Type}

theorem obs_foldl_modify (f : Node T → Node T) (hf : ∀ n, f (f n) = f n) (xs : List Nat) :
    ∀ s : Obs T,
      (∀ i, (xs.foldl (fun s x => s.modify x f) s).node i =
        if i ∈ xs then f (s.node i) else s.node i) ∧
      (∀ i, (xs.foldl (fun s x => s.modify x f) s).valid i = s.valid i) := by
  induction xs with
  | nil => intro s; simp
  | cons x xs ih =>
    intro s
    obtain ⟨a1, a2⟩ := ih (s.modify x f)
    simp only [List.foldl_cons]
    refine ⟨?_, fun i => by rw [a2]; rfl⟩
    intro i
    rw [a1, node_modify]
    by_cases hix : i = x
    · subst hix
      simp [hf]
    · by_cases hm : i ∈ xs
      · simp [hix, hm]
      · simp [hix, hm]

variable [Inhabited T]

/-- `RemoveNode(n,true)` continues, once the input edges of `n` are detached, as the removal
of a node without inputs. -/
theorem removeNode_top (fuel : Nat) (s : Obs T) (n : Nat) :
    removeNode (fuel + 1) s n true =
      removeNode (fuel + 1)
        (((s.node n).inputs.foldl
          (fun s input =>
            s.modify input (fun m => { m with outputs := Graph.eraseAll m.outputs n })) s).modify
          n (fun m => { m with inputs := [] })) n true := by
  refine Eq.trans ?_ (Eq.symm (removeNode_orphan fuel _ n ?_))
  · simp only [removeNode, kill_modify, Bool.true_and]
  · rw [node_modify, if_pos rfl]

end Obs

namespace Graph

variable {T : Type} [Inhabited T]

/-- The graph in which the input edges of `n` are detached (the statements of `RemoveNode`
before the loop over the outputs), as observed: `n` has no inputs and occurs in no output
list, nothing else has changed. -/
theorem node_detached (g : Graph T) (hinv : g.Inv) (hac : g.Acyclic) (n j : Nat) :
    ((((g.obs.node n).inputs.foldl
        (fun s input =>
          s.modify input (fun m => { m with outputs := eraseAll m.outputs n })) g.obs).modify
        n (fun m => { m with inputs := [] })).node j) =
      { nodeOf g.m_list_nodes.m_list j with
        inputs := if j = n then [] else (nodeOf g.m_list_nodes.m_list j).inputs
        outputs := eraseAll (nodeOf g.m_list_nodes.m_list j).outputs n } := by
  have hf : ∀ m : Node T,
      (fun m : Node T => { m with outputs := eraseAll m.outputs n })
        ((fun m : Node T => { m with outputs := eraseAll m.outputs n }) m) =
      (fun m : Node T => { m with outputs := eraseAll m.outputs n }) m := by
    intro m
    simp [eraseAll, List.filter_filter]
  obtain ⟨a1, _⟩ := Obs.obs_foldl_modify
    (fun m : Node T => { m with outputs := eraseAll m.outputs n }) hf
    (g.obs.node n).inputs g.obs
  have hself : n ∉ (nodeOf g.m_list_nodes.m_list n).outputs := by
    intro h
    exact hac n (Relation.TransGen.single h)
  have hs1 : ∀ i, ((g.obs.node n).inputs.foldl
        (fun s input =>
          s.modify input (fun m => { m with outputs := eraseAll m.outputs n })) g.obs).node i =
      { nodeOf g.m_list_nodes.m_list i with
        outputs := eraseAll (nodeOf g.m_list_nodes.m_list i).outputs n } := by
    intro i
    rw [a1 i]
    split
    · rfl
    · rename_i hni
      have : n ∉ (nodeOf g.m_list_nodes.m_list i).outputs := by
        intro h
        exact hni ((mem_inputs_iff g hinv i n).2 h)
      rw [eraseAll_of_not_mem _ _ this]
      rfl
  rw [Obs.node_modify]
  by_cases hj : j = n
  · rw [if_pos hj, if_pos hj, hs1, hj]
  · rw [if_neg hj, if_neg hj, hs1]

end Graph

end ks

namespace ks

namespace Graph

variable {T : Type} [Inhabited T]

open Classical in
/-- What `RemoveNode(n,true)` leaves of an acyclic graph that satisfies the invariant: the
nodes of `Orphaned g n` are value-initialised and invalid, every other node keeps its flag,
its value and its outputs other than `n`, and keeps exactly the inputs that are not in
`Orphaned g n`. -/
theorem RemoveNode_true_spec (g : Graph T) (n : Nat) (hinv : g.Inv) (hac : g.Acyclic) :
    (g.RemoveNode n true).Tidy ∧
    (∀ i, Orphaned g n i →
      nodeOf (g.RemoveNode n true).m_list_nodes.m_list i = Node.null T ∧
      (g.RemoveNode n true).m_list_nodes.GetValid i = false) ∧
    (∀ i, ¬ Orphaned g n i →
      (g.RemoveNode n true).m_list_nodes.GetValid i = g.m_list_nodes.GetValid i ∧
      (nodeOf (g.RemoveNode n true).m_list_nodes.m_list i).value =
        (nodeOf g.m_list_nodes.m_list i).value ∧
      (nodeOf (g.RemoveNode n true).m_list_nodes.m_list i).valid =
        (nodeOf g.m_list_nodes.m_list i).valid ∧
      (nodeOf (g.RemoveNode n true).m_list_nodes.m_list i).outputs =
        eraseAll (nodeOf g.m_list_nodes.m_list i).outputs n ∧
      (nodeOf (g.RemoveNode n true).m_list_nodes.m_list i).inputs =
        (nodeOf g.m_list_nodes.m_list i).inputs.filter
          (fun a => decide (a ∈ (nodeOf (g.RemoveNode n true).m_list_nodes.m_list i).inputs)) ∧
      (∀ a ∈ (nodeOf g.m_list_nodes.m_list i).inputs,
        a ∈ (nodeOf (g.RemoveNode n true).m_list_nodes.m_list i).inputs ↔
          ¬ Orphaned g n a)) := by
  obtain ⟨ref, href⟩ : ∃ ref : Obs T, ref = ((g.obs.node n).inputs.foldl
      (fun s input =>
        s.modify input (fun m => { m with outputs := eraseAll m.outputs n })) g.obs).modify
      n (fun m => { m with inputs := [] }) := ⟨_, rfl⟩
  have hnode : ∀ j, ref.node j =
      { nodeOf g.m_list_nodes.m_list j with
        inputs := if j = n then [] else (nodeOf g.m_list_nodes.m_list j).inputs
        outputs := eraseAll (nodeOf g.m_list_nodes.m_list j).outputs n } := by
    intro j
    rw [href]
    exact node_detached g hinv hac n j
  have hvalid : ∀ j, ref.valid j = g.m_list_nodes.GetValid j := by
    intro j
    rw [href, Obs.valid_modify]
    exact (Obs.obs_foldl_modify (fun m : Node T => { m with outputs := eraseAll m.outputs n })
      (fun m => by simp [eraseAll, List.filter_filter]) _ _).2 j
  have hin : ∀ j, (ref.node j).inputs =
      if j = n then [] else (nodeOf g.m_list_nodes.m_list j).inputs := by
    intro j; rw [hnode]
  have hout : ∀ j, (ref.node j).outputs = eraseAll (nodeOf g.m_list_nodes.m_list j).outputs n := by
    intro j; rw [hnode]
  have hsym : ∀ a b, b ∈ (ref.node a).outputs ↔ a ∈ (ref.node b).inputs := by
    intro a b
    rw [hout, hin, mem_eraseAll]
    by_cases hb : b = n
    · simp [hb]
    · rw [if_neg hb, mem_inputs_iff g hinv]
      simp [hb]
  have hedge : ∀ a b, b ∈ (ref.node a).outputs → Edge g.m_list_nodes.m_list a b := by
    intro a b h
    rw [hout, mem_eraseAll] at h
    exact h.1
  have hac2 : ∀ a, ¬ Relation.TransGen (fun a b => b ∈ (ref.node a).outputs) a a := by
    intro a h
    exact hac a (Relation.TransGen.mono hedge h)
  have hR : ∀ m, (ref.node m).inputs ≠ [] → (∀ a ∈ (ref.node m).inputs, Orphaned g n a) →
      Orphaned g n m := by
    intro m h1 h2
    rw [hin] at h1 h2
    by_cases hm : m = n
    · rw [if_pos hm] at h1
      exact absurd rfl h1
    · rw [if_neg hm] at h1 h2
      exact Orphaned.step m h1 h2
  have hN : ∀ a b, b ∈ (ref.node a).outputs → b < g.m_list_nodes.m_list.length := by
    intro a b h
    exact adjOf_lt g hinv a b (List.mem_append_right _ (hedge a b h))
  have hinit : Obs.Cascade ref ref (Orphaned g n) (fun _ => False) (fun p => p = n) := by
    refine ⟨fun _ h => absurd h id, fun m _ => ⟨rfl, rfl⟩, ?_, ?_, fun _ _ _ h => h, ?_, ?_,
      fun _ _ _ h => h⟩
    · intro m
      symm
      rw [List.filter_eq_self]
      intro a ha
      simpa using ha
    · intro m _ a ha hna
      exact absurd ha hna
    · intro y hy
      rcases hy with h | h
      · exact absurd h id
      · rw [h]; exact Orphaned.root
    · intro p hp
      rw [hp, hin, if_pos rfl]
      exact ⟨rfl, id⟩
  obtain ⟨D, hc, _, hDn, _⟩ := Obs.cascade_removeNode ref (Orphaned g n)
    g.m_list_nodes.m_list.length hsym hac2 hR hN (g.m_list_nodes.m_list.length + 1) ref
    (fun _ => False) (fun p => p = n) n hinit rfl (fun p hp => Or.inl hp)
    (by
      have : ((Finset.range g.m_list_nodes.m_list.length).filter
          (fun b => Relation.TransGen (fun a b => b ∈ (ref.node a).outputs) n b)).card ≤
          (Finset.range g.m_list_nodes.m_list.length).card := Finset.card_filter_le _ _
      rw [Finset.card_range] at this
      omega)
  obtain ⟨c1, c2, c3, c4, c5, c6, _, c8⟩ := hc
  obtain ⟨t1, t2⟩ := obs_removeNode (g.m_list_nodes.m_list.length + 1) g n true
    (tidy_of_inv g hinv)
  have hobs : (g.RemoveNode n true).obs =
      Obs.removeNode (g.m_list_nodes.m_list.length + 1) ref n true := by
    rw [href, ← Obs.removeNode_top]
    exact t2
  have hN2 : ∀ i, nodeOf (g.RemoveNode n true).m_list_nodes.m_list i =
      (Obs.removeNode (g.m_list_nodes.m_list.length + 1) ref n true).node i := by
    intro i
    rw [← hobs]
    rfl
  have hV2 : ∀ i, (g.RemoveNode n true).m_list_nodes.GetValid i =
      (Obs.removeNode (g.m_list_nodes.m_list.length + 1) ref n true).valid i := by
    intro i
    rw [← hobs]
    rfl
  have hDR : ∀ y, D y ↔ Orphaned g n y := by
    intro y
    constructor
    · intro h
      exact c6 y (Or.inl h)
    · intro h
      induction h with
      | root => exact hDn
      | step m h1 _ ih =>
        by_contra hm
        have hmn : m ≠ n := fun e => hm (e ▸ hDn)
        have hrin : (ref.node m).inputs = (nodeOf g.m_list_nodes.m_list m).inputs := by
          rw [hin, if_neg hmn]
        have hne := c8 m hm (fun hp => hmn hp.1) (by rw [hrin]; exact h1)
        obtain ⟨a, ha⟩ := List.exists_mem_of_ne_nil _ hne
        have har : a ∈ (ref.node m).inputs := by
          have := c3 m
          rw [this] at ha
          exact (List.mem_filter.1 ha).1
        rw [hrin] at har
        exact c5 m a ha (ih a har)
  refine ⟨t1, ?_, ?_⟩
  · intro i hi
    rw [hN2, hV2]
    exact c1 i ((hDR i).2 hi)
  · intro i hi
    have hDi : ¬ D i := fun h => hi ((hDR i).1 h)
    have hine : i ≠ n := fun e => hDi (e ▸ hDn)
    obtain ⟨v1, v2⟩ := c2 i hDi
    have hrin : (ref.node i).inputs = (nodeOf g.m_list_nodes.m_list i).inputs := by
      rw [hin, if_neg hine]
    rw [hV2, hN2]
    refine ⟨by rw [v1, hvalid], ?_, ?_, ?_, ?_, ?_⟩
    · rw [v2, hnode]
    · rw [v2, hnode]
    · rw [v2, hnode]
    · have := c3 i
      rw [hrin] at this
      exact this
    · intro a ha
      constructor
      · intro h hO
        exact c5 i a h ((hDR a).2 hO)
      · intro hO
        by_contra hna
        rcases c4 i hDi a (by rw [hrin]; exact ha) hna with h | h
        · exact hO ((hDR a).1 h)
        · exact h.2 h.1

end Graph

end ks

namespace ks

namespace Graph

variable {T : Type} [Inhabited T]

theorem valid_of_mem_inputs (g : Graph T) (hinv : g.Inv) (i a : Nat)
    (h : a ∈ (nodeOf g.m_list_nodes.m_list i).inputs) :
    (nodeOf g.m_list_nodes.m_list a).valid = true :=
  hinv.2.2.2.1 a (valid_of_adjOf g hinv i a (List.mem_append_left _ h))

theorem valid_of_mem_outputs (g : Graph T) (hinv : g.Inv) (i a : Nat)
    (h : a ∈ (nodeOf g.m_list_nodes.m_list i).outputs) :
    (nodeOf g.m_list_nodes.m_list a).valid = true :=
  hinv.2.2.2.1 a (valid_of_adjOf g hinv i a (List.mem_append_right _ h))

/-- What `removeNode` computes for `RemoveNode(n,true)`, on every acyclic graph that satisfies
the representation invariant and every valid node `n`: exactly the smallest set that contains
`n` and every node that has at least one input and all of whose inputs are in the set
(`Orphaned g n`) is removed: a node is valid afterwards if and only if it was valid and is not
in that set, and a node that stays valid keeps its value and keeps, in their old order,
exactly those entries of its inputs and outputs that are still valid nodes.  This is a
statement about the source wherever the call keeps every access inside the vectors. -/
theorem removeNode_removes_exactly_the_orphans (g : Graph T) (n : Nat) (hinv : g.Inv)
    (hac : g.Acyclic) (hn : (g.GetNode n).valid = true) :
    ((g.RemoveNode n true).GetNode n).valid = false ∧
    (∀ i, ((g.RemoveNode n true).GetNode i).valid = true ↔
      ((g.GetNode i).valid = true ∧ ¬ Orphaned g n i)) ∧
    (∀ i, ((g.RemoveNode n true).GetNode i).valid = true →
      ((g.RemoveNode n true).GetNode i).value = (g.GetNode i).value ∧
      ((g.RemoveNode n true).GetNode i).inputs =
        (g.GetNode i).inputs.filter (fun a => ((g.RemoveNode n true).GetNode a).valid) ∧
      ((g.RemoveNode n true).GetNode i).outputs =
        (g.GetNode i).outputs.filter (fun a => ((g.RemoveNode n true).GetNode a).valid)) := by
  obtain ⟨t1, h1, h2⟩ := RemoveNode_true_spec g n hinv hac
  have hG : ∀ i, (g.RemoveNode n true).GetNode i =
      nodeOf (g.RemoveNode n true).m_list_nodes.m_list i :=
    fun i => GetNode_eq_nodeOf _ t1.2.2 i
  have hG0 : ∀ i, g.GetNode i = nodeOf g.m_list_nodes.m_list i :=
    fun i => GetNode_eq_nodeOf g hinv.2.1 i
  have hval : ∀ i, ((g.RemoveNode n true).GetNode i).valid = true ↔
      ((g.GetNode i).valid = true ∧ ¬ Orphaned g n i) := by
    intro i
    rw [hG, hG0]
    constructor
    · intro h
      have hO : ¬ Orphaned g n i := by
        intro hO
        rw [(h1 i hO).1] at h
        exact Bool.noConfusion h
      exact ⟨by rw [← (h2 i hO).2.2.1]; exact h, hO⟩
    · rintro ⟨h, hO⟩
      rw [(h2 i hO).2.2.1]
      exact h
  refine ⟨?_, hval, ?_⟩
  · have := hn
    rw [hG, (h1 n Orphaned.root).1]
    rfl
  · intro i hi
    have hO : ¬ Orphaned g n i := ((hval i).1 hi).2
    obtain ⟨_, v2, _, v4, v5, v6⟩ := h2 i hO
    rw [hG, hG0]
    refine ⟨v2, ?_, ?_⟩
    · rw [v5]
      apply List.filter_congr
      intro a ha
      have hav : (g.GetNode a).valid = true := by
        rw [hG0]; exact valid_of_mem_inputs g hinv i a ha
      by_cases hOa : Orphaned g n a
      · have e1 : ((g.RemoveNode n true).GetNode a).valid = false := by
          rw [hG, (h1 a hOa).1]; rfl
        have e2 : a ∉ (nodeOf (g.RemoveNode n true).m_list_nodes.m_list i).inputs :=
          fun h => (v6 a ha).1 h hOa
        rw [e1]
        simpa using e2
      · have e1 : ((g.RemoveNode n true).GetNode a).valid = true := (hval a).2 ⟨hav, hOa⟩
        have e2 : a ∈ (nodeOf (g.RemoveNode n true).m_list_nodes.m_list i).inputs :=
          (v6 a ha).2 hOa
        rw [e1]
        simpa using e2
    · rw [v4]
      unfold eraseAll
      apply List.filter_congr
      intro o ho
      have hov : (g.GetNode o).valid = true := by
        rw [hG0]; exact valid_of_mem_outputs g hinv i o ho
      by_cases hon : o = n
      · have e1 : ((g.RemoveNode n true).GetNode o).valid = false := by
          rw [hon, hG, (h1 n Orphaned.root).1]; rfl
        rw [e1]
        simp [hon]
      · have hOo : ¬ Orphaned g n o := by
          intro hOo
          cases hOo with
          | root => exact hon rfl
          | step _ _ hall => exact hO (hall i ((mem_inputs_iff g hinv i o).2 ho))
        have e1 : ((g.RemoveNode n true).GetNode o).valid = true := (hval o).2 ⟨hov, hOo⟩
        rw [e1]
        simp [hon]

theorem network_inv : network.Inv :=
  inv_addEdges _ _ (inv_addNodes _ _ inv_empty) (by decide)

theorem nodeChain_acyclic : nodeChain.Acyclic :=
  acyclic_of_rank nodeChain (fun i => i) (by decide)

theorem network_acyclic : network.Acyclic :=
  acyclic_of_rank network (fun i => [0, 2, 1, 3, 4, 4].getD i 0) (by decide)

theorem removeNode_removes_exactly_the_orphans_test :
    (List.range 6).map (fun i => ((nodeChain.RemoveNode 2 true).GetNode i).valid) =
      [true, true, false, false, false, false] ∧
    (List.range 6).map (fun i => ((network.RemoveNode 1 true).GetNode i).valid) =
      [true, false, true, true, true, true] ∧
    (List.range 6).map
        (fun i => (((network.RemoveNode 1 true).RemoveNode 2 true).GetNode i).valid) =
      [true, false, false, false, false, false] ∧
    (((network.RemoveNode 1 true).GetNode 1).valid = false ∧
      (∀ i, ((network.RemoveNode 1 true).GetNode i).valid = true ↔
        ((network.GetNode i).valid = true ∧ ¬ Orphaned network 1 i)) ∧
      (∀ i, ((network.RemoveNode 1 true).GetNode i).valid = true →
        ((network.RemoveNode 1 true).GetNode i).value = (network.GetNode i).value ∧
        ((network.RemoveNode 1 true).GetNode i).inputs =
          (network.GetNode i).inputs.filter
            (fun a => ((network.RemoveNode 1 true).GetNode a).valid) ∧
        ((network.RemoveNode 1 true).GetNode i).outputs =
          (network.GetNode i).outputs.filter
            (fun a => ((network.RemoveNode 1 true).GetNode a).valid))) :=
  ⟨by decide, by decide, by decide,
    removeNode_removes_exactly_the_orphans network 1 network_inv network_acyclic (by decide)⟩

end Graph

end ks

/-! ## Steady-state and nested evaluation -/

namespace ks

variable {T : Type}

/-- C28 (counterexample): `area = width * height` is validated and holds 50; a steady-state
evaluation that recomputes the same value 50, run directly or triggered by `width.Assign(5)`,
fires the notifier of `area` with 50 although the stored value did not change. -/
theorem steady_state_notifies_unchanged_value :
    areaWorld.value 2 = 50 ∧ (areaWorld.props 2).m_binding_init = true ∧
    (evaluate areaWorld 2).value 2 = 50 ∧
    notificationsOf 2 (evaluate areaWorld 2).trace = notificationsOf 2 areaWorld.trace ++ [50] ∧
    (Assign areaWorld 0 5).value 2 = 50 ∧
    notificationsOf 2 (Assign areaWorld 0 5).trace =
      notificationsOf 2 areaWorld.trace ++ [50] := by
  decide

/-- C28 (amended): in a steady-state evaluation (binding `f` installed and validated) the
binding is re-run against the current values and its result is stored, and the notifier, if one
is installed, is fired exactly once with the stored value, whether or not that value differs
from the previous one. -/
theorem steady_state_stores_and_notifies (w : World T) (p : Nat) (f : BindingFn T)
    (hb : (w.props p).m_binding = some f) (hi : (w.props p).m_binding_init = true) :
    (evaluate w p).value p = evalPure f w.value ∧
    (evaluate w p).trace = w.trace ++ .evaluated p ::
      (if (w.props p).m_notifier then [.notified p (evalPure f w.value)] else []) ∧
    notificationsOf p (evaluate w p).trace = notificationsOf p w.trace ++
      (if (w.props p).m_notifier then [evalPure f w.value] else []) := by
  have hn : (((stepsOf f w.value).foldl stepWorld (w.log (.evaluated p))).props p).m_notifier =
      (w.props p).m_notifier :=
    (sameCore_foldl_stepWorld (stepsOf f w.value) (w.log (.evaluated p))).notifier p
  have htr : (evaluate w p).trace = w.trace ++ .evaluated p ::
      (if (w.props p).m_notifier then [.notified p (evalPure f w.value)] else []) := by
    rw [evaluate_steady w p f hb hi, trace_notify]
    simp only [props_modify, if_true, hn, trace_modify, trace_foldl_stepWorld, trace_log,
      World.value]
    split <;> simp
  refine ⟨?_, htr, ?_⟩
  · rw [evaluate_steady w p f hb hi]
    simp [World.value]
  · rw [htr]
    unfold notificationsOf
    split <;> simp [List.filterMap_append]

/-- C28 (amended), on the area scenario: re-evaluating `area` stores 50 again and fires its
notifier with 50. -/
theorem steady_state_stores_and_notifies_area :
    (areaWorld.props 2).m_binding = some areaFn ∧ (areaWorld.props 2).m_binding_init = true ∧
    ((evaluate areaWorld 2).value 2 = evalPure areaFn areaWorld.value ∧
      (evaluate areaWorld 2).trace = areaWorld.trace ++ .evaluated 2 ::
        (if (areaWorld.props 2).m_notifier then [.notified 2 (evalPure areaFn areaWorld.value)]
          else []) ∧
      notificationsOf 2 (evaluate areaWorld 2).trace = notificationsOf 2 areaWorld.trace ++
        (if (areaWorld.props 2).m_notifier then [evalPure areaFn areaWorld.value] else [])) ∧
    evalPure areaFn areaWorld.value = 50 ∧ (areaWorld.props 2).m_notifier = true :=
  ⟨rfl, rfl, steady_state_stores_and_notifies areaWorld 2 areaFn rfl rfl, by decide, by decide⟩

/-- C30: a steady-state evaluation of a validated property `p`, run while no capturing
evaluation is in progress, adds and removes no edge: the input list and the output list of
every property (those of `p` included) are the same before and after, whatever properties this
run of the binding reads. -/
theorem steady_state_evaluation_keeps_edges (w : World T) (p : Nat) (f : BindingFn T)
    (hc : w.current = none) (hb : (w.props p).m_binding = some f)
    (hi : (w.props p).m_binding_init = true) :
    (∀ q, (evaluate w p).inputs q = w.inputs q) ∧
    (∀ q, (evaluate w p).outputs q = w.outputs q) := by
  rw [evaluate_idle w p f hc hb hi]
  constructor <;> intro q <;> simp

/-- C30, on the graph with the conditionally read dependency: after `a.Assign(10)` the
binding `a > 5 ? q : 0` of `p` (property 2) reads `q` (property 1), which it did not read
during its capturing run; re-evaluating `p` leaves every edge list as it was, and `q` is still
not an input of `p`. -/
theorem steady_state_evaluation_keeps_edges_cond :
    (Assign condWorld 0 10).current = none ∧
    ((Assign condWorld 0 10).props 2).m_binding = some condFn ∧
    ((Assign condWorld 0 10).props 2).m_binding_init = true ∧
    ((∀ q, (evaluate (Assign condWorld 0 10) 2).inputs q = (Assign condWorld 0 10).inputs q) ∧
      (∀ q, (evaluate (Assign condWorld 0 10) 2).outputs q =
        (Assign condWorld 0 10).outputs q)) ∧
    readsOf condFn condWorld.value = [0] ∧
    readsOf condFn (Assign condWorld 0 10).value = [0, 1] ∧
    (evaluate (Assign condWorld 0 10) 2).inputs 2 = [0] :=
  ⟨by decide, rfl, rfl,
    steady_state_evaluation_keeps_edges (Assign condWorld 0 10) 2 condFn (by decide) rfl rfl,
    by decide, by decide, by decide⟩

end ks

/-! ## `RecycleIndexList`: sequences of `Add` and `Remove` -/

namespace ks

namespace RecycleIndexList

variable {α : Type}

/-- A list whose three vectors are empty satisfies the invariant, whatever its counter. -/
theorem inv_empty_list (m_count : Nat) :
    ({ m_count := m_count, m_list := [], m_list_valid := [], m_list_avail := [] } :
      RecycleIndexList α).Inv := by
  refine ⟨⟨rfl, List.Pairwise.nil, ?_, ?_⟩, ?_⟩
  · intro i hi; exact absurd hi (List.not_mem_nil i)
  · intro i hi; exact absurd hi (Nat.not_lt_zero i)
  · simp

theorem listInv_step (dflt : α) (l : RecycleIndexList α) (c : ListCall α) (hinv : l.Inv)
    (hc : CallsOk dflt l [c]) : (l.step dflt c).Inv := by
  cases c with
  | add val =>
    obtain ⟨a1, a2, _⟩ := Add_spec l val hinv.1
    exact ⟨a1, a2 hinv.2⟩
  | remove index => exact (Remove_spec l dflt index hinv.1 hc.1).1
  | clear => exact inv_empty_list l.m_count

/-- Every admissible sequence of calls keeps the representation invariant. -/
theorem listInv_foldl_step (dflt : α) (calls : List (ListCall α)) :
    ∀ l : RecycleIndexList α, l.Inv → CallsOk dflt l calls →
      (calls.foldl (step dflt) l).Inv := by
  induction calls with
  | nil => intro l h _; exact h
  | cons c rest ih =>
    intro l h hok
    rw [List.foldl_cons]
    cases c with
    | add val => exact ih _ (listInv_step dflt l (.add val) h trivial) hok
    | remove index => exact ih _ (listInv_step dflt l (.remove index) h ⟨hok.1, trivial⟩) hok.2
    | clear => exact ih _ (listInv_step dflt l .clear h trivial) hok

theorem listInv_run (dflt : α) (calls : List (ListCall α)) (hok : CallsOk dflt empty calls) :
    (run dflt calls).Inv :=
  listInv_foldl_step dflt calls empty (inv_empty_list 0) hok

/-- In a consistent list a free slot exists exactly when `m_list_avail` is not empty. -/
theorem avail_ne_nil_iff (l : RecycleIndexList α) (hs : l.Sound) :
    l.m_list_avail ≠ [] ↔ ∃ j, j < l.m_list.length ∧ l.GetValid j = false := by
  obtain ⟨_, _, h3, h4⟩ := hs
  constructor
  · intro h
    exact ⟨_, h3 _ (getLastD_mem _ h)⟩
  · rintro ⟨j, hj, hv⟩ h
    have := h4 j hj hv
    rw [h] at this
    exact absurd this (List.not_mem_nil j)

theorem length_Add (l : RecycleIndexList α) (val : α) :
    (l.Add val).2.m_list.length =
      if l.m_list_avail = [] then l.m_list.length + 1 else l.m_list.length := by
  by_cases h : l.m_list_avail = [] <;> simp [Add, h]

end RecycleIndexList

end ks

/-! ## `RecycleIndexList::Add`, `PeekNextIndex` and the invariant of the free list -/

namespace ks

namespace RecycleIndexList

variable {α : Type}

/-- C25: in every state reached by `Add`, `Remove` (of valid indices) and `Clear`, `Add(v)`
returns an index `i` that is valid afterwards and whose slot holds `v`; every other slot keeps
its flag and its value; if no slot is free, `i` is the previous length and the list grows by
one; if a slot is free, `i` is a free slot and the length does not change. -/
theorem add_fills_returned_index (dflt : α) (calls : List (ListCall α))
    (hok : CallsOk dflt empty calls) (v : α) :
    ((run dflt calls).Add v).2.GetValid ((run dflt calls).Add v).1 = true ∧
    ((run dflt calls).Add v).2.m_list[((run dflt calls).Add v).1]? = some v ∧
    (∀ j, j ≠ ((run dflt calls).Add v).1 →
      ((run dflt calls).Add v).2.GetValid j = (run dflt calls).GetValid j ∧
      ((run dflt calls).Add v).2.m_list[j]? = (run dflt calls).m_list[j]?) ∧
    ((∀ j, j < (run dflt calls).m_list.length → (run dflt calls).GetValid j = true) →
      ((run dflt calls).Add v).1 = (run dflt calls).m_list.length ∧
      ((run dflt calls).Add v).2.m_list.length = (run dflt calls).m_list.length + 1) ∧
    ((∃ j, j < (run dflt calls).m_list.length ∧ (run dflt calls).GetValid j = false) →
      ((run dflt calls).Add v).1 < (run dflt calls).m_list.length ∧
      (run dflt calls).GetValid ((run dflt calls).Add v).1 = false ∧
      ((run dflt calls).Add v).2.m_list.length = (run dflt calls).m_list.length) := by
  have hs := (listInv_run dflt calls hok).1
  obtain ⟨l, hl⟩ : ∃ l, run dflt calls = l := ⟨_, rfl⟩
  rw [hl] at hs ⊢
  obtain ⟨_, _, a3, a4, a5, _, a7, a8⟩ := Add_spec l v hs
  have hfree := avail_ne_nil_iff l hs
  refine ⟨?_, ?_, ?_, ?_, ?_⟩
  · rw [a8]; simp
  · rw [a7]; simp
  · intro j hj
    rw [a8, a7, if_neg hj, if_neg hj]
    exact ⟨rfl, rfl⟩
  · intro hall
    have hemp : l.m_list_avail = [] := by
      by_contra hne
      obtain ⟨j, hj, hv⟩ := hfree.1 hne
      rw [hall j hj] at hv
      exact Bool.noConfusion hv
    refine ⟨?_, ?_⟩
    · rw [a3]; simp [PeekNextIndex, hemp]
    · rw [length_Add, if_pos hemp]
  · intro hex
    have hne : l.m_list_avail ≠ [] := hfree.2 hex
    refine ⟨?_, a4, ?_⟩
    · have := hs.2.2.1 _ (getLastD_mem _ hne)
      rw [a3]
      simpa [PeekNextIndex, hne] using this.1
    · rw [length_Add, if_neg hne]

/-- C25, on the test "Recycle": after `a` to `e` and `Remove(0)`, `Add("x")` returns the free
index 0 and the list is `x, b, c, d, e`; on the full list `a` to `e` it returns 5. -/
theorem add_fills_returned_index_recycle :
    CallsOk "" empty recycleCalls ∧
    (((run "" recycleCalls).Add "x").2.GetValid ((run "" recycleCalls).Add "x").1 = true ∧
    ((run "" recycleCalls).Add "x").2.m_list[((run "" recycleCalls).Add "x").1]? = some "x" ∧
    (∀ j, j ≠ ((run "" recycleCalls).Add "x").1 →
      ((run "" recycleCalls).Add "x").2.GetValid j = (run "" recycleCalls).GetValid j ∧
      ((run "" recycleCalls).Add "x").2.m_list[j]? = (run "" recycleCalls).m_list[j]?) ∧
    ((∀ j, j < (run "" recycleCalls).m_list.length → (run "" recycleCalls).GetValid j = true) →
      ((run "" recycleCalls).Add "x").1 = (run "" recycleCalls).m_list.length ∧
      ((run "" recycleCalls).Add "x").2.m_list.length =
        (run "" recycleCalls).m_list.length + 1) ∧
    ((∃ j, j < (run "" recycleCalls).m_list.length ∧ (run "" recycleCalls).GetValid j = false) →
      ((run "" recycleCalls).Add "x").1 < (run "" recycleCalls).m_list.length ∧
      (run "" recycleCalls).GetValid ((run "" recycleCalls).Add "x").1 = false ∧
      ((run "" recycleCalls).Add "x").2.m_list.length = (run "" recycleCalls).m_list.length)) ∧
    ((run "" recycleCalls).Add "x").1 = 0 ∧
    ((run "" recycleCalls).Add "x").2.m_list = ["x", "b", "c", "d", "e"] ∧
    ((run "" (recycleCalls.take 5)).Add "x").1 = 5 :=
  ⟨by simp only [recycleCalls, CallsOk]; decide,
    add_fills_returned_index "" recycleCalls (by simp only [recycleCalls, CallsOk]; decide) "x",
    by decide, by decide, by decide⟩

/-- C26: after every sequence of `Add` and `Remove` calls (and of `Clear` calls) in which
`Remove` is only called with a currently valid index, the list of available indices is
strictly ascending and holds exactly the indices below the length of the list whose slot is
not valid, there is one flag per slot, and the list is empty or its last slot is valid. -/
theorem avail_lists_exactly_the_free_slots (dflt : α) (calls : List (ListCall α))
    (hok : CallsOk dflt empty calls) :
    (run dflt calls).m_list_avail.Pairwise (fun a b => a < b) ∧
    (∀ i, i ∈ (run dflt calls).m_list_avail ↔
      (i < (run dflt calls).m_list.length ∧ (run dflt calls).GetValid i = false)) ∧
    (run dflt calls).m_list_valid.length = (run dflt calls).m_list.length ∧
    ((run dflt calls).m_list = [] ∨
      (run dflt calls).GetValid ((run dflt calls).m_list.length - 1) = true) := by
  obtain ⟨⟨h1, h2, h3, h4⟩, h5⟩ := listInv_run dflt calls hok
  obtain ⟨l, hl⟩ : ∃ l, run dflt calls = l := ⟨_, rfl⟩
  rw [hl] at h1 h2 h3 h4 h5 ⊢
  refine ⟨h2, fun i => ⟨h3 i, fun h => h4 i h.1 h.2⟩, h1, ?_⟩
  by_cases hemp : l.m_list = []
  · exact Or.inl hemp
  · right
    have hlen : 0 < l.m_list.length := List.length_pos.2 hemp
    rw [List.getLast?_eq_getElem?, h1] at h5
    have hlt : l.m_list.length - 1 < l.m_list_valid.length := by omega
    rw [List.getElem?_eq_getElem hlt] at h5
    simp only [GetValid, List.getD_eq_getElem?_getD, List.getElem?_eq_getElem hlt,
      Option.getD_some]
    simp only [k_invalid, ne_eq, Option.some.injEq] at h5
    simpa using h5

/-- C26, on the test "Remove": from `a, b, c, d, e`, `Remove(1)` and `Remove(3)` give the
available list `[1, 3]`; `Remove(4)` then trims the list to length 3 and leaves `[1]`. -/
theorem avail_lists_exactly_the_free_slots_test :
    CallsOk "" empty (removeCalls ++ [.remove 4]) ∧
    ((run "" (removeCalls ++ [.remove 4])).m_list_avail.Pairwise (fun a b => a < b) ∧
    (∀ i, i ∈ (run "" (removeCalls ++ [.remove 4])).m_list_avail ↔
      (i < (run "" (removeCalls ++ [.remove 4])).m_list.length ∧
        (run "" (removeCalls ++ [.remove 4])).GetValid i = false)) ∧
    (run "" (removeCalls ++ [.remove 4])).m_list_valid.length =
      (run "" (removeCalls ++ [.remove 4])).m_list.length ∧
    ((run "" (removeCalls ++ [.remove 4])).m_list = [] ∨
      (run "" (removeCalls ++ [.remove 4])).GetValid
        ((run "" (removeCalls ++ [.remove 4])).m_list.length - 1) = true)) ∧
    (run "" removeCalls).m_list_avail = [1, 3] ∧
    (run "" removeCalls).m_list.length = 5 ∧
    (run "" (removeCalls ++ [.remove 4])).m_list_avail = [1] ∧
    (run "" (removeCalls ++ [.remove 4])).m_list = ["a", "", "c"] :=
  ⟨by simp only [removeCalls, List.cons_append, List.nil_append, CallsOk]; decide,
    avail_lists_exactly_the_free_slots "" (removeCalls ++ [.remove 4])
      (by simp only [removeCalls, List.cons_append, List.nil_append, CallsOk]; decide),
    by decide, by decide, by decide, by decide⟩

/-- C27: in every state reached by `Add`, `Remove` (of valid indices) and `Clear`,
`PeekNextIndex()`, a function of the state that returns no new state, yields the largest free
index if a slot is free and the length of the list otherwise, and `Add(v)` called next returns
exactly that index. -/
theorem peekNextIndex_announces_add (dflt : α) (calls : List (ListCall α))
    (hok : CallsOk dflt empty calls) (v : α) :
    ((∃ j, j < (run dflt calls).m_list.length ∧ (run dflt calls).GetValid j = false) →
      (run dflt calls).PeekNextIndex < (run dflt calls).m_list.length ∧
      (run dflt calls).GetValid (run dflt calls).PeekNextIndex = false ∧
      ∀ j, j < (run dflt calls).m_list.length → (run dflt calls).GetValid j = false →
        j ≤ (run dflt calls).PeekNextIndex) ∧
    ((∀ j, j < (run dflt calls).m_list.length → (run dflt calls).GetValid j = true) →
      (run dflt calls).PeekNextIndex = (run dflt calls).m_list.length) ∧
    ((run dflt calls).Add v).1 = (run dflt calls).PeekNextIndex := by
  have hs := (listInv_run dflt calls hok).1
  obtain ⟨l, hl⟩ : ∃ l, run dflt calls = l := ⟨_, rfl⟩
  rw [hl] at hs ⊢
  have hfree := avail_ne_nil_iff l hs
  obtain ⟨_, h2, h3, h4⟩ := hs
  refine ⟨?_, ?_, ?_⟩
  · intro hex
    have hne : l.m_list_avail ≠ [] := hfree.2 hex
    have hp : l.PeekNextIndex = l.m_list_avail.getLastD 0 := by simp [PeekNextIndex, hne]
    have hm := h3 _ (getLastD_mem _ hne)
    rw [hp]
    exact ⟨hm.1, hm.2, fun j hj hv => le_getLast_of_pairwise _ h2 j (h4 j hj hv)⟩
  · intro hall
    have hemp : l.m_list_avail = [] := by
      by_contra hne
      obtain ⟨j, hj, hv⟩ := hfree.1 hne
      rw [hall j hj] at hv
      exact Bool.noConfusion hv
    simp [PeekNextIndex, hemp]
  · by_cases hemp : l.m_list_avail = [] <;> simp [Add, PeekNextIndex, hemp]

/-- C27, on the test "Peek next index": after adding five items `PeekNextIndex()` is 5; after
`Remove(1)` and `Remove(2)` it is 2, and the next `Add` returns 2. -/
theorem peekNextIndex_announces_add_test :
    CallsOk "" empty peekCalls ∧
    (((∃ j, j < (run "" peekCalls).m_list.length ∧ (run "" peekCalls).GetValid j = false) →
      (run "" peekCalls).PeekNextIndex < (run "" peekCalls).m_list.length ∧
      (run "" peekCalls).GetValid (run "" peekCalls).PeekNextIndex = false ∧
      ∀ j, j < (run "" peekCalls).m_list.length → (run "" peekCalls).GetValid j = false →
        j ≤ (run "" peekCalls).PeekNextIndex) ∧
    ((∀ j, j < (run "" peekCalls).m_list.length → (run "" peekCalls).GetValid j = true) →
      (run "" peekCalls).PeekNextIndex = (run "" peekCalls).m_list.length) ∧
    ((run "" peekCalls).Add "x").1 = (run "" peekCalls).PeekNextIndex) ∧
    (run "" (peekCalls.take 5)).PeekNextIndex = 5 ∧
    (run "" peekCalls).PeekNextIndex = 2 ∧
    ((run "" peekCalls).Add "x").1 = 2 :=
  ⟨by simp only [peekCalls, CallsOk]; decide,
    peekNextIndex_announces_add "" peekCalls (by simp only [peekCalls, CallsOk]; decide) "x",
    by decide, by decide, by decide⟩

end RecycleIndexList

end ks

/-! ## `RangeAllocator::listAvailOrderedInsert` -/

namespace ks

namespace RangeAllocator

theorem u32_of_lt (n : Nat) (h : n < 4294967296) : u32 n = n := Nat.mod_eq_of_lt h

theorem upperBound_append (l1 l2 : List Range) (h : Range)
    (h1 : ∀ e ∈ l1, ¬ h.start < e.start) :
    upperBound (l1 ++ l2) h = l1.length + upperBound l2 h := by
  induction l1 with
  | nil => simp [upperBound]
  | cons a t ih =>
    have ha : ¬ h.start < a.start := h1 a (List.mem_cons_self a t)
    have := ih (fun e he => h1 e (List.mem_cons_of_mem a he))
    simp only [upperBound] at this ⊢
    simp only [List.cons_append, List.findIdx_cons, ha, decide_False, cond_false, this,
      List.length_cons]
    omega

theorem upperBound_cons_lt (n : Range) (t : List Range) (h : Range) (hn : h.start < n.start) :
    upperBound (n :: t) h = 0 := by
  simp [upperBound, List.findIdx_cons, hn]

theorem upperBound_nil (h : Range) : upperBound [] h = 0 := rfl

theorem insert_nil (h : Range) : listAvailOrderedInsert [] h = [h] := rfl

theorem insert_front (n : Range) (t : List Range) (h : Range) (hn : h.start < n.start) :
    listAvailOrderedInsert (n :: t) h =
      if n.start = u32 (h.start + h.size) then
        { n with start := h.start, size := u32 (n.size + h.size) } :: t
      else h :: n :: t := by
  simp [listAvailOrderedInsert, upperBound_cons_lt n t h hn]

theorem insert_back (pre : List Range) (p h : Range)
    (hp : ∀ e ∈ pre ++ [p], ¬ h.start < e.start) :
    listAvailOrderedInsert (pre ++ [p]) h =
      if h.start = u32 (p.start + p.size) then
        pre ++ [{ p with size := u32 (p.size + h.size) }]
      else pre ++ [p, h] := by
  have hub : upperBound (pre ++ [p]) h = pre.length + 1 := by
    have := upperBound_append (pre ++ [p]) [] h hp
    simpa [upperBound_nil] using this
  unfold listAvailOrderedInsert
  simp only [hub]
  simp [List.getD_eq_getElem?_getD]

theorem insert_mid (pre : List Range) (p n : Range) (t : List Range) (h : Range)
    (hp : ∀ e ∈ pre ++ [p], ¬ h.start < e.start) (hn : h.start < n.start) :
    listAvailOrderedInsert (pre ++ p :: n :: t) h =
      if h.start = u32 (p.start + p.size) then
        if n.start = u32 (h.start + h.size) then
          pre ++ { p with size := u32 (p.size + u32 (h.size + n.size)) } :: t
        else pre ++ { p with size := u32 (p.size + h.size) } :: n :: t
      else if n.start = u32 (h.start + h.size) then
        pre ++ p :: { n with start := h.start, size := u32 (n.size + h.size) } :: t
      else pre ++ p :: h :: n :: t := by
  have hub : upperBound (pre ++ p :: n :: t) h = pre.length + 1 := by
    have := upperBound_append (pre ++ [p]) (n :: t) h hp
    simpa [upperBound_cons_lt n t h hn] using this
  have g1 : (pre ++ p :: n :: t).getD (pre.length + 1) default = n := by
    rw [List.getD_eq_getElem?_getD, List.getElem?_append_right (by omega)]
    simp
  have g0 : (pre ++ p :: n :: t).getD (pre.length + 1 - 1) default = p := by
    rw [List.getD_eq_getElem?_getD, List.getElem?_append_right (by omega)]
    simp
  have s0 : ∀ x, (pre ++ p :: n :: t).set (pre.length + 1 - 1) x = pre ++ x :: n :: t := by
    intro x
    rw [List.set_append_right _ _ (by omega)]
    simp
  have s1 : ∀ x, (pre ++ p :: n :: t).set (pre.length + 1) x = pre ++ p :: x :: t := by
    intro x
    rw [List.set_append_right _ _ (by omega)]
    simp
  have er : ∀ x, (pre ++ x :: n :: t).eraseIdx (pre.length + 1) = pre ++ x :: t := by
    intro x
    rw [List.eraseIdx_append_of_length_le (by omega)]
    simp
  have tk : (pre ++ p :: n :: t).take (pre.length + 1) = pre ++ [p] := by
    rw [List.take_append_eq_append_take]
    simp
  have dr : (pre ++ p :: n :: t).drop (pre.length + 1) = n :: t := by
    rw [List.drop_append_eq_append_drop]
    simp
  have hne : (pre ++ p :: n :: t).isEmpty = false := by simp
  have hlen : ¬ (pre.length + 1 = (pre ++ p :: n :: t).length) := by simp
  unfold listAvailOrderedInsert
  simp only [hub, g0, g1, s0, s1, er, tk, dr, hne, hlen, if_false, Bool.false_eq_true,
    Nat.add_one_ne_zero, List.append_assoc, List.singleton_append]

end RangeAllocator

end ks

namespace ks

namespace RangeAllocator

theorem split_at_upperBound (L : List Range) (h : Range) :
    L = [] ∨ (∃ n t, L = n :: t ∧ h.start < n.start) ∨
    (∃ pre p, L = pre ++ [p] ∧ ∀ e ∈ pre ++ [p], ¬ h.start < e.start) ∨
    (∃ pre p n t, L = pre ++ p :: n :: t ∧ (∀ e ∈ pre ++ [p], ¬ h.start < e.start) ∧
      h.start < n.start) := by
  induction L with
  | nil => exact Or.inl rfl
  | cons a t ih =>
    right
    by_cases ha : h.start < a.start
    · exact Or.inl ⟨a, t, rfl, ha⟩
    · right
      rcases ih with rfl | ⟨n, t2, rfl, hn⟩ | ⟨pre, p, rfl, hp⟩ | ⟨pre, p, n, t2, rfl, hp, hn⟩
      · exact Or.inl ⟨[], a, rfl, by simpa using ha⟩
      · exact Or.inr ⟨[], a, n, t2, rfl, by simpa using ha, hn⟩
      · refine Or.inl ⟨a :: pre, p, rfl, ?_⟩
        intro e he
        rcases List.mem_cons.1 he with rfl | he
        · exact ha
        · exact hp e he
      · refine Or.inr ⟨a :: pre, p, n, t2, rfl, ?_, hn⟩
        intro e he
        rcases List.mem_cons.1 he with rfl | he
        · exact ha
        · exact hp e he

theorem sizeSum_append (l1 l2 : List Range) : sizeSum (l1 ++ l2) = sizeSum l1 + sizeSum l2 := by
  simp [sizeSum]

theorem sizeSum_cons (r : Range) (l : List Range) : sizeSum (r :: l) = r.size + sizeSum l := by
  simp [sizeSum]

theorem sizeSum_nil : sizeSum [] = 0 := rfl

/-- The list obtained by putting one range `x` between two parts of a gap-separated list
keeps the properties of the list of available ranges. -/
theorem good_of_shape (B : Nat) (L : List Range) (h : Range) (pre0 post0 : List Range)
    (x : Range) (hch : L.Pairwise Range.Before) (hbd : ∀ r ∈ L, r.start + r.size ≤ B)
    (hsub : (pre0 ++ post0).Sublist L)
    (hpre : ∀ a ∈ pre0, a.start + a.size < x.start)
    (hpost : ∀ c ∈ post0, x.start + x.size < c.start)
    (hx : x.start + x.size ≤ B)
    (hsum : sizeSum pre0 + x.size + sizeSum post0 = sizeSum L + h.size)
    (hxk : ∀ k : Range, k.Apart h → (∀ r ∈ L, k.Apart r) → 0 < k.size → k.Apart x)
    (hxb : ∀ b, h.block = some b → (∀ r ∈ L, r.block = some b) → x.block = some b) :
    (pre0 ++ x :: post0).Pairwise Range.Before ∧
    (∀ r ∈ pre0 ++ x :: post0, r.start + r.size ≤ B) ∧
    sizeSum (pre0 ++ x :: post0) = sizeSum L + h.size ∧
    (∀ k : Range, k.Apart h → (∀ r ∈ L, k.Apart r) → 0 < k.size →
      ∀ r ∈ pre0 ++ x :: post0, k.Apart r) ∧
    (∀ b, h.block = some b → (∀ r ∈ L, r.block = some b) →
      ∀ r ∈ pre0 ++ x :: post0, r.block = some b) := by
  have hmem : ∀ r, r ∈ pre0 ++ x :: post0 → r = x ∨ r ∈ L := by
    intro r hr
    rcases List.mem_append.1 hr with hr | hr
    · exact Or.inr (hsub.subset (List.mem_append_left _ hr))
    · rcases List.mem_cons.1 hr with rfl | hr
      · exact Or.inl rfl
      · exact Or.inr (hsub.subset (List.mem_append_right _ hr))
  have hpw := List.pairwise_append.1 (hch.sublist hsub)
  refine ⟨?_, ?_, ?_, ?_, ?_⟩
  · rw [List.pairwise_append]
    refine ⟨hpw.1, List.pairwise_cons.2 ⟨fun c hc => hpost c hc, hpw.2.1⟩, ?_⟩
    intro a ha c hc
    rcases List.mem_cons.1 hc with rfl | hc
    · exact hpre a ha
    · exact hpw.2.2 a ha c hc
  · intro r hr
    rcases hmem r hr with rfl | hr
    · exact hx
    · exact hbd r hr
  · rw [sizeSum_append, sizeSum_cons]
    omega
  · intro k hk1 hk2 hk3 r hr
    rcases hmem r hr with rfl | hr
    · exact hxk k hk1 hk2 hk3
    · exact hk2 r hr
  · intro b hb1 hb2 r hr
    rcases hmem r hr with rfl | hr
    · exact hxb b hb1 hb2
    · exact hb2 r hr

end RangeAllocator

end ks

namespace ks

namespace RangeAllocator

theorem chain_facts_mid (pre : List Range) (p n : Range) (t : List Range)
    (hch : (pre ++ p :: n :: t).Pairwise Range.Before) :
    (∀ a ∈ pre, a.start + a.size < p.start) ∧ p.start + p.size < n.start ∧
    (∀ c ∈ t, n.start + n.size < c.start) := by
  have hpw := List.pairwise_append.1 hch
  have h1 := List.pairwise_cons.1 hpw.2.1
  have h2 := List.pairwise_cons.1 h1.2
  exact ⟨fun a ha => hpw.2.2 a ha p (List.mem_cons_self _ _),
    h1.1 n (List.mem_cons_self _ _), fun c hc => h2.1 c hc⟩

theorem chain_facts_back (pre : List Range) (p : Range)
    (hch : (pre ++ [p]).Pairwise Range.Before) :
    ∀ a ∈ pre, a.start + a.size < p.start :=
  fun a ha => (List.pairwise_append.1 hch).2.2 a ha p (List.mem_singleton_self p)

/-- `listAvailOrderedInsert` of a range that overlaps no available range: the list stays
separated by gaps and inside the block, its total size grows by the size of the range, and a
range that overlaps neither the list nor the range inserted does not overlap the new list. -/
theorem insert_release (B : Nat) (L : List Range) (h : Range) (hB : B < 4294967296)
    (hch : L.Pairwise Range.Before) (hbd : ∀ r ∈ L, r.start + r.size ≤ B)
    (hpos : 0 < h.size) (hhb : h.start + h.size ≤ B) (hap : ∀ r ∈ L, h.Apart r) :
    (listAvailOrderedInsert L h).Pairwise Range.Before ∧
    (∀ r ∈ listAvailOrderedInsert L h, r.start + r.size ≤ B) ∧
    sizeSum (listAvailOrderedInsert L h) = sizeSum L + h.size ∧
    (∀ k : Range, k.Apart h → (∀ r ∈ L, k.Apart r) → 0 < k.size →
      ∀ r ∈ listAvailOrderedInsert L h, k.Apart r) ∧
    (∀ b, h.block = some b → (∀ r ∈ L, r.block = some b) →
      ∀ r ∈ listAvailOrderedInsert L h, r.block = some b) := by
  have hu : u32 (h.start + h.size) = h.start + h.size := u32_of_lt _ (by omega)
  rcases split_at_upperBound L h with
    rfl | ⟨n, t, rfl, hn⟩ | ⟨pre, p, rfl, hp⟩ | ⟨pre, p, n, t, rfl, hp, hn⟩
  · rw [insert_nil]
    exact good_of_shape B [] h [] [] h hch hbd (List.Sublist.refl _)
      (fun a ha => absurd ha (List.not_mem_nil a)) (fun a ha => absurd ha (List.not_mem_nil a))
      hhb (by simp [sizeSum]) (fun k hk _ _ => hk) (fun b hb _ => hb)
  · have hnb := hbd n (List.mem_cons_self _ _)
    have han := hap n (List.mem_cons_self _ _)
    have hnt : ∀ c ∈ t, n.start + n.size < c.start := (List.pairwise_cons.1 hch).1
    simp only [Range.Apart] at han
    rw [insert_front n t h hn, hu]
    split
    · rename_i hm
      rw [u32_of_lt (n.size + h.size) (by omega)]
      refine good_of_shape B (n :: t) h [] t _ hch hbd (List.sublist_cons_self n t)
        (fun a ha => absurd ha (List.not_mem_nil a)) ?_ ?_ ?_ ?_ ?_
      · intro c hc
        have := hnt c hc
        simp only
        omega
      · simp only
        omega
      · simp only [sizeSum_cons, sizeSum_nil]
        omega
      · intro k hk1 hk2 hk3
        have := hk2 n (List.mem_cons_self _ _)
        simp only [Range.Apart] at hk1 this ⊢
        omega
      · intro b _ hb2
        exact hb2 n (List.mem_cons_self _ _)
    · rename_i hm
      refine good_of_shape B (n :: t) h [] (n :: t) h hch hbd (List.Sublist.refl _)
        (fun a ha => absurd ha (List.not_mem_nil a)) ?_ hhb ?_ (fun k hk _ _ => hk)
        (fun b hb _ => hb)
      · intro c hc
        rcases List.mem_cons.1 hc with rfl | hc
        · omega
        · have := hnt c hc
          omega
      · simp only [sizeSum_cons, sizeSum_nil]
        omega
  · have hpb := hbd p (by simp)
    have hapx := hap p (by simp)
    have hps : ¬ h.start < p.start := hp p (by simp)
    have hprep := chain_facts_back pre p hch
    simp only [Range.Apart] at hapx
    rw [insert_back pre p h hp, u32_of_lt (p.start + p.size) (by omega)]
    split
    · rename_i hm
      rw [u32_of_lt (p.size + h.size) (by omega)]
      refine good_of_shape B (pre ++ [p]) h pre [] _ hch hbd
        (by simp) hprep
        (fun a ha => absurd ha (List.not_mem_nil a)) ?_ ?_ ?_ ?_
      · simp only
        omega
      · simp only [sizeSum_append, sizeSum_cons, sizeSum_nil]
        omega
      · intro k hk1 hk2 hk3
        have := hk2 p (by simp)
        simp only [Range.Apart] at hk1 this ⊢
        omega
      · intro b _ hb2
        exact hb2 p (by simp)
    · rename_i hm
      rw [show pre ++ [p, h] = (pre ++ [p]) ++ [h] by simp]
      refine good_of_shape B (pre ++ [p]) h (pre ++ [p]) [] h hch hbd (by simp) ?_
        (fun a ha => absurd ha (List.not_mem_nil a)) hhb ?_ (fun k hk _ _ => hk)
        (fun b hb _ => hb)
      · intro a ha
        rcases List.mem_append.1 ha with ha | ha
        · have := hprep a ha
          omega
        · rw [List.mem_singleton.1 ha]
          omega
      · simp only [sizeSum_append, sizeSum_cons, sizeSum_nil]
        omega
  · have hpb := hbd p (by simp)
    have hnb := hbd n (by simp)
    have hapx := hap p (by simp)
    have han := hap n (by simp)
    have hps : ¬ h.start < p.start := hp p (by simp)
    obtain ⟨hprep, hpn, hnt⟩ := chain_facts_mid pre p n t hch
    simp only [Range.Apart] at hapx han
    rw [insert_mid pre p n t h hp hn, u32_of_lt (p.start + p.size) (by omega), hu]
    split
    · rename_i hm
      split
      · rename_i hm2
        rw [u32_of_lt (h.size + n.size) (by omega),
          u32_of_lt (p.size + (h.size + n.size)) (by omega)]
        refine good_of_shape B (pre ++ p :: n :: t) h pre t _ hch hbd ?_ hprep ?_ ?_ ?_ ?_ ?_
        · exact List.Sublist.append_left
            (List.Sublist.cons _ (List.Sublist.cons _ (List.Sublist.refl t))) pre
        · intro c hc
          have := hnt c hc
          simp only
          omega
        · simp only
          omega
        · simp only [sizeSum_append, sizeSum_cons]
          omega
        · intro k hk1 hk2 hk3
          have h1 := hk2 p (by simp)
          have h2 := hk2 n (by simp)
          simp only [Range.Apart] at hk1 h1 h2 ⊢
          omega
        · intro b _ hb2
          exact hb2 p (by simp)
      · rename_i hm2
        rw [u32_of_lt (p.size + h.size) (by omega)]
        refine good_of_shape B (pre ++ p :: n :: t) h pre (n :: t) _ hch hbd ?_ hprep
          ?_ ?_ ?_ ?_ ?_
        · exact List.Sublist.append_left (List.Sublist.cons _ (List.Sublist.refl _)) pre
        · intro c hc
          simp only
          rcases List.mem_cons.1 hc with rfl | hc
          · omega
          · have := hnt c hc
            omega
        · simp only
          omega
        · simp only [sizeSum_append, sizeSum_cons]
          omega
        · intro k hk1 hk2 hk3
          have h1 := hk2 p (by simp)
          simp only [Range.Apart] at hk1 h1 ⊢
          omega
        · intro b _ hb2
          exact hb2 p (by simp)
    · rename_i hm
      have hprep2 : ∀ a ∈ pre ++ [p], a.start + a.size < h.start := by
        intro a ha
        rcases List.mem_append.1 ha with ha | ha
        · have := hprep a ha
          omega
        · rw [List.mem_singleton.1 ha]
          omega
      split
      · rename_i hm2
        rw [u32_of_lt (n.size + h.size) (by omega),
          show pre ++ p :: { n with start := h.start, size := n.size + h.size } :: t =
            (pre ++ [p]) ++ { n with start := h.start, size := n.size + h.size } :: t by simp]
        refine good_of_shape B (pre ++ p :: n :: t) h (pre ++ [p]) t _ hch hbd ?_ hprep2
          ?_ ?_ ?_ ?_ ?_
        · rw [List.append_assoc]
          exact List.Sublist.append_left
            (List.Sublist.cons₂ _ (List.Sublist.cons _ (List.Sublist.refl t))) pre
        · intro c hc
          have := hnt c hc
          simp only
          omega
        · simp only
          omega
        · simp only [sizeSum_append, sizeSum_cons, sizeSum_nil]
          omega
        · intro k hk1 hk2 hk3
          have h2 := hk2 n (by simp)
          simp only [Range.Apart] at hk1 h2 ⊢
          omega
        · intro b _ hb2
          exact hb2 n (by simp)
      · rename_i hm2
        rw [show pre ++ p :: h :: n :: t = (pre ++ [p]) ++ h :: n :: t by simp]
        refine good_of_shape B (pre ++ p :: n :: t) h (pre ++ [p]) (n :: t) h hch hbd ?_ hprep2
          ?_ hhb ?_ (fun k hk _ _ => hk) (fun b hb _ => hb)
        · simp
        · intro c hc
          rcases List.mem_cons.1 hc with rfl | hc
          · omega
          · have := hnt c hc
            omega
        · simp only [sizeSum_append, sizeSum_cons, sizeSum_nil]
          omega

end RangeAllocator

end ks

namespace ks

namespace RangeAllocator

variable {DataT : Type}

/-- `listAvailOrderedInsert` of a range that fits into a gap of the list without touching its
neighbours puts the range into the gap. -/
theorem insert_keep (B : Nat) (pre post : List Range) (x : Range) (hB : B < 4294967296)
    (hbd : ∀ r ∈ pre ++ post, r.start + r.size ≤ B) (hx : x.start + x.size ≤ B)
    (hpre : ∀ a ∈ pre, a.start + a.size < x.start)
    (hpost : ∀ c ∈ post, x.start + x.size < c.start) :
    listAvailOrderedInsert (pre ++ post) x = pre ++ x :: post := by
  have hu : u32 (x.start + x.size) = x.start + x.size := u32_of_lt _ (by omega)
  have hp : ∀ e ∈ pre, ¬ x.start < e.start := by
    intro e he
    have := hpre e he
    omega
  rcases List.eq_nil_or_concat pre with rfl | ⟨pre1, p, hpc⟩
  · cases post with
    | nil => rfl
    | cons n t =>
      have hn := hpost n (List.mem_cons_self _ _)
      rw [List.nil_append, insert_front n t x (by omega), hu, if_neg (by omega)]
      rfl
  · rw [List.concat_eq_append] at hpc
    subst hpc
    have hpp := hpre p (by simp)
    have hpb := hbd p (by simp)
    cases post with
    | nil =>
      rw [List.append_nil, insert_back pre1 p x hp, u32_of_lt (p.start + p.size) (by omega),
        if_neg (by omega)]
      simp
    | cons n t =>
      have hn := hpost n (List.mem_cons_self _ _)
      rw [show pre1 ++ [p] ++ n :: t = pre1 ++ p :: n :: t by simp,
        insert_mid pre1 p n t x hp (by omega), u32_of_lt (p.start + p.size) (by omega), hu,
        if_neg (by omega), if_neg (by omega)]
      simp

theorem eraseIdx_length_append (pre : List Range) (e : Range) (post : List Range) :
    (pre ++ e :: post).eraseIdx pre.length = pre ++ post := by
  rw [List.eraseIdx_append_of_length_le (le_refl _)]
  simp

/-- The inner loop of `AcquireRange` on a block whose available ranges are separated by gaps:
the range found is the first one that is large enough, the range returned is the front part of
it, and the remainder, if any, takes its place in the list. -/
theorem scanAvail_spec (B size block_it : Nat) (block : Block DataT) (hB : B < 4294967296)
    (hsize : 0 < size)
    (hch : block.list_avail.Pairwise Range.Before)
    (hbd : ∀ r ∈ block.list_avail, r.start + r.size ≤ B)
    (hown : ∀ r ∈ block.list_avail, r.block = some block_it) (rest : List Range) :
    ∀ (pre : List Range) (r : Range) (block1 : Block DataT),
      block.list_avail = pre ++ rest → (∀ x ∈ pre, x.size < size) →
      scanAvail size block_it block pre.length rest = some (r, block1) →
      ∃ pre1 e post, block.list_avail = pre1 ++ e :: post ∧ (∀ x ∈ pre1, x.size < size) ∧
        size ≤ e.size ∧ r = { start := e.start, size := size, block := some block_it } ∧
        block1 = { block with
          list_avail :=
            if e.size = size then pre1 ++ post
            else pre1 ++ { start := e.start + size, size := e.size - size,
                           block := some block_it } :: post
          used_count := u32 (block.used_count + 1) } := by
  induction rest with
  | nil => intro pre r block1 _ _ h; simp [scanAvail] at h
  | cons e rest ih =>
    intro pre r block1 hl hpre h
    have heb : e.start + e.size ≤ B := hbd e (by rw [hl]; simp)
    have hpw := List.pairwise_append.1 (hl ▸ hch)
    have hpe : ∀ a ∈ pre, a.start + a.size < e.start :=
      fun a ha => hpw.2.2 a ha e (List.mem_cons_self _ _)
    have hep : ∀ c ∈ rest, e.start + e.size < c.start := (List.pairwise_cons.1 hpw.2.1).1
    unfold scanAvail at h
    split at h
    · rename_i hgt
      simp only [Option.some.injEq, Prod.mk.injEq] at h
      refine ⟨pre, e, rest, hl, hpre, by omega, h.1.symm, ?_⟩
      rw [← h.2, if_neg (by omega), hl, eraseIdx_length_append,
        u32_of_lt (e.start + size) (by omega), u32_of_lt (e.size - size) (by omega)]
      rw [insert_keep B pre rest _ hB ?_ ?_ ?_ ?_]
      · intro x hx
        apply hbd
        rw [hl]
        rcases List.mem_append.1 hx with hx | hx
        · exact List.mem_append_left _ hx
        · exact List.mem_append_right _ (List.mem_cons_of_mem _ hx)
      · simp only
        omega
      · intro a ha
        have := hpe a ha
        simp only
        omega
      · intro c hc
        have := hep c hc
        simp only
        omega
    · split at h
      · rename_i hgt heq
        simp only [Option.some.injEq, Prod.mk.injEq] at h
        refine ⟨pre, e, rest, hl, hpre, by omega, ?_, ?_⟩
        · rw [← h.1]
          have hb := hown e (by rw [hl]; simp)
          cases e
          simp only at hb heq ⊢
          rw [hb, heq]
        · rw [← h.2, if_pos heq, hl, eraseIdx_length_append]
      · rename_i hgt hne
        have := ih (pre ++ [e]) r block1 (by rw [hl]; simp) (by
          intro x hx
          rcases List.mem_append.1 hx with hx | hx
          · exact hpre x hx
          · rw [List.mem_singleton.1 hx]; omega) (by simpa using h)
        simpa using this

end RangeAllocator

end ks

namespace ks

namespace RangeAllocator

variable {DataT : Type}

/-- The outer loop of `AcquireRange`: the block served is the first one in which the inner
loop finds a range, and only that block changes. -/
theorem scanBlocks_spec (size : Nat) (blocks : List (Block DataT)) :
    ∀ (block_it : Nat) (r : Range) (bs : List (Block DataT)),
      scanBlocks size block_it blocks = some (r, bs) →
      ∃ j blk blk1, blocks[j]? = some blk ∧
        (∀ j2 blk2, j2 < j → blocks[j2]? = some blk2 → ∀ x ∈ blk2.list_avail, x.size < size) ∧
        scanAvail size (block_it + j) blk 0 blk.list_avail = some (r, blk1) ∧
        bs = blocks.set j blk1 := by
  induction blocks with
  | nil => intro block_it r bs h; simp [scanBlocks] at h
  | cons b rest ih =>
    intro block_it r bs h
    unfold scanBlocks at h
    cases h1 : scanAvail size block_it b 0 b.list_avail with
    | some p =>
      rw [h1] at h
      simp only [Option.some.injEq, Prod.mk.injEq] at h
      refine ⟨0, b, p.2, by simp, ?_, ?_, ?_⟩
      · intro j2 _ hj; exact absurd hj (Nat.not_lt_zero j2)
      · rw [Nat.add_zero, h1, ← h.1]
      · rw [← h.2]; rfl
    | none =>
      rw [h1] at h
      cases h2 : scanBlocks size (block_it + 1) rest with
      | none => rw [h2] at h; exact Option.noConfusion h
      | some p =>
        rw [h2] at h
        simp only [Option.some.injEq, Prod.mk.injEq] at h
        obtain ⟨j, blk, blk1, e1, e2, e3, e4⟩ := ih (block_it + 1) p.1 p.2 (by rw [h2])
        refine ⟨j + 1, blk, blk1, by simpa using e1, ?_, ?_, ?_⟩
        · intro j2 blk2 hj hb
          cases j2 with
          | zero =>
            simp only [List.getElem?_cons_zero, Option.some.injEq] at hb
            rw [← hb]
            exact (scanAvail_none_iff size block_it b b.list_avail 0).1 h1
          | succ j3 =>
            exact e2 j3 blk2 (by omega) (by simpa using hb)
        · rw [← h.1, ← e3]
          congr 1
          omega
        · rw [← h.2, e4]
          rfl

end RangeAllocator

theorem heldIn_cons (b : Nat) (h : Range) (held : List Range) :
    heldIn b (h :: held) = if h.block = some b then h :: heldIn b held else heldIn b held := by
  unfold heldIn
  rw [List.filter_cons]
  by_cases hb : h.block = some b <;> simp [hb]

theorem mem_heldIn (b : Nat) (h : Range) (held : List Range) :
    h ∈ heldIn b held ↔ h ∈ held ∧ h.block = some b := by
  simp [heldIn]

theorem sizeSum_perm {l1 l2 : List Range} (h : l1.Perm l2) : sizeSum l1 = sizeSum l2 := by
  unfold sizeSum
  exact (h.map (fun r => r.size)).sum_eq

/-- With only ranges of positive size a list has at most as many ranges as its total size. -/
theorem length_le_sizeSum (l : List Range) (h : ∀ r ∈ l, 0 < r.size) : l.length ≤ sizeSum l := by
  induction l with
  | nil => simp [sizeSum]
  | cons a t ih =>
    have h1 := h a (List.mem_cons_self _ _)
    have h2 := ih (fun r hr => h r (List.mem_cons_of_mem _ hr))
    simp only [sizeSum, List.map_cons, List.sum_cons, List.length_cons] at h2 ⊢
    omega

theorem sizeSum_ge_of_mem (l : List Range) (r : Range) (h : r ∈ l) : r.size ≤ sizeSum l := by
  induction l with
  | nil => exact absurd h (List.not_mem_nil r)
  | cons a t ih =>
    simp only [sizeSum, List.map_cons, List.sum_cons] at ih ⊢
    rcases List.mem_cons.1 h with rfl | h
    · omega
    · have := ih h
      omega

/-- The invariant of a block depends on the held ranges of that block only up to their
order. -/
theorem blockInv_of_perm {DataT : Type} {B b : Nat} {blk : Block DataT}
    {held held2 : List Range} (h : BlockInv B b blk held)
    (hp : (heldIn b held2).Perm (heldIn b held)) : BlockInv B b blk held2 :=
  { chain := h.chain, bound := h.bound, owner := h.owner,
    count := by rw [h.count, hp.length_eq],
    total := by rw [sizeSum_perm hp]; exact h.total,
    apart := fun k hk r hr => h.apart k (hp.mem_iff.1 hk) r hr,
    zero := h.zero }

namespace Ledger

variable {DataT : Type}

theorem inv_start (block_size range_count_hint : Nat) (hB : block_size < 4294967296) :
    (start block_size range_count_hint : Ledger DataT).Inv :=
  { small := hB,
    blocks := by intro b blk h; simp [start, RangeAllocator.create] at h,
    held_ok := by intro h hh; exact absurd hh (List.not_mem_nil h),
    held_apart := List.Pairwise.nil }

theorem inv_createBlock (s : Ledger DataT) (block_data : DataT) (hinv : s.Inv) :
    (s.step (.createBlock block_data)).Inv := by
  have hnone : heldIn s.alloc.m_list_blocks.length s.held = [] := by
    rw [heldIn, List.filter_eq_nil_iff]
    intro h hh
    obtain ⟨_, _, b, hb, hlt⟩ := hinv.held_ok h hh
    simp only [hb, Option.some.injEq, decide_eq_true_eq]
    omega
  refine { small := hinv.small, blocks := ?_, held_ok := ?_, held_apart := hinv.held_apart }
  · intro b blk hb
    simp only [step, RangeAllocator.CreateBlock] at hb ⊢
    by_cases hlt : b < s.alloc.m_list_blocks.length
    · rw [List.getElem?_append_left hlt] at hb
      exact hinv.blocks b blk hb
    · rw [List.getElem?_append_right (by omega)] at hb
      have hb0 : b = s.alloc.m_list_blocks.length := by
        by_contra hne
        have : b - s.alloc.m_list_blocks.length ≠ 0 := by omega
        obtain ⟨m, hm⟩ := Nat.exists_eq_succ_of_ne_zero this
        rw [hm] at hb
        simp at hb
      subst hb0
      simp only [Nat.sub_self, List.getElem?_cons_zero, Option.some.injEq] at hb
      subst hb
      refine { chain := List.pairwise_singleton _ _, bound := ?_, owner := ?_, count := ?_,
               total := ?_, apart := ?_, zero := ?_ }
      · intro r hr; rw [List.mem_singleton.1 hr]; simp
      · intro r hr; rw [List.mem_singleton.1 hr]
      · rw [hnone]; rfl
      · rw [hnone]; simp [sizeSum]
      · intro h hh; rw [hnone] at hh; exact absurd hh (List.not_mem_nil h)
      · intro h0; simp only [h0]
  · intro h hh
    obtain ⟨h1, h2, b, hb, hlt⟩ := hinv.held_ok h hh
    refine ⟨h1, h2, b, hb, ?_⟩
    simp only [step, RangeAllocator.CreateBlock, List.length_append, List.length_singleton]
    omega

end Ledger

end ks

namespace ks

namespace Ledger

variable {DataT : Type}

/-- A successful `AcquireRange(size)` in a state that satisfies the invariant: the block
served, the available range chosen in it, the range returned and the allocator afterwards. -/
theorem acquire_spec (s : Ledger DataT) (hinv : s.Inv) (size : Nat) (r : Range)
    (a1 : RangeAllocator DataT) (h : s.alloc.AcquireRange size = .ok (r, a1))
    (hr : r.size ≠ 0) :
    ∃ j blk pre e post,
      s.alloc.m_list_blocks[j]? = some blk ∧
      (∀ j2 blk2, j2 < j → s.alloc.m_list_blocks[j2]? = some blk2 →
        ∀ x ∈ blk2.list_avail, x.size < size) ∧
      blk.list_avail = pre ++ e :: post ∧ (∀ x ∈ pre, x.size < size) ∧ size ≤ e.size ∧
      0 < size ∧ r = { start := e.start, size := size, block := some j } ∧
      a1 = { s.alloc with
        m_list_blocks := s.alloc.m_list_blocks.set j
          { blk with
            list_avail :=
              if e.size = size then pre ++ post
              else pre ++ { start := e.start + size, size := e.size - size,
                             block := some j } :: post
            used_count := blk.used_count + 1 } } := by
  unfold RangeAllocator.AcquireRange at h
  by_cases h0 : size = 0
  · rw [if_pos h0] at h
    exact Except.noConfusion h
  rw [if_neg h0] at h
  cases hsb : RangeAllocator.scanBlocks size 0 s.alloc.m_list_blocks with
  | none =>
    rw [hsb] at h
    simp only [Except.ok.injEq, Prod.mk.injEq] at h
    rw [← h.1] at hr
    exact absurd rfl hr
  | some p =>
    rw [hsb] at h
    simp only [Except.ok.injEq, Prod.mk.injEq] at h
    obtain ⟨j, blk, blk1, e1, e2, e3, e4⟩ :=
      RangeAllocator.scanBlocks_spec size s.alloc.m_list_blocks 0 p.1 p.2 (by rw [hsb])
    have hb := hinv.blocks j blk e1
    rw [Nat.zero_add] at e3
    obtain ⟨pre, e, post, f1, f2, f3, f4, f5⟩ :=
      RangeAllocator.scanAvail_spec s.alloc.m_block_size size j blk hinv.small (by omega)
        hb.chain hb.bound hb.owner blk.list_avail [] p.1 blk1 (by simp) (by simp) e3
    have hcount : blk.used_count + 1 < 4294967296 := by
      have hle := length_le_sizeSum (heldIn j s.held) (by
        intro k hk
        exact (hinv.held_ok k ((mem_heldIn j k s.held).1 hk).1).1)
      have hsum := hb.total
      have hmem := sizeSum_ge_of_mem blk.list_avail e (by rw [f1]; simp)
      have := hb.count
      have := hinv.small
      omega
    refine ⟨j, blk, pre, e, post, e1, e2, f1, f2, f3, by omega, ?_, ?_⟩
    · rw [← h.1, f4]
    · rw [← h.2, e4, f5, RangeAllocator.u32_of_lt _ hcount]

end Ledger

end ks

namespace ks

namespace Ledger

variable {DataT : Type}

theorem lt_length_of_getElem? {α : Type} (l : List α) (i : Nat) (a : α) (h : l[i]? = some a) :
    i < l.length := by
  by_contra hn
  rw [List.getElem?_eq_none (Nat.not_lt.1 hn)] at h
  exact Option.noConfusion h

/-- The block invariant after a range has been handed out from the available range `e`. -/
theorem blockInv_acquire (B j size : Nat) (blk : Block DataT) (held pre post : List Range)
    (e : Range) (hb : BlockInv B j blk held) (hl : blk.list_avail = pre ++ e :: post)
    (hsize : 0 < size) (hle : size ≤ e.size)
    (hpos : ∀ k ∈ heldIn j held, 0 < k.size) :
    BlockInv B j
      { blk with
        list_avail :=
          if e.size = size then pre ++ post
          else pre ++ { start := e.start + size, size := e.size - size, block := some j } :: post
        used_count := blk.used_count + 1 }
      ({ start := e.start, size := size, block := some j } :: held) := by
  have hch := hb.chain
  have hbd := hb.bound
  have htot := hb.total
  have hap := hb.apart
  rw [hl] at hch hbd htot hap
  have heb := hbd e (by simp)
  have hpw := List.pairwise_append.1 hch
  have hpe : ∀ a ∈ pre, a.start + a.size < e.start :=
    fun a ha => hpw.2.2 a ha e (List.mem_cons_self _ _)
  have hep : ∀ c ∈ post, e.start + e.size < c.start := (List.pairwise_cons.1 hpw.2.1).1
  have hpp : (pre ++ post).Pairwise Range.Before :=
    hch.sublist (List.Sublist.append_left (List.sublist_cons_self e post) pre)
  have hheld : heldIn j ({ start := e.start, size := size, block := some j } :: held) =
      { start := e.start, size := size, block := some j } :: heldIn j held := by
    rw [heldIn_cons, if_pos rfl]
  have hmem : ∀ x, x ∈ (if e.size = size then pre ++ post
      else pre ++ { start := e.start + size, size := e.size - size, block := some j } :: post) →
      x ∈ pre ∨ x ∈ post ∨
        (x = { start := e.start + size, size := e.size - size, block := some j } ∧
          e.size ≠ size) := by
    intro x hx
    split at hx
    · rcases List.mem_append.1 hx with hx | hx
      · exact Or.inl hx
      · exact Or.inr (Or.inl hx)
    · rename_i hne
      rcases List.mem_append.1 hx with hx | hx
      · exact Or.inl hx
      · rcases List.mem_cons.1 hx with hx | hx
        · exact Or.inr (Or.inr ⟨hx, hne⟩)
        · exact Or.inr (Or.inl hx)
  refine { chain := ?_, bound := ?_, owner := ?_, count := ?_, total := ?_, apart := ?_,
           zero := ?_ }
  · show List.Pairwise Range.Before (if e.size = size then pre ++ post else _)
    split
    · exact hpp
    · have hpw2 := List.pairwise_append.1 hpp
      rw [List.pairwise_append]
      refine ⟨hpw2.1, List.pairwise_cons.2 ⟨?_, hpw2.2.1⟩, ?_⟩
      · intro c hc
        have := hep c hc
        simp only [Range.Before]
        omega
      · intro a ha c hc
        rcases List.mem_cons.1 hc with rfl | hc
        · have := hpe a ha
          simp only [Range.Before]
          omega
        · exact hpw2.2.2 a ha c hc
  · intro x hx
    rcases hmem x hx with hx | hx | ⟨rfl, _⟩
    · exact hbd x (by simp [hx])
    · exact hbd x (by simp [hx])
    · simp only
      omega
  · intro x hx
    rcases hmem x hx with hx | hx | ⟨rfl, _⟩
    · exact hb.owner x (by rw [hl]; simp [hx])
    · exact hb.owner x (by rw [hl]; simp [hx])
    · rfl
  · rw [hheld]
    simp only [List.length_cons]
    rw [hb.count]
  · rw [hheld]
    simp only [RangeAllocator.sizeSum_append, RangeAllocator.sizeSum_cons] at htot ⊢
    split
    · simp only [RangeAllocator.sizeSum_append]
      omega
    · simp only [RangeAllocator.sizeSum_append, RangeAllocator.sizeSum_cons]
      omega
  · intro k hk x hx
    rw [hheld] at hk
    rcases List.mem_cons.1 hk with rfl | hk
    · rcases hmem x hx with hx | hx | ⟨rfl, _⟩
      · have := hpe x hx
        simp only [Range.Apart]
        omega
      · have := hep x hx
        simp only [Range.Apart]
        omega
      · simp only [Range.Apart]
        omega
    · rcases hmem x hx with hx | hx | ⟨rfl, _⟩
      · exact hap k hk x (by simp [hx])
      · exact hap k hk x (by simp [hx])
      · have := hap k hk e (by simp)
        have := hpos k hk
        simp only [Range.Apart] at *
        omega
  · intro h0
    omega

theorem inv_acquire (s : Ledger DataT) (hinv : s.Inv) (size : Nat) (r : Range)
    (a1 : RangeAllocator DataT) (h : s.alloc.AcquireRange size = .ok (r, a1))
    (hr : r.size ≠ 0) : ({ alloc := a1, held := r :: s.held } : Ledger DataT).Inv := by
  obtain ⟨j, blk, pre, e, post, e1, _, e3, _, e5, e6, rfl, rfl⟩ :=
    acquire_spec s hinv size r a1 h hr
  have hb := hinv.blocks j blk e1
  have hjlt := lt_length_of_getElem? _ _ _ e1
  have heb : e.start + e.size ≤ s.alloc.m_block_size := hb.bound e (by rw [e3]; simp)
  have hpos : ∀ k ∈ heldIn j s.held, 0 < k.size := fun k hk =>
    (hinv.held_ok k ((mem_heldIn j k s.held).1 hk).1).1
  refine { small := hinv.small, blocks := ?_, held_ok := ?_, held_apart := ?_ }
  · intro b blk2 hb2
    simp only [List.getElem?_set] at hb2
    by_cases hbj : j = b
    · subst hbj
      rw [if_pos rfl, if_pos hjlt] at hb2
      simp only [Option.some.injEq] at hb2
      rw [← hb2]
      exact blockInv_acquire _ j size blk s.held pre post e hb e3 e6 e5 hpos
    · rw [if_neg hbj] at hb2
      refine blockInv_of_perm (hinv.blocks b blk2 hb2) ?_
      rw [heldIn_cons, if_neg (by simpa using hbj)]
  · intro k hk
    rcases List.mem_cons.1 hk with rfl | hk
    · refine ⟨e6, ?_, j, rfl, by simpa using hjlt⟩
      simp only
      omega
    · obtain ⟨h1, h2, b, hb1, hb2⟩ := hinv.held_ok k hk
      exact ⟨h1, h2, b, hb1, by simpa using hb2⟩
  · refine List.pairwise_cons.2 ⟨?_, hinv.held_apart⟩
    intro k hk hblock
    have hkj : k ∈ heldIn j s.held := (mem_heldIn j k s.held).2 ⟨hk, hblock.symm⟩
    have := hb.apart k hkj e (by rw [e3]; simp)
    have := hpos k hkj
    simp only [Range.Apart] at *
    omega

end Ledger

end ks

namespace ks

theorem Range.Apart.symm {r s : Range} (h : r.Apart s) : s.Apart r := Or.symm h

theorem heldIn_perm_erase (b : Nat) (held : List Range) (r : Range) (hr : r ∈ held) :
    (heldIn b held).Perm
      (if r.block = some b then r :: heldIn b (held.erase r) else heldIn b (held.erase r)) := by
  have h1 : (heldIn b held).Perm (heldIn b (r :: held.erase r)) :=
    (List.perm_cons_erase hr).filter _
  rw [heldIn_cons] at h1
  exact h1

namespace Ledger

variable {DataT : Type}

/-- `ReleaseRange` of a held range in a state that satisfies the invariant: the call is
defined, `used_count` of the block of the range drops by one (it was positive), the range is
inserted into the available list of that block, and `empty` reports whether the counter has
reached 0. -/
theorem release_spec (s : Ledger DataT) (hinv : s.Inv) (r : Range) (hr : r ∈ s.held) :
    ∃ b blk, r.block = some b ∧ s.alloc.m_list_blocks[b]? = some blk ∧ 1 ≤ blk.used_count ∧
      s.alloc.ReleaseRange r = some
        ({ s.alloc with
            m_list_blocks := s.alloc.m_list_blocks.set b
              { blk with
                used_count := blk.used_count - 1
                list_avail := RangeAllocator.listAvailOrderedInsert blk.list_avail r } },
          decide (blk.used_count - 1 = 0)) := by
  obtain ⟨h1, h2, b, hb, hlt⟩ := hinv.held_ok r hr
  obtain ⟨blk, hblk⟩ : ∃ blk, s.alloc.m_list_blocks[b]? = some blk :=
    ⟨_, List.getElem?_eq_getElem hlt⟩
  have hbi := hinv.blocks b blk hblk
  have hmem : r ∈ heldIn b s.held := (mem_heldIn b r s.held).2 ⟨hr, hb⟩
  have hge : 1 ≤ blk.used_count := by
    rw [hbi.count]
    exact List.length_pos_of_mem hmem
  have hle : blk.used_count < 4294967296 := by
    have hle := length_le_sizeSum (heldIn b s.held) (by
      intro k hk
      exact (hinv.held_ok k ((mem_heldIn b k s.held).1 hk).1).1)
    have := hbi.total
    have := hbi.count
    have := hinv.small
    omega
  have hu : RangeAllocator.u32 (blk.used_count + 4294967295) = blk.used_count - 1 := by
    unfold RangeAllocator.u32
    omega
  refine ⟨b, blk, hb, hblk, hge, ?_⟩
  unfold RangeAllocator.ReleaseRange
  simp only [hb, hblk, hu]

theorem inv_release (s : Ledger DataT) (hinv : s.Inv) (r : Range) (hr : r ∈ s.held)
    (a1 : RangeAllocator DataT) (e : Bool) (h : s.alloc.ReleaseRange r = some (a1, e)) :
    ({ alloc := a1, held := s.held.erase r } : Ledger DataT).Inv := by
  obtain ⟨b, blk, hb, hblk, hge, hrel⟩ := release_spec s hinv r hr
  rw [hrel] at h
  simp only [Option.some.injEq, Prod.mk.injEq] at h
  obtain ⟨rfl, _⟩ := h
  obtain ⟨hr1, hr2, _⟩ := hinv.held_ok r hr
  have hbi := hinv.blocks b blk hblk
  have hlt := lt_length_of_getElem? _ _ _ hblk
  have hmem : r ∈ heldIn b s.held := (mem_heldIn b r s.held).2 ⟨hr, hb⟩
  have hperm := heldIn_perm_erase b s.held r hr
  rw [if_pos hb] at hperm
  have hpw : (r :: s.held.erase r).Pairwise (fun h k => h.block = k.block → h.Apart k) :=
    (List.Perm.pairwise_iff (fun hxy e => (hxy e.symm).symm) (List.perm_cons_erase hr)).1
      hinv.held_apart
  obtain ⟨g1, g2, g3, g4, g5⟩ := RangeAllocator.insert_release s.alloc.m_block_size
    blk.list_avail r hinv.small hbi.chain hbi.bound hr1 hr2 (hbi.apart r hmem)
  refine { small := hinv.small, blocks := ?_, held_ok := ?_, held_apart := ?_ }
  · intro b2 blk2 hb2
    simp only [List.getElem?_set] at hb2
    by_cases hbj : b = b2
    · subst hbj
      rw [if_pos rfl, if_pos hlt] at hb2
      simp only [Option.some.injEq] at hb2
      rw [← hb2]
      refine { chain := g1, bound := g2, owner := g5 b hb hbi.owner, count := ?_, total := ?_,
               apart := ?_, zero := ?_ }
      · have e1 := hperm.length_eq
        rw [List.length_cons] at e1
        have e2 := hbi.count
        show blk.used_count - 1 = (heldIn b (s.held.erase r)).length
        omega
      · have e1 := sizeSum_perm hperm
        rw [RangeAllocator.sizeSum_cons] at e1
        have e2 := hbi.total
        show sizeSum (RangeAllocator.listAvailOrderedInsert blk.list_avail r) +
          sizeSum (heldIn b (s.held.erase r)) = s.alloc.m_block_size
        omega
      · intro k hk x hx
        have hk1 := (mem_heldIn b k _).1 hk
        have hk2 : k ∈ s.held := List.mem_of_mem_erase hk1.1
        refine g4 k ?_ ?_ (hinv.held_ok k hk2).1 x hx
        · exact ((List.pairwise_cons.1 hpw).1 k hk1.1 (by rw [hb, hk1.2])).symm
        · exact hbi.apart k ((mem_heldIn b k _).2 ⟨hk2, hk1.2⟩)
      · intro h0
        have h1 : s.alloc.m_block_size = 0 := h0
        omega
    · rw [if_neg hbj] at hb2
      refine blockInv_of_perm (hinv.blocks b2 blk2 hb2) ?_
      have := heldIn_perm_erase b2 s.held r hr
      rw [if_neg (by rw [hb]; simpa using hbj)] at this
      exact this.symm
  · intro k hk
    obtain ⟨h1, h2, b3, hb1, hb2⟩ := hinv.held_ok k (List.mem_of_mem_erase hk)
    exact ⟨h1, h2, b3, hb1, by simpa using hb2⟩
  · exact hinv.held_apart.sublist (List.erase_sublist r s.held)

/-- A call of `AcquireRange` that returns the null range leaves the allocator as it is. -/
theorem acquireRange_null (a : RangeAllocator DataT) (size : Nat) (r : Range)
    (a1 : RangeAllocator DataT) (h : a.AcquireRange size = .ok (r, a1)) (h0 : r.size = 0) :
    a1 = a := by
  unfold RangeAllocator.AcquireRange at h
  by_cases hs : size = 0
  · rw [if_pos hs] at h
    exact Except.noConfusion h
  rw [if_neg hs] at h
  cases hsb : RangeAllocator.scanBlocks size 0 a.m_list_blocks with
  | none =>
    rw [hsb] at h
    simp only [Except.ok.injEq, Prod.mk.injEq] at h
    exact h.2.symm
  | some p =>
    rw [hsb] at h
    simp only [Except.ok.injEq, Prod.mk.injEq] at h
    have := RangeAllocator.scanBlocks_size size a.m_list_blocks 0 p.1 p.2 (by rw [hsb])
    rw [h.1] at this
    omega

/-- One admissible call keeps the invariant. -/
theorem ledgerInv_step (s : Ledger DataT) (c : RangeCall DataT) (hinv : s.Inv)
    (hc : CallsOk s [c]) : (s.step c).Inv := by
  cases c with
  | createBlock block_data => exact inv_createBlock s block_data hinv
  | acquireRange size =>
    cases h : s.alloc.AcquireRange size with
    | error err =>
      simp only [step, h]
      exact hinv
    | ok p =>
      obtain ⟨r, a1⟩ := p
      simp only [step, h]
      by_cases h0 : r.size = 0
      · rw [if_pos h0, acquireRange_null s.alloc size r a1 h h0]
        exact hinv
      · rw [if_neg h0]
        exact inv_acquire s hinv size r a1 h h0
  | releaseRange range =>
    cases h : s.alloc.ReleaseRange range with
    | none =>
      simp only [step, h]
      exact hinv
    | some p =>
      obtain ⟨a1, e⟩ := p
      simp only [step, h]
      exact inv_release s hinv range hc.1 a1 e h

/-- Every admissible sequence of calls keeps the invariant. -/
theorem ledgerInv_foldl_step (calls : List (RangeCall DataT)) :
    ∀ s : Ledger DataT, s.Inv → CallsOk s calls → (calls.foldl step s).Inv := by
  induction calls with
  | nil => intro s h _; exact h
  | cons c rest ih =>
    intro s h hok
    rw [List.foldl_cons]
    cases c with
    | createBlock block_data => exact ih _ (ledgerInv_step s _ h trivial) hok
    | acquireRange size => exact ih _ (ledgerInv_step s _ h trivial) hok
    | releaseRange range => exact ih _ (ledgerInv_step s _ h ⟨hok.1, trivial⟩) hok.2

theorem ledgerInv_run (block_size range_count_hint : Nat) (calls : List (RangeCall DataT))
    (hB : block_size < 4294967296)
    (hok : CallsOk (start block_size range_count_hint) calls) :
    (run block_size range_count_hint calls).Inv :=
  ledgerInv_foldl_step calls _ (inv_start block_size range_count_hint hB) hok

end Ledger

end ks

/-! ## `RangeAllocator`: first fit, coalescing and the `empty` flag -/

namespace ks

/-- In a gap-separated list inside the block, the start of the first range, the total size
and the number of gaps add up to at most the size of the block. -/
theorem chain_span (B : Nat) (l : List Range) :
    ∀ r0 t, l = r0 :: t → l.Pairwise Range.Before → (∀ r ∈ l, r.start + r.size ≤ B) →
      r0.start + sizeSum l + t.length ≤ B := by
  induction l with
  | nil => intro r0 t h; exact List.noConfusion h
  | cons a l ih =>
    intro r0 t h hch hbd
    simp only [List.cons.injEq] at h
    obtain ⟨rfl, rfl⟩ := h
    cases l with
    | nil =>
      have := hbd a (List.mem_cons_self _ _)
      simp only [sizeSum, List.map_cons, List.map_nil, List.sum_cons, List.sum_nil,
        List.length_nil]
      omega
    | cons b t2 =>
      have h1 := ih b t2 rfl (List.pairwise_cons.1 hch).2
        (fun r hr => hbd r (List.mem_cons_of_mem _ hr))
      have h2 : a.start + a.size < b.start :=
        (List.pairwise_cons.1 hch).1 b (List.mem_cons_self _ _)
      simp only [sizeSum, List.map_cons, List.sum_cons, List.length_cons] at h1 ⊢
      omega

/-- A block none of whose ranges is held has the single available range that covers it, and
its counter is 0. -/
theorem full_of_nothing_held {DataT : Type} (B b : Nat) (blk : Block DataT)
    (held : List Range) (hb : BlockInv B b blk held) (hnone : heldIn b held = []) :
    blk.list_avail = [{ start := 0, size := B, block := some b }] ∧ blk.used_count = 0 := by
  have hcount : blk.used_count = 0 := by rw [hb.count, hnone]; rfl
  refine ⟨?_, hcount⟩
  by_cases h0 : B = 0
  · rw [hb.zero h0, h0]
  · have htot := hb.total
    rw [hnone] at htot
    simp only [sizeSum, List.map_nil, List.sum_nil, Nat.add_zero] at htot
    have hch := hb.chain
    have hbd := hb.bound
    have hown := hb.owner
    cases hl : blk.list_avail with
    | nil =>
      rw [hl] at htot
      simp only [List.map_nil, List.sum_nil] at htot
      omega
    | cons r0 t =>
      rw [hl] at htot hch hbd hown
      have hsp := chain_span B (r0 :: t) r0 t rfl hch hbd
      simp only [sizeSum] at hsp
      have ht : t = [] := List.eq_nil_of_length_eq_zero (by omega)
      subst ht
      have hown2 := hown r0 (List.mem_cons_self _ _)
      simp only [List.map_cons, List.map_nil, List.sum_cons, List.sum_nil, Nat.add_zero,
        List.length_nil] at htot hsp
      have hs : r0.start = 0 := by omega
      cases r0
      simp only at hown2 htot hs
      rw [hown2, htot, hs]

namespace Ledger

variable {DataT : Type}

/-- Releasing the ranges of a list one after the other. -/
theorem release_all (b : Nat) (perm : List Range) :
    ∀ s : Ledger DataT, s.Inv → perm.Perm (heldIn b s.held) →
      ((perm.map RangeCall.releaseRange).foldl step s).Inv ∧
      heldIn b ((perm.map RangeCall.releaseRange).foldl step s).held = [] ∧
      ((perm.map RangeCall.releaseRange).foldl step s).alloc.m_list_blocks.length =
        s.alloc.m_list_blocks.length ∧
      ((perm.map RangeCall.releaseRange).foldl step s).alloc.m_block_size =
        s.alloc.m_block_size := by
  induction perm with
  | nil =>
    intro s hinv hp
    exact ⟨hinv, List.Perm.eq_nil hp.symm, rfl, rfl⟩
  | cons r rest ih =>
    intro s hinv hp
    have hr : r ∈ s.held :=
      ((mem_heldIn b r s.held).1 (hp.subset (List.mem_cons_self r rest))).1
    have hrb : r.block = some b :=
      ((mem_heldIn b r s.held).1 (hp.subset (List.mem_cons_self r rest))).2
    obtain ⟨b2, blk, hb, hblk, hge, hrel⟩ := release_spec s hinv r hr
    have hstep : s.step (.releaseRange r) =
        { alloc := { s.alloc with
            m_list_blocks := s.alloc.m_list_blocks.set b2
              { blk with
                used_count := blk.used_count - 1
                list_avail := RangeAllocator.listAvailOrderedInsert blk.list_avail r } },
          held := s.held.erase r } := by
      simp only [step, hrel]
    have hinv2 : (s.step (.releaseRange r)).Inv := ledgerInv_step s _ hinv ⟨hr, trivial⟩
    have hperm := heldIn_perm_erase b s.held r hr
    rw [if_pos hrb] at hperm
    have hp2 : rest.Perm (heldIn b (s.step (.releaseRange r)).held) := by
      rw [hstep]
      exact List.Perm.cons_inv (hp.trans hperm)
    obtain ⟨k1, k2, k3, k4⟩ := ih _ hinv2 hp2
    rw [List.map_cons, List.foldl_cons]
    refine ⟨k1, k2, ?_, ?_⟩
    · rw [k3, hstep]
      simp
    · rw [k4, hstep]

/-- C22: after every sequence of `CreateBlock`, `AcquireRange` and `ReleaseRange` calls on an
allocator (block size below 2^32) in which every range released was returned by a successful
`AcquireRange` and has not been released yet, the available ranges of every block are sorted
by strictly increasing start, and any two of them, consecutive ones in particular, are
separated by a gap: `r.start + r.size < s.start`. -/
theorem free_ranges_sorted_and_coalesced (block_size range_count_hint : Nat)
    (calls : List (RangeCall DataT)) (hB : block_size < 4294967296)
    (hok : CallsOk (start block_size range_count_hint) calls) :
    ∀ blk ∈ (run block_size range_count_hint calls).alloc.m_list_blocks,
      blk.list_avail.Pairwise (fun r s => r.start < s.start) ∧
      blk.list_avail.Chain' (fun r s => r.start + r.size < s.start) ∧
      blk.list_avail.Pairwise (fun r s => r.start + r.size < s.start) := by
  intro blk hblk
  obtain ⟨b, hb⟩ := List.mem_iff_getElem?.1 hblk
  have h := ((ledgerInv_run block_size range_count_hint calls hB hok).blocks b blk hb).chain
  refine ⟨h.imp ?_, List.Pairwise.chain' h, h⟩
  intro r s hrs
  simp only [Range.Before] at hrs
  omega

/-- C24: in every state reached by an admissible sequence of calls, `ReleaseRange(range,
empty)` of a held range is defined and sets `empty` to true if and only if the counter
`used_count` of the block of the range is 0 afterwards, which is the case if and only if no
other held range belongs to that block; it sets `empty` to false exactly when some range of
the block is still held. -/
theorem releaseRange_empty_iff_nothing_held (block_size range_count_hint : Nat)
    (calls : List (RangeCall DataT)) (hB : block_size < 4294967296)
    (hok : CallsOk (start block_size range_count_hint) calls) (range : Range)
    (hr : range ∈ (run block_size range_count_hint calls).held) :
    ∃ a1 e b blk1,
      (run block_size range_count_hint calls).alloc.ReleaseRange range = some (a1, e) ∧
      range.block = some b ∧ a1.m_list_blocks[b]? = some blk1 ∧
      (e = true ↔ blk1.used_count = 0) ∧
      (e = true ↔
        ∀ h ∈ (run block_size range_count_hint calls).held.erase range,
          h.block ≠ range.block) ∧
      (e = false ↔
        ∃ h ∈ (run block_size range_count_hint calls).held.erase range,
          h.block = range.block) := by
  have hinv := ledgerInv_run block_size range_count_hint calls hB hok
  obtain ⟨s, hs⟩ : ∃ s, run block_size range_count_hint calls = s := ⟨_, rfl⟩
  rw [hs] at hinv hr ⊢
  obtain ⟨b, blk, hb, hblk, hge, hrel⟩ := release_spec s hinv range hr
  have hlt := lt_length_of_getElem? _ _ _ hblk
  have hperm := heldIn_perm_erase b s.held range hr
  rw [if_pos hb] at hperm
  have hcount := (hinv.blocks b blk hblk).count
  have hlen := hperm.length_eq
  rw [List.length_cons] at hlen
  have hiff : blk.used_count - 1 = 0 ↔ ∀ h ∈ s.held.erase range, h.block ≠ range.block := by
    rw [hb]
    constructor
    · intro h0 h hh hblock
      have : h ∈ heldIn b (s.held.erase range) := (mem_heldIn b h _).2 ⟨hh, hblock⟩
      have := List.length_pos_of_mem this
      omega
    · intro hall
      have : heldIn b (s.held.erase range) = [] := by
        rw [heldIn, List.filter_eq_nil_iff]
        intro h hh
        simpa using hall h hh
      rw [this] at hlen
      simp only [List.length_nil] at hlen
      omega
  refine ⟨_, _, b,
    { blk with used_count := blk.used_count - 1
               list_avail := RangeAllocator.listAvailOrderedInsert blk.list_avail range },
    hrel, hb, ?_, ?_, ?_, ?_⟩
  · simp [hlt]
  · simp
  · rw [decide_eq_true_iff]
    exact hiff
  · rw [decide_eq_false_iff_not, hiff]
    push_neg
    rfl

end Ledger

end ks

namespace ks

namespace Ledger

variable {DataT : Type}

theorem blockSize_acquire (a : RangeAllocator DataT) (size : Nat) (r : Range)
    (a1 : RangeAllocator DataT) (h : a.AcquireRange size = .ok (r, a1)) :
    a1.m_block_size = a.m_block_size := by
  unfold RangeAllocator.AcquireRange at h
  split at h
  · exact Except.noConfusion h
  · split at h <;> simp only [Except.ok.injEq, Prod.mk.injEq] at h <;> rw [← h.2]

theorem blockSize_release (a : RangeAllocator DataT) (range : Range)
    (a1 : RangeAllocator DataT) (e : Bool) (h : a.ReleaseRange range = some (a1, e)) :
    a1.m_block_size = a.m_block_size := by
  unfold RangeAllocator.ReleaseRange at h
  split at h
  · exact Option.noConfusion h
  · split at h
    · exact Option.noConfusion h
    · simp only [Option.some.injEq, Prod.mk.injEq] at h
      rw [← h.1]

theorem blockSize_step (s : Ledger DataT) (c : RangeCall DataT) :
    (s.step c).alloc.m_block_size = s.alloc.m_block_size := by
  cases c with
  | createBlock block_data => rfl
  | acquireRange size =>
    cases h : s.alloc.AcquireRange size with
    | error err => simp only [step, h]
    | ok p =>
      obtain ⟨r, a1⟩ := p
      simp only [step, h]
      exact blockSize_acquire s.alloc size r a1 h
  | releaseRange range =>
    cases h : s.alloc.ReleaseRange range with
    | none => simp only [step, h]
    | some p =>
      obtain ⟨a1, e⟩ := p
      simp only [step, h]
      exact blockSize_release s.alloc range a1 e h

theorem blockSize_foldl (calls : List (RangeCall DataT)) :
    ∀ s : Ledger DataT, (calls.foldl step s).alloc.m_block_size = s.alloc.m_block_size := by
  induction calls with
  | nil => intro s; rfl
  | cons c rest ih =>
    intro s
    rw [List.foldl_cons, ih, blockSize_step]

theorem blockSize_run (block_size range_count_hint : Nat) (calls : List (RangeCall DataT)) :
    (run block_size range_count_hint calls).alloc.m_block_size = block_size :=
  blockSize_foldl calls _

/-- C23: in every state reached by an admissible sequence of calls (block size below 2^32),
whatever ranges have been acquired from the block at position `b` and are still held, releasing
all of them, in any order `perm`, leaves the block with the single available range that
starts at 0 and has the size of the block (and with `used_count` 0). -/
theorem releasing_all_restores_block (block_size range_count_hint : Nat)
    (calls : List (RangeCall DataT)) (hB : block_size < 4294967296)
    (hok : CallsOk (start block_size range_count_hint) calls) (b : Nat)
    (hb : b < (run block_size range_count_hint calls).alloc.m_list_blocks.length)
    (perm : List Range)
    (hperm : perm.Perm (heldIn b (run block_size range_count_hint calls).held)) :
    ∃ blk,
      ((perm.map RangeCall.releaseRange).foldl step
        (run block_size range_count_hint calls)).alloc.m_list_blocks[b]? = some blk ∧
      blk.list_avail = [{ start := 0, size := block_size, block := some b }] ∧
      blk.used_count = 0 := by
  have hinv := ledgerInv_run block_size range_count_hint calls hB hok
  have hsz : (run block_size range_count_hint calls).alloc.m_block_size = block_size :=
    blockSize_run block_size range_count_hint calls
  obtain ⟨k1, k2, k3, k4⟩ := release_all b perm _ hinv hperm
  rw [← k3] at hb
  refine ⟨_, List.getElem?_eq_getElem hb, ?_⟩
  have := full_of_nothing_held _ b _ _ (k1.blocks b _ (List.getElem?_eq_getElem hb)) k2
  rw [k4, hsz] at this
  exact this

end Ledger

end ks

namespace ks

namespace RangeAllocator

variable {DataT : Type}

/-- One acquisition from an allocator whose only block has everything below `t` handed out
and the rest available. -/
theorem acquire_fresh (B hint : Nat) (d : DataT) (t k size : Nat) (hB : B < 4294967296)
    (hsize : 0 < size) (ht : t + size ≤ B) :
    (partlyUsed B hint d t k).AcquireRange size =
      .ok ({ start := t, size := size, block := some 0 },
        partlyUsed B hint d (t + size) (u32 (k + 1))) := by
  have h0 : size ≠ 0 := by omega
  have htB : t < B := by omega
  unfold AcquireRange
  rw [if_neg h0]
  simp only [partlyUsed, scanBlocks, if_pos htB, scanAvail]
  by_cases hgt : B - t > size
  · rw [if_pos hgt]
    simp only [List.eraseIdx_cons_zero, insert_nil]
    rw [u32_of_lt (t + size) (by omega), u32_of_lt (B - t - size) (by omega),
      if_pos (by omega), show B - t - size = B - (t + size) by omega]
  · rw [if_neg hgt, if_pos (by omega)]
    simp only [List.eraseIdx_cons_zero]
    rw [if_neg (by omega), show B - t = size by omega]

/-- Successive acquisitions from such an allocator return ranges laid out one directly after
the other. -/
theorem acquireAll_fresh (B hint : Nat) (d : DataT) (hB : B < 4294967296) (sizes : List Nat) :
    ∀ t k, (∀ s ∈ sizes, 0 < s) → t + sizes.sum ≤ B →
      acquireAll (partlyUsed B hint d t k) sizes = consecutive 0 t sizes := by
  induction sizes with
  | nil => intro t k _ _; rfl
  | cons size rest ih =>
    intro t k hpos hsum
    have hs := hpos size (List.mem_cons_self _ _)
    simp only [List.sum_cons] at hsum
    simp only [acquireAll, consecutive]
    rw [acquire_fresh B hint d t k size hB hs (by omega)]
    simp only
    rw [ih (t + size) (u32 (k + 1)) (fun s hs => hpos s (List.mem_cons_of_mem _ hs)) (by omega)]

theorem createBlock_fresh (B hint : Nat) (d : DataT) (hB : 0 < B) :
    ((create B hint : RangeAllocator DataT).CreateBlock d).2 = partlyUsed B hint d 0 0 := by
  simp [create, CreateBlock, partlyUsed, hB]

end RangeAllocator

namespace Ledger

variable {DataT : Type}

/-- C21: in every state reached by an admissible sequence of calls (block size below 2^32), a
successful `AcquireRange(size)` is first-fit.  The range returned has the requested size; it
belongs to the first block, in creation order, that has an available range of at least that
size; it starts where `e`, the fitting available range of that block with the lowest start,
starts; `used_count` of that block grows by one; in the list of available ranges `e` is
replaced by its remainder, or removed when it is used up; nothing else changes.  Moreover,
successive acquisitions of positive sizes that fit into a newly created block return ranges
laid out one directly after the other from 0 on. -/
theorem acquireRange_first_fit (block_size range_count_hint : Nat)
    (hB : block_size < 4294967296) :
    (∀ (calls : List (RangeCall DataT)) (size : Nat) (r : Range) (a1 : RangeAllocator DataT),
      CallsOk (start block_size range_count_hint) calls →
      (run block_size range_count_hint calls).alloc.AcquireRange size = .ok (r, a1) →
      r.size ≠ 0 →
      r.size = size ∧
      ∃ b blk blk1 pre e post,
        r.block = some b ∧
        (run block_size range_count_hint calls).alloc.m_list_blocks[b]? = some blk ∧
        (∀ j blkj, j < b →
          (run block_size range_count_hint calls).alloc.m_list_blocks[j]? = some blkj →
          ∀ x ∈ blkj.list_avail, x.size < size) ∧
        blk.list_avail = pre ++ e :: post ∧ size ≤ e.size ∧
        (∀ x ∈ blk.list_avail, size ≤ x.size → e.start ≤ x.start) ∧
        r.start = e.start ∧
        a1.m_block_size = block_size ∧
        a1.m_list_blocks =
          (run block_size range_count_hint calls).alloc.m_list_blocks.set b blk1 ∧
        blk1.data = blk.data ∧ blk1.used_count = blk.used_count + 1 ∧
        blk1.list_avail =
          if e.size = size then pre ++ post
          else pre ++ { start := e.start + size, size := e.size - size,
                         block := some b } :: post) ∧
    (∀ (d : DataT) (sizes : List Nat), (∀ s ∈ sizes, 0 < s) → sizes.sum ≤ block_size →
      acquireAll ((RangeAllocator.create block_size range_count_hint).CreateBlock d).2 sizes =
        consecutive 0 0 sizes) := by
  constructor
  · intro calls size r a1 hok hacq hr
    have hinv := ledgerInv_run block_size range_count_hint calls hB hok
    have hsz : (run block_size range_count_hint calls).alloc.m_block_size = block_size :=
      blockSize_run block_size range_count_hint calls
    obtain ⟨s, hs⟩ : ∃ s, run block_size range_count_hint calls = s := ⟨_, rfl⟩
    rw [hs] at hinv hacq hsz ⊢
    obtain ⟨j, blk, pre, e, post, e1, e2, e3, e4, e5, _, rfl, rfl⟩ :=
      acquire_spec s hinv size r a1 hacq hr
    have hch := (hinv.blocks j blk e1).chain
    rw [e3] at hch
    have hep : ∀ c ∈ post, e.start + e.size < c.start :=
      (List.pairwise_cons.1 (List.pairwise_append.1 hch).2.1).1
    refine ⟨rfl, j, blk, _, pre, e, post, rfl, e1, e2, e3, e5, ?_, rfl, hsz, rfl, rfl, rfl, rfl⟩
    intro x hx hle
    rw [e3] at hx
    rcases List.mem_append.1 hx with hx | hx
    · have := e4 x hx
      omega
    · rcases List.mem_cons.1 hx with rfl | hx
      · exact le_rfl
      · have := hep x hx
        omega
  · intro d sizes hpos hsum
    cases sizes with
    | nil => rfl
    | cons size rest =>
      have hs := hpos size (List.mem_cons_self _ _)
      simp only [List.sum_cons] at hsum
      rw [RangeAllocator.createBlock_fresh block_size range_count_hint d (by omega)]
      exact RangeAllocator.acquireAll_fresh block_size range_count_hint d hB (size :: rest)
        0 0 hpos (by simp only [List.sum_cons]; omega)

end Ledger

end ks

namespace ks

namespace Ledger

/-- C22, on the test "Release Range": after the releases of `r2` and `r0` the available
ranges are `{0, 25}` and `{50, 50}` (disjoint ranges stay separate); after the release of
`r1` the only available range is `{25, 75}` (adjacent ranges are merged). -/
theorem free_ranges_sorted_and_coalesced_test :
    CallsOk (start 100 0) releaseCalls ∧
    (∀ blk ∈ (run 100 0 releaseCalls).alloc.m_list_blocks,
      blk.list_avail.Pairwise (fun r s => r.start < s.start) ∧
      blk.list_avail.Chain' (fun r s => r.start + r.size < s.start) ∧
      blk.list_avail.Pairwise (fun r s => r.start + r.size < s.start)) ∧
    (run 100 0 (releaseCalls.take 8)).alloc.m_list_blocks.map (fun b => b.list_avail) =
      [[{ start := 0, size := 25, block := some 0 },
        { start := 50, size := 50, block := some 0 }]] ∧
    (run 100 0 (releaseCalls.take 9)).alloc.m_list_blocks.map (fun b => b.list_avail) =
      [[{ start := 50, size := 50, block := some 0 }]] ∧
    (run 100 0 releaseCalls).alloc.m_list_blocks.map (fun b => b.list_avail) =
      [[{ start := 25, size := 75, block := some 0 }]] :=
  ⟨by simp only [releaseCalls, CallsOk]; decide,
    free_ranges_sorted_and_coalesced 100 0 releaseCalls (by decide)
      (by simp only [releaseCalls, CallsOk]; decide),
    by decide, by decide, by decide⟩

/-- C24, on the end of the test "Release Range": with `r0 = {0, 25}` and `rf = {25, 75}` held,
releasing `r0` sets `empty` to false; releasing `rf` afterwards sets it to true. -/
theorem releaseRange_empty_iff_nothing_held_test :
    CallsOk (start 100 0) filledCalls ∧
    { start := 0, size := 25, block := some 0 } ∈ (run 100 0 filledCalls).held ∧
    (∃ a1 e b blk1,
      (run 100 0 filledCalls).alloc.ReleaseRange { start := 0, size := 25, block := some 0 } =
        some (a1, e) ∧
      ({ start := 0, size := 25, block := some 0 } : Range).block = some b ∧
      a1.m_list_blocks[b]? = some blk1 ∧
      (e = true ↔ blk1.used_count = 0) ∧
      (e = true ↔
        ∀ h ∈ (run 100 0 filledCalls).held.erase { start := 0, size := 25, block := some 0 },
          h.block ≠ ({ start := 0, size := 25, block := some 0 } : Range).block) ∧
      (e = false ↔
        ∃ h ∈ (run 100 0 filledCalls).held.erase { start := 0, size := 25, block := some 0 },
          h.block = ({ start := 0, size := 25, block := some 0 } : Range).block)) ∧
    (run 100 0 filledCalls).held =
      [{ start := 25, size := 75, block := some 0 }, { start := 0, size := 25, block := some 0 }] ∧
    ((run 100 0 filledCalls).alloc.ReleaseRange
      { start := 0, size := 25, block := some 0 }).map Prod.snd = some false ∧
    ((run 100 0 (filledCalls ++
        [.releaseRange { start := 0, size := 25, block := some 0 }])).alloc.ReleaseRange
      { start := 25, size := 75, block := some 0 }).map Prod.snd = some true :=
  ⟨by simp only [filledCalls, releaseCalls, List.cons_append, List.nil_append, CallsOk]; decide,
    by decide,
    releaseRange_empty_iff_nothing_held 100 0 filledCalls (by decide)
      (by simp only [filledCalls, releaseCalls, List.cons_append, List.nil_append, CallsOk]
          decide)
      { start := 0, size := 25, block := some 0 } (by decide),
    by decide, by decide, by decide⟩

set_option maxRecDepth 1000000 in
/-- C23, on the test "Realistic usage": 60 ranges of size 15 are acquired from a block of
size 900 and released in a shuffled order; the block is left with the single available range
`{0, 900}`. -/
theorem releasing_all_restores_block_test :
    CallsOk (start 900 0) realisticCalls ∧
    0 < (run 900 0 realisticCalls).alloc.m_list_blocks.length ∧
    shuffled.Perm (heldIn 0 (run 900 0 realisticCalls).held) ∧
    (run 900 0 realisticCalls).held.length = 60 ∧
    (run 900 0 realisticCalls).alloc.m_list_blocks.map (fun b => b.list_avail) = [[]] ∧
    (∃ blk,
      ((shuffled.map RangeCall.releaseRange).foldl step
        (run 900 0 realisticCalls)).alloc.m_list_blocks[0]? = some blk ∧
      blk.list_avail = [{ start := 0, size := 900, block := some 0 }] ∧
      blk.used_count = 0) :=
  ⟨by simp [realisticCalls, CallsOk, List.replicate],
    by decide, by decide, by decide, by decide,
    releasing_all_restores_block 900 0 realisticCalls (by decide)
      (by simp [realisticCalls, CallsOk, List.replicate]) 0 (by decide) shuffled (by decide)⟩

end Ledger

end ks

namespace ks

namespace Ledger

/-- C21, on the test "Acquire Range < Block Size": after two acquisitions of 25 from a block
of size 100, `AcquireRange(50)` returns `{50, 50}`; the sizes 25, 25, 50 acquired from the new
block return the starts 0, 25, 50. -/
theorem acquireRange_first_fit_test :
    (100 : Nat) < 4294967296 ∧ CallsOk (start 100 0) halfCalls ∧
    (run 100 0 halfCalls).alloc.AcquireRange 50 =
      .ok ({ start := 50, size := 50, block := some 0 },
        (run 100 0 (halfCalls ++ [.acquireRange 50])).alloc) ∧
    (({ start := 50, size := 50, block := some 0 } : Range).size = 50 ∧
      ∃ b blk blk1 pre e post,
        ({ start := 50, size := 50, block := some 0 } : Range).block = some b ∧
        (run 100 0 halfCalls).alloc.m_list_blocks[b]? = some blk ∧
        (∀ j blkj, j < b → (run 100 0 halfCalls).alloc.m_list_blocks[j]? = some blkj →
          ∀ x ∈ blkj.list_avail, x.size < 50) ∧
        blk.list_avail = pre ++ e :: post ∧ 50 ≤ e.size ∧
        (∀ x ∈ blk.list_avail, 50 ≤ x.size → e.start ≤ x.start) ∧
        ({ start := 50, size := 50, block := some 0 } : Range).start = e.start ∧
        (run 100 0 (halfCalls ++ [.acquireRange 50])).alloc.m_block_size = 100 ∧
        (run 100 0 (halfCalls ++ [.acquireRange 50])).alloc.m_list_blocks =
          (run 100 0 halfCalls).alloc.m_list_blocks.set b blk1 ∧
        blk1.data = blk.data ∧ blk1.used_count = blk.used_count + 1 ∧
        blk1.list_avail =
          if e.size = 50 then pre ++ post
          else pre ++ { start := e.start + 50, size := e.size - 50, block := some b } :: post) ∧
    acquireAll ((RangeAllocator.create 100 0).CreateBlock 0).2 [25, 25, 50] =
      consecutive 0 0 [25, 25, 50] ∧
    consecutive 0 0 [25, 25, 50] =
      [{ start := 0, size := 25, block := some 0 }, { start := 25, size := 25, block := some 0 },
        { start := 50, size := 50, block := some 0 }] ∧
    (run 100 0 halfCalls).alloc.m_list_blocks.map (fun b => (b.used_count, b.list_avail)) =
      [(2, [{ start := 50, size := 50, block := some 0 }])] ∧
    (run 100 0 (halfCalls ++ [.acquireRange 50])).alloc.m_list_blocks.map
      (fun b => (b.used_count, b.list_avail)) = [(3, [])] :=
  ⟨by decide, by simp [halfCalls, CallsOk], rfl,
    (acquireRange_first_fit 100 0 (by decide)).1 halfCalls 50
      { start := 50, size := 50, block := some 0 }
      (run 100 0 (halfCalls ++ [RangeCall.acquireRange 50])).alloc
      (by simp [halfCalls, CallsOk]) rfl (by decide),
    (acquireRange_first_fit 100 0 (by decide)).2 (0 : Nat) [25, 25, 50] (by decide) (by decide),
    by decide, by decide, by decide⟩

end Ledger

end ks

/-! ## The recursion bound of the traversal is never reached -/

namespace ks

/-- The fold over an output list does not depend on the recursion bound, once the traversals
it starts do not. -/
theorem visitOutputs_fuel (outputs : Nat → List Nat) (U : Finset Nat)
    (hU : ∀ u ∈ U, ∀ v ∈ outputs u, v ∈ U) (fuel k : Nat)
    (ih : ∀ n st, n ∈ U → SortInv st → whiteCard U st < fuel →
      topologicalSort outputs (fuel + k) n st = topologicalSort outputs fuel n st) :
    ∀ (l : List Nat) (s : SortState), (∀ c ∈ l, c ∈ U) → SortInv s → whiteCard U s < fuel →
      visitOutputs outputs (fuel + k) l s = visitOutputs outputs fuel l s := by
  intro l
  induction l with
  | nil => intro s _ _ _; rfl
  | cons c l ihl =>
    intro s hl hi hf
    rw [visitOutputs_cons, visitOutputs_cons]
    by_cases hc : s.state c = 0
    · rw [if_pos hc, if_pos hc, ih c s (hl c (by simp)) hi hf]
      obtain ⟨new, e, -⟩ := topologicalSort_spec outputs U hU fuel c s (hl c (by simp)) hi hc hf
      exact ihl _ (fun x hx => hl x (by simp [hx])) (e.inv hi)
        (lt_of_le_of_lt (whiteCard_mono U _ _ e.state_zero) hf)
    · rw [if_neg hc, if_neg hc]
      exact ihl s (fun x hx => hl x (by simp [hx])) hi hf

/-- A traversal that is given more unvisited vertices than there are never reaches its
recursion bound: every larger bound gives the same result. -/
theorem topologicalSort_fuel (outputs : Nat → List Nat) (U : Finset Nat)
    (hU : ∀ u ∈ U, ∀ v ∈ outputs u, v ∈ U) (k : Nat) :
    ∀ (fuel n : Nat) (st : SortState), n ∈ U → SortInv st → whiteCard U st < fuel →
      topologicalSort outputs (fuel + k) n st = topologicalSort outputs fuel n st := by
  intro fuel
  induction fuel with
  | zero => intro n st _ _ h; omega
  | succ fuel ih =>
    intro n st hn hi hf
    rw [Nat.add_right_comm fuel 1 k]
    by_cases hw : st.state n = 0
    · rw [topologicalSort_succ outputs (fuel + k) n st hw,
        topologicalSort_succ outputs fuel n st hw]
      have hi1 : SortInv { st with state := setState st.state n 1 } := by
        intro v
        have := hi v
        by_cases hv : v = n
        · subst hv; simp [setState, this, hw]
        · simp [setState, hv, this]
      have hf1 : whiteCard U { st with state := setState st.state n 1 } < fuel := by
        have := whiteCard_lt U st n hn hw
        omega
      rw [visitOutputs_fuel outputs U hU fuel k ih (outputs n) _ (fun c hc => hU n hn c hc)
        hi1 hf1]
    · simp [topologicalSort, hw]

end ks

/-! ## Propagation on graphs with cycles -/

namespace ks

variable {T : Type}

theorem loopOps_valid : ValidOps (World.empty : World Int) loopOps := by
  refine ⟨trivial, ?_, ?_, trivial⟩ <;> (simp only [ValidOp]; decide)

theorem loopWorld_wellFormed : WellFormed loopWorld := wellFormed_runOps loopOps loopOps_valid

theorem loopWorld_cyclic : ¬ loopWorld.Acyclic := by
  intro h
  have h01 : Edge loopWorld.outputs 0 1 := by
    show 1 ∈ loopWorld.outputs 0
    decide
  have h10 : Edge loopWorld.outputs 1 0 := by
    show 0 ∈ loopWorld.outputs 1
    decide
  exact h 0 (Relation.TransGen.tail (Relation.TransGen.single h01) h10)

/-- C31: in every property graph whose edges stay among the constructed properties, with or
without cycles along the output edges, `TopologicalSort(start, out)` never reaches the bound
on its recursion depth (every larger bound gives the same list, so the traversal terminates;
the model has no error to raise), the list it appends contains no property twice and contains
exactly the properties reachable from `start`, each therefore exactly once; and the
properties that `evaluateOutputs` evaluates in its pass are reachable from `start` and are
evaluated at most once each. -/
theorem cycle_tolerant_propagation (w : World T) (start : Nat) (hr : w.InRange)
    (hs : start < w.count) :
    (∀ k, (topologicalSort w.outputs (w.count + 1 + k) start ⟨fun _ => 0, []⟩).sorted =
      TopologicalSort w start) ∧
    (TopologicalSort w start).Nodup ∧
    (∀ v, v ∈ TopologicalSort w start ↔ Reach w.outputs start v) ∧
    (∀ v, Reach w.outputs start v → (TopologicalSort w start).count v = 1) ∧
    (∀ v, ((evaluations (evaluateOutputs w start).trace).drop
      (evaluations w.trace).length).count v ≤ 1) ∧
    (∀ v, v ∈ (evaluations (evaluateOutputs w start).trace).drop (evaluations w.trace).length →
      Reach w.outputs start v) := by
  obtain ⟨h1, h2, -⟩ := TopologicalSort_spec w start hr hs
  obtain ⟨e1, e2, -⟩ := evaluationOrder_spec w start hr hs
  have hdrop : (evaluations (evaluateOutputs w start).trace).drop (evaluations w.trace).length =
      evaluationOrder w start := by
    rw [evaluations_evaluateOutputs, List.drop_left]
  refine ⟨?_, h1, h2, ?_, ?_, ?_⟩
  · intro k
    have hi : SortInv ⟨fun _ => 0, []⟩ := by intro v; simp
    have hw : whiteCard (Finset.range w.count) ⟨fun _ => 0, []⟩ < w.count + 1 := by
      have : whiteCard (Finset.range w.count) ⟨fun _ => 0, []⟩ ≤
          (Finset.range w.count).card := Finset.card_filter_le _ _
      rw [Finset.card_range] at this
      omega
    unfold TopologicalSort
    rw [topologicalSort_fuel w.outputs (Finset.range w.count)
      (fun u _ v hv => Finset.mem_range.2 (hr u v hv)) k (w.count + 1) start
      ⟨fun _ => 0, []⟩ (Finset.mem_range.2 hs) hi hw]
  · intro v hv
    exact List.count_eq_one_of_mem h1 ((h2 v).2 hv)
  · intro v
    rw [hdrop]
    exact List.nodup_iff_count_le_one.1 e1 v
  · intro v hv
    rw [hdrop] at hv
    exact ((e2 v).1 hv).1

/-- C31, on two properties that read each other (`a` bound to `b + 1`, `b` bound to
`a + 1`): the output edges form the cycle `a -> b -> a`; the traversal from `a` appends `b`,
then `a`, and the pass of `evaluateOutputs` evaluates `b` once. -/
theorem cycle_tolerant_propagation_loop :
    loopWorld.InRange ∧ 0 < loopWorld.count ∧ ¬ loopWorld.Acyclic ∧
    ((∀ k, (topologicalSort loopWorld.outputs (loopWorld.count + 1 + k) 0
        ⟨fun _ => 0, []⟩).sorted = TopologicalSort loopWorld 0) ∧
      (TopologicalSort loopWorld 0).Nodup ∧
      (∀ v, v ∈ TopologicalSort loopWorld 0 ↔ Reach loopWorld.outputs 0 v) ∧
      (∀ v, Reach loopWorld.outputs 0 v → (TopologicalSort loopWorld 0).count v = 1) ∧
      (∀ v, ((evaluations (evaluateOutputs loopWorld 0).trace).drop
        (evaluations loopWorld.trace).length).count v ≤ 1) ∧
      (∀ v, v ∈ (evaluations (evaluateOutputs loopWorld 0).trace).drop
        (evaluations loopWorld.trace).length → Reach loopWorld.outputs 0 v)) ∧
    loopWorld.outputs 0 = [1] ∧ loopWorld.outputs 1 = [0] ∧
    TopologicalSort loopWorld 0 = [1, 0] ∧
    (evaluations (evaluateOutputs loopWorld 0).trace).drop (evaluations loopWorld.trace).length
      = [1] :=
  ⟨loopWorld_wellFormed.inRange, by decide, loopWorld_cyclic,
    cycle_tolerant_propagation loopWorld 0 loopWorld_wellFormed.inRange (by decide),
    by decide, by decide, by decide, by decide⟩

end ks

/-! ## Destruction discards the bindings of the dependants -/

namespace ks

variable {T : Type}

/-- C32: when a property `q` is destroyed (in any edge-symmetric graph state), every property
`p` that lists `q` as an input, that is, whose binding captured `q`, has its binding discarded:
`GetBindingValid()` is false and `m_binding_init` is false afterwards, `p` no longer lists `q`
as an input, and `p` keeps the value it had. -/
theorem destroy_discards_dependent_bindings (w : World T) (q p : Nat) (h : EdgeSymmetry w)
    (hp : q ∈ w.inputs p) :
    GetBindingValid (destroy w q) p = false ∧
    ((destroy w q).props p).m_binding_init = false ∧
    q ∉ (destroy w q).inputs p ∧
    (destroy w q).value p = w.value p := by
  have hout : p = q ∨ p ∈ (clearInputs w q).outputs q := by
    by_cases hpq : p = q
    · exact Or.inl hpq
    · exact Or.inr ((mem_outputs_clearInputs w q q p).2 ⟨(h q p).1 hp, fun hh => hpq hh.1⟩)
  have h1 := edgeSymmetry_clearInputs w q h
  unfold destroy
  refine ⟨?_, ?_, ?_, ?_⟩
  · unfold GetBindingValid
    rw [binding_clearOutputs]
    split
    · rfl
    · rcases hout with hpq | ho
      · rw [binding_clearInputs, if_pos hpq]; rfl
      · contradiction
  · rw [init_clearOutputs]
    split
    · rfl
    · rcases hout with hpq | ho
      · rw [init_clearInputs, if_pos hpq]
      · contradiction
  · intro hq
    obtain ⟨hin, hn⟩ := (mem_inputs_clearOutputs _ q q p).1 hq
    exact hn ⟨rfl, (h1 q p).1 hin⟩
  · unfold World.value
    rw [value_clearOutputs, value_clearInputs]

/-- C32, on the diamond: `D = B + C` holds 4 and a binding that captured `B` and `C`; after
`B` is destroyed `D` has no binding, lists only `C` as an input and still holds 4. -/
theorem destroy_discards_dependent_bindings_diamond :
    EdgeSymmetry diamond ∧ 1 ∈ diamond.inputs 3 ∧
    (GetBindingValid (destroy diamond 1) 3 = false ∧
      ((destroy diamond 1).props 3).m_binding_init = false ∧
      1 ∉ (destroy diamond 1).inputs 3 ∧
      (destroy diamond 1).value 3 = diamond.value 3) ∧
    GetBindingValid diamond 3 = true ∧ diamond.inputs 3 = [1, 2] ∧ diamond.value 3 = 4 ∧
    (destroy diamond 1).inputs 3 = [2] ∧ (destroy diamond 1).value 3 = 4 :=
  ⟨diamond_wellFormed.symm, by decide,
    destroy_discards_dependent_bindings diamond 1 3 diamond_wellFormed.symm (by decide),
    by decide, by decide, by decide, by decide, by decide⟩

end ks

/-! ## `RangeAllocator`: no range is handed out twice -/

namespace ks

namespace Ledger

variable {DataT : Type}

/-- C34: after every sequence of `CreateBlock`, `AcquireRange` and `ReleaseRange` calls on an
allocator (block size below 2^32) in which every range released was returned by a successful
`AcquireRange` and has not been released yet, in each block the held ranges (each of positive
size) are pairwise disjoint, disjoint from every available range of the block and inside
`[0, block_size)`, as the available ranges are; the sizes of the held ranges and the sizes
of the available ranges of the block sum to `block_size`; and every held range belongs to a
block of the allocator. -/
theorem no_double_allocation (block_size range_count_hint : Nat)
    (calls : List (RangeCall DataT)) (hB : block_size < 4294967296)
    (hok : CallsOk (start block_size range_count_hint) calls) :
    (∀ b blk, (run block_size range_count_hint calls).alloc.m_list_blocks[b]? = some blk →
      (heldIn b (run block_size range_count_hint calls).held).Pairwise Range.Apart ∧
      (∀ h ∈ heldIn b (run block_size range_count_hint calls).held,
        ∀ r ∈ blk.list_avail, h.Apart r) ∧
      (∀ h ∈ heldIn b (run block_size range_count_hint calls).held,
        0 < h.size ∧ h.start + h.size ≤ block_size) ∧
      (∀ r ∈ blk.list_avail, r.start + r.size ≤ block_size) ∧
      sizeSum (heldIn b (run block_size range_count_hint calls).held) +
        sizeSum blk.list_avail = block_size) ∧
    ∀ h ∈ (run block_size range_count_hint calls).held,
      ∃ b, h.block = some b ∧
        b < (run block_size range_count_hint calls).alloc.m_list_blocks.length := by
  have hinv := ledgerInv_run block_size range_count_hint calls hB hok
  have hsz := blockSize_run block_size range_count_hint calls
  refine ⟨?_, fun h hh => (hinv.held_ok h hh).2.2⟩
  intro b blk hb
  have hblk := hinv.blocks b blk hb
  rw [hsz] at hblk
  refine ⟨?_, hblk.apart, ?_, hblk.bound, ?_⟩
  · have h1 := hinv.held_apart.filter (fun h => decide (h.block = some b))
    refine List.Pairwise.imp_of_mem ?_ h1
    intro h k hh hk hhk
    have e1 := ((mem_heldIn b h _).1 hh).2
    have e2 := ((mem_heldIn b k _).1 hk).2
    exact hhk (e1.trans e2.symm)
  · intro h hh
    have h1 := hinv.held_ok h ((mem_heldIn b h _).1 hh).1
    rw [hsz] at h1
    exact ⟨h1.1, h1.2.1⟩
  · have := hblk.total
    omega

/-- C34, on the test "Release Range": with `r0 = {0, 25}` and `rf = {25, 75}` held and
nothing available the block of size 100 is exactly covered; before the acquisition of `rf`
the held range `{0, 25}` and the available range `{25, 75}` cover it. -/
theorem no_double_allocation_test :
    CallsOk (start 100 0) filledCalls ∧
    ((∀ b blk, (run 100 0 filledCalls).alloc.m_list_blocks[b]? = some blk →
      (heldIn b (run 100 0 filledCalls).held).Pairwise Range.Apart ∧
      (∀ h ∈ heldIn b (run 100 0 filledCalls).held, ∀ r ∈ blk.list_avail, h.Apart r) ∧
      (∀ h ∈ heldIn b (run 100 0 filledCalls).held, 0 < h.size ∧ h.start + h.size ≤ 100) ∧
      (∀ r ∈ blk.list_avail, r.start + r.size ≤ 100) ∧
      sizeSum (heldIn b (run 100 0 filledCalls).held) + sizeSum blk.list_avail = 100) ∧
    ∀ h ∈ (run 100 0 filledCalls).held,
      ∃ b, h.block = some b ∧ b < (run 100 0 filledCalls).alloc.m_list_blocks.length) ∧
    (run 100 0 filledCalls).held =
      [{ start := 25, size := 75, block := some 0 },
        { start := 0, size := 25, block := some 0 }] ∧
    (run 100 0 filledCalls).alloc.m_list_blocks.map (fun b => b.list_avail) = [[]] ∧
    (run 100 0 releaseCalls).held = [{ start := 0, size := 25, block := some 0 }] ∧
    (run 100 0 releaseCalls).alloc.m_list_blocks.map (fun b => b.list_avail) =
      [[{ start := 25, size := 75, block := some 0 }]] :=
  ⟨by simp only [filledCalls, releaseCalls, List.cons_append, List.nil_append, CallsOk]; decide,
    no_double_allocation 100 0 filledCalls (by decide)
      (by simp only [filledCalls, releaseCalls, List.cons_append, List.nil_append, CallsOk]
          decide),
    by decide, by decide, by decide, by decide⟩

end Ledger

end ks

/-! ## `BinPackShelf`: placement without overflow -/

namespace ks

namespace BinPackShelf

/-- `AddRectangle` when no sum overflows, in terms of the sums themselves. -/
theorem AddRectangle_fits (b : BinPackShelf) (rect : BinPackRectangle) (hf : b.Fits32 rect) :
    b.AddRectangle rect =
      if b.m_place_y + b.m_spacing + rect.height < b.m_height then
        if b.m_place_x + b.m_spacing + rect.width < b.m_width then
          (true, { rect with x := b.m_place_x + b.m_spacing, y := b.m_place_y + b.m_spacing },
            b.place (b.m_place_x + b.m_spacing + rect.width)
              (b.m_place_y + b.m_spacing + rect.height))
        else if b.m_shelf_y + b.m_spacing + rect.height < b.m_height ∧
            b.m_spacing + rect.width < b.m_width then
          (true, { rect with x := b.m_spacing, y := b.m_shelf_y + b.m_spacing },
            place { b with m_place_x := 0, m_place_y := b.m_shelf_y }
              (b.m_spacing + rect.width) (b.m_shelf_y + b.m_spacing + rect.height))
        else
          (false, { rect with x := b.m_spacing, y := b.m_shelf_y + b.m_spacing },
            { b with m_place_x := 0, m_place_y := b.m_shelf_y })
      else
        (false, { rect with x := b.m_place_x + b.m_spacing, y := b.m_place_y + b.m_spacing }, b)
    := by
  obtain ⟨f1, f2, f3⟩ := hf
  have e1 : (b.m_place_x + b.m_spacing) % 4294967296 = b.m_place_x + b.m_spacing :=
    Nat.mod_eq_of_lt (by omega)
  have e2 : (b.m_place_y + b.m_spacing) % 4294967296 = b.m_place_y + b.m_spacing :=
    Nat.mod_eq_of_lt (by omega)
  have e3 : (b.m_place_x + b.m_spacing + rect.width) % 4294967296 =
      b.m_place_x + b.m_spacing + rect.width := Nat.mod_eq_of_lt f1
  have e4 : (b.m_place_y + b.m_spacing + rect.height) % 4294967296 =
      b.m_place_y + b.m_spacing + rect.height := Nat.mod_eq_of_lt f2
  have e5 : (0 + b.m_spacing) % 4294967296 = b.m_spacing := by
    rw [Nat.zero_add]; exact Nat.mod_eq_of_lt (by omega)
  have e6 : (b.m_spacing + rect.width) % 4294967296 = b.m_spacing + rect.width :=
    Nat.mod_eq_of_lt (by omega)
  unfold AddRectangle
  simp only [e1, e2, e3, e4, e5, e6]
  by_cases c1 : b.m_place_y + b.m_spacing + rect.height < b.m_height
  · by_cases c2 : b.m_place_x + b.m_spacing + rect.width < b.m_width
    · simp only [c1, c2, if_true]
    · have f4 := f3 c1 c2
      have e7 : (b.m_shelf_y + b.m_spacing) % 4294967296 = b.m_shelf_y + b.m_spacing :=
        Nat.mod_eq_of_lt (by omega)
      have e8 : (b.m_shelf_y + b.m_spacing + rect.height) % 4294967296 =
          b.m_shelf_y + b.m_spacing + rect.height := Nat.mod_eq_of_lt f4
      simp only [c1, c2, if_true, if_false, e7, e8]
      by_cases c3 : b.m_shelf_y + b.m_spacing + rect.height < b.m_height
      · by_cases c4 : b.m_spacing + rect.width < b.m_width
        · simp only [c3, c4, if_true, and_self]
        · simp only [c3, c4, if_true, if_false, and_false]
      · simp only [c3, if_false, false_and]
  · simp only [c1, if_false]

end BinPackShelf

end ks

namespace ks

namespace BinPackShelf

/-- `AddRectangle` never changes the size or the orientation of the rectangle, nor the size
or the spacing of the bin. -/
theorem AddRectangle_keeps (b : BinPackShelf) (rect : BinPackRectangle) :
    (b.AddRectangle rect).2.1.width = rect.width ∧
    (b.AddRectangle rect).2.1.height = rect.height ∧
    (b.AddRectangle rect).2.1.flipped = rect.flipped ∧
    (b.AddRectangle rect).2.2.m_width = b.m_width ∧
    (b.AddRectangle rect).2.2.m_height = b.m_height ∧
    (b.AddRectangle rect).2.2.m_spacing = b.m_spacing := by
  unfold AddRectangle
  simp only []
  split
  · split
    · exact ⟨rfl, rfl, rfl, rfl, rfl, rfl⟩
    · split
      · split
        · exact ⟨rfl, rfl, rfl, rfl, rfl, rfl⟩
        · exact ⟨rfl, rfl, rfl, rfl, rfl, rfl⟩
      · exact ⟨rfl, rfl, rfl, rfl, rfl, rfl⟩
  · exact ⟨rfl, rfl, rfl, rfl, rfl, rfl⟩

/-- One call without overflow keeps the placed rectangles packed; a rectangle it accepts
joins them and overlaps none of them. -/
theorem packed_step (b : BinPackShelf) (placed : List BinPackRectangle)
    (rect : BinPackRectangle) (hp : b.Packed placed) (hf : b.Fits32 rect) :
    ((b.AddRectangle rect).1 = true →
      (b.AddRectangle rect).2.2.Packed ((b.AddRectangle rect).2.1 :: placed) ∧
      ∀ r ∈ placed, r.Apart (b.AddRectangle rect).2.1) ∧
    ((b.AddRectangle rect).1 = false → (b.AddRectangle rect).2.2.Packed placed) := by
  rw [AddRectangle_fits b rect hf]
  by_cases c1 : b.m_place_y + b.m_spacing + rect.height < b.m_height
  · by_cases c2 : b.m_place_x + b.m_spacing + rect.width < b.m_width
    · simp only [c1, c2, if_true]
      refine ⟨fun _ => ⟨?_, ?_⟩, fun h => absurd h (by simp)⟩
      · intro r hr
        rcases List.mem_cons.1 hr with hr | hr
        · subst hr
          simp only [place]
          refine ⟨c2, c1, ?_, Or.inr le_rfl⟩
          split <;> omega
        · obtain ⟨p1, p2, p3, p4⟩ := hp r hr
          simp only [place]
          refine ⟨p1, p2, ?_, ?_⟩
          · split <;> omega
          · rcases p4 with p4 | p4
            · exact Or.inl p4
            · exact Or.inr (by omega)
      · intro r hr
        obtain ⟨p1, p2, p3, p4⟩ := hp r hr
        simp only [BinPackRectangle.Apart]
        rcases p4 with p4 | p4
        · exact Or.inr (Or.inr (Or.inl (by omega)))
        · exact Or.inl (by omega)
    · by_cases c3 : b.m_shelf_y + b.m_spacing + rect.height < b.m_height ∧
          b.m_spacing + rect.width < b.m_width
      · simp only [c1, c2, c3, if_true, if_false, and_self]
        refine ⟨fun _ => ⟨?_, ?_⟩, fun h => absurd h (by simp)⟩
        · intro r hr
          rcases List.mem_cons.1 hr with hr | hr
          · subst hr
            simp only [place]
            refine ⟨c3.2, c3.1, ?_, Or.inr le_rfl⟩
            split <;> omega
          · obtain ⟨p1, p2, p3, p4⟩ := hp r hr
            simp only [place]
            refine ⟨p1, p2, ?_, Or.inl p3⟩
            split <;> omega
        · intro r hr
          obtain ⟨p1, p2, p3, p4⟩ := hp r hr
          simp only [BinPackRectangle.Apart]
          exact Or.inr (Or.inr (Or.inl (by omega)))
      · simp only [c1, c2, c3, if_true, if_false]
        refine ⟨fun h => absurd h (by simp), fun _ => ?_⟩
        intro r hr
        obtain ⟨p1, p2, p3, p4⟩ := hp r hr
        exact ⟨p1, p2, p3, Or.inl p3⟩
  · simp only [c1, if_false]
    exact ⟨fun h => absurd h (by simp), fun _ => hp⟩

/-- The rectangles accepted by a sequence of calls without overflow, started with some
rectangles placed already, lie inside the bin, overlap none of the placed ones and do not
overlap each other. -/
theorem accepted_spec (rects : List BinPackRectangle) :
    ∀ (b : BinPackShelf) (placed : List BinPackRectangle), b.Packed placed →
      NoOverflow b rects →
      (b.accepted rects).Pairwise BinPackRectangle.Apart ∧
      (∀ r ∈ b.accepted rects, r.x + r.width < b.m_width ∧ r.y + r.height < b.m_height) ∧
      (∀ p ∈ placed, ∀ r ∈ b.accepted rects, p.Apart r) := by
  induction rects with
  | nil =>
    intro b placed _ _
    simp [accepted]
  | cons rect rest ih =>
    intro b placed hp hno
    obtain ⟨hf, hno1⟩ := hno
    obtain ⟨s1, s2⟩ := packed_step b placed rect hp hf
    obtain ⟨-, -, -, k1, k2, -⟩ := AddRectangle_keeps b rect
    by_cases hacc : (b.AddRectangle rect).1 = true
    · obtain ⟨hp1, hap⟩ := s1 hacc
      obtain ⟨i1, i2, i3⟩ := ih _ _ hp1 hno1
      rw [k1, k2] at i2
      have hacc_eq : b.accepted (rect :: rest) =
          (b.AddRectangle rect).2.1 :: (b.AddRectangle rect).2.2.accepted rest := by
        simp [accepted, hacc]
      rw [hacc_eq]
      refine ⟨List.pairwise_cons.2 ⟨fun r hr => i3 _ (List.mem_cons_self _ _) r hr, i1⟩, ?_, ?_⟩
      · intro r hr
        rcases List.mem_cons.1 hr with hr | hr
        · subst hr
          have := hp1 _ (List.mem_cons_self _ _)
          rw [k1, k2] at this
          exact ⟨this.1, this.2.1⟩
        · exact i2 r hr
      · intro p hpm r hr
        rcases List.mem_cons.1 hr with hr | hr
        · subst hr; exact hap p hpm
        · exact i3 p (List.mem_cons_of_mem _ hpm) r hr
    · have hfalse : (b.AddRectangle rect).1 = false := by simpa using hacc
      obtain ⟨i1, i2, i3⟩ := ih _ _ (s2 hfalse) hno1
      rw [k1, k2] at i2
      have hacc_eq : b.accepted (rect :: rest) = (b.AddRectangle rect).2.2.accepted rest := by
        simp [accepted, hfalse]
      rw [hacc_eq]
      exact ⟨i1, i2, i3⟩

end BinPackShelf

end ks

/-! ## `BinPackShelf`: accepted rectangles -/

namespace ks

namespace BinPackShelf

/-- The first call on a newly constructed bin, with the sums taken modulo 2^32 as the code
takes them. -/
theorem AddRectangle_create (W H s : Nat) (rect : BinPackRectangle) (hs : s < 4294967296) :
    (create W H s).AddRectangle rect =
      if (s + rect.height) % 4294967296 < H ∧ (s + rect.width) % 4294967296 < W then
        (true, { rect with x := s, y := s },
          (create W H s).place ((s + rect.width) % 4294967296)
            ((s + rect.height) % 4294967296))
      else if (s + rect.height) % 4294967296 < H then
        (false, { rect with x := s, y := s }, create W H s)
      else (false, { rect with x := s, y := s }, create W H s) := by
  have e1 : (0 + s) % 4294967296 = s := by rw [Nat.zero_add]; exact Nat.mod_eq_of_lt hs
  unfold AddRectangle
  simp only [create, e1]
  by_cases c1 : (s + rect.height) % 4294967296 < H
  · by_cases c2 : (s + rect.width) % 4294967296 < W
    · simp only [c1, c2, if_true, and_self]
    · simp only [c1, c2, if_true, if_false, and_false]
  · simp only [c1, if_false, false_and]

/-- C35: for every bin and every sequence of `AddRectangle` calls none of which overflows,
the rectangles for which `AddRectangle` returned true, at the positions written into them,
are pairwise non-overlapping and each lies inside the bin, `x + width < W` and
`y + height < H`; the sequence may contain rejected calls. -/
theorem accepted_rectangles_apart_and_inside (W H s : Nat) (rects : List BinPackRectangle)
    (hno : NoOverflow (create W H s) rects) :
    ((create W H s).accepted rects).Pairwise BinPackRectangle.Apart ∧
    ∀ r ∈ (create W H s).accepted rects, r.x + r.width < W ∧ r.y + r.height < H := by
  have hp : (create W H s).Packed [] := by
    intro r hr
    exact absurd hr (List.not_mem_nil r)
  obtain ⟨h1, h2, -⟩ := accepted_spec rects (create W H s) [] hp hno
  exact ⟨h1, h2⟩

/-- C35, on a bin of width 10 and height 10 with spacing 1: of 4x3, 5x2, 9x1 and 2x1 the
third is rejected, after the jump to the next shelf has been tried; the others are placed at
(1,1), (1,5) and (1,8). -/
theorem accepted_rectangles_apart_and_inside_test :
    NoOverflow (create 10 10 1) shelfCalls ∧
    (((create 10 10 1).accepted shelfCalls).Pairwise BinPackRectangle.Apart ∧
      ∀ r ∈ (create 10 10 1).accepted shelfCalls, r.x + r.width < 10 ∧ r.y + r.height < 10) ∧
    (create 10 10 1).accepted shelfCalls =
      [ { x := 1, y := 1, width := 4, height := 3, flipped := false },
        { x := 1, y := 5, width := 5, height := 2, flipped := false },
        { x := 1, y := 8, width := 2, height := 1, flipped := false } ] ∧
    ((create 10 10 1).addAll (shelfCalls.take 2)).AddRectangle
        { x := 0, y := 0, width := 9, height := 1, flipped := false } =
      (false, { x := 1, y := 8, width := 9, height := 1, flipped := false },
        { m_width := 10, m_height := 10, m_place_x := 0, m_place_y := 7, m_shelf_y := 7,
          m_spacing := 1 }) :=
  ⟨by simp only [shelfCalls, NoOverflow, Fits32]; decide,
    accepted_rectangles_apart_and_inside 10 10 1 shelfCalls
      (by simp only [shelfCalls, NoOverflow, Fits32]; decide),
    by rfl, by rfl⟩

/-- C37, evaluation at the failing input: on a new bin of width 10 and height 10 with
spacing 1 the rectangle of width 4294967295 and height 1 is accepted and placed at (1,1),
because `rect.x + rect.width` wraps around to 0, although `s + rect.width < W` does not hold
and the rectangle is wider than the bin. -/
theorem first_rectangle_wraps_around :
    ((create 10 10 1).AddRectangle
      { x := 0, y := 0, width := 4294967295, height := 1, flipped := false }).1 = true ∧
    ¬ (1 + 4294967295 < 10 ∧ 1 + 1 < 10) ∧
    ((create 10 10 1).AddRectangle
      { x := 0, y := 0, width := 4294967295, height := 1, flipped := false }).2.1 =
      { x := 1, y := 1, width := 4294967295, height := 1, flipped := false } := by
  refine ⟨by decide, by decide, by rfl⟩

/-- The first `AddRectangle(rect)` on a newly constructed bin `BinPackShelf(W, H, s)` returns
true if and only if `(s + rect.width) mod 2^32 < W` and `(s + rect.height) mod 2^32 < H`; when
neither sum overflows this is `s + rect.width < W` and `s + rect.height < H`, strictly.  After
the call `rect.x == s` and `rect.y == s`, and `rect.width`, `rect.height` and `rect.flipped`
are unchanged. -/
theorem first_rectangle_on_new_shelf (W H s : Nat) (rect : BinPackRectangle)
    (hs : s < 4294967296) :
    (((create W H s).AddRectangle rect).1 = true ↔
      (s + rect.width) % 4294967296 < W ∧ (s + rect.height) % 4294967296 < H) ∧
    (s + rect.width < 4294967296 → s + rect.height < 4294967296 →
      (((create W H s).AddRectangle rect).1 = true ↔
        s + rect.width < W ∧ s + rect.height < H)) ∧
    ((create W H s).AddRectangle rect).2.1 = { rect with x := s, y := s } := by
  have key : (((create W H s).AddRectangle rect).1 = true ↔
      (s + rect.width) % 4294967296 < W ∧ (s + rect.height) % 4294967296 < H) ∧
      ((create W H s).AddRectangle rect).2.1 = { rect with x := s, y := s } := by
    rw [AddRectangle_create W H s rect hs]
    by_cases c1 : (s + rect.height) % 4294967296 < H
    · by_cases c2 : (s + rect.width) % 4294967296 < W
      · simp [c1, c2]
      · simp [c1, c2]
    · simp [c1]
  refine ⟨key.1, ?_, key.2⟩
  intro hw hh
  rw [key.1, Nat.mod_eq_of_lt hw, Nat.mod_eq_of_lt hh]

/-- The first call on a bin of width 10 and height 10 with spacing 1: 8x8 is placed at (1,1),
9x8 is rejected (1 + 9 is not below 10), and 10x10 is rejected with spacing 0. -/
theorem first_rectangle_on_new_shelf_test :
    (1 : Nat) < 4294967296 ∧
    ((((create 10 10 1).AddRectangle
        { x := 7, y := 7, width := 8, height := 8, flipped := true }).1 = true ↔
      (1 + 8) % 4294967296 < 10 ∧ (1 + 8) % 4294967296 < 10) ∧
    (1 + 8 < 4294967296 → 1 + 8 < 4294967296 →
      (((create 10 10 1).AddRectangle
          { x := 7, y := 7, width := 8, height := 8, flipped := true }).1 = true ↔
        1 + 8 < 10 ∧ 1 + 8 < 10)) ∧
    ((create 10 10 1).AddRectangle
        { x := 7, y := 7, width := 8, height := 8, flipped := true }).2.1 =
      { x := 1, y := 1, width := 8, height := 8, flipped := true }) ∧
    (create 10 10 1).AddRectangle { x := 7, y := 7, width := 8, height := 8, flipped := true } =
      (true, { x := 1, y := 1, width := 8, height := 8, flipped := true },
        { m_width := 10, m_height := 10, m_place_x := 9, m_place_y := 0, m_shelf_y := 9,
          m_spacing := 1 }) ∧
    ((create 10 10 1).AddRectangle
      { x := 0, y := 0, width := 9, height := 8, flipped := false }).1 = false ∧
    ((create 10 10 0).AddRectangle
      { x := 0, y := 0, width := 10, height := 10, flipped := false }).1 = false :=
  ⟨by decide,
    first_rectangle_on_new_shelf 10 10 1
      { x := 7, y := 7, width := 8, height := 8, flipped := true } (by decide),
    by rfl, by decide, by decide⟩

end BinPackShelf

end ks

/-! ## PNG decoding: the 16-bit samples and the header check -/

namespace ks

namespace image_detail

namespace png_data_1_16

/-- The pixel computed from two bytes: the second byte is the high byte. -/
theorem pixel_eq (byte0 byte1 : Nat) (h0 : byte0 < 256) (h1 : byte1 < 256) :
    ((byte1 <<< 8) ||| byte0) % 65536 = 256 * byte1 + byte0 := by
  have e : (byte1 <<< 8) ||| byte0 = 2 ^ 8 * byte1 + byte0 := by
    rw [Nat.shiftLeft_eq, Nat.mul_comm]
    exact (Nat.mul_add_lt_is_or (lt_of_lt_of_eq h0 (by norm_num)) byte1).symm
  rw [e]
  norm_num
  omega

/-- What `assign` computes on a byte list of even length: it appends one pixel for every two
bytes, and pixel `k` is `256 * list_bytes[2k+1] + list_bytes[2k]`, the second byte of each
pair being the most significant. -/
theorem assign_spec : ∀ (list_bytes list_pixels : List Nat), (∀ b ∈ list_bytes, b < 256) →
    list_bytes.length % 2 = 0 →
    ∃ px, assign list_bytes list_pixels = some (list_pixels ++ px) ∧
      px.length = list_bytes.length / 2 ∧
      ∀ k, k < px.length →
        px[k]? = some (256 * list_bytes.getD (2 * k + 1) 0 + list_bytes.getD (2 * k) 0)
  | [], list_pixels, _, _ => ⟨[], by simp [assign], rfl, by simp⟩
  | [_], _, _, h => by simp at h
  | byte0 :: byte1 :: rest, list_pixels, hb, hlen => by
    have h0 : byte0 < 256 := hb byte0 (by simp)
    have h1 : byte1 < 256 := hb byte1 (by simp)
    obtain ⟨px, e1, e2, e3⟩ := assign_spec rest
      (list_pixels ++ [((byte1 <<< 8) ||| byte0) % 65536])
      (fun b hbm => hb b (by simp [hbm])) (by simp only [List.length_cons] at hlen; omega)
    refine ⟨(256 * byte1 + byte0) :: px, ?_, ?_, ?_⟩
    · rw [assign, e1, pixel_eq byte0 byte1 h0 h1]
      simp
    · simp only [List.length_cons, e2]
      omega
    · intro k hk
      cases k with
      | zero => simp
      | succ k =>
        have hk2 : k < px.length := by simpa using hk
        have := e3 k hk2
        simp only [List.getElem?_cons_succ, this]
        have i1 : 2 * (k + 1) + 1 = (2 * k + 1) + 1 + 1 := by ring
        have i2 : 2 * (k + 1) = (2 * k) + 1 + 1 := by ring
        rw [i1, i2]
        simp only [List.getD_cons_succ]

/-- On a byte list of odd length `assign` reads past the end of the list. -/
theorem assign_odd : ∀ (list_bytes list_pixels : List Nat), list_bytes.length % 2 = 1 →
    assign list_bytes list_pixels = none
  | [], _, h => by simp at h
  | [_], _, _ => rfl
  | _ :: _ :: rest, list_pixels, hlen => by
    rw [assign]
    exact assign_odd rest _ (by simp only [List.length_cons] at hlen; omega)

/-- C33, evaluation at the failing input: the bytes `01 00`, which are the big-endian sample
256, are decoded as the pixel 1, and the bytes `12 34` (the sample 0x1234 = 4660) as
0x3412 = 13330: the pixel is `256 * bytes[2k+1] + bytes[2k]`, with the first byte of each pair
as the least significant one.  The number of pixels is half the number of bytes. -/
theorem assign_takes_first_byte_as_low_byte :
    assign [1, 0] [] = some [1] ∧ 256 * 1 + 0 = 256 ∧
    assign [18, 52] [] = some [13330] ∧ 256 * 18 + 52 = 4660 ∧ 256 * 52 + 18 = 13330 ∧
    assign [1, 0, 18, 52, 255, 255] [] = some [1, 13330, 65535] := by
  refine ⟨by decide, by decide, by decide, by decide, by decide, by decide⟩

end png_data_1_16

end image_detail

/-- What `LoadPNGFormat` does for each size of the byte vector: below 25 bytes it returns
false and leaves the output parameters; with exactly 25 bytes it passes the size check, reads
`png_data[24]` and then `png_data[25]` past the end; from 26 bytes on it returns true with the
bytes 24 and 25. -/
theorem LoadPNGFormat_spec (png_data : List Nat) (color_type bit_depth : Nat) :
    (png_data.length < 25 →
      LoadPNGFormat png_data color_type bit_depth = .ok (false, color_type, bit_depth)) ∧
    (png_data.length = 25 → LoadPNGFormat png_data color_type bit_depth = .error 25) ∧
    (26 ≤ png_data.length →
      LoadPNGFormat png_data color_type bit_depth =
        .ok (true, png_data.getD 25 0, png_data.getD 24 0)) := by
  refine ⟨?_, ?_, ?_⟩
  · intro h
    simp [LoadPNGFormat, h]
  · intro h
    have h24 : png_data[24]? = some (png_data.getD 24 0) := by
      rw [List.getD_eq_getElem?_getD, List.getElem?_eq_getElem (by omega)]
      rfl
    have h25 : png_data[25]? = none := List.getElem?_eq_none (by omega)
    have hc : ¬ (png_data.isEmpty || decide (png_data.length < 25)) = true := by
      cases png_data with
      | nil => simp at h
      | cons a t => simp only [List.isEmpty_cons, Bool.false_or, decide_eq_true_eq]; omega
    unfold LoadPNGFormat
    rw [if_neg hc]
    simp only [h24, h25]
  · intro h
    have h24 : png_data[24]? = some (png_data.getD 24 0) := by
      rw [List.getD_eq_getElem?_getD, List.getElem?_eq_getElem (by omega)]
      rfl
    have h25 : png_data[25]? = some (png_data.getD 25 0) := by
      rw [List.getD_eq_getElem?_getD, List.getElem?_eq_getElem (by omega)]
      rfl
    have hc : ¬ (png_data.isEmpty || decide (png_data.length < 25)) = true := by
      cases png_data with
      | nil => simp at h
      | cons a t => simp only [List.isEmpty_cons, Bool.false_or, decide_eq_true_eq]; omega
    unfold LoadPNGFormat
    rw [if_neg hc]
    simp only [h24, h25]

/-- C36, evaluation at the failing input: a vector of exactly 25 bytes (a PNG file cut off
after the bit depth) passes the check `size() < 25`, so that `png_data[25]` is read past the
end of the vector; with one byte less the call returns false, with one byte more it returns
true with color type 6 and bit depth 8. -/
theorem LoadPNGFormat_reads_past_25_bytes :
    truncatedHeader.length = 25 ∧
    LoadPNGFormat truncatedHeader 0 0 = .error 25 ∧
    LoadPNGFormat (truncatedHeader.take 24) 0 0 = .ok (false, 0, 0) ∧
    LoadPNGFormat (truncatedHeader ++ [6]) 0 0 = .ok (true, 6, 8) := by
  refine ⟨by decide, by rfl, by rfl, by rfl⟩

end ks

/-! ## `RecycleIndexList`: the counter and the valid entries -/

namespace ks

namespace RecycleIndexList

variable {α : Type}

/-- Indices beyond the end of the list are not valid, so the valid indices may be counted up
to any bound that is at least the length. -/
theorem countP_range_of_le (l : RecycleIndexList α) (N : Nat)
    (h : l.m_list_valid.length ≤ N) :
    (List.range N).countP (fun i => l.GetValid i) = l.validCount := by
  obtain ⟨d, rfl⟩ : ∃ d, N = l.m_list_valid.length + d := ⟨N - l.m_list_valid.length, by omega⟩
  rw [List.range_add, List.countP_append]
  have h0 : (List.map (fun x => l.m_list_valid.length + x) (List.range d)).countP
      (fun i => l.GetValid i) = 0 := by
    rw [List.countP_eq_zero]
    intro a ha
    obtain ⟨x, -, rfl⟩ := List.mem_map.1 ha
    rw [GetValid_of_le l _ (Nat.le_add_right _ _)]
    exact Bool.false_ne_true
  rw [h0]
  rfl

/-- Switching one flag from false to true raises the number of true flags by one. -/
theorem countP_flip (p q : Nat → Bool) (idx : Nat) (hp : p idx = false)
    (hq : ∀ i, q i = if i = idx then true else p i) :
    ∀ N, idx < N → (List.range N).countP q = (List.range N).countP p + 1 := by
  intro N
  induction N with
  | zero => intro h; omega
  | succ N ih =>
    intro h
    rw [List.range_succ, List.countP_append, List.countP_append]
    by_cases hN : idx = N
    · subst hN
      have hsame : (List.range idx).countP q = (List.range idx).countP p := by
        apply List.countP_congr
        intro x hx
        have hne : x ≠ idx := by
          have := List.mem_range.1 hx
          omega
        rw [hq x, if_neg hne]
      have hqN : q idx = true := by rw [hq idx, if_pos rfl]
      simp [hsame, hqN, hp, List.countP_cons, List.countP_nil]
    · have hlt : idx < N := by omega
      have hqN : q N = p N := by
        rw [hq N, if_neg (fun e => hN e.symm)]
      rw [ih hlt]
      simp only [List.countP_cons, List.countP_nil, hqN]
      omega

theorem validCount_Add (l : RecycleIndexList α) (val : α) (hs : l.Sound) :
    (l.Add val).2.validCount = l.validCount + 1 := by
  obtain ⟨s1, -, -, a4, a5, a6, -, a8⟩ := Add_spec l val hs
  have hle : l.m_list_valid.length ≤ (l.Add val).2.m_list_valid.length := by
    rw [hs.1, s1.1]; exact a6
  have hidx : (l.Add val).1 < (l.Add val).2.m_list_valid.length := by
    rw [s1.1]; exact a5
  have h1 := countP_flip (fun i => l.GetValid i) (fun i => (l.Add val).2.GetValid i)
    (l.Add val).1 a4 a8 _ hidx
  rw [countP_range_of_le l _ hle] at h1
  exact h1

theorem validCount_Remove (l : RecycleIndexList α) (dflt : α) (index : Nat) (hs : l.Sound)
    (hv : l.GetValid index = true) :
    l.validCount = (l.Remove dflt index).validCount + 1 := by
  obtain ⟨r1, -, r3, -, r5⟩ := Remove_spec l dflt index hs hv
  have hlt : index < l.m_list_valid.length := lt_of_GetValid l index hv
  have hle : (l.Remove dflt index).m_list_valid.length ≤ l.m_list_valid.length := by
    rw [hs.1, r1.1.1]; exact r3
  have hnew : (l.Remove dflt index).GetValid index = false := by
    rw [r5 index, if_pos rfl]
  have hq : ∀ i, l.GetValid i =
      if i = index then true else (l.Remove dflt index).GetValid i := by
    intro i
    by_cases hi : i = index
    · rw [if_pos hi, hi, hv]
    · rw [if_neg hi, r5 i, if_neg hi]
  have h1 := countP_flip (fun i => (l.Remove dflt index).GetValid i) (fun i => l.GetValid i)
    index hnew hq _ hlt
  rw [countP_range_of_le _ _ hle] at h1
  exact h1

theorem count_Add (l : RecycleIndexList α) (val : α) :
    (l.Add val).2.m_count = wrap32 (l.m_count + 1) := by
  unfold Add
  simp only []
  split <;> rfl

/-- As long as `Clear` is not called, `m_count` is the number of valid entries (modulo
2^32). -/
theorem count_foldl_step (dflt : α) (calls : List (ListCall α)) :
    ∀ l : RecycleIndexList α, l.Inv → l.m_count = l.validCount % 4294967296 →
      (∀ c ∈ calls, c ≠ ListCall.clear) → CallsOk dflt l calls →
      (calls.foldl (step dflt) l).GetCount =
        (calls.foldl (step dflt) l).validCount % 4294967296 := by
  induction calls with
  | nil => intro l _ h _ _; exact h
  | cons c rest ih =>
    intro l hinv hc hne hok
    rw [List.foldl_cons]
    cases c with
    | add val =>
      refine ih _ (listInv_step dflt l (.add val) hinv trivial) ?_
        (fun c hcm => hne c (List.mem_cons_of_mem _ hcm)) hok
      show (l.Add val).2.m_count = (l.Add val).2.validCount % 4294967296
      rw [count_Add, validCount_Add l val hinv.1, hc]
      unfold wrap32
      omega
    | remove index =>
      refine ih _ (listInv_step dflt l (.remove index) hinv ⟨hok.1, trivial⟩) ?_
        (fun c hcm => hne c (List.mem_cons_of_mem _ hcm)) hok.2
      show (l.Remove dflt index).m_count = (l.Remove dflt index).validCount % 4294967296
      have h1 := (Remove_spec l dflt index hinv.1 hok.1).2.1
      have h2 := validCount_Remove l dflt index hinv.1 hok.1
      rw [h1, hc, h2]
      unfold wrap32
      omega
    | clear => exact absurd rfl (hne _ (List.mem_cons_self _ _))

/-- After every sequence of `Add` and `Remove` calls (on valid indices) without `Clear`,
`GetCount()` is the number of valid entries, modulo 2^32. -/
theorem count_run (dflt : α) (calls : List (ListCall α))
    (hne : ∀ c ∈ calls, c ≠ ListCall.clear) (hok : CallsOk dflt empty calls) :
    (run dflt calls).GetCount = (run dflt calls).validCount % 4294967296 :=
  count_foldl_step dflt calls empty (inv_empty_list 0) rfl hne hok

end RecycleIndexList

end ks

/-! ## Evaluation after `Clear()` and after a repeated removal -/

namespace ks

namespace RecycleIndexList

/-- C38, evaluation at the failing call sequence: after `Add("a")` the count is 1 and one
entry is valid; `Clear()` then empties the three vectors and leaves `m_count`, so that
`GetCount()` is still 1 while no entry is valid; a further `Add("b")` gives the count 2 with
one valid entry.  Without `Clear()` the count follows the valid entries: after the calls of
the test section "Remove" three entries are valid and `GetCount()` is 3. -/
theorem getCount_stale_after_clear :
    CallsOk "" empty clearCalls ∧
    (run "" [ListCall.add "a"]).GetCount = 1 ∧ (run "" [ListCall.add "a"]).validCount = 1 ∧
    (run "" clearCalls).GetCount = 1 ∧ (run "" clearCalls).validCount = 0 ∧
    (run "" clearCalls).m_list_valid = [] ∧
    (run "" (clearCalls ++ [ListCall.add "b"])).GetCount = 2 ∧
    (run "" (clearCalls ++ [ListCall.add "b"])).validCount = 1 ∧
    (run "" removeCalls).GetCount = 3 ∧ (run "" removeCalls).validCount = 3 := by
  refine ⟨by simp [clearCalls, CallsOk], by decide, by decide, by decide, by decide, by decide,
    by decide, by decide, by decide, by decide⟩

end RecycleIndexList

namespace Graph

/-- C39, evaluation at the failing call sequence: after `AddNode` of `n`, `m`, `z`,
`AddEdge(n,m)` twice and `RemoveNode(n,true)` the index of `m` is twice in the list of free
indices; `x = AddNode("x")` returns it, `AddEdge(z,x)` records the edge on both ends, and
`y = AddNode("y")` returns the same index and overwrites the node: now 1 occurs once in the
outputs of `z` while `z` does not occur in the inputs of node 1, both nodes being valid.
After `RemoveNode(y,false)` the outputs of the valid node `z` still contain the index 1 of a
removed node. -/
theorem edge_symmetry_lost_after_repeated_removal :
    (List.range 3).map (fun i => (parallelEdges.GetNode i).valid) = [true, true, true] ∧
    orphanRemovedTwice.m_list_nodes.m_list_avail = [0, 1, 1] ∧
    firstReuse.1 = 1 ∧
    (firstReuse.2.GetNode 2).outputs.count 1 = 1 ∧ (firstReuse.2.GetNode 1).inputs.count 2 = 1 ∧
    secondReuse.1 = 1 ∧
    (secondReuse.2.GetNode 2).valid = true ∧ (secondReuse.2.GetNode 1).valid = true ∧
    (secondReuse.2.GetNode 2).outputs.count 1 = 1 ∧
    (secondReuse.2.GetNode 1).inputs.count 2 = 0 ∧
    (danglingEdge.GetNode 2).valid = true ∧ (danglingEdge.GetNode 1).valid = false ∧
    1 ∈ (danglingEdge.GetNode 2).outputs := by
  refine ⟨by decide, by decide, by decide, by decide, by decide, by decide, by decide,
    by decide, by decide, by decide, by decide, by decide, by decide⟩

end Graph

end ks

/-! ## `GetTopologicallySorted` on graphs with cycles -/

namespace ks

namespace Graph

variable {T : Type} [Inhabited T]

end Graph

end ks
/-! ## The checked `RemoveNode` and the value it computes -/

namespace ks

namespace RecycleIndexList

variable {α : Type}

theorem trimChecked_eq (fuel : Nat) : ∀ (l r : RecycleIndexList α),
    trimChecked fuel l = .ok r → trim fuel l = r := by
  induction fuel with
  | zero => intro l r h; simp [trimChecked] at h
  | succ fuel ih =>
    intro l r h
    unfold trimChecked at h
    unfold trim
    cases hl : l.m_list_valid.getLast? with
    | none => rw [hl] at h; simp at h
    | some flag =>
      rw [hl] at h
      simp only at h
      by_cases hf : flag = k_invalid
      · rw [if_pos hf] at h
        rw [hf, if_pos rfl]
        by_cases he : (l.m_list.isEmpty || l.m_list_avail.isEmpty) = true
        · rw [if_pos he] at h; simp at h
        · rw [if_neg he] at h
          by_cases hp : l.popBack.m_list_valid.isEmpty = true
          · rw [if_pos hp] at h
            rw [if_pos hp]
            exact Except.ok.inj h
          · rw [if_neg hp] at h
            rw [if_neg hp]
            exact ih _ _ h
      · rw [if_neg hf] at h
        rw [if_neg (fun e => hf (Option.some.inj e))]
        exact Except.ok.inj h

theorem RemoveChecked_eq (l r : RecycleIndexList α) (dflt : α) (index : Nat)
    (h : l.RemoveChecked dflt index = .ok r) : l.Remove dflt index = r := by
  unfold RemoveChecked at h
  by_cases h1 : l.m_list.length ≤ index
  · rw [if_pos h1] at h; simp at h
  · rw [if_neg h1] at h
    by_cases h2 : l.m_list_valid.length ≤ index
    · rw [if_pos h2] at h; simp at h
    · rw [if_neg h2] at h
      exact trimChecked_eq _ _ _ h

end RecycleIndexList

namespace Graph

theorem forEach_eq_foldl {T : Type} (body : Graph T → Nat → Except Fault (Graph T))
    (F : Graph T → Nat → Graph T) (hF : ∀ s x r, body s x = .ok r → F s x = r) :
    ∀ (xs : List Nat) (g r : Graph T), forEach body xs g = .ok r → xs.foldl F g = r := by
  intro xs
  induction xs with
  | nil => intro g r h; simp only [forEach] at h; exact Except.ok.inj h
  | cons x xs ih =>
    intro g r h
    simp only [forEach] at h
    cases hb : body g x with
    | error e => rw [hb] at h; simp at h
    | ok s =>
      rw [hb] at h
      simp only at h
      rw [List.foldl_cons, hF g x s hb]
      exact ih s r h

variable {T : Type} [Inhabited T]

theorem modifyChecked_eq (g r : Graph T) (index : Nat) (f : Node T → Node T)
    (h : g.modifyChecked index f = .ok r) : g.modify index f = r := by
  unfold modifyChecked at h
  by_cases hi : index < g.m_list_nodes.m_list.length
  · rw [if_pos hi] at h; exact Except.ok.inj h
  · rw [if_neg hi] at h; simp at h

/-- Whenever the checked `RemoveNode` returns, every access was inside the vectors and the
graph it returns is the one that `removeNode` computes. -/
theorem removeNodeChecked_eq (fuel : Nat) : ∀ (g r : Graph T) (node : Nat) (rem_orphans : Bool),
    removeNodeChecked fuel g node rem_orphans = .ok r → removeNode fuel g node rem_orphans = r := by
  induction fuel with
  | zero => intro g r node b h; simp [removeNodeChecked] at h
  | succ fuel ih =>
    intro g r node b h
    unfold removeNodeChecked at h
    by_cases h0 : g.m_list_nodes.m_list.length ≤ node
    · rw [if_pos h0] at h; simp at h
    · rw [if_neg h0] at h
      cases h1 : forEach
          (fun s input =>
            s.modifyChecked input (fun n => { n with outputs := eraseAll n.outputs node }))
          (nodeOf g.m_list_nodes.m_list node).inputs g with
      | error e => rw [h1] at h; simp at h
      | ok g1 =>
        rw [h1] at h
        simp only at h
        have e1 := forEach_eq_foldl _
          (fun s input => s.modify input (fun n => { n with outputs := eraseAll n.outputs node }))
          (fun s x r hb => modifyChecked_eq s r x _ hb) _ _ _ h1
        cases h2 : forEach
            (fun s output =>
              match s.modifyChecked output
                (fun n => { n with inputs := eraseAll n.inputs node }) with
              | .error e => .error e
              | .ok s1 =>
                if b && (nodeOf s1.m_list_nodes.m_list output).inputs.isEmpty then
                  removeNodeChecked fuel s1 output true
                else .ok s1)
            (nodeOf (g1.modify node (fun n => { n with inputs := [] })).m_list_nodes.m_list
              node).outputs
            (g1.modify node (fun n => { n with inputs := [] })) with
        | error e => rw [h2] at h; simp at h
        | ok g3 =>
          rw [h2] at h
          simp only at h
          have e2 := forEach_eq_foldl _
            (fun s output =>
              let s1 := s.modify output (fun n => { n with inputs := eraseAll n.inputs node })
              if b && (nodeOf s1.m_list_nodes.m_list output).inputs.isEmpty then
                removeNode fuel s1 output true
              else s1)
            (by
              intro s x r hb
              cases hm : s.modifyChecked x
                  (fun n => { n with inputs := eraseAll n.inputs node }) with
              | error e => rw [hm] at hb; simp at hb
              | ok s1 =>
                rw [hm] at hb
                simp only at hb
                have em := modifyChecked_eq s s1 x _ hm
                simp only [em]
                by_cases hc : (b && (nodeOf s1.m_list_nodes.m_list x).inputs.isEmpty) = true
                · rw [if_pos hc] at hb
                  rw [if_pos hc]
                  exact ih _ _ _ _ hb
                · rw [if_neg hc] at hb
                  rw [if_neg hc]
                  exact Except.ok.inj hb) _ _ _ h2
          by_cases h3 : g3.m_list_nodes.m_list.length ≤ node
          · rw [if_pos h3] at h; simp at h
          · rw [if_neg h3] at h
            cases h4 : RecycleIndexList.RemoveChecked
                ((g3.modify node (fun n => { n with outputs := [] })).modify node
                  (fun n => { n with valid := false })).m_list_nodes (Node.null T) node with
            | error e => rw [h4] at h; simp at h
            | ok l =>
              rw [h4] at h
              simp only at h
              have e4 := RecycleIndexList.RemoveChecked_eq _ _ _ _ h4
              unfold removeNode
              simp only [e1, e2, e4]
              exact Except.ok.inj h

theorem RemoveNodeChecked_agrees (g r : Graph T) (node : Nat) (rem_orphans : Bool)
    (h : g.RemoveNodeChecked node rem_orphans = .ok r) : g.RemoveNode node rem_orphans = r :=
  removeNodeChecked_eq _ g r node rem_orphans h

end Graph

end ks
/-! ## `RemoveNode(n,true)` on an output that occurs twice -/

namespace ks

namespace Graph

variable {T : Type} [Inhabited T]

/-- Whenever `RemoveNode(n,true)` returns on an acyclic graph that satisfies the representation
invariant, with `n` valid, it has removed exactly the set `Orphaned g n`, and every node that
stays valid keeps its value and, in their old order, those entries of its inputs and outputs
that are still valid nodes. -/
theorem removeNodeChecked_removes_the_orphans (g r : Graph T) (n : Nat) (hinv : g.Inv)
    (hac : g.Acyclic) (hn : (g.GetNode n).valid = true)
    (hr : g.RemoveNodeChecked n true = .ok r) :
    (r.GetNode n).valid = false ∧
    (∀ i, (r.GetNode i).valid = true ↔ ((g.GetNode i).valid = true ∧ ¬ Orphaned g n i)) ∧
    (∀ i, (r.GetNode i).valid = true →
      (r.GetNode i).value = (g.GetNode i).value ∧
      (r.GetNode i).inputs = (g.GetNode i).inputs.filter (fun a => (r.GetNode a).valid) ∧
      (r.GetNode i).outputs = (g.GetNode i).outputs.filter (fun a => (r.GetNode a).valid)) := by
  have e := RemoveNodeChecked_agrees g r n true hr
  rw [← e]
  exact removeNode_removes_exactly_the_orphans g n hinv hac hn

theorem parallelPair_inv : parallelPair.Inv :=
  inv_addEdges _ _ (inv_addNodes _ _ inv_empty) (by decide)

theorem parallelPair_acyclic : parallelPair.Acyclic :=
  acyclic_of_rank parallelPair (fun i => i) (by decide)

/-- C16, evaluation at the failing input: the graph of `AddNode("n")`, `AddNode("m")`,
`AddEdge(0,1)`, `AddEdge(0,1)` is acyclic, satisfies the representation invariant, and node 0
is valid, with the outputs 1, 1.  `RemoveNode(0,true)` visits the output 1 twice: the first
visit removes the orphan `m`, whose slot is the last one and is trimmed away, and the second
visit accesses `m_list_nodes[1]` on a vector of one element.  This is so for every bound on
the recursion depth from 2 on.  With the edge added once the call returns and both nodes are
removed.  With a third node `z` behind `m` the second visit stays inside the vector and the
call returns, having removed `m` twice: the free indices are 0, 1, 1 and `GetNodeCount()` is 0
although `z` is valid.  On the graphs of the test suite, which have no repeated edge, the
call returns the graph that `RemoveNode` of the model computes. -/
theorem removeNode_reads_trimmed_slot :
    parallelPair.Inv ∧ parallelPair.Acyclic ∧ (parallelPair.GetNode 0).valid = true ∧
    (parallelPair.GetNode 0).outputs = [1, 1] ∧ (parallelPair.GetNode 1).inputs = [0, 0] ∧
    parallelPair.m_list_nodes.m_list.length = 2 ∧
    parallelPair.RemoveNodeChecked 0 true = .error (.outOfRange 1 1) ∧
    (∀ k, removeNodeChecked (k + 2) parallelPair 0 true = .error (.outOfRange 1 1)) ∧
    edgePair.RemoveNodeChecked 0 true = .ok (edgePair.RemoveNode 0 true) ∧
    (List.range 2).map (fun i => ((edgePair.RemoveNode 0 true).GetNode i).valid) =
      [false, false] ∧
    parallelEdges.RemoveNodeChecked 0 true = .ok orphanRemovedTwice ∧
    orphanRemovedTwice.m_list_nodes.m_list_avail = [0, 1, 1] ∧
    orphanRemovedTwice.GetNodeCount = 0 ∧ (orphanRemovedTwice.GetNode 2).valid = true ∧
    nodeChain.RemoveNodeChecked 2 true = .ok (nodeChain.RemoveNode 2 true) ∧
    network.RemoveNodeChecked 1 true = .ok (network.RemoveNode 1 true) ∧
    (network.RemoveNode 1 true).RemoveNodeChecked 2 true =
      .ok ((network.RemoveNode 1 true).RemoveNode 2 true) := by
  refine ⟨parallelPair_inv, parallelPair_acyclic, by decide, by decide, by decide, by decide,
    by rfl, fun k => by rfl, by rfl, by decide, by rfl, by decide, by decide, by decide, by rfl,
    by rfl, by rfl⟩

end Graph

end ks
/-! ## The checked `RemoveNode` returns on graphs without a repeated edge -/

namespace ks

namespace RecycleIndexList

variable {α : Type}

theorem sound_markRemoved (l : RecycleIndexList α) (dflt : α) (index : Nat) (hs : l.Sound)
    (hv : l.GetValid index = true) : (l.markRemoved dflt index).Sound := by
  obtain ⟨h1, h2, h3, h4⟩ := hs
  have hlt : index < l.m_list_valid.length := lt_of_GetValid l index hv
  have hva : ∀ j, (l.markRemoved dflt index).GetValid j =
        if j = index then false else l.GetValid j := by
    intro j
    simp only [GetValid, markRemoved, List.getD_eq_getElem?_getD, List.getElem?_set]
    by_cases hj : j = index
    · subst hj; simp [hlt, k_invalid]
    · have : index ≠ j := fun e => hj e.symm
      simp [hj, this]
  refine ⟨by simp [markRemoved, h1], ?_, ?_, ?_⟩
  · apply pairwise_insertAvail _ _ h2
    intro hm
    have := (h3 index hm).2
    rw [hv] at this
    exact Bool.noConfusion this
  · intro i hi
    rw [hva]
    rcases (mem_insertAvail _ _ _).1 hi with rfl | hi
    · exact ⟨by simp only [markRemoved, List.length_set]; omega, by simp⟩
    · have := h3 i hi
      refine ⟨by simp only [markRemoved, List.length_set]; exact this.1, ?_⟩
      split
      · rfl
      · exact this.2
  · intro i hi hval
    rw [hva] at hval
    simp only [markRemoved, List.length_set] at hi
    show i ∈ insertAvail l.m_list_avail index
    rw [mem_insertAvail]
    by_cases hj : i = index
    · exact Or.inl hj
    · simp only [hj, if_false] at hval
      exact Or.inr (h4 i hi hval)

/-- On a consistent list the trimming loop never pops an empty vector. -/
theorem trimChecked_of_sound (fuel : Nat) : ∀ l : RecycleIndexList α, l.Sound →
    l.m_list_valid ≠ [] → l.m_list_valid.length ≤ fuel →
    trimChecked fuel l = .ok (trim fuel l) := by
  induction fuel with
  | zero =>
    intro l _ hne hlen
    exact absurd (List.length_eq_zero.1 (Nat.le_zero.1 hlen)) hne
  | succ fuel ih =>
    intro l hs hne hlen
    unfold trimChecked trim
    cases hl : l.m_list_valid.getLast? with
    | none => exact absurd (List.getLast?_eq_none_iff.1 hl) hne
    | some flag =>
      simp only
      by_cases hf : flag = k_invalid
      · subst hf
        rw [if_pos rfl, if_pos rfl]
        have hpos : 0 < l.m_list_valid.length := List.length_pos.2 hne
        have hflag : l.m_list_valid[l.m_list_valid.length - 1]? = some 0 := by
          rw [← List.getLast?_eq_getElem?]; exact hl
        have hn : l.GetValid (l.m_list_valid.length - 1) = false := by
          simp [GetValid, k_invalid, List.getD_eq_getElem?_getD, hflag]
        have hmem : l.m_list_valid.length - 1 ∈ l.m_list_avail :=
          hs.2.2.2 _ (by rw [← hs.1]; omega) hn
        have hlne : l.m_list ≠ [] := by
          intro hm
          have hlen2 := hs.1
          rw [hm] at hlen2
          simp only [List.length_nil] at hlen2
          omega
        have h1 : l.m_list.isEmpty = false := by
          cases hm : l.m_list with
          | nil => exact absurd hm hlne
          | cons a t => rfl
        have h2 : l.m_list_avail.isEmpty = false := by
          cases hm : l.m_list_avail with
          | nil => rw [hm] at hmem; simp at hmem
          | cons a t => rfl
        have he : ¬ (l.m_list.isEmpty || l.m_list_avail.isEmpty) = true := by
          rw [h1, h2]; simp
        rw [if_neg he]
        by_cases hp : l.popBack.m_list_valid.isEmpty = true
        · rw [if_pos hp, if_pos hp]
        · rw [if_neg hp, if_neg hp]
          apply ih _ (sound_pop l hs hl).1
          · intro h
            rw [h] at hp
            exact hp rfl
          · rw [length_valid_popBack]; omega
      · rw [if_neg hf, if_neg (fun e => hf (Option.some.inj e))]

/-- `Remove(index)` of a valid index on a consistent list keeps every access inside the
vectors. -/
theorem RemoveChecked_of_sound (l : RecycleIndexList α) (dflt : α) (index : Nat) (hs : l.Sound)
    (hv : l.GetValid index = true) :
    l.RemoveChecked dflt index = .ok (l.Remove dflt index) := by
  have hlt : index < l.m_list_valid.length := lt_of_GetValid l index hv
  have hlt2 : index < l.m_list.length := by rw [← hs.1]; exact hlt
  unfold RemoveChecked Remove
  rw [if_neg (by omega), if_neg (by omega)]
  apply trimChecked_of_sound _ _ (sound_markRemoved l dflt index hs hv)
  · intro h
    have : (l.markRemoved dflt index).m_list_valid.length = 0 := by rw [h]; rfl
    simp only [markRemoved, List.length_set] at this
    omega
  · exact le_rfl

end RecycleIndexList

end ks
namespace ks

namespace Obs

variable {T : Type} [Inhabited T]

/-- What every step of `RemoveNode` keeps: no flag is set, and no output list gains an
entry. -/
theorem removeNode_shrinks (fuel : Nat) : ∀ (s : Obs T) (x : Nat) (b : Bool),
    (∀ a, (removeNode fuel s x b).valid a = true → s.valid a = true) ∧
    (∀ a, ((removeNode fuel s x b).node a).outputs.Sublist (s.node a).outputs) := by
  induction fuel with
  | zero => intro s x b; exact ⟨fun _ h => h, fun _ => List.Sublist.refl _⟩
  | succ fuel ih =>
    intro s x b
    have hmod : ∀ (t : Obs T) (i : Nat) (f : Node T → Node T),
        (∀ n, (f n).outputs.Sublist n.outputs) →
        (∀ a, (t.valid a = true → s.valid a = true)) ∧
          (∀ a, (t.node a).outputs.Sublist (s.node a).outputs) →
        (∀ a, ((t.modify i f).valid a = true → s.valid a = true)) ∧
          (∀ a, ((t.modify i f).node a).outputs.Sublist (s.node a).outputs) := by
      intro t i f hf ht
      refine ⟨fun a h => ht.1 a h, fun a => ?_⟩
      rw [node_modify]
      split
      · rename_i ha
        rw [ha]
        exact (hf _).trans (ht.2 i)
      · exact ht.2 a
    have h0 : (∀ a, (s.valid a = true → s.valid a = true)) ∧
        (∀ a, (s.node a).outputs.Sublist (s.node a).outputs) :=
      ⟨fun _ h => h, fun _ => List.Sublist.refl _⟩
    have h1 := foldl_invariant
      (fun t : Obs T => (∀ a, (t.valid a = true → s.valid a = true)) ∧
        (∀ a, (t.node a).outputs.Sublist (s.node a).outputs))
      (fun s input => s.modify input (fun n => { n with outputs := Graph.eraseAll n.outputs x }))
      (fun t i ht => hmod t i _ (fun n => List.filter_sublist _) ht)
      (s.node x).inputs s h0
    have h2 := hmod _ x (fun n => { n with inputs := [] }) (fun n => List.Sublist.refl _) h1
    have h3 := foldl_invariant
      (fun t : Obs T => (∀ a, (t.valid a = true → s.valid a = true)) ∧
        (∀ a, (t.node a).outputs.Sublist (s.node a).outputs))
      (fun s output =>
        let s1 := s.modify output (fun n => { n with inputs := Graph.eraseAll n.inputs x })
        if b && (s1.node output).inputs.isEmpty then removeNode fuel s1 output true else s1)
      (by
        intro t o ht
        have hu := hmod t o (fun n => { n with inputs := Graph.eraseAll n.inputs x })
          (fun n => List.Sublist.refl _) ht
        simp only
        split
        · obtain ⟨r1, r2⟩ := ih
            (t.modify o (fun n => { n with inputs := Graph.eraseAll n.inputs x })) o true
          exact ⟨fun a h => hu.1 a (r1 a h), fun a => (r2 a).trans (hu.2 a)⟩
        · exact hu)
      ((((s.node x).inputs.foldl
        (fun s input =>
          s.modify input (fun n => { n with outputs := Graph.eraseAll n.outputs x })) s).modify
        x (fun n => { n with inputs := [] })).node x).outputs _ h2
    have h4 := hmod _ x (fun n => { n with outputs := [] }) (fun n => List.nil_sublist _) h3
    have h5 := hmod _ x (fun n => { n with valid := false }) (fun n => List.Sublist.refl _) h4
    simp only [removeNode]
    refine ⟨fun a h => ?_, fun a => ?_⟩
    · rw [valid_kill] at h
      split at h
      · exact absurd h Bool.false_ne_true
      · exact h5.1 a h
    · rw [node_kill]
      split
      · exact List.nil_sublist _
      · exact h5.2 a

end Obs

end ks
namespace ks

namespace Obs

variable {T : Type} [Inhabited T]

/-- The loop over the outputs sets no flag. -/
theorem outputsLoop_valid (fuel : Nat) (x : Nat) (rest : List Nat) : ∀ (t : Obs T) (a : Nat),
    (rest.foldl
      (fun s output =>
        let s1 := s.modify output (fun n => { n with inputs := Graph.eraseAll n.inputs x })
        if true && (s1.node output).inputs.isEmpty then removeNode fuel s1 output true else s1)
      t).valid a = true → t.valid a = true := by
  induction rest with
  | nil => intro t a h; exact h
  | cons o rest ih =>
    intro t a h
    rw [List.foldl_cons] at h
    have h1 := ih _ a h
    simp only at h1
    split at h1
    · exact (removeNode_shrinks fuel
        (t.modify o (fun n => { n with inputs := Graph.eraseAll n.inputs x })) o true).1 a h1
    · exact h1

/-- An input that is not removed by `RemoveNode(x,true)` stays in the input list of every node
other than `x`: the call erases from input lists only the nodes that it removes. -/
theorem removeNode_keeps_input (fuel : Nat) : ∀ (s : Obs T) (x m a : Nat),
    a ∈ (s.node m).inputs → m ≠ x → (removeNode fuel s x true).valid a = true →
    a ∈ ((removeNode fuel s x true).node m).inputs := by
  induction fuel with
  | zero => intro s x m a h _ _; exact h
  | succ fuel ih =>
    intro s x m a hin hmx hv
    simp only [removeNode] at hv ⊢
    rw [valid_kill] at hv
    have hax : a ≠ x := by
      intro e
      rw [if_pos e] at hv
      exact Bool.false_ne_true hv
    rw [if_neg hax] at hv
    rw [valid_modify, valid_modify] at hv
    rw [node_kill, if_neg hmx, node_modify, if_neg hmx, node_modify, if_neg hmx]
    have h1 : a ∈ (((s.node x).inputs.foldl
        (fun s input =>
          s.modify input (fun n => { n with outputs := Graph.eraseAll n.outputs x })) s).node
        m).inputs := by
      apply foldl_invariant (fun t : Obs T => a ∈ (t.node m).inputs)
      · intro t i ht
        show a ∈ ((t.modify i _).node m).inputs
        rw [node_modify]
        split
        · rename_i hmi; rw [← hmi]; exact ht
        · exact ht
      · exact hin
    have h2 : a ∈ ((((s.node x).inputs.foldl
        (fun s input =>
          s.modify input (fun n => { n with outputs := Graph.eraseAll n.outputs x })) s).modify
        x (fun n => { n with inputs := [] })).node m).inputs := by
      rw [node_modify, if_neg hmx]
      exact h1
    have hloop : ∀ (rest : List Nat) (t : Obs T), a ∈ (t.node m).inputs →
        (rest.foldl
          (fun s output =>
            let s1 := s.modify output (fun n => { n with inputs := Graph.eraseAll n.inputs x })
            if true && (s1.node output).inputs.isEmpty then removeNode fuel s1 output true
            else s1)
          t).valid a = true →
        a ∈ ((rest.foldl
          (fun s output =>
            let s1 := s.modify output (fun n => { n with inputs := Graph.eraseAll n.inputs x })
            if true && (s1.node output).inputs.isEmpty then removeNode fuel s1 output true
            else s1)
          t).node m).inputs := by
      intro rest
      induction rest with
      | nil => intro t ht _; exact ht
      | cons o rest ihr =>
        intro t ht hvt
        rw [List.foldl_cons] at hvt ⊢
        apply ihr _ _ hvt
        have hv1 := outputsLoop_valid fuel x rest _ a hvt
        have hu : a ∈ ((t.modify o
            (fun n => { n with inputs := Graph.eraseAll n.inputs x })).node m).inputs := by
          rw [node_modify]
          split
          · rename_i hmo
            rw [← hmo]
            exact (Graph.mem_eraseAll _ _ _).2 ⟨ht, hax⟩
          · exact ht
        simp only at hv1 ⊢
        split
        · rename_i hc
          rw [if_pos hc] at hv1
          apply ih _ o m a hu _ hv1
          intro hmo
          simp only [Bool.true_and, List.isEmpty_iff] at hc
          rw [hmo, hc] at hu
          simp at hu
        · exact hu
    exact hloop _ _ h2 hv

end Obs

end ks
namespace ks

namespace Obs

variable {T : Type} [Inhabited T]

/-- `RemoveNode(x,true)` on a node without inputs touches only `x` and the nodes that can be
reached from `x` along output edges. -/
theorem removeNode_untouched (fuel : Nat) : ∀ (s : Obs T) (x m : Nat),
    (s.node x).inputs = [] → m ≠ x →
    ¬ Relation.TransGen (fun a b => b ∈ (s.node a).outputs) x m →
    (removeNode fuel s x true).node m = s.node m ∧
      (removeNode fuel s x true).valid m = s.valid m := by
  induction fuel with
  | zero => intro s x m _ _ _; exact ⟨rfl, rfl⟩
  | succ fuel ih =>
    intro s x m hin hmx hnr
    rw [removeNode_orphan fuel s x hin, node_kill, valid_kill, if_neg hmx, if_neg hmx]
    have key := foldl_invariant_mem
      (fun t : Obs T => (t.node m = s.node m ∧ t.valid m = s.valid m) ∧
        ∀ a, (t.node a).outputs.Sublist (s.node a).outputs)
      (fun s output =>
        if ((s.modify output
            (fun n => { n with inputs := Graph.eraseAll n.inputs x })).node
              output).inputs.isEmpty = true then
          removeNode fuel
            (s.modify output (fun n => { n with inputs := Graph.eraseAll n.inputs x }))
            output true
        else s.modify output (fun n => { n with inputs := Graph.eraseAll n.inputs x }))
      (s.node x).outputs s
      (by
        intro t o ho ht
        have hmo : m ≠ o := by
          intro e
          exact hnr (Relation.TransGen.single (by rw [e]; exact ho))
        have hu1 : (t.modify o
            (fun n => { n with inputs := Graph.eraseAll n.inputs x })).node m = s.node m := by
          rw [node_modify, if_neg hmo]; exact ht.1.1
        have hu2 : ∀ a, ((t.modify o
            (fun n => { n with inputs := Graph.eraseAll n.inputs x })).node a).outputs.Sublist
            (s.node a).outputs := by
          intro a
          rw [node_modify]
          split
          · rename_i hao; rw [hao]; exact ht.2 o
          · exact ht.2 a
        simp only
        split
        · rename_i hc
          have hnr2 : ¬ Relation.TransGen
              (fun a b => b ∈ ((t.modify o
                (fun n => { n with inputs := Graph.eraseAll n.inputs x })).node a).outputs)
              o m := by
            intro h
            apply hnr
            exact Relation.TransGen.head ho
              (Relation.TransGen.mono (fun a b hab => (hu2 a).subset hab) h)
          obtain ⟨r1, r2⟩ := ih _ o m (List.isEmpty_iff.1 hc) hmo hnr2
          obtain ⟨-, r3⟩ := removeNode_shrinks fuel
            (t.modify o (fun n => { n with inputs := Graph.eraseAll n.inputs x })) o true
          exact ⟨⟨r1.trans hu1, r2.trans ht.1.2⟩, fun a => (r3 a).trans (hu2 a)⟩
        · exact ⟨⟨hu1, ht.1.2⟩, hu2⟩)
      ⟨⟨rfl, rfl⟩, fun _ => List.Sublist.refl _⟩
    exact key.1

end Obs

end ks
namespace ks

namespace Graph

variable {T : Type} [Inhabited T]

theorem getValid_of_ne_null (g : Graph T) (h : g.Tidy) (i : Nat)
    (hi : nodeOf g.m_list_nodes.m_list i ≠ Node.null T) : g.m_list_nodes.GetValid i = true := by
  by_contra hv
  exact hi (h.2.1 i (by simpa using hv))

theorem lt_length_of_getValid (g : Graph T) (h : g.Tidy) (i : Nat)
    (hi : g.m_list_nodes.GetValid i = true) : i < g.m_list_nodes.m_list.length := by
  rw [← h.1]
  exact RecycleIndexList.lt_of_GetValid _ i hi

theorem getValid_of_mem_inputs (g : Graph T) (h : g.Tidy) (i a : Nat)
    (hi : a ∈ (nodeOf g.m_list_nodes.m_list i).inputs) : g.m_list_nodes.GetValid i = true := by
  apply getValid_of_ne_null g h
  intro e
  rw [e] at hi
  simp [Node.null] at hi

theorem getValid_of_mem_outputs (g : Graph T) (h : g.Tidy) (i a : Nat)
    (hi : a ∈ (nodeOf g.m_list_nodes.m_list i).outputs) : g.m_list_nodes.GetValid i = true := by
  apply getValid_of_ne_null g h
  intro e
  rw [e] at hi
  simp [Node.null] at hi

/-- An assignment that leaves the node as it is leaves the graph as it is. -/
theorem modify_fixed (g : Graph T) (i : Nat) (f : Node T → Node T)
    (h : f (nodeOf g.m_list_nodes.m_list i) = nodeOf g.m_list_nodes.m_list i) :
    g.modify i f = g := by
  have e : setNode g.m_list_nodes.m_list i f = g.m_list_nodes.m_list := by
    unfold setNode
    rw [h]
    apply List.ext_getElem?
    intro j
    rw [List.getElem?_set]
    split
    · rename_i hij
      subst hij
      split
      · rename_i hlt
        rw [nodeOf_eq_getElem?, List.getElem?_eq_getElem hlt]
        simp
      · rename_i hlt
        rw [List.getElem?_eq_none (Nat.not_lt.1 hlt)]
    · rfl
  unfold modify
  rw [e]

theorem modifyChecked_of_lt (g : Graph T) (i : Nat) (f : Node T → Node T)
    (h : i < g.m_list_nodes.m_list.length) : g.modifyChecked i f = .ok (g.modify i f) := by
  unfold modifyChecked
  rw [if_pos h]

theorem nodeOf_modify_of_lt (g : Graph T) (i j : Nat) (f : Node T → Node T)
    (h : i < g.m_list_nodes.m_list.length) :
    nodeOf (g.modify i f).m_list_nodes.m_list j =
      if j = i then f (nodeOf g.m_list_nodes.m_list i) else nodeOf g.m_list_nodes.m_list j := by
  rw [m_list_modify, nodeOf_setNode]
  by_cases hj : j = i
  · rw [if_pos ⟨hj, h⟩, if_pos hj]
  · rw [if_neg (fun hh => hj hh.1), if_neg hj]

end Graph

end ks
namespace ks

namespace Graph

variable {T : Type} [Inhabited T]

/-- What the loop over the outputs of `x` needs of the state after one of its iterations,
given the state `u` in which `x` has been erased from the inputs of the output `o`. -/
theorem loopStep_keeps (ref : Obs T)
    (hac : ∀ a, ¬ Relation.TransGen (fun a b => b ∈ (ref.node a).outputs) a a)
    (x o : Nat) (rest : List Nat) (t u r : Graph T)
    (hTr : r.Tidy)
    (huo : (nodeOf u.m_list_nodes.m_list o).inputs = [] ∨ r = u)
    (hun : ∀ j, nodeOf u.m_list_nodes.m_list j =
      if j = o then { nodeOf t.m_list_nodes.m_list o with
        inputs := eraseAll (nodeOf t.m_list_nodes.m_list o).inputs x }
      else nodeOf t.m_list_nodes.m_list j)
    (hrv : r.m_list_nodes.GetValid x = true)
    (hro : ∀ a, (nodeOf r.m_list_nodes.m_list a).outputs.Sublist
      (nodeOf u.m_list_nodes.m_list a).outputs)
    (hri : ∀ m a, a ∈ (nodeOf u.m_list_nodes.m_list m).inputs → m ≠ o →
      r.m_list_nodes.GetValid a = true → a ∈ (nodeOf r.m_list_nodes.m_list m).inputs)
    (hsub : ∀ a b, b ∈ (nodeOf t.m_list_nodes.m_list a).outputs → b ∈ (ref.node a).outputs)
    (hnd : ∀ a, (nodeOf t.m_list_nodes.m_list a).outputs.Nodup)
    (hrest : (o :: rest).Nodup)
    (hpend : ∀ p ∈ o :: rest, x ∈ (nodeOf t.m_list_nodes.m_list p).inputs)
    (hq : ∀ a, Relation.TransGen (fun a b => b ∈ (ref.node a).outputs) x a →
      ∀ b ∈ (nodeOf t.m_list_nodes.m_list a).outputs,
        a ∈ (nodeOf t.m_list_nodes.m_list b).inputs) :
    (∀ a b, b ∈ (nodeOf r.m_list_nodes.m_list a).outputs → b ∈ (ref.node a).outputs) ∧
    (∀ a, (nodeOf r.m_list_nodes.m_list a).outputs.Nodup) ∧
    (∀ p ∈ rest, x ∈ (nodeOf r.m_list_nodes.m_list p).inputs) ∧
    (∀ a, Relation.TransGen (fun a b => b ∈ (ref.node a).outputs) x a →
      ∀ b ∈ (nodeOf r.m_list_nodes.m_list a).outputs,
        a ∈ (nodeOf r.m_list_nodes.m_list b).inputs) := by
  have huout : ∀ a, (nodeOf u.m_list_nodes.m_list a).outputs =
      (nodeOf t.m_list_nodes.m_list a).outputs := by
    intro a
    rw [hun]
    split
    · rename_i h; rw [h]
    · rfl
  have huin : ∀ m a, a ∈ (nodeOf t.m_list_nodes.m_list m).inputs → a ≠ x →
      a ∈ (nodeOf u.m_list_nodes.m_list m).inputs := by
    intro m a h hax
    rw [hun]
    split
    · rename_i hm
      rw [hm] at h
      exact (mem_eraseAll _ _ _).2 ⟨h, hax⟩
    · exact h
  have huin2 : ∀ m a, a ∈ (nodeOf t.m_list_nodes.m_list m).inputs → m ≠ o →
      a ∈ (nodeOf u.m_list_nodes.m_list m).inputs := by
    intro m a h hmo
    rw [hun, if_neg hmo]
    exact h
  refine ⟨?_, ?_, ?_, ?_⟩
  · intro a b h
    exact hsub a b (by rw [← huout]; exact (hro a).subset h)
  · intro a
    exact ((hnd a).sublist (by rw [← huout]; exact hro a))
  · intro p hp
    have hpo : p ≠ o := by
      intro e
      rw [e] at hp
      exact (List.nodup_cons.1 hrest).1 hp
    exact hri p x (huin2 p x (hpend p (List.mem_cons_of_mem _ hp)) hpo) hpo hrv
  · intro a ha b hb
    have hbu : b ∈ (nodeOf u.m_list_nodes.m_list a).outputs := (hro a).subset hb
    have hbt : b ∈ (nodeOf t.m_list_nodes.m_list a).outputs := by rw [← huout]; exact hbu
    have hax : a ≠ x := by
      intro e
      rw [e] at ha
      exact hac x ha
    have h1 : a ∈ (nodeOf u.m_list_nodes.m_list b).inputs := huin b a (hq a ha b hbt) hax
    rcases huo with h0 | h0
    · have hbo : b ≠ o := by
        intro e
        rw [e, h0] at h1
        simp at h1
      exact hri b a h1 hbo (getValid_of_mem_outputs r hTr a b hb)
    · rw [h0]
      exact h1

end Graph

end ks
namespace ks

namespace Graph

variable {T : Type} [Inhabited T]

open Classical in
/-- `RemoveNode(x,true)` on a valid node without inputs, in a consistent state without a
repeated output in which every node that can be reached from `x` is still recorded in the
inputs of each of its outputs: every access is inside the vectors, the call returns the graph
that `removeNode` computes, and the node list stays consistent.  `ref` holds the output edges
of the graph in which the outermost call began; they are acyclic. -/
theorem removeNodeChecked_orphan (ref : Obs T) (N : Nat)
    (hac : ∀ a, ¬ Relation.TransGen (fun a b => b ∈ (ref.node a).outputs) a a)
    (hN : ∀ a b, b ∈ (ref.node a).outputs → b < N) :
    ∀ (fuel : Nat) (s : Graph T) (x : Nat),
      s.m_list_nodes.Sound → s.Tidy → s.m_list_nodes.GetValid x = true →
      (nodeOf s.m_list_nodes.m_list x).inputs = [] →
      (∀ a b, b ∈ (nodeOf s.m_list_nodes.m_list a).outputs → b ∈ (ref.node a).outputs) →
      (∀ a, (nodeOf s.m_list_nodes.m_list a).outputs.Nodup) →
      (∀ a, (a = x ∨ Relation.TransGen (fun a b => b ∈ (ref.node a).outputs) x a) →
        ∀ b ∈ (nodeOf s.m_list_nodes.m_list a).outputs,
          a ∈ (nodeOf s.m_list_nodes.m_list b).inputs) →
      ((Finset.range N).filter
        (fun b => Relation.TransGen (fun a b => b ∈ (ref.node a).outputs) x b)).card < fuel →
      removeNodeChecked fuel s x true = .ok (removeNode fuel s x true) ∧
        (removeNode fuel s x true).m_list_nodes.Sound := by
  intro fuel
  induction fuel with
  | zero => intro s x _ _ _ _ _ _ _ h; exact absurd h (Nat.not_lt_zero _)
  | succ fuel ih =>
    intro s x hS hT hvx hin hsub hnd hq hmu
    have hxlt : x < s.m_list_nodes.m_list.length := lt_length_of_getValid s hT x hvx
    have hnull : ∀ y : Nat, (fun n : Node T => { n with inputs := eraseAll n.inputs y })
        (Node.null T) = Node.null T := fun y => by simp [Node.null, eraseAll]
    -- the loop over the outputs of `x`
    have hloop : ∀ (rest : List Nat) (t : Graph T),
        t.m_list_nodes.Sound → t.Tidy → t.m_list_nodes.GetValid x = true →
        (∀ a b, b ∈ (nodeOf t.m_list_nodes.m_list a).outputs → b ∈ (ref.node a).outputs) →
        (∀ a, (nodeOf t.m_list_nodes.m_list a).outputs.Nodup) →
        rest.Nodup → (∀ p ∈ rest, p ∈ (ref.node x).outputs) →
        (∀ p ∈ rest, x ∈ (nodeOf t.m_list_nodes.m_list p).inputs) →
        (∀ a, Relation.TransGen (fun a b => b ∈ (ref.node a).outputs) x a →
          ∀ b ∈ (nodeOf t.m_list_nodes.m_list a).outputs,
            a ∈ (nodeOf t.m_list_nodes.m_list b).inputs) →
        forEach
          (fun s output =>
            match s.modifyChecked output
              (fun n => { n with inputs := eraseAll n.inputs x }) with
            | .error e => .error e
            | .ok s1 =>
              if true && (nodeOf s1.m_list_nodes.m_list output).inputs.isEmpty then
                removeNodeChecked fuel s1 output true
              else .ok s1)
          rest t =
          .ok (rest.foldl
            (fun s output =>
              let s1 := s.modify output (fun n => { n with inputs := eraseAll n.inputs x })
              if true && (nodeOf s1.m_list_nodes.m_list output).inputs.isEmpty then
                removeNode fuel s1 output true
              else s1)
            t) ∧
        (rest.foldl
            (fun s output =>
              let s1 := s.modify output (fun n => { n with inputs := eraseAll n.inputs x })
              if true && (nodeOf s1.m_list_nodes.m_list output).inputs.isEmpty then
                removeNode fuel s1 output true
              else s1)
            t).m_list_nodes.Sound ∧
        (rest.foldl
            (fun s output =>
              let s1 := s.modify output (fun n => { n with inputs := eraseAll n.inputs x })
              if true && (nodeOf s1.m_list_nodes.m_list output).inputs.isEmpty then
                removeNode fuel s1 output true
              else s1)
            t).Tidy ∧
        (rest.foldl
            (fun s output =>
              let s1 := s.modify output (fun n => { n with inputs := eraseAll n.inputs x })
              if true && (nodeOf s1.m_list_nodes.m_list output).inputs.isEmpty then
                removeNode fuel s1 output true
              else s1)
            t).m_list_nodes.GetValid x = true := by
      intro rest
      induction rest with
      | nil =>
        intro t hSt hTt hvt _ _ _ _ _ _
        exact ⟨rfl, hSt, hTt, hvt⟩
      | cons o rest ihr =>
        intro t hSt hTt hvt hsubt hndt hrest href hpend hqt
        have hEo : o ∈ (ref.node x).outputs := href o (List.mem_cons_self _ _)
        have hox : o ≠ x := by
          intro e
          rw [e] at hEo
          exact hac x (Relation.TransGen.single hEo)
        have hov : t.m_list_nodes.GetValid o = true :=
          getValid_of_mem_inputs t hTt o x (hpend o (List.mem_cons_self _ _))
        have holt : o < t.m_list_nodes.m_list.length := lt_length_of_getValid t hTt o hov
        have hmc := modifyChecked_of_lt t o (fun n => { n with inputs := eraseAll n.inputs x }) holt
        obtain ⟨u, hu⟩ : ∃ u, u = t.modify o (fun n => { n with inputs := eraseAll n.inputs x }) :=
          ⟨_, rfl⟩
        rw [← hu] at hmc
        have hun : ∀ j, nodeOf u.m_list_nodes.m_list j =
            if j = o then { nodeOf t.m_list_nodes.m_list o with
              inputs := eraseAll (nodeOf t.m_list_nodes.m_list o).inputs x }
            else nodeOf t.m_list_nodes.m_list j := by
          intro j
          rw [hu]
          exact nodeOf_modify_of_lt t o j _ holt
        have huS : u.m_list_nodes.Sound := by rw [hu]; exact sound_modify t o _ hSt
        have huT : u.Tidy := by rw [hu]; exact tidy_modify t o _ (hnull x) hTt
        have huv : ∀ j, u.m_list_nodes.GetValid j = t.m_list_nodes.GetValid j := by
          intro j; rw [hu]; rfl
        have huout : ∀ a, (nodeOf u.m_list_nodes.m_list a).outputs =
            (nodeOf t.m_list_nodes.m_list a).outputs := by
          intro a
          rw [hun]
          split
          · rename_i h; rw [h]
          · rfl
        -- the state after the iteration
        obtain ⟨r, hr⟩ : ∃ r, r =
            if true && (nodeOf u.m_list_nodes.m_list o).inputs.isEmpty then
              removeNode fuel u o true
            else u := ⟨_, rfl⟩
        have hstep : (match t.modifyChecked o
              (fun n => { n with inputs := eraseAll n.inputs x }) with
            | .error e => Except.error e
            | .ok s1 =>
              if true && (nodeOf s1.m_list_nodes.m_list o).inputs.isEmpty then
                removeNodeChecked fuel s1 o true
              else Except.ok s1) = Except.ok r ∧
            r.m_list_nodes.Sound ∧ r.Tidy ∧ r.m_list_nodes.GetValid x = true ∧
            ((nodeOf u.m_list_nodes.m_list o).inputs = [] ∨ r = u) ∧
            (∀ a, (nodeOf r.m_list_nodes.m_list a).outputs.Sublist
              (nodeOf u.m_list_nodes.m_list a).outputs) ∧
            (∀ m a, a ∈ (nodeOf u.m_list_nodes.m_list m).inputs → m ≠ o →
              r.m_list_nodes.GetValid a = true →
              a ∈ (nodeOf r.m_list_nodes.m_list m).inputs) := by
          rw [hmc]
          simp only
          by_cases hc : (true && (nodeOf u.m_list_nodes.m_list o).inputs.isEmpty) = true
          · rw [if_pos hc] at hr ⊢
            have hin2 : (nodeOf u.m_list_nodes.m_list o).inputs = [] := by
              simpa using hc
            have hreach : ∀ a, (a = o ∨
                Relation.TransGen (fun a b => b ∈ (ref.node a).outputs) o a) →
                Relation.TransGen (fun a b => b ∈ (ref.node a).outputs) x a := by
              intro a ha
              rcases ha with rfl | ha
              · exact Relation.TransGen.single hEo
              · exact Relation.TransGen.head hEo ha
            obtain ⟨hok, hSr⟩ := ih u o huS huT (by rw [huv]; exact hov) hin2
              (fun a b h => hsubt a b (by rw [← huout]; exact h))
              (fun a => by rw [huout]; exact hndt a)
              (by
                intro a ha b hb
                have hxa := hreach a ha
                have hax : a ≠ x := by
                  intro e
                  rw [e] at hxa
                  exact hac x hxa
                have h1 := hqt a hxa b (by rw [← huout]; exact hb)
                rw [hun]
                split
                · rename_i hbo
                  rw [hbo] at h1
                  exact (mem_eraseAll _ _ _).2 ⟨h1, hax⟩
                · exact h1)
              (by
                have := Obs.reachCard_lt ref N hac x o hEo (hN x o hEo)
                omega)
            rw [← hr] at hok hSr
            obtain ⟨hTr, hobs⟩ := obs_removeNode fuel u o true huT
            rw [← hr] at hTr hobs
            have hnr : ¬ Relation.TransGen (fun a b => b ∈ (u.obs.node a).outputs) o x := by
              intro h
              have h2 : Relation.TransGen (fun a b => b ∈ (ref.node a).outputs) o x :=
                Relation.TransGen.mono
                  (fun a b hab => hsubt a b (by rw [← huout]; exact hab)) h
              exact hac x (Relation.TransGen.head hEo h2)
            have l4 := Obs.removeNode_untouched fuel u.obs o x hin2 (fun e => hox e.symm) hnr
            have l2 := Obs.removeNode_shrinks fuel u.obs o true
            rw [← hobs] at l4 l2
            refine ⟨hok, hSr, hTr, ?_, Or.inl hin2, l2.2, ?_⟩
            · have : r.m_list_nodes.GetValid x = u.m_list_nodes.GetValid x := l4.2
              rw [this, huv]
              exact hvt
            · intro m a ha hmo hva
              have l3 := Obs.removeNode_keeps_input fuel u.obs o m a ha hmo
              rw [← hobs] at l3
              exact l3 hva
          · rw [if_neg hc] at hr ⊢
            rw [hr]
            exact ⟨rfl, huS, huT, by rw [huv]; exact hvt, Or.inr rfl,
              fun _ => List.Sublist.refl _, fun _ _ h _ _ => h⟩
        obtain ⟨e1, hSr, hTr, hvr, huo, hro, hri⟩ := hstep
        obtain ⟨k1, k2, k3, k4⟩ := loopStep_keeps ref hac x o rest t u r hTr huo hun hvr hro hri
          hsubt hndt hrest hpend hqt
        have hfold : (o :: rest).foldl
            (fun s output =>
              let s1 := s.modify output (fun n => { n with inputs := eraseAll n.inputs x })
              if true && (nodeOf s1.m_list_nodes.m_list output).inputs.isEmpty then
                removeNode fuel s1 output true
              else s1)
            t = rest.foldl
            (fun s output =>
              let s1 := s.modify output (fun n => { n with inputs := eraseAll n.inputs x })
              if true && (nodeOf s1.m_list_nodes.m_list output).inputs.isEmpty then
                removeNode fuel s1 output true
              else s1)
            r := by
          rw [List.foldl_cons, hr, hu]
        obtain ⟨q1, q2, q3, q4⟩ := ihr r hSr hTr hvr k1 k2 (List.nodup_cons.1 hrest).2
          (fun p hp => href p (List.mem_cons_of_mem _ hp)) k3 k4
        rw [hfold]
        refine ⟨?_, q2, q3, q4⟩
        rw [forEach, e1]
        exact q1
    -- the call
    have h2 : s.modify x (fun n => { n with inputs := [] }) = s :=
      modify_fixed s x _ (by rw [← hin])
    obtain ⟨p1, p2, p3, p4⟩ := hloop (nodeOf s.m_list_nodes.m_list x).outputs s hS hT hvx hsub hnd
      (hnd x) (fun p hp => hsub x p hp) (fun p hp => hq x (Or.inl rfl) p hp)
      (fun a ha b hb => hq a (Or.inr ha) b hb)
    obtain ⟨g3, hg3⟩ : ∃ g3, g3 = (nodeOf s.m_list_nodes.m_list x).outputs.foldl
        (fun s output =>
          let s1 := s.modify output (fun n => { n with inputs := eraseAll n.inputs x })
          if true && (nodeOf s1.m_list_nodes.m_list output).inputs.isEmpty then
            removeNode fuel s1 output true
          else s1)
        s := ⟨_, rfl⟩
    rw [← hg3] at p1 p2 p3 p4
    have hx3 : x < g3.m_list_nodes.m_list.length := lt_length_of_getValid g3 p3 x p4
    have hS5 : ((g3.modify x (fun n => { n with outputs := [] })).modify x
        (fun n => { n with valid := false })).m_list_nodes.Sound :=
      sound_modify _ x _ (sound_modify g3 x _ p2)
    have hv5 : ((g3.modify x (fun n => { n with outputs := [] })).modify x
        (fun n => { n with valid := false })).m_list_nodes.GetValid x = true := p4
    have hrem := RecycleIndexList.RemoveChecked_of_sound _ (Node.null T) x hS5 hv5
    have hrs := (RecycleIndexList.Remove_spec _ (Node.null T) x hS5 hv5).1.1
    have e2 : removeNode (fuel + 1) s x true =
        { ((g3.modify x (fun n => { n with outputs := [] })).modify x
            (fun n => { n with valid := false })) with
          m_list_nodes := ((g3.modify x (fun n => { n with outputs := [] })).modify x
            (fun n => { n with valid := false })).m_list_nodes.Remove (Node.null T) x,
          m_node_count := wrap32 (((g3.modify x (fun n => { n with outputs := [] })).modify x
            (fun n => { n with valid := false })).m_node_count - 1) } := by
      simp only [removeNode, hin, List.foldl_nil, h2]
      rw [← hg3]
    refine ⟨?_, by rw [e2]; exact hrs⟩
    rw [e2]
    unfold removeNodeChecked
    rw [if_neg (by omega)]
    simp only [hin, forEach, h2]
    erw [p1]
    simp only
    rw [if_neg (by omega)]
    simp only [hrem]

end Graph

end ks
namespace ks

namespace Graph

variable {T : Type} [Inhabited T]

theorem forEach_modifyChecked (f : Node T → Node T) : ∀ (xs : List Nat) (g : Graph T),
    (∀ i ∈ xs, i < g.m_list_nodes.m_list.length) →
    forEach (fun s i => s.modifyChecked i f) xs g =
      .ok (xs.foldl (fun s i => s.modify i f) g) := by
  intro xs
  induction xs with
  | nil => intro g _; rfl
  | cons x xs ih =>
    intro g h
    rw [forEach, modifyChecked_of_lt g x f (h x (List.mem_cons_self _ _))]
    simp only [List.foldl_cons]
    apply ih
    intro i hi
    rw [length_modify]
    exact h i (List.mem_cons_of_mem _ hi)

/-- `RemoveNode(node, rem_orphans)` begins by detaching the input edges of `node`; what
follows is the call on the graph so detached. -/
theorem removeNodeChecked_detach (fuel : Nat) (g : Graph T) (node : Nat) (rem_orphans : Bool)
    (hlt : node < g.m_list_nodes.m_list.length)
    (hin : ∀ i ∈ (nodeOf g.m_list_nodes.m_list node).inputs, i < g.m_list_nodes.m_list.length) :
    removeNodeChecked (fuel + 1) g node rem_orphans =
      removeNodeChecked (fuel + 1)
        (((nodeOf g.m_list_nodes.m_list node).inputs.foldl
          (fun s input =>
            s.modify input (fun n => { n with outputs := eraseAll n.outputs node })) g).modify
          node (fun n => { n with inputs := [] })) node rem_orphans := by
  obtain ⟨g1, hg1⟩ : ∃ g1, g1 = (nodeOf g.m_list_nodes.m_list node).inputs.foldl
      (fun s input => s.modify input (fun n => { n with outputs := eraseAll n.outputs node })) g :=
    ⟨_, rfl⟩
  have hl1 : g1.m_list_nodes.m_list.length = g.m_list_nodes.m_list.length := by
    rw [hg1]
    exact (foldl_modify (fun n : Node T => { n with outputs := eraseAll n.outputs node })
      (fun n => by simp [eraseAll, List.filter_filter]) _ g).1
  obtain ⟨g2, hg2⟩ : ∃ g2, g2 = g1.modify node (fun n => { n with inputs := [] }) := ⟨_, rfl⟩
  have hl2 : g2.m_list_nodes.m_list.length = g.m_list_nodes.m_list.length := by
    rw [hg2, length_modify, hl1]
  have hin2 : (nodeOf g2.m_list_nodes.m_list node).inputs = [] := by
    rw [hg2, nodeOf_modify_of_lt g1 node node _ (by omega), if_pos rfl]
  have hfix : g2.modify node (fun n => { n with inputs := [] }) = g2 :=
    modify_fixed g2 node _ (by rw [← hin2])
  have e1 := forEach_modifyChecked
    (fun n : Node T => { n with outputs := eraseAll n.outputs node }) _ g hin
  rw [← hg1] at e1 ⊢
  rw [← hg2]
  have eR : removeNodeChecked (fuel + 1) g2 node rem_orphans =
      removeNodeChecked (fuel + 1) g2 node rem_orphans := rfl
  conv at eR => lhs; unfold removeNodeChecked
  rw [if_neg (by omega)] at eR
  simp only [hin2, forEach, hfix] at eR
  rw [← eR]
  conv => lhs; unfold removeNodeChecked
  rw [if_neg (by omega)]
  erw [e1]
  simp only
  rw [← hg2]

end Graph

end ks
namespace ks

namespace Graph

variable {T : Type} [Inhabited T]

open Classical in
/-- On an acyclic graph that satisfies the representation invariant and has no output list
with a repeated index, `RemoveNode(n,true)` of a valid node keeps every access inside the
vectors and returns the graph that `RemoveNode` of the model computes. -/
theorem RemoveNodeChecked_of_nodup (g : Graph T) (n : Nat) (hinv : g.Inv) (hac : g.Acyclic)
    (hn : (g.GetNode n).valid = true) (hnd : ∀ a, (g.GetNode a).outputs.Nodup) :
    g.RemoveNodeChecked n true = .ok (g.RemoveNode n true) := by
  have hv : g.m_list_nodes.GetValid n = true := getValid_of_valid g hinv n hn
  have hlt : n < g.m_list_nodes.m_list.length := lt_of_valid g hinv n hv
  have hT : g.Tidy := tidy_of_inv g hinv
  have hin : ∀ i ∈ (nodeOf g.m_list_nodes.m_list n).inputs, i < g.m_list_nodes.m_list.length :=
    fun i hi => adjOf_lt g hinv n i (List.mem_append_left _ hi)
  have hf1 : ∀ m : Node T,
      (fun m : Node T => { m with outputs := eraseAll m.outputs n })
        ((fun m : Node T => { m with outputs := eraseAll m.outputs n }) m) =
      (fun m : Node T => { m with outputs := eraseAll m.outputs n }) m := by
    intro m
    simp [eraseAll, List.filter_filter]
  have hnull1 : (fun m : Node T => { m with outputs := eraseAll m.outputs n }) (Node.null T) =
      Node.null T := by simp [Node.null, eraseAll]
  have hnull2 : (fun m : Node T => { m with inputs := [] }) (Node.null T) = Node.null T := by
    simp [Node.null]
  obtain ⟨g1, hg1⟩ : ∃ g1, g1 = (nodeOf g.m_list_nodes.m_list n).inputs.foldl
      (fun s input => s.modify input (fun m => { m with outputs := eraseAll m.outputs n })) g :=
    ⟨_, rfl⟩
  obtain ⟨g2, hg2⟩ : ∃ g2, g2 = g1.modify n (fun m => { m with inputs := [] }) := ⟨_, rfl⟩
  have hdet := removeNodeChecked_detach g.m_list_nodes.m_list.length g n true hlt hin
  rw [← hg1, ← hg2] at hdet
  -- the graph with the input edges of `n` detached
  obtain ⟨t1, o1⟩ := obs_foldl
    (fun s input => s.modify input (fun m => { m with outputs := eraseAll m.outputs n }))
    (fun s input => s.modify input (fun m => { m with outputs := eraseAll m.outputs n }))
    (fun s x hs => ⟨tidy_modify s x _ hnull1 hs, obs_modify s x _ hnull1⟩)
    (nodeOf g.m_list_nodes.m_list n).inputs g hT
  rw [← hg1] at t1 o1
  have hT2 : g2.Tidy := by rw [hg2]; exact tidy_modify g1 n _ hnull2 t1
  have hobs : g2.obs = ((g.obs.node n).inputs.foldl
      (fun s input =>
        s.modify input (fun m => { m with outputs := eraseAll m.outputs n })) g.obs).modify
      n (fun m => { m with inputs := [] }) := by
    rw [hg2, obs_modify g1 n _ hnull2, o1]
    rfl
  have hnode : ∀ j, nodeOf g2.m_list_nodes.m_list j =
      { nodeOf g.m_list_nodes.m_list j with
        inputs := if j = n then [] else (nodeOf g.m_list_nodes.m_list j).inputs
        outputs := eraseAll (nodeOf g.m_list_nodes.m_list j).outputs n } := by
    intro j
    have := node_detached g hinv hac n j
    rw [← hobs] at this
    exact this
  have hS1 : g1.m_list_nodes.Sound := by
    rw [hg1]
    exact foldl_invariant (fun t : Graph T => t.m_list_nodes.Sound) _
      (fun t i h => sound_modify t i _ h) _ g hinv.1
  have hS2 : g2.m_list_nodes.Sound := by rw [hg2]; exact sound_modify g1 n _ hS1
  have hvalid : ∀ j, g2.m_list_nodes.GetValid j = g.m_list_nodes.GetValid j := by
    intro j
    have h1 : g2.obs.valid j = g.obs.valid j := by
      rw [hobs, Obs.valid_modify]
      exact (Obs.obs_foldl_modify (fun m : Node T => { m with outputs := eraseAll m.outputs n })
        hf1 _ _).2 j
    exact h1
  have hedge : ∀ a b, b ∈ (g2.obs.node a).outputs → Edge g.m_list_nodes.m_list a b := by
    intro a b h
    have h2 : b ∈ (nodeOf g2.m_list_nodes.m_list a).outputs := h
    rw [hnode, mem_eraseAll] at h2
    exact h2.1
  have hac2 : ∀ a, ¬ Relation.TransGen (fun a b => b ∈ (g2.obs.node a).outputs) a a := by
    intro a h
    exact hac a (Relation.TransGen.mono hedge h)
  have hN : ∀ a b, b ∈ (g2.obs.node a).outputs → b < g.m_list_nodes.m_list.length := by
    intro a b h
    exact adjOf_lt g hinv a b (List.mem_append_right _ (hedge a b h))
  have hG0 : ∀ i, g.GetNode i = nodeOf g.m_list_nodes.m_list i :=
    fun i => GetNode_eq_nodeOf g hinv.2.1 i
  obtain ⟨hok, -⟩ := removeNodeChecked_orphan g2.obs g.m_list_nodes.m_list.length hac2 hN
    (g.m_list_nodes.m_list.length + 1) g2 n hS2 hT2 (by rw [hvalid]; exact hv)
    (by rw [hnode]; simp)
    (fun a b h => h)
    (by
      intro a
      rw [hnode]
      have := hnd a
      rw [hG0] at this
      exact this.filter _)
    (by
      intro a _ b hb
      rw [hnode] at hb ⊢
      simp only [mem_eraseAll] at hb
      by_cases hbn : b = n
      · exact absurd hbn hb.2
      · simp only [hbn, if_false]
        exact (mem_inputs_iff g hinv a b).2 hb.1)
    (by
      have : ((Finset.range g.m_list_nodes.m_list.length).filter
          (fun b => Relation.TransGen (fun a b => b ∈ (g2.obs.node a).outputs) n b)).card ≤
          (Finset.range g.m_list_nodes.m_list.length).card := Finset.card_filter_le _ _
      rw [Finset.card_range] at this
      omega)
  have hchk : removeNodeChecked (g.m_list_nodes.m_list.length + 1) g n true =
      .ok (removeNode (g.m_list_nodes.m_list.length + 1) g2 n true) := by
    rw [hdet]
    exact hok
  have heq := removeNodeChecked_eq _ g _ n true hchk
  unfold RemoveNodeChecked RemoveNode
  rw [hchk, heq]

end Graph

end ks
namespace ks

namespace Graph

variable {T : Type} [Inhabited T]

/-- `RemoveNode(n,false)` of a valid node on a graph that satisfies the representation
invariant keeps every access inside the vectors and returns the graph that `RemoveNode` of the
model computes. -/
theorem RemoveNodeChecked_false (g : Graph T) (n : Nat) (hinv : g.Inv)
    (hn : (g.GetNode n).valid = true) :
    g.RemoveNodeChecked n false = .ok (g.RemoveNode n false) := by
  have hv : g.m_list_nodes.GetValid n = true := getValid_of_valid g hinv n hn
  have hlt : n < g.m_list_nodes.m_list.length := lt_of_valid g hinv n hv
  have hin : ∀ i ∈ (nodeOf g.m_list_nodes.m_list n).inputs, i < g.m_list_nodes.m_list.length :=
    fun i hi => adjOf_lt g hinv n i (List.mem_append_left _ hi)
  have hf1 : ∀ m : Node T,
      (fun m : Node T => { m with outputs := eraseAll m.outputs n })
        ((fun m : Node T => { m with outputs := eraseAll m.outputs n }) m) =
      (fun m : Node T => { m with outputs := eraseAll m.outputs n }) m := by
    intro m
    simp [eraseAll, List.filter_filter]
  have hf2 : ∀ m : Node T,
      (fun m : Node T => { m with inputs := eraseAll m.inputs n })
        ((fun m : Node T => { m with inputs := eraseAll m.inputs n }) m) =
      (fun m : Node T => { m with inputs := eraseAll m.inputs n }) m := by
    intro m
    simp [eraseAll, List.filter_filter]
  obtain ⟨g1, hg1⟩ : ∃ g1, g1 = (nodeOf g.m_list_nodes.m_list n).inputs.foldl
      (fun s input => s.modify input (fun m => { m with outputs := eraseAll m.outputs n })) g :=
    ⟨_, rfl⟩
  obtain ⟨a1, a2, -, -, -, -, a7⟩ :=
    foldl_modify (fun m : Node T => { m with outputs := eraseAll m.outputs n }) hf1
      (nodeOf g.m_list_nodes.m_list n).inputs g
  rw [← hg1] at a1 a2 a7
  obtain ⟨g2, hg2⟩ : ∃ g2, g2 = g1.modify n (fun m => { m with inputs := [] }) := ⟨_, rfl⟩
  have hl2 : g2.m_list_nodes.m_list.length = g.m_list_nodes.m_list.length := by
    rw [hg2, length_modify, a1]
  have hS1 : g1.m_list_nodes.Sound := by
    rw [hg1]
    exact foldl_invariant (fun t : Graph T => t.m_list_nodes.Sound) _
      (fun t i h => sound_modify t i _ h) _ g hinv.1
  have hS2 : g2.m_list_nodes.Sound := by rw [hg2]; exact sound_modify g1 n _ hS1
  have hout2 : ∀ o ∈ (nodeOf g2.m_list_nodes.m_list n).outputs,
      o < g2.m_list_nodes.m_list.length := by
    intro o ho
    rw [hl2]
    rw [hg2, nodeOf_modify_of_lt g1 n n _ (by omega), if_pos rfl] at ho
    have ho2 : o ∈ (nodeOf g1.m_list_nodes.m_list n).outputs := ho
    rw [a7] at ho2
    apply adjOf_lt g hinv n o (List.mem_append_right _ _)
    split at ho2
    · exact ((mem_eraseAll _ _ _).1 ho2).1
    · exact ho2
  obtain ⟨g3, hg3⟩ : ∃ g3, g3 = (nodeOf g2.m_list_nodes.m_list n).outputs.foldl
      (fun s output => s.modify output (fun m => { m with inputs := eraseAll m.inputs n })) g2 :=
    ⟨_, rfl⟩
  obtain ⟨b1, b2, -, -, -, -, -⟩ :=
    foldl_modify (fun m : Node T => { m with inputs := eraseAll m.inputs n }) hf2
      (nodeOf g2.m_list_nodes.m_list n).outputs g2
  rw [← hg3] at b1 b2
  have hS3 : g3.m_list_nodes.Sound := by
    rw [hg3]
    exact foldl_invariant (fun t : Graph T => t.m_list_nodes.Sound) _
      (fun t i h => sound_modify t i _ h) _ g2 hS2
  have hS5 : ((g3.modify n (fun m => { m with outputs := [] })).modify n
      (fun m => { m with valid := false })).m_list_nodes.Sound :=
    sound_modify _ n _ (sound_modify g3 n _ hS3)
  have hv5 : ((g3.modify n (fun m => { m with outputs := [] })).modify n
      (fun m => { m with valid := false })).m_list_nodes.GetValid n = true := by
    have e : ((g3.modify n (fun m => { m with outputs := [] })).modify n
        (fun m => { m with valid := false })).m_list_nodes.m_list_valid =
        g.m_list_nodes.m_list_valid := by
      rw [m_list_valid_modify, m_list_valid_modify, b2, hg2, m_list_valid_modify, a2]
    simp only [RecycleIndexList.GetValid, e]
    exact hv
  have hrem := RecycleIndexList.RemoveChecked_of_sound _ (Node.null T) n hS5 hv5
  have e1 := forEach_modifyChecked
    (fun m : Node T => { m with outputs := eraseAll m.outputs n }) _ g hin
  have e2 := forEach_modifyChecked
    (fun m : Node T => { m with inputs := eraseAll m.inputs n }) _ g2 hout2
  rw [← hg1] at e1
  rw [← hg3] at e2
  have hbody : (fun (s : Graph T) (output : Nat) =>
      match s.modifyChecked output (fun m => { m with inputs := eraseAll m.inputs n }) with
      | .error e => Except.error e
      | .ok s1 =>
        if false && (nodeOf s1.m_list_nodes.m_list output).inputs.isEmpty then
          removeNodeChecked g.m_list_nodes.m_list.length s1 output true
        else Except.ok s1) =
      fun s output =>
        s.modifyChecked output (fun m => { m with inputs := eraseAll m.inputs n }) := by
    funext s output
    cases s.modifyChecked output (fun m => { m with inputs := eraseAll m.inputs n }) with
    | error e => rfl
    | ok s1 => simp
  have eU : g.RemoveNode n false =
      { ((g3.modify n (fun m => { m with outputs := [] })).modify n
          (fun m => { m with valid := false })) with
        m_list_nodes := ((g3.modify n (fun m => { m with outputs := [] })).modify n
          (fun m => { m with valid := false })).m_list_nodes.Remove (Node.null T) n,
        m_node_count := wrap32 (((g3.modify n (fun m => { m with outputs := [] })).modify n
          (fun m => { m with valid := false })).m_node_count - 1) } := by
    unfold RemoveNode
    simp only [removeNode, Bool.false_and, Bool.false_eq_true, if_false]
    rw [← hg1, ← hg2, ← hg3]
  rw [eU]
  unfold RemoveNodeChecked removeNodeChecked
  rw [if_neg (by omega)]
  erw [e1]
  simp only
  rw [← hg2]
  erw [hbody, e2]
  simp only
  rw [if_neg (by omega)]
  simp only [hrem]

/-- On an acyclic graph that satisfies the representation invariant and has no output list
with a repeated index, `RemoveNode(n,true)` of a valid node returns, with every access inside
the vectors, and has removed exactly the set `Orphaned g n`: a node is valid afterwards if and
only if it was valid and is not in that set, and a node that stays valid keeps its value and
keeps, in their old order, exactly those entries of its inputs and outputs that are still
valid nodes. -/
theorem removeNode_returns_without_repeated_edge (g : Graph T) (n : Nat) (hinv : g.Inv)
    (hac : g.Acyclic) (hn : (g.GetNode n).valid = true)
    (hnd : ∀ a, (g.GetNode a).outputs.Nodup) :
    ∃ r, g.RemoveNodeChecked n true = .ok r ∧
      (r.GetNode n).valid = false ∧
      (∀ i, (r.GetNode i).valid = true ↔ ((g.GetNode i).valid = true ∧ ¬ Orphaned g n i)) ∧
      (∀ i, (r.GetNode i).valid = true →
        (r.GetNode i).value = (g.GetNode i).value ∧
        (r.GetNode i).inputs = (g.GetNode i).inputs.filter (fun a => (r.GetNode a).valid) ∧
        (r.GetNode i).outputs = (g.GetNode i).outputs.filter (fun a => (r.GetNode a).valid)) :=
  ⟨g.RemoveNode n true, RemoveNodeChecked_of_nodup g n hinv hac hn hnd,
    removeNode_removes_exactly_the_orphans g n hinv hac hn⟩

theorem network_nodup : ∀ a, (network.GetNode a).outputs.Nodup := by
  intro a
  by_cases h : a < 6
  · interval_cases a <;> decide
  · rw [GetNode_of_le network a (by simpa using h)]
    exact List.nodup_nil

/-- On the network of the test suite, which has no repeated edge, `RemoveNode(a,true)` returns
and removes `a` only. -/
theorem removeNode_returns_without_repeated_edge_test :
    ∃ r, network.RemoveNodeChecked 1 true = .ok r ∧
      (r.GetNode 1).valid = false ∧
      (∀ i, (r.GetNode i).valid = true ↔
        ((network.GetNode i).valid = true ∧ ¬ Orphaned network 1 i)) ∧
      (∀ i, (r.GetNode i).valid = true →
        (r.GetNode i).value = (network.GetNode i).value ∧
        (r.GetNode i).inputs =
          (network.GetNode i).inputs.filter (fun a => (r.GetNode a).valid) ∧
        (r.GetNode i).outputs =
          (network.GetNode i).outputs.filter (fun a => (r.GetNode a).valid)) :=
  removeNode_returns_without_repeated_edge network 1 network_inv network_acyclic (by decide)
    network_nodup

end Graph

end ks
